import Mathlib

/-!
# A verification development for the `spi` Pascal-subset interpreter

Shallow embedding of `token.go`, `ast.go`, `lexer.go`, `parser.go` and
`interpreter.go`.

Conventions of the embedding.

* Go `float64` values are elements of an arbitrary type `F` equipped with the
  operations the program uses (class `Float64`).  Every general theorem holds
  for every such `F`.  Concrete numeric examples are evaluated in the exact
  rational instance, which agrees with IEEE-754 on the operands used there
  (small integers and `2.5`, all exactly representable, no zero divisor).
* A Go `panic` is an `Except.error`; the payload records the panic message.
  Loops that the source does not bound are run with fuel, and running out of
  fuel is its own outcome (`Fail.outOfFuel`), never a result of the program.
* `map[string]float64` is a function `String → Option F`.
* The source text is a list of bytes, each byte written as the `Char` of the
  same code; the byte `0` is the lexer's end-of-input sentinel.
-/

namespace Spi

/-! ## Values (`float64`) -/

/-- Operations of Go `float64` used by the interpreter and the lexer. -/
class Float64 (F : Type) where
  /-- The constant `0`. -/
  zero : F
  /-- Binary `+`. -/
  add : F → F → F
  /-- Binary `-`. -/
  sub : F → F → F
  /-- Binary `*`. -/
  mul : F → F → F
  /-- Binary `/`. -/
  quo : F → F → F
  /-- Unary `+`. -/
  pos : F → F
  /-- Unary `-`. -/
  neg : F → F
  /-- The value of `strconv.ParseFloat(s, 64)`; its error is dropped by the caller. -/
  ParseFloat : String → F

/-! ## token.go -/

def INTEGER : Int := 1
def REAL : Int := 2
def INTEGERCONST : Int := 3
def REALCONST : Int := 4
def PLUS : Int := 5
def MINUS : Int := 6
def MUL : Int := 7
def INTEGERDIV : Int := 8
def FLOATDIV : Int := 9
def LPAREN : Int := 10
def RPAREN : Int := 11
def IDENT : Int := 12
def ASSIGN : Int := 13
def BEGIN : Int := 14
def END : Int := 15
def SEMI : Int := 16
def DOT : Int := 17
def PROGRAM : Int := 18
def VAR : Int := 19
def COLON : Int := 20
def COMMA : Int := 21
def EOF : Int := 22

/-- Go `type Token struct { Type int; Value float64; Svalue string }`. -/
structure Token (F : Type) where
  /-- The field `Type` (a reserved word in Lean). -/
  Type_ : Int
  Value : F
  Svalue : String
deriving DecidableEq, Repr

/-- The composite literal `Token{Type: t}`: the other fields are zero values. -/
def Token.ofType {F : Type} [Float64 F] (t : Int) : Token F :=
  { Type_ := t, Value := Float64.zero, Svalue := "" }

/-- The composite literal `Token{Type: IDENT, Svalue: name}`. -/
def Token.ident {F : Type} [Float64 F] (name : String) : Token F :=
  { Type_ := IDENT, Value := Float64.zero, Svalue := name }

/-! ## ast.go -/

/-- The `Node` interface with its eleven implementations; the variant is the
`NodeType` tag set by the `New...` constructors. -/
inductive Node (F : Type) where
  | BinOp (Op : Int) (Left Right : Node F)
  | UnaryOp (Op : Int) (Expr : Node F)
  | Num (Tok : Token F) (Value : F)
  | Compound (Children : List (Node F))
  | Assign (Left : Node F) (Op : Int) (Right : Node F)
  | Var (Tok : Token F) (Value : String)
  | NoOp
  | Program (Name : String) (BlockNode : Node F)
  | Block (Decls : List (Node F)) (CompoundStmt : Node F)
  | VarDecl (VNode TNode : Node F)
  | TypeN (Tok : Token F) (Value : F)

section NodeEq
variable {F : Type} [DecidableEq F]

mutual
/-- Structural comparison of two trees. -/
def Node.beq : Node F → Node F → Bool
  | .BinOp o l r, .BinOp o' l' r' => decide (o = o') && Node.beq l l' && Node.beq r r'
  | .UnaryOp o e, .UnaryOp o' e' => decide (o = o') && Node.beq e e'
  | .Num t v, .Num t' v' => decide (t = t') && decide (v = v')
  | .Compound cs, .Compound cs' => Node.beqAll cs cs'
  | .Assign l o r, .Assign l' o' r' => Node.beq l l' && decide (o = o') && Node.beq r r'
  | .Var t v, .Var t' v' => decide (t = t') && decide (v = v')
  | .NoOp, .NoOp => true
  | .Program s b, .Program s' b' => decide (s = s') && Node.beq b b'
  | .Block ds c, .Block ds' c' => Node.beqAll ds ds' && Node.beq c c'
  | .VarDecl v t, .VarDecl v' t' => Node.beq v v' && Node.beq t t'
  | .TypeN t v, .TypeN t' v' => decide (t = t') && decide (v = v')
  | _, _ => false
/-- Structural comparison of two lists of trees. -/
def Node.beqAll : List (Node F) → List (Node F) → Bool
  | [], [] => true
  | a :: as, b :: bs => Node.beq a b && Node.beqAll as bs
  | _, _ => false
end

end NodeEq

def NewBinOp {F : Type} (left : Node F) (op : Int) (right : Node F) : Node F :=
  .BinOp op left right

def NewUnaryOp {F : Type} (op : Int) (expr : Node F) : Node F :=
  .UnaryOp op expr

def NewNum {F : Type} (token : Token F) : Node F :=
  .Num token token.Value

def NewCompound {F : Type} (children : List (Node F)) : Node F :=
  .Compound children

def NewAssign {F : Type} (left : Node F) (op : Int) (right : Node F) : Node F :=
  .Assign left op right

def NewVar {F : Type} (tok : Token F) (value : String) : Node F :=
  .Var tok value

def NewNoOp {F : Type} : Node F :=
  .NoOp

def NewProgram {F : Type} (name : String) (blocknode : Node F) : Node F :=
  .Program name blocknode

def NewBlock {F : Type} (decls : List (Node F)) (compoundstmt : Node F) : Node F :=
  .Block decls compoundstmt

def NewVarDecl {F : Type} (vnode tnode : Node F) : Node F :=
  .VarDecl vnode tnode

def NewTypeN {F : Type} (tok : Token F) : Node F :=
  .TypeN tok tok.Value

/-! ## Failures -/

/-- What a Go `panic` carries. -/
inductive Panic where
  /-- `panic("error lexing input")` of `Lexer.Error`. -/
  | errorLexingInput
  /-- `panic("invalid syntax")` of `Parser.Error`. -/
  | invalidSyntax
  /-- `panic("unknown node")` of `Interpreter.Error`. -/
  | unknownNode
  /-- A failed type assertion `x.(*T)` (a run-time panic). -/
  | typeAssertion
  /-- An index out of range (a run-time panic). -/
  | indexOutOfRange
deriving DecidableEq, Repr

/-- Outcome of a run that did not produce a result. -/
inductive Fail where
  | panic (p : Panic)
  /-- The fuel given to the model ran out; the program itself has no such outcome. -/
  | outOfFuel
deriving DecidableEq, Repr

instance instDecidableEqExcept {ε α : Type} [DecidableEq ε] [DecidableEq α] :
    DecidableEq (Except ε α)
  | .ok a, .ok b => if h : a = b then isTrue (by rw [h]) else isFalse (by simpa using h)
  | .error a, .error b => if h : a = b then isTrue (by rw [h]) else isFalse (by simpa using h)
  | .ok _, .error _ => isFalse (by simp)
  | .error _, .ok _ => isFalse (by simp)

/-! ## interpreter.go -/

/-- The field `GLOBALSCOPE map[string]float64`. -/
abbrev Scope (F : Type) := String → Option F

/-- The map made by `NewInterpreter`: `make(map[string]float64)`. -/
def Scope.empty {F : Type} : Scope F := fun _ => none

/-- The map after `m[k] = v`. -/
def Scope.set {F : Type} (m : Scope F) (k : String) (v : F) : Scope F :=
  fun x => if x = k then some v else m x

section Interpreter
variable {F : Type} [Float64 F]

/-- Run `k` on the table and value left by a step that returned; a step that
panicked stops the walk and keeps the table it had reached. -/
def andThen {α β : Type} (r : Scope F × Except Panic α)
    (k : Scope F → α → Scope F × Except Panic β) : Scope F × Except Panic β :=
  match r with
  | (G1, .ok a) => k G1 a
  | (G1, .error e) => (G1, .error e)

mutual
/-- `Interpreter.Visit`: dispatch on the node tag to the registered handler.
All eleven tags are registered by `NewInterpreter`.  The table is returned in
every case, also when the run panics, because the map is mutated in place.
Operands are visited left before right. -/
def Visit (G : Scope F) : Node F → Scope F × Except Panic F
  -- VisitBinOp
  | .BinOp op l r =>
    if op = PLUS then
      andThen (Visit G l) fun G1 a => andThen (Visit G1 r) fun G2 b => (G2, .ok (Float64.add a b))
    else if op = MINUS then
      andThen (Visit G l) fun G1 a => andThen (Visit G1 r) fun G2 b => (G2, .ok (Float64.sub a b))
    else if op = MUL then
      andThen (Visit G l) fun G1 a => andThen (Visit G1 r) fun G2 b => (G2, .ok (Float64.mul a b))
    else if op = INTEGERDIV then
      andThen (Visit G l) fun G1 a => andThen (Visit G1 r) fun G2 b => (G2, .ok (Float64.quo a b))
    else if op = FLOATDIV then
      andThen (Visit G l) fun G1 a => andThen (Visit G1 r) fun G2 b => (G2, .ok (Float64.quo a b))
    else (G, .error .unknownNode)
  -- VisitUnaryOp
  | .UnaryOp op e =>
    if op = PLUS then
      andThen (Visit G e) fun G1 a => (G1, .ok (Float64.pos a))
    else if op = MINUS then
      andThen (Visit G e) fun G1 a => (G1, .ok (Float64.neg a))
    else (G, .error .unknownNode)
  -- VisitNum
  | .Num _ value => (G, .ok value)
  -- VisitCompound
  | .Compound children =>
    andThen (VisitAll G children) fun G1 _ => (G1, .ok Float64.zero)
  -- VisitAssign
  | .Assign left _ right =>
    match left with
    | .Var _ varname =>
      andThen (Visit G right) fun G1 v => (G1.set varname v, .ok Float64.zero)
    | _ => (G, .error .typeAssertion)
  -- VisitVar
  | .Var _ varname =>
    match G varname with
    | some varvalue => (G, .ok varvalue)
    | none => (G, .error .unknownNode)
  -- VisitNoOp
  | .NoOp => (G, .ok Float64.zero)
  -- VisitProgram
  | .Program _ blocknode => Visit G blocknode
  -- VisitBlock
  | .Block decls compoundstmt =>
    andThen (VisitAll G decls) fun G1 _ =>
      andThen (Visit G1 compoundstmt) fun G2 _ => (G2, .ok Float64.zero)
  -- VisitVarDecl
  | .VarDecl _ _ => (G, .ok Float64.zero)
  -- VisitType
  | .TypeN _ _ => (G, .ok Float64.zero)
/-- The loops `for ... range` of `VisitCompound` and `VisitBlock`: visit each
node in order, dropping the values. -/
def VisitAll (G : Scope F) : List (Node F) → Scope F × Except Panic Unit
  | [] => (G, .ok ())
  | n :: ns => andThen (Visit G n) fun G1 _ => VisitAll G1 ns
end

/-- `NewInterpreter` followed by `Interpret(n)`: the final `GLOBALSCOPE` and
whether the walk returned or panicked. -/
def Interpret (n : Node F) : Scope F × Except Panic F :=
  Visit Scope.empty n

end Interpreter


/-! ## lexer.go -/

/-- The byte `0`, which `Advance` stores in `CurrentChar` at the end of input. -/
def NUL : Char := Char.ofNat 0

/-- Go `int` is 64 bits wide and wraps on overflow. -/
def wrapInt64 (i : Int) : Int := (i + 2 ^ 63) % 2 ^ 64 - 2 ^ 63

/-- The index expression `s[i]`: a run-time panic outside `0 ≤ i < len(s)`. -/
def byteAt (s : List Char) (i : Int) : Except Fail Char :=
  if i < 0 then .error (.panic .indexOutOfRange)
  else match s.get? i.toNat with
    | some c => .ok c
    | none => .error (.panic .indexOutOfRange)

/-- Go `type Lexer struct { Text string; Pos int; CurrentChar byte }`. -/
structure Lexer where
  Text : List Char
  Pos : Int
  CurrentChar : Char
deriving DecidableEq, Repr

/-- `NewLexer`: reads `l.Text[0]`, so the empty input panics. -/
def NewLexer (input : List Char) : Except Fail Lexer := do
  let c ← byteAt input 0
  pure { Text := input, Pos := 0, CurrentChar := c }

def isDigit (b : Char) : Bool :=
  '0' ≤ b && b ≤ '9'

def isAlphaNumeric (b : Char) : Bool :=
  if '0' ≤ b && b ≤ '9' then true
  else if 'a' ≤ b && b ≤ 'z' then true
  else if 'A' ≤ b && b ≤ 'Z' then true
  else false

def isAlpha (b : Char) : Bool :=
  if 'a' ≤ b && b ≤ 'z' then true
  else if 'A' ≤ b && b ≤ 'Z' then true
  else false

/-- The condition shared by `SkipWhitespace` and `GetNextToken`. -/
def isSpace (b : Char) : Bool :=
  b = ' ' || b = '\n' || b = '\r' || b = '\t'

namespace Lexer

/-- `Lexer.Error`. -/
def Error {α : Type} : Except Fail α := .error (.panic .errorLexingInput)

/-- `Lexer.Advance`: `l.Pos++`, then reload `CurrentChar`. -/
def Advance (l : Lexer) : Except Fail Lexer :=
  let pos := wrapInt64 (l.Pos + 1)
  if pos > (l.Text.length : Int) - 1 then
    .ok { l with Pos := pos, CurrentChar := NUL }
  else do
    let c ← byteAt l.Text pos
    pure { l with Pos := pos, CurrentChar := c }

/-- `Lexer.Peek`. -/
def Peek (l : Lexer) : Except Fail Char :=
  let pos := wrapInt64 (l.Pos + 1)
  if pos > (l.Text.length : Int) - 1 then .ok NUL
  else byteAt l.Text pos

/-- `Lexer.SkipWhitespace`. -/
def SkipWhitespace : Nat → Lexer → Except Fail Lexer
  | 0, _ => .error .outOfFuel
  | n + 1, l =>
    if isSpace l.CurrentChar && l.CurrentChar != NUL then do
      let l1 ← l.Advance
      SkipWhitespace n l1
    else .ok l

/-- The loop of `Lexer.SkipComment`. -/
def SkipCommentLoop : Nat → Lexer → Except Fail Lexer
  | 0, _ => .error .outOfFuel
  | n + 1, l =>
    if l.CurrentChar != '}' then do
      let l1 ← l.Advance
      SkipCommentLoop n l1
    else .ok l

/-- `Lexer.SkipComment`. -/
def SkipComment (n : Nat) (l : Lexer) : Except Fail Lexer := do
  let l1 ← SkipCommentLoop n l
  l1.Advance

end Lexer

section LexerTokens
variable {F : Type} [Float64 F]

/-- The map `ReservedWords`. -/
def ReservedWords (str : String) : Option (Token F) :=
  if str = "PROGRAM" then some (Token.ofType PROGRAM)
  else if str = "VAR" then some (Token.ofType VAR)
  else if str = "DIV" then some (Token.ofType INTEGERDIV)
  else if str = "INTEGER" then some (Token.ofType INTEGER)
  else if str = "REAL" then some (Token.ofType REAL)
  else if str = "BEGIN" then some (Token.ofType BEGIN)
  else if str = "END" then some (Token.ofType END)
  else none

namespace Lexer

/-- The loop of `Lexer.ID`. -/
def IDLoop : Nat → List Char → Lexer → Except Fail (List Char × Lexer)
  | 0, _, _ => .error .outOfFuel
  | n + 1, buffer, l =>
    if l.CurrentChar != NUL && isAlphaNumeric l.CurrentChar then do
      let l1 ← l.Advance
      IDLoop n (buffer ++ [l.CurrentChar]) l1
    else .ok (buffer, l)

/-- `Lexer.ID`. -/
def ID (n : Nat) (l : Lexer) : Except Fail (Token F × Lexer) := do
  let (buffer, l1) ← IDLoop n [] l
  let str := String.mk buffer
  match (ReservedWords str : Option (Token F)) with
  | some tok => pure (tok, l1)
  | none => pure ({ Type_ := IDENT, Value := Float64.zero, Svalue := str }, l1)

/-- The two digit loops of `Lexer.Number`. -/
def DigitLoop : Nat → List Char → Lexer → Except Fail (List Char × Lexer)
  | 0, _, _ => .error .outOfFuel
  | n + 1, buffer, l =>
    if isDigit l.CurrentChar then do
      let l1 ← l.Advance
      DigitLoop n (buffer ++ [l.CurrentChar]) l1
    else .ok (buffer, l)

/-- `Lexer.Number`. -/
def Number (n : Nat) (l : Lexer) : Except Fail (Token F × Lexer) := do
  let (buffer, l1) ← DigitLoop n [] l
  if l1.CurrentChar = '.' then do
    let l2 ← l1.Advance
    let (buffer2, l3) ← DigitLoop n (buffer ++ [l1.CurrentChar]) l2
    pure ({ Type_ := REALCONST, Value := Float64.ParseFloat (String.mk buffer2), Svalue := "" }, l3)
  else
    pure ({ Type_ := INTEGERCONST, Value := Float64.ParseFloat (String.mk buffer), Svalue := "" }, l1)

/-- `Lexer.GetNextToken`. -/
def GetNextToken : Nat → Lexer → Except Fail (Token F × Lexer)
  | 0, _ => .error .outOfFuel
  | n + 1, l =>
    if l.CurrentChar != NUL then
      if isSpace l.CurrentChar then do
        let l1 ← l.SkipWhitespace n
        GetNextToken n l1
      else if isAlpha l.CurrentChar then ID n l
      else if isDigit l.CurrentChar then Number n l
      else do
        let assign ← (if l.CurrentChar = ':' then do
          let c ← l.Peek
          pure (decide (c = '='))
        else pure false : Except Fail Bool)
        if assign then do
          let l1 ← l.Advance
          let l2 ← l1.Advance
          pure (Token.ofType ASSIGN, l2)
        else if l.CurrentChar = '{' then do
          let l1 ← l.Advance
          let l2 ← l1.SkipComment n
          GetNextToken n l2
        else if l.CurrentChar = ';' then do
          let l1 ← l.Advance
          pure (Token.ofType SEMI, l1)
        else if l.CurrentChar = ':' then do
          let l1 ← l.Advance
          pure (Token.ofType COLON, l1)
        else if l.CurrentChar = ',' then do
          let l1 ← l.Advance
          pure (Token.ofType COMMA, l1)
        else if l.CurrentChar = '+' then do
          let l1 ← l.Advance
          pure (Token.ofType PLUS, l1)
        else if l.CurrentChar = '-' then do
          let l1 ← l.Advance
          pure (Token.ofType MINUS, l1)
        else if l.CurrentChar = '*' then do
          let l1 ← l.Advance
          pure (Token.ofType MUL, l1)
        else if l.CurrentChar = '/' then do
          let l1 ← l.Advance
          pure (Token.ofType FLOATDIV, l1)
        else if l.CurrentChar = '(' then do
          let l1 ← l.Advance
          pure (Token.ofType LPAREN, l1)
        else if l.CurrentChar = ')' then do
          let l1 ← l.Advance
          pure (Token.ofType RPAREN, l1)
        else if l.CurrentChar = '.' then do
          let l1 ← l.Advance
          pure (Token.ofType DOT, l1)
        else Error
    else pure (Token.ofType EOF, l)

end Lexer
end LexerTokens

/-! ## parser.go -/

/-- Go `type Parser struct { CurrentToken Token; lexer *Lexer }`.  The parser
only ever calls `GetNextToken` on its lexer, so the lexer is any state `σ`
with such an operation: the real `Lexer`, or a list of tokens. -/
structure Parser (F σ : Type) where
  CurrentToken : Token F
  lexer : σ

/-- `NewParser`: `CurrentToken` is the zero `Token`. -/
def NewParser {F σ : Type} [Float64 F] (l : σ) : Parser F σ :=
  { CurrentToken := Token.ofType 0, lexer := l }

/-- A method with receiver `p *Parser` and result `α`: it reads and replaces
the fields of `p`, and returns or panics. -/
def ParserM (F σ α : Type) : Type := Parser F σ → Except Fail (α × Parser F σ)

namespace ParserM
variable {F σ : Type}

/-- `return a`. -/
def ret {α : Type} (a : α) : ParserM F σ α := fun p => .ok (a, p)

/-- Run `x`, then `f` on its result, unless `x` panicked. -/
def andThen {α β : Type} (x : ParserM F σ α) (f : α → ParserM F σ β) : ParserM F σ β :=
  fun p =>
    match x p with
    | .ok (a, p1) => f a p1
    | .error e => .error e

instance : Monad (ParserM F σ) where
  pure := ret
  bind := andThen

/-- Stop with `e`. -/
def fail {α : Type} (e : Fail) : ParserM F σ α := fun _ => .error e

end ParserM

namespace Parser
section
variable {F σ : Type} [Float64 F] (next : σ → Except Fail (Token F × σ))

/-- `Parser.Error`. -/
def Error {α : Type} : ParserM F σ α := ParserM.fail (.panic .invalidSyntax)

/-- Read the field `p.CurrentToken`. -/
def currentToken : ParserM F σ (Token F) := fun p => .ok (p.CurrentToken, p)

/-- The statement `p.CurrentToken = p.lexer.GetNextToken()`. -/
def advance : ParserM F σ Unit := fun p =>
  match next p.lexer with
  | .ok (t, l) => .ok ((), { CurrentToken := t, lexer := l })
  | .error e => .error e

/-- `Parser.Eat`. -/
def Eat (tokenType : Int) : ParserM F σ Unit := do
  let cur ← currentToken
  if cur.Type_ = tokenType then advance next
  else Error

/-- `Parser.Variable`. -/
def Variable : ParserM F σ (Node F) := do
  let cur ← currentToken
  let node := NewVar cur cur.Svalue
  Eat next IDENT
  pure node

/-- `Parser.Empty`. -/
def Empty : ParserM F σ (Node F) := pure NewNoOp

mutual
/-- `Parser.Expr`. -/
def Expr : Nat → ParserM F σ (Node F)
  | 0 => ParserM.fail .outOfFuel
  | n + 1 => do
    let node ← Term n
    ExprLoop n node
/-- The `for` loop of `Parser.Expr`. -/
def ExprLoop : Nat → Node F → ParserM F σ (Node F)
  | 0, _ => ParserM.fail .outOfFuel
  | n + 1, node => do
    let cur ← currentToken
    if cur.Type_ = PLUS ∨ cur.Type_ = MINUS then do
      let token := cur
      if token.Type_ = PLUS then Eat next PLUS
      else if token.Type_ = MINUS then Eat next MINUS
      else pure ()
      let right ← Term n
      ExprLoop n (NewBinOp node token.Type_ right)
    else pure node
/-- `Parser.Term`. -/
def Term : Nat → ParserM F σ (Node F)
  | 0 => ParserM.fail .outOfFuel
  | n + 1 => do
    let node ← Factor n
    TermLoop n node
/-- The `for` loop of `Parser.Term`. -/
def TermLoop : Nat → Node F → ParserM F σ (Node F)
  | 0, _ => ParserM.fail .outOfFuel
  | n + 1, node => do
    let cur ← currentToken
    if cur.Type_ = MUL ∨ cur.Type_ = INTEGERDIV ∨ cur.Type_ = FLOATDIV then do
      let token := cur
      if token.Type_ = MUL then Eat next MUL
      else if token.Type_ = INTEGERDIV then Eat next INTEGERDIV
      else if token.Type_ = FLOATDIV then Eat next FLOATDIV
      else pure ()
      let right ← Factor n
      TermLoop n (NewBinOp node token.Type_ right)
    else pure node
/-- `Parser.Factor`. -/
def Factor : Nat → ParserM F σ (Node F)
  | 0 => ParserM.fail .outOfFuel
  | n + 1 => do
    let token ← currentToken
    if token.Type_ = PLUS then do
      Eat next PLUS
      let e ← Factor n
      pure (NewUnaryOp PLUS e)
    else if token.Type_ = MINUS then do
      Eat next MINUS
      let e ← Factor n
      pure (NewUnaryOp MINUS e)
    else if token.Type_ = INTEGERCONST then do
      Eat next INTEGERCONST
      pure (NewNum token)
    else if token.Type_ = REALCONST then do
      Eat next REALCONST
      pure (NewNum token)
    else if token.Type_ = LPAREN then do
      Eat next LPAREN
      let node ← Expr n
      Eat next RPAREN
      pure node
    else Variable next
end

/-- `Parser.TypeSpec`. -/
def TypeSpec : ParserM F σ (Node F) := do
  let token ← currentToken
  if token.Type_ = INTEGER then Eat next INTEGER
  else Eat next REAL
  pure (NewTypeN token)

/-- The `for` loop of `Parser.VariableDeclaration` over `COMMA IDENT`. -/
def VariableDeclarationLoop : Nat → List (Node F) → ParserM F σ (List (Node F))
  | 0, _ => ParserM.fail .outOfFuel
  | n + 1, varnodes => do
    let cur ← currentToken
    if cur.Type_ = COMMA then do
      Eat next COMMA
      let cur1 ← currentToken
      let varnode := NewVar cur1 cur1.Svalue
      Eat next IDENT
      VariableDeclarationLoop n (varnodes ++ [varnode])
    else pure varnodes

/-- `Parser.VariableDeclaration`. -/
def VariableDeclaration (n : Nat) : ParserM F σ (List (Node F)) := do
  let cur ← currentToken
  let varnodes := [NewVar cur cur.Svalue]
  Eat next IDENT
  let varnodes1 ← VariableDeclarationLoop next n varnodes
  Eat next COLON
  let typenode ← TypeSpec next
  pure (varnodes1.map fun varnode => NewVarDecl varnode typenode)

/-- The `for` loop of `Parser.Declarations`. -/
def DeclarationsLoop : Nat → List (Node F) → ParserM F σ (List (Node F))
  | 0, _ => ParserM.fail .outOfFuel
  | n + 1, declnodes => do
    let cur ← currentToken
    if cur.Type_ = IDENT then do
      let vardecl ← VariableDeclaration next n
      Eat next SEMI
      DeclarationsLoop n (declnodes ++ vardecl)
    else pure declnodes

/-- `Parser.Declarations`. -/
def Declarations (n : Nat) : ParserM F σ (List (Node F)) := do
  let cur ← currentToken
  if cur.Type_ = VAR then do
    Eat next VAR
    DeclarationsLoop next n []
  else pure []

/-- `Parser.AssignmentStatement`. -/
def AssignmentStatement (n : Nat) : ParserM F σ (Node F) := do
  let left ← Variable next
  let token ← currentToken
  Eat next ASSIGN
  let right ← Expr next n
  pure (NewAssign left token.Type_ right)

mutual
/-- `Parser.CompoundStatement`. -/
def CompoundStatement : Nat → ParserM F σ (Node F)
  | 0 => ParserM.fail .outOfFuel
  | n + 1 => do
    Eat next BEGIN
    let nodes ← StatementList n
    Eat next END
    pure (NewCompound nodes)
/-- `Parser.StatementList`. -/
def StatementList : Nat → ParserM F σ (List (Node F))
  | 0 => ParserM.fail .outOfFuel
  | n + 1 => do
    let node ← Statement n
    let results ← StatementListLoop n [node]
    let cur ← currentToken
    if cur.Type_ = IDENT then Error
    else pure results
/-- The `for` loop of `Parser.StatementList`. -/
def StatementListLoop : Nat → List (Node F) → ParserM F σ (List (Node F))
  | 0, _ => ParserM.fail .outOfFuel
  | n + 1, results => do
    let cur ← currentToken
    if cur.Type_ = SEMI then do
      Eat next SEMI
      let node ← Statement n
      StatementListLoop n (results ++ [node])
    else pure results
/-- `Parser.Statement`. -/
def Statement : Nat → ParserM F σ (Node F)
  | 0 => ParserM.fail .outOfFuel
  | n + 1 => do
    let cur ← currentToken
    if cur.Type_ = BEGIN then CompoundStatement n
    else if cur.Type_ = IDENT then AssignmentStatement next n
    else Empty
end

/-- `Parser.Block`. -/
def Block (n : Nat) : ParserM F σ (Node F) := do
  let declnodes ← Declarations next n
  let compoundstatementnode ← CompoundStatement next n
  pure (NewBlock declnodes compoundstatementnode)

/-- `Parser.Program`. -/
def Program (n : Nat) : ParserM F σ (Node F) := do
  Eat next PROGRAM
  let varnode ← Variable next
  let programname ← (match varnode with
    | .Var _ value => pure value
    | _ => ParserM.fail (.panic .typeAssertion) : ParserM F σ String)
  Eat next SEMI
  let blocknode ← Block next n
  let programnode := NewProgram programname blocknode
  Eat next DOT
  pure programnode

/-- `Parser.Parse`. -/
def Parse (n : Nat) : ParserM F σ (Node F) := do
  advance next
  let node ← Program next n
  let cur ← currentToken
  if cur.Type_ ≠ EOF then Error
  else pure node

end
end Parser

/-! ## Token sources -/

section Sources
variable {F : Type} [Float64 F]

/-- A token sequence as a lexer: `GetNextToken` hands out the tokens in order
and then the end-of-input token for ever. -/
def tokensNext : List (Token F) → Except Fail (Token F × List (Token F))
  | [] => .ok (Token.ofType EOF, [])
  | t :: ts => .ok (t, ts)

/-- The parser state whose lookahead is the first token of `ts`. -/
def Parser.onTokens (ts : List (Token F)) : Parser F (List (Token F)) :=
  match ts with
  | [] => { CurrentToken := Token.ofType EOF, lexer := [] }
  | t :: rest => { CurrentToken := t, lexer := rest }

/-- `NewParser(tokens).Parse()` on a token sequence: the tree, or the panic. -/
def parseTokens (n : Nat) (ts : List (Token F)) : Except Fail (Node F) :=
  (Parser.Parse tokensNext n (NewParser ts)).map Prod.fst

/-- `main`: `NewLexer(text)`, `NewParser(lexer)`, `parser.Parse()`. -/
def parseText (n : Nat) (text : List Char) : Except Fail (Node F) := do
  let l ← NewLexer text
  (Parser.Parse (fun l => Lexer.GetNextToken n l) n (NewParser l)).map Prod.fst

/-- `main`: parse, then `NewInterpreter()` and `Interpret(tree)`. -/
def run (n : Nat) (text : List Char) : Except Fail (Scope F × Except Panic F) := do
  let tree ← parseText n text
  pure (Interpret tree)

end Sources

/-! ## Exact arithmetic for the numeric examples -/

/-- The number written by a run of decimal digits. -/
def decimalValue (cs : List Char) : Nat :=
  cs.foldl (fun acc c => acc * 10 + (c.toNat - '0'.toNat)) 0

/-- The rational written by `digits` or `digits.digits`, the only texts the
lexer hands to `ParseFloat`. -/
def exactParse (s : String) : ℚ :=
  let ip := s.toList.takeWhile (· != '.')
  let fp := (s.toList.dropWhile (· != '.')).drop 1
  (decimalValue ip : ℚ) + (decimalValue fp : ℚ) / (10 : ℚ) ^ fp.length

/-- Rational arithmetic without rounding.  Go computes the same values
whenever the operands and the result are exactly representable in binary64
and no divisor is zero, as in every example below. -/
instance exactFloat64 : Float64 ℚ where
  zero := 0
  add := (· + ·)
  sub := (· - ·)
  mul := (· * ·)
  quo := (· / ·)
  pos := id
  neg := (- ·)
  ParseFloat := exactParse

/-! ## Shapes of trees used in the statements -/

section Shapes
variable {F : Type}

mutual
/-- Names assigned by the `Assign` nodes anywhere in a tree, in tree order. -/
def Node.assignTargets : Node F → List String
  | .BinOp _ l r => l.assignTargets ++ r.assignTargets
  | .UnaryOp _ e => e.assignTargets
  | .Num _ _ => []
  | .Compound cs => Node.assignTargetsAll cs
  | .Assign l _ r =>
    (match l with
      | .Var _ x => [x]
      | _ => []) ++ l.assignTargets ++ r.assignTargets
  | .Var _ _ => []
  | .NoOp => []
  | .Program _ b => b.assignTargets
  | .Block ds c => Node.assignTargetsAll ds ++ c.assignTargets
  | .VarDecl v t => v.assignTargets ++ t.assignTargets
  | .TypeN _ _ => []
/-- Names assigned by the `Assign` nodes anywhere in a list of trees. -/
def Node.assignTargetsAll : List (Node F) → List String
  | [] => []
  | n :: ns => n.assignTargets ++ Node.assignTargetsAll ns
end

mutual
/-- No `Assign` node lies beneath a `VarDecl` node (the children of a
declaration are a `Var` and a `TypeN` in every tree the parser builds). -/
def Node.plainDecls : Node F → Bool
  | .BinOp _ l r => l.plainDecls && r.plainDecls
  | .UnaryOp _ e => e.plainDecls
  | .Num _ _ => true
  | .Compound cs => Node.plainDeclsAll cs
  | .Assign l _ r => l.plainDecls && r.plainDecls
  | .Var _ _ => true
  | .NoOp => true
  | .Program _ b => b.plainDecls
  | .Block ds c => Node.plainDeclsAll ds && c.plainDecls
  | .VarDecl v t => (v.assignTargets ++ t.assignTargets).isEmpty
  | .TypeN _ _ => true
/-- `plainDecls` for every tree of a list. -/
def Node.plainDeclsAll : List (Node F) → Bool
  | [] => true
  | n :: ns => n.plainDecls && Node.plainDeclsAll ns
end

/-- An expression of the data model: built from `BinOp`, `UnaryOp`, `Num`
and `Var` only. -/
def Node.isExpr : Node F → Bool
  | .BinOp _ l r => l.isExpr && r.isExpr
  | .UnaryOp _ e => e.isExpr
  | .Num _ _ => true
  | .Var _ _ => true
  | _ => false

end Shapes

/-! ## Token sequences used in the statements -/

section TokenSequences
variable {F : Type} [Float64 F]

/-- The tokens of `, id` repeated for each name. -/
def commaIdents : List String → List (Token F)
  | [] => []
  | x :: xs => Token.ofType COMMA :: Token.ident x :: commaIdents xs

/-- The tokens of the declaration `id1, ..., idN : T`. -/
def declarationTokens (id1 : String) (ids : List String) (T : Int) : List (Token F) :=
  Token.ident id1 :: commaIdents ids ++ [Token.ofType COLON, Token.ofType T]

/-- The `VarDecl` node for the name `x` and the type keyword `T`. -/
def varDeclNode (T : Int) (x : String) : Node F :=
  .VarDecl (.Var (Token.ident x) x) (.TypeN (Token.ofType T) Float64.zero)

end TokenSequences

/-! ## Relations between parser methods used in the proofs -/

section MethodRelations
variable {F σ : Type}

/-- The method `B` returns or panics as `A` does from every state in which
`A` does not run out of fuel. -/
def ParserM.Extends {α : Type} (A B : ParserM F σ α) : Prop :=
  ∀ p, A p ≠ .error .outOfFuel → B p = A p

end MethodRelations

section TokenListRelations
variable {F : Type} [Float64 F]

/-- The state `p` with the tokens `e` appended to those its lexer still holds. -/
def Parser.extend (e : List (Token F)) (p : Parser F (List (Token F))) :
    Parser F (List (Token F)) :=
  { CurrentToken := p.CurrentToken, lexer := p.lexer ++ e }

/-- A method that looks no further than the tokens it consumes and the
lookahead it leaves: whenever it returns, the tokens left are a tail of those
it started with; from a lookahead at end of input it consumes nothing; and if
the lookahead it leaves is a real token, the run is the same when more tokens
are appended to the input. -/
def ParserM.Local {α : Type} (A : ParserM F (List (Token F)) α) : Prop :=
  ∀ p a p1, A p = .ok (a, p1) →
    (∃ c, p.lexer = c ++ p1.lexer) ∧
    (p.CurrentToken.Type_ = EOF → p1 = p) ∧
    (p1.CurrentToken.Type_ ≠ EOF → ∀ e, A (p.extend e) = .ok (a, p1.extend e))

/-- A method whose last act, when it returns, is to consume a token: it
cannot start at end of input, and if it consumed the whole input (no token of
it being an end-of-input token), then on the input with `e` appended it
returns the same result and leaves the lookahead at `e`. -/
def ParserM.Final {α : Type} (A : ParserM F (List (Token F)) α) : Prop :=
  ∀ p a p1, A p = .ok (a, p1) →
    p.CurrentToken.Type_ ≠ EOF ∧
    ((∀ t ∈ p.lexer, t.Type_ ≠ EOF) → p1.CurrentToken.Type_ = EOF →
      ∀ e, A (p.extend e) = .ok (a, Parser.onTokens e))

end TokenListRelations

/-! ## Notions used in the statements about expressions -/

section ExpressionNotions
variable {F : Type} [Float64 F]

/-- The token sequence `ts` is a factor, read by `Parser.Factor` as the tree
`f`: with enough fuel, and whatever follows, `Factor` consumes exactly `ts`
and returns `f`. -/
def ParsesAsFactor (ts : List (Token F)) (f : Node F) : Prop :=
  ∃ N, ∀ n, N ≤ n → ∀ rest,
    Parser.Factor tokensNext n (Parser.onTokens (ts ++ rest)) = .ok (f, Parser.onTokens rest)

/-- The tag of one of the five binary operators. -/
def isOperator (t : Int) : Bool :=
  decide (t = PLUS ∨ t = MINUS ∨ t = MUL ∨ t = INTEGERDIV ∨ t = FLOATDIV)

/-- The lookahead on `rest` (its first token, or end of input) is not a
binary operator: an expression before it is complete. -/
def endsExpr (rest : List (Token F)) : Prop :=
  isOperator (Parser.onTokens rest).CurrentToken.Type_ = false

end ExpressionNotions

/-! ## Notions used in the statements about statements -/

section StatementNotions
variable {F : Type} [Float64 F]

/-- The lookahead on `rest` is `;`, an identifier or `BEGIN`. -/
def separatesOrStarts (rest : List (Token F)) : Prop :=
  (Parser.onTokens rest).CurrentToken.Type_ = SEMI
    ∨ (Parser.onTokens rest).CurrentToken.Type_ = IDENT
    ∨ (Parser.onTokens rest).CurrentToken.Type_ = BEGIN

/-- The token sequence `s` is a statement, read by `Parser.Statement` as the
tree `node`: with enough fuel, `Statement` consumes exactly `s` and returns
`node` whenever what follows starts with `;`, an identifier or `BEGIN`. -/
def ParsesAsStatement (s : List (Token F)) (node : Node F) : Prop :=
  ∃ N, ∀ n, N ≤ n → ∀ rest, separatesOrStarts rest →
    Parser.Statement tokensNext n (Parser.onTokens (s ++ rest)) =
      .ok (node, Parser.onTokens rest)

/-- The token sequence `s` is a statement in front of a `;`, read by
`Parser.Statement` as the tree `node`: with enough fuel, `Statement` consumes
exactly `s` and returns `node` when `;` follows.  The empty sequence is one,
read as `NoOp`. -/
def ParsesBeforeSemi (s : List (Token F)) (node : Node F) : Prop :=
  ∃ N, ∀ n, N ≤ n → ∀ rest,
    Parser.Statement tokensNext n (Parser.onTokens (s ++ (Token.ofType SEMI :: rest))) =
      .ok (node, Parser.onTokens (Token.ofType SEMI :: rest))

/-- The token sequence `ds` is a declaration part, read by
`Parser.Declarations` as the nodes `nodes`, when `BEGIN` follows. -/
def ParsesAsDeclarations (ds : List (Token F)) (nodes : List (Node F)) : Prop :=
  ∃ N, ∀ n, N ≤ n → ∀ rest,
    Parser.Declarations tokensNext n
        (Parser.onTokens (ds ++ (Token.ofType BEGIN :: rest))) =
      .ok (nodes, Parser.onTokens (Token.ofType BEGIN :: rest))

/-- The tokens after a `BEGIN` in which, at some place of the statement list
or of a compound statement nested in it, a non-empty statement `s1` is
directly followed by a non-empty statement `s2`, with no `;` between them. -/
inductive MissingSeparator : List (Token F) → Prop where
  /-- The two statements are the next two. -/
  | here (s1 s2 post : List (Token F)) (n1 n2 : Node F) :
      ParsesAsStatement s1 n1 → s1 ≠ [] → ParsesAsStatement s2 n2 → s2 ≠ [] →
      MissingSeparator (s1 ++ (s2 ++ post))
  /-- A statement (possibly empty) and its `;` come first. -/
  | later (s : List (Token F)) (node : Node F) (ts : List (Token F)) :
      ParsesBeforeSemi s node → MissingSeparator ts →
      MissingSeparator (s ++ (Token.ofType SEMI :: ts))
  /-- The two statements are in a compound statement that starts here. -/
  | inner (ts : List (Token F)) :
      MissingSeparator ts → MissingSeparator (Token.ofType BEGIN :: ts)

/-- The tokens of `PROGRAM name; ds BEGIN body`. -/
def programTokens (name : String) (ds body : List (Token F)) : List (Token F) :=
  Token.ofType PROGRAM :: Token.ident name :: Token.ofType SEMI ::
    (ds ++ (Token.ofType BEGIN :: body))

/-- The outcome of the statements of a block makes `CompoundStatement` panic
with the syntax error: it is that panic, or the statements stop at an
identifier, or at a token that is not `END`. -/
def FailsToClose {σ : Type} (r : Except Fail (List (Node F) × Parser F σ)) : Prop :=
  match r with
  | .ok (_, p) => p.CurrentToken.Type_ = IDENT ∨ p.CurrentToken.Type_ ≠ END
  | .error e => e = .panic .invalidSyntax

end StatementNotions

/-! ## Example inputs -/

/-- An integer-literal token as the lexer builds it. -/
def intToken (v : ℚ) : Token ℚ :=
  { Type_ := INTEGERCONST, Value := v, Svalue := "" }

/-- The node built by `Variable` at an identifier token. -/
def varNode (name : String) : Node ℚ :=
  .Var (Token.ident name) name

/-- The node built by `Factor` at an integer-literal token. -/
def intNode (v : ℚ) : Node ℚ :=
  .Num (intToken v) v

/-- The type node built by `TypeSpec` at the keyword `INTEGER`. -/
def integerTypeNode : Node ℚ :=
  .TypeN (Token.ofType INTEGER) 0

/-- The tree of `PROGRAM p; VAR a, b : INTEGER; BEGIN a := 2; BEGIN c := a + 1 END END.` -/
def keysTree : Node ℚ :=
  .Program "p" (.Block
    [.VarDecl (varNode "a") integerTypeNode, .VarDecl (varNode "b") integerTypeNode]
    (.Compound [.Assign (varNode "a") ASSIGN (intNode 2),
      .Compound [.Assign (varNode "c") ASSIGN (.BinOp PLUS (varNode "a") (intNode 1))]]))

/-- The table left by `keysTree`. -/
def keysTable : Scope ℚ :=
  (Scope.empty.set "a" 2).set "c" (2 + 1)

/-- A program that reads a declared variable that was never assigned. -/
def readUnassignedText : List Char :=
  "PROGRAM p; VAR a, b : INTEGER; BEGIN b := a END.".toList

/-- The tree of `readUnassignedText`. -/
def readUnassignedTree : Node ℚ :=
  .Program "p" (.Block
    [.VarDecl (varNode "a") integerTypeNode, .VarDecl (varNode "b") integerTypeNode]
    (.Compound [.Assign (varNode "b") ASSIGN (varNode "a")]))

def integerDivText : List Char :=
  "PROGRAM p; BEGIN x := 10 DIV 4 END.".toList

def floatDivText : List Char :=
  "PROGRAM p; BEGIN x := 10 / 4 END.".toList

/-- The tree of `PROGRAM p; BEGIN x := 10 op 4 END.` -/
def divTree (op : Int) : Node ℚ :=
  .Program "p" (.Block []
    (.Compound [.Assign (varNode "x") ASSIGN (.BinOp op (intNode 10) (intNode 4))]))

/-- A program whose `VAR` is followed by no declaration. -/
def emptyVarText : List Char :=
  "PROGRAM p; VAR BEGIN END.".toList

/-- The tokens of `emptyVarText`. -/
def emptyVarTokens : List (Token ℚ) :=
  [Token.ofType PROGRAM, Token.ident "p", Token.ofType SEMI, Token.ofType VAR,
    Token.ofType BEGIN, Token.ofType END, Token.ofType DOT]

/-- A program declaring three variables in one declaration. -/
def threeVarsText : List Char :=
  "PROGRAM p; VAR a, b, c : INTEGER; BEGIN a := 1 END.".toList

/-- The tree of `threeVarsText`. -/
def threeVarsTree : Node ℚ :=
  .Program "p" (.Block
    [varDeclNode INTEGER "a", varDeclNode INTEGER "b", varDeclNode INTEGER "c"]
    (.Compound [.Assign (varNode "a") ASSIGN (intNode 1)]))

/-- The program of the precedence example. -/
def precedenceText : List Char :=
  "PROGRAM p; BEGIN x := 2 + 3 * 4 END.".toList

/-- The tree of `precedenceText`. -/
def precedenceTree : Node ℚ :=
  .Program "p" (.Block []
    (.Compound [.Assign (varNode "x") ASSIGN
      (.BinOp PLUS (intNode 2) (.BinOp MUL (intNode 3) (intNode 4)))]))

/-- The program of the unary-sign example. -/
def unaryText : List Char :=
  "PROGRAM p; BEGIN a := 2; b := 12; c := a - - b END.".toList

/-- The tree of `a - - b`. -/
def unaryExprTree : Node ℚ :=
  .BinOp MINUS (varNode "a") (.UnaryOp MINUS (varNode "b"))

/-- The tree of `unaryText`. -/
def unaryTree : Node ℚ :=
  .Program "p" (.Block []
    (.Compound [.Assign (varNode "a") ASSIGN (intNode 2),
      .Assign (varNode "b") ASSIGN (intNode 12),
      .Assign (varNode "c") ASSIGN unaryExprTree]))

/-- A small accepted program, as tokens: `PROGRAM p; BEGIN END.` -/
def smallProgramTokens : List (Token ℚ) :=
  [Token.ofType PROGRAM, Token.ident "p", Token.ofType SEMI, Token.ofType BEGIN,
    Token.ofType END, Token.ofType DOT]

/-- The tokens of the assignment `x := v`. -/
def assignTokens (x : String) (v : ℚ) : List (Token ℚ) :=
  [Token.ident x, Token.ofType ASSIGN, intToken v]

/-- The tokens of `; BEGIN x := 1 y := 2 END END.`, the statements of a
block: an empty statement, then a compound statement in which two
assignments have no `;` between them. -/
def missingSemiBody : List (Token ℚ) :=
  [] ++ (Token.ofType SEMI :: (Token.ofType BEGIN ::
    (assignTokens "x" 1 ++ (assignTokens "y" 2 ++
      [Token.ofType END, Token.ofType END, Token.ofType DOT]))))

/-- Two assignments with no `;` between them. -/
def missingSemiText : List Char :=
  "PROGRAM p; BEGIN x := 1 y := 2 END.".toList

/-- An assignment directly followed by a compound statement. -/
def missingSemiCompoundText : List Char :=
  "PROGRAM p; BEGIN x := 1 BEGIN y := 2 END END.".toList

/-- A compound statement directly followed by an assignment. -/
def missingSemiAfterCompoundText : List Char :=
  "PROGRAM p; BEGIN BEGIN x := 1 END y := 2 END.".toList

/-! ## Trees without assignments -/

section AssignFree
variable {F : Type}

mutual
/-- The tree contains an `Assign` node, at any depth, also beneath a
`VarDecl`. -/
def Node.hasAssign : Node F → Bool
  | .BinOp _ l r => l.hasAssign || r.hasAssign
  | .UnaryOp _ e => e.hasAssign
  | .Num _ _ => false
  | .Compound cs => Node.hasAssignAny cs
  | .Assign _ _ _ => true
  | .Var _ _ => false
  | .NoOp => false
  | .Program _ b => b.hasAssign
  | .Block ds c => Node.hasAssignAny ds || c.hasAssign
  | .VarDecl v t => v.hasAssign || t.hasAssign
  | .TypeN _ _ => false
/-- Some tree of the list contains an `Assign` node. -/
def Node.hasAssignAny : List (Node F) → Bool
  | [] => false
  | n :: ns => n.hasAssign || Node.hasAssignAny ns
end

/-- Every name bound in `G` is bound in `G1`. -/
def Scope.keysLe (G G1 : Scope F) : Prop :=
  ∀ k, (G k).isSome = true → (G1 k).isSome = true

end AssignFree

/-! ## The single-character tokens -/

/-- The token type that the `switch` of `GetNextToken` returns for a
character, `{` (a comment) apart; `none` for the `default` case. -/
def Lexer.symbol (c : Char) : Option Int :=
  if c = ';' then some SEMI
  else if c = ':' then some COLON
  else if c = ',' then some COMMA
  else if c = '+' then some PLUS
  else if c = '-' then some MINUS
  else if c = '*' then some MUL
  else if c = '/' then some FLOATDIV
  else if c = '(' then some LPAREN
  else if c = ')' then some RPAREN
  else if c = '.' then some DOT
  else none

/-! ## Panic values -/

/-- The string handed to `panic` by the three `Error` methods of the source;
the run-time panics carry a `runtime.Error` instead. -/
def Panic.message : Panic → Option String
  | .errorLexingInput => some "error lexing input"
  | .invalidSyntax => some "invalid syntax"
  | .unknownNode => some "unknown node"
  | .typeAssertion => none
  | .indexOutOfRange => none

/-! ## More example inputs -/

/-- A walk that panics at its second statement, reading the unbound `zz`. -/
def failingTree : Node ℚ :=
  .Compound [.Assign (varNode "d") ASSIGN (intNode 1),
    .Assign (varNode "e") ASSIGN (varNode "zz")]

/-- A tree without `Assign` nodes whose walk panics, reading the unbound `zz`. -/
def readOnlyTree : Node ℚ :=
  .Program "p" (.Block [varDeclNode INTEGER "a"]
    (.Compound [.NoOp, .BinOp PLUS (varNode "a") (varNode "zz")]))

/-- The lexer made by `NewLexer` on the one-character text `$`. -/
def dollarLexer : Lexer :=
  { Text := ['$'], Pos := 0, CurrentChar := '$' }

/-- The lexer made by `NewLexer` on the text consisting of the byte `0`. -/
def nulLexer : Lexer :=
  { Text := [NUL], Pos := 0, CurrentChar := NUL }

/-- The lexer on the bytes `x`, `0`, `y` after the token `x` was read. -/
def nulInsideLexer : Lexer :=
  { Text := ['x', NUL, 'y'], Pos := 1, CurrentChar := NUL }

/-- The lexer made by `NewLexer` on a text of one space. -/
def spaceLexer : Lexer :=
  { Text := [' '], Pos := 0, CurrentChar := ' ' }

/-- The lexer `spaceLexer` after the space was skipped. -/
def spaceLexerAtEnd : Lexer :=
  { Text := [' '], Pos := 1, CurrentChar := NUL }

/-- A text whose comment is never closed. -/
def openCommentText : List Char :=
  ['{', 'a', 'b']

/-- The lexer made by `NewLexer` on `openCommentText`. -/
def openCommentLexer : Lexer :=
  { Text := openCommentText, Pos := 0, CurrentChar := '{' }

/-- No `}` lies after the current position of the lexer, whose position is a
non-negative `int`. -/
def Lexer.NoCloseAhead (l : Lexer) : Prop :=
  0 ≤ l.Pos ∧ l.Pos < 2 ^ 63 ∧ ∀ i : Nat, l.Pos < (i : Int) → l.Text.get? i ≠ some '}'

/-! ## The lexer on its unread input -/

/-- The lexer `l` has read `pre` and has `rest` still to read: its text is
`pre ++ rest`, a Go string (shorter than `2 ^ 63`), its position is the length
of `pre`, and its current byte is the first of `rest`, or `0` at the end. -/
def Lexer.At (l : Lexer) (pre rest : List Char) : Prop :=
  l.Text = pre ++ rest ∧ l.Pos = (pre.length : Int) ∧ l.CurrentChar = rest.headD NUL ∧
    (pre ++ rest).length < 2 ^ 63

/-! ## Relations between runs of the lexer used in the proofs -/

/-- The run `y` returns or panics as `x` does, unless `x` ran out of fuel. -/
def MoreFuel {α : Type} (x y : Except Fail α) : Prop :=
  x ≠ .error .outOfFuel → y = x

/-! ## Words -/

/-- The keys of the map `ReservedWords`. -/
def keywords : List String := ["PROGRAM", "VAR", "DIV", "INTEGER", "REAL", "BEGIN", "END"]

/-- The lexer at the start of the text `BEGINx := 1`. -/
def wordLexer : Lexer := { Text := "BEGINx := 1".toList, Pos := 0, CurrentChar := 'B' }

/-! ## Trees the interpreter can walk -/

def BinOpNode : Int := 0
def UnaryOpNode : Int := 1
def NumNode : Int := 2
def CompoundNode : Int := 3
def AssignNode : Int := 4
def VarNode : Int := 5
def NoOpNode : Int := 6
def ProgramNode : Int := 7
def BlockNode : Int := 8
def VarDeclNode : Int := 9
def TypeNode : Int := 10

/-- The method `Type()` of a node built by its `New...` constructor. -/
def Node.Type_ {F : Type} : Node F → Int
  | .BinOp _ _ _ => BinOpNode
  | .UnaryOp _ _ => UnaryOpNode
  | .Num _ _ => NumNode
  | .Compound _ => CompoundNode
  | .Assign _ _ _ => AssignNode
  | .Var _ _ => VarNode
  | .NoOp => NoOpNode
  | .Program _ _ => ProgramNode
  | .Block _ _ => BlockNode
  | .VarDecl _ _ => VarDeclNode
  | .TypeN _ _ => TypeNode

/-- The keys of `VisitMap` after `NewInterpreter`, in the order of the
assignments. -/
def VisitMapKeys : List Int :=
  [BinOpNode, UnaryOpNode, NumNode, CompoundNode, AssignNode, VarNode, NoOpNode, ProgramNode,
    BlockNode, VarDeclNode, TypeNode]

section WellTagged
variable {F : Type}

/-- The node is a `Var`. -/
def Node.isVar : Node F → Bool
  | .Var _ _ => true
  | _ => false

mutual
/-- Every `BinOp` of the tree carries one of the five binary operators, every
`UnaryOp` carries `PLUS` or `MINUS`, and the target of every `Assign` is a
`Var`. -/
def Node.wellTagged : Node F → Bool
  | .BinOp op l r => isOperator op && l.wellTagged && r.wellTagged
  | .UnaryOp op e => decide (op = PLUS ∨ op = MINUS) && e.wellTagged
  | .Num _ _ => true
  | .Compound cs => Node.wellTaggedAll cs
  | .Assign l _ r => l.isVar && l.wellTagged && r.wellTagged
  | .Var _ _ => true
  | .NoOp => true
  | .Program _ b => b.wellTagged
  | .Block ds c => Node.wellTaggedAll ds && c.wellTagged
  | .VarDecl v t => v.wellTagged && t.wellTagged
  | .TypeN _ _ => true
/-- The list form of `Node.wellTagged`. -/
def Node.wellTaggedAll : List (Node F) → Bool
  | [] => true
  | n :: ns => n.wellTagged && Node.wellTaggedAll ns
end

mutual
/-- The names of the `Var` nodes that the walk of the tree reads: those in
expressions (the target of an `Assign` and the parts of a `VarDecl` are not
visited). -/
def Node.reads : Node F → List String
  | .BinOp _ l r => l.reads ++ r.reads
  | .UnaryOp _ e => e.reads
  | .Num _ _ => []
  | .Compound cs => Node.readsAll cs
  | .Assign _ _ r => r.reads
  | .Var _ x => [x]
  | .NoOp => []
  | .Program _ b => b.reads
  | .Block ds c => Node.readsAll ds ++ c.reads
  | .VarDecl _ _ => []
  | .TypeN _ _ => []
/-- The list form of `Node.reads`. -/
def Node.readsAll : List (Node F) → List String
  | [] => []
  | n :: ns => n.reads ++ Node.readsAll ns
end

/-- A walk that, if it panics, panics with `unknown node` on a table in which
one of the names `names` is not bound. -/
def FailsOnRead {α : Type} (names : List String) (r : Scope F × Except Panic α) : Prop :=
  ∀ e, r.2 = .error e → e = .unknownNode ∧ ∃ x ∈ names, r.1 x = none

/-- Every result that the method returns satisfies `P`. -/
def ParserM.Yields {σ α : Type} (P : α → Prop) (A : ParserM F σ α) : Prop :=
  ∀ p a p1, A p = .ok (a, p1) → P a

end WellTagged

instance Parser.instDecidableEq {F σ : Type} [DecidableEq F] [DecidableEq σ] :
    DecidableEq (Parser F σ) := fun a b =>
  decidable_of_iff (a.CurrentToken = b.CurrentToken ∧ a.lexer = b.lexer) (by
    cases a
    cases b
    simp)

/-- The tokens of `PROGRAM p; BEGIN b := a + 1 END.` -/
def readTokens : List (Token ℚ) :=
  [Token.ofType PROGRAM, Token.ident "p", Token.ofType SEMI, Token.ofType BEGIN,
    Token.ident "b", Token.ofType ASSIGN, Token.ident "a", Token.ofType PLUS, intToken 1,
    Token.ofType END, Token.ofType DOT]

/-- The tree of `readTokens`. -/
def readTree : Node ℚ :=
  .Program "p" (.Block []
    (.Compound [.Assign (varNode "b") ASSIGN (.BinOp PLUS (varNode "a") (intNode 1))]))

/-! ## One call of the lexer, as a function of the unread input -/

/-- What a call of `GetNextToken` makes of the unread input: a token and the
input left after it, the lexing panic, or no return at all (a comment that is
never closed). -/
inductive LexOutcome (F : Type) where
  | token (tok : Token F) (rest : List Char)
  | lexError
  | hang

section LexSpec
variable {F : Type} [Float64 F]

/-- The token that `ID` returns for the word `w`. -/
def wordToken (w : List Char) : Token F :=
  (ReservedWords (String.mk w)).getD (Token.ident (String.mk w))

/-- What `Number` makes of the unread input `cs`. -/
def numberSpec (cs : List Char) : LexOutcome F :=
  if (cs.dropWhile isDigit).headD NUL = '.' then
    .token { Type_ := REALCONST,
             Value := Float64.ParseFloat (String.mk (cs.takeWhile isDigit ++ ['.'] ++
               (cs.dropWhile isDigit).tail.takeWhile isDigit)),
             Svalue := "" }
      ((cs.dropWhile isDigit).tail.dropWhile isDigit)
  else
    .token { Type_ := INTEGERCONST,
             Value := Float64.ParseFloat (String.mk (cs.takeWhile isDigit)),
             Svalue := "" }
      (cs.dropWhile isDigit)

mutual
/-- What `GetNextToken` makes of the unread input. -/
def lexSpec : List Char → LexOutcome F
  | [] => .token (Token.ofType EOF) []
  | c :: r =>
    if c = NUL then .token (Token.ofType EOF) (c :: r)
    else if isSpace c then lexSpec r
    else if isAlpha c then
      .token (wordToken ((c :: r).takeWhile isAlphaNumeric))
        ((c :: r).dropWhile isAlphaNumeric)
    else if isDigit c then numberSpec (c :: r)
    else if c = ':' then
      (if r.headD NUL = '=' then .token (Token.ofType ASSIGN) r.tail
       else .token (Token.ofType COLON) r)
    else if c = '{' then skipSpec r
    else match Lexer.symbol c with
      | some T => .token (Token.ofType T) r
      | none => .lexError
/-- What `GetNextToken` makes of the unread input inside a comment. -/
def skipSpec : List Char → LexOutcome F
  | [] => .hang
  | c :: r => if c = '}' then lexSpec r else skipSpec r
end

/-- The call `GetNextToken n` on the lexer `l`, which has read `pre` and has
`rest` to read, has the outcome `o`: it returns the token of `o` and has then
the input of `o` left to read, or it panics with the lexing error, or it does
neither (it runs out of fuel or of the range of `int`). -/
def Lexer.Follows (l : Lexer) (n : Nat) (pre rest : List Char) : LexOutcome F → Prop
  | .token tok rest1 => ∃ l1 w, Lexer.GetNextToken n l = .ok (tok, l1) ∧
      l1.At (pre ++ w) rest1 ∧ rest = w ++ rest1
  | .lexError => Lexer.GetNextToken (F := F) n l = .error (.panic .errorLexingInput)
  | .hang => ∃ e, Lexer.GetNextToken (F := F) n l = .error e ∧
      (e = .outOfFuel ∨ e = .panic .indexOutOfRange)

end LexSpec

/-! ## Two texts that differ in a comment -/

section CommentTexts
variable {F : Type} [Float64 F]

/-- The unread inputs of the text with the comment `{c}` and of the text with
a blank in its place, at the same point of a walk over the two texts: in front
of the comment with the same input `q` up to it, or behind it. -/
def CommentRel (c s : List Char) (r1 r2 : List Char) : Prop :=
  r1 = r2 ∨ ∃ q, '{' ∉ q ∧ r1 = q ++ '{' :: (c ++ '}' :: s) ∧ r2 = q ++ ' ' :: s

/-- Two outcomes with the same token and related inputs left, or the same
failure. -/
def LexOutcome.Related (R : List Char → List Char → Prop) :
    LexOutcome F → LexOutcome F → Prop
  | .token t1 r1, .token t2 r2 => t1 = t2 ∧ R r1 r2
  | .lexError, .lexError => True
  | .hang, .hang => True
  | _, _ => False

/-- On related unread inputs, a call of the lexer has related outcomes. -/
def LexSim (F : Type) [Float64 F] (R : List Char → List Char → Prop) : Prop :=
  ∀ r1 r2, R r1 r2 → LexOutcome.Related R (lexSpec r1 : LexOutcome F) (lexSpec r2)

end CommentTexts

/-! ## Two token sources that hand out the same tokens -/

section SourceRelations
variable {F σ1 σ2 : Type}

/-- A result of the program: a value or one of its panics, and not the end of
the model's fuel nor the run-time panic that ends a walk past the end of the
text (a comment that is never closed). -/
def Settled {α : Type} (r : Except Fail α) : Prop :=
  r ≠ .error .outOfFuel ∧ r ≠ .error (.panic .indexOutOfRange)

/-- From related states, when the first source hands out a token, the second
hands out the same token and the states are related again; when the first
panics (with a settled result), the second panics in the same way. -/
def SourceSim (R : σ1 → σ2 → Prop) (next1 : σ1 → Except Fail (Token F × σ1))
    (next2 : σ2 → Except Fail (Token F × σ2)) : Prop :=
  ∀ l1 l2, R l1 l2 →
    (∀ t l3, next1 l1 = .ok (t, l3) → ∃ l4, next2 l2 = .ok (t, l4) ∧ R l3 l4) ∧
    (∀ e, next1 l1 = .error e → Settled (.error e : Except Fail Unit) → next2 l2 = .error e)

/-- From states with the same lookahead and related lexers, when the first
method returns, the second returns the same value and the states are related
again; when the first panics (with a settled result), so does the second. -/
def ParserM.Sim {α : Type} (R : σ1 → σ2 → Prop) (A1 : ParserM F σ1 α) (A2 : ParserM F σ2 α) :
    Prop :=
  ∀ p1 p2, p1.CurrentToken = p2.CurrentToken → R p1.lexer p2.lexer →
    (∀ a p3, A1 p1 = .ok (a, p3) →
      ∃ p4, A2 p2 = .ok (a, p4) ∧ p3.CurrentToken = p4.CurrentToken ∧ R p3.lexer p4.lexer) ∧
    (∀ e, A1 p1 = .error e → Settled (.error e : Except Fail Unit) → A2 p2 = .error e)

/-- The tokens handed out by at most `k` calls of `next`, up to the first
end-of-input token. -/
def tokensFrom {σ : Type} (next : σ → Except Fail (Token F × σ)) :
    Nat → σ → Except Fail (List (Token F))
  | 0, _ => .ok []
  | k + 1, l =>
    match next l with
    | .error e => .error e
    | .ok (tok, l1) =>
      if tok.Type_ = EOF then .ok [tok]
      else match tokensFrom next k l1 with
        | .error e => .error e
        | .ok toks => .ok (tok :: toks)

end SourceRelations

/-- The tokens returned by at most `k` calls of `GetNextToken` (each with fuel
`n`) from the lexer `l`, up to the first end-of-input token. -/
def Lexer.firstTokens {F : Type} [Float64 F] (n k : Nat) (l : Lexer) :
    Except Fail (List (Token F)) :=
  tokensFrom (fun l1 => Lexer.GetNextToken n l1) k l

/-- Two lexers whose unread inputs are related by `R`, the text of the second
being no longer than `B`. -/
def LexRel (R : List Char → List Char → Prop) (B : Nat) (l1 l2 : Lexer) : Prop :=
  ∃ pre1 r1 pre2 r2, l1.At pre1 r1 ∧ l2.At pre2 r2 ∧ R r1 r2 ∧ (pre2 ++ r2).length ≤ B

/-! ## Example texts with a comment -/

/-- The text in front of the comment of `commentText`. -/
def commentPrefix : List Char := "PROGRAM p; BEGIN x := 1".toList

/-- The content of the comment of `commentText`, which looks like code. -/
def commentContent : List Char := "; x := 2 END. ".toList

/-- The text behind the comment of `commentText`. -/
def commentSuffix : List Char := "; y := x + 1 END.".toList

/-- A program with a comment. -/
def commentText : List Char :=
  commentPrefix ++ '{' :: (commentContent ++ '}' :: commentSuffix)

/-- The program `commentText` with a blank in place of the comment. -/
def blankText : List Char :=
  commentPrefix ++ ' ' :: commentSuffix

/-- The tree of `commentText` and of `blankText`. -/
def commentTree : Node ℚ :=
  .Program "p" (.Block []
    (.Compound [.Assign (varNode "x") ASSIGN (intNode 1),
      .Assign (varNode "y") ASSIGN (.BinOp PLUS (varNode "x") (intNode 1))]))

/-! ## Example inputs for associativity -/

/-- The program of the associativity example. -/
def leftAssocText : List Char :=
  "PROGRAM p; BEGIN x := 10 - 4 - 3 END.".toList

/-- The tree of `leftAssocText`. -/
def leftAssocTree : Node ℚ :=
  .Program "p" (.Block []
    (.Compound [.Assign (varNode "x") ASSIGN
      (.BinOp MINUS (.BinOp MINUS (intNode 10) (intNode 4)) (intNode 3))]))

/-! ## Printing an expression with all its parentheses -/

section Render
variable {F : Type} [Float64 F]

/-- The token sequence that writes a `Num` or a `Var` as its token,
`UnaryOp(op, x)` as `op` followed by `x`, and `BinOp(op, l, r)` as
`( l op r )`. -/
def render : Node F → List (Token F)
  | .Num tok _ => [tok]
  | .Var tok _ => [tok]
  | .UnaryOp op x => Token.ofType op :: render x
  | .BinOp op l r =>
    Token.ofType LPAREN :: (render l ++ Token.ofType op :: (render r ++ [Token.ofType RPAREN]))
  | _ => []

/-- An expression tree built from `Num`, `Var`, `UnaryOp` with `PLUS` or
`MINUS`, and `BinOp` with one of the five binary operators. -/
def Node.isOperatorTree : Node F → Bool
  | .Num _ _ => true
  | .Var _ _ => true
  | .UnaryOp op x => decide (op = PLUS ∨ op = MINUS) && x.isOperatorTree
  | .BinOp op l r => isOperator op && l.isOperatorTree && r.isOperatorTree
  | _ => false

/-- The leaves of the tree are as `NewNum` and `Variable` make them from their
token: a `Num` holds a number token and its `Value`, a `Var` holds an `IDENT`
token and its `Svalue`. -/
def Node.LeavesFromTokens : Node F → Prop
  | .Num tok v => (tok.Type_ = INTEGERCONST ∨ tok.Type_ = REALCONST) ∧ v = tok.Value
  | .Var tok x => tok.Type_ = IDENT ∧ x = tok.Svalue
  | .UnaryOp _ x => x.LeavesFromTokens
  | .BinOp _ l r => l.LeavesFromTokens ∧ r.LeavesFromTokens
  | _ => True

end Render

/-- A `Var` made by `NewVar` with a `Value` that is not the `Svalue` of its
token. -/
def staleVar : Node ℚ := NewVar (Token.ident "a") "b"

/-- An expression with a sign, a variable and all five binary operators. -/
def renderedTree : Node ℚ :=
  .BinOp MINUS
    (.BinOp MUL (intNode 2) (.UnaryOp MINUS (varNode "a")))
    (.BinOp INTEGERDIV (.BinOp PLUS (intNode 1) (varNode "b"))
      (.BinOp FLOATDIV (intNode 6) (intNode 3)))

/-! ## Fuel that suffices -/

section FuelBounds
variable {F σ : Type}

/-- One for a token, nothing for the end-of-input token. -/
def Token.cost (t : Token F) : Nat := if t.Type_ = EOF then 0 else 1

/-- From a state that satisfies `Inv`, the source returns or panics with a
settled result, and when it returns, the new state satisfies `Inv` and the
measure `μ` of what is left has gone down by the cost of the token. -/
def SourceRuns (Inv : σ → Prop) (μ : σ → Nat) (next : σ → Except Fail (Token F × σ)) : Prop :=
  ∀ l, Inv l → Settled (next l) ∧
    ∀ t l1, next l = .ok (t, l1) → Inv l1 ∧ t.cost + μ l1 ≤ μ l

/-- What the parser has still to read, lookahead included, plus one. -/
def Parser.size (μ : σ → Nat) (p : Parser F σ) : Nat :=
  μ p.lexer + p.CurrentToken.cost + 1

/-- From every state of size at most `k`, the method returns or panics with a
settled result (it has fuel enough), and when it returns, the state has size
at most `j`. -/
def ParserM.Runs {α : Type} (Inv : σ → Prop) (μ : σ → Nat) (A : ParserM F σ α) (k j : Nat) :
    Prop :=
  ∀ p, Inv p.lexer → Parser.size μ p ≤ k →
    Settled (A p) ∧ ∀ a p1, A p = .ok (a, p1) → Inv p1.lexer ∧ Parser.size μ p1 ≤ j

end FuelBounds

/-! ## Texts in which every comment is closed -/

mutual
/-- Every comment of the text is closed: read outside a comment. -/
def commentsClosed : List Char → Bool
  | [] => true
  | c :: r => if c = '{' then insideClosed r else commentsClosed r
/-- Every comment of the text is closed: read inside a comment. -/
def insideClosed : List Char → Bool
  | [] => false
  | c :: r => if c = '}' then commentsClosed r else insideClosed r
end

/-- The number of bytes that the lexer has still to read. -/
def Lexer.unread (l : Lexer) : Nat := l.Text.length - l.Pos.toNat

/-- The lexer is at a point of its text from which every comment is closed,
and `n` is fuel enough for a call of `GetNextToken`. -/
def Lexer.Ready (n : Nat) (l : Lexer) : Prop :=
  ∃ pre rest, l.At pre rest ∧ commentsClosed rest = true ∧ rest.length + 2 ≤ n

/-- The outcome of a call of the lexer is a token, with every comment of the
input left closed and that input shorter than `k` by the cost of the token,
or the lexing panic. -/
def LexOutcome.Fits {F : Type} (k : Nat) : LexOutcome F → Prop
  | .token tok r => commentsClosed r = true ∧ tok.cost + r.length ≤ k
  | .lexError => True
  | .hang => False

/-! # Theorems -/

/-! ## Equality of trees is decidable -/

section NodeEqLemmas
variable {F : Type} [DecidableEq F]

mutual
theorem Node.eq_of_beq : ∀ (a b : Node F), Node.beq a b = true → a = b
  | .BinOp o l r, b, h => by
    cases b <;> simp [Node.beq] at h
    obtain ⟨⟨h1, h2⟩, h3⟩ := h
    rw [h1, Node.eq_of_beq l _ h2, Node.eq_of_beq r _ h3]
  | .UnaryOp o e, b, h => by
    cases b <;> simp [Node.beq] at h
    obtain ⟨h1, h2⟩ := h
    rw [h1, Node.eq_of_beq e _ h2]
  | .Num t v, b, h => by
    cases b <;> simp [Node.beq] at h
    obtain ⟨h1, h2⟩ := h
    rw [h1, h2]
  | .Compound cs, b, h => by
    cases b <;> simp [Node.beq] at h
    rw [Node.eq_of_beqAll cs _ h]
  | .Assign l o r, b, h => by
    cases b <;> simp [Node.beq] at h
    obtain ⟨⟨h1, h2⟩, h3⟩ := h
    rw [h2, Node.eq_of_beq l _ h1, Node.eq_of_beq r _ h3]
  | .Var t v, b, h => by
    cases b <;> simp [Node.beq] at h
    obtain ⟨h1, h2⟩ := h
    rw [h1, h2]
  | .NoOp, b, h => by
    cases b <;> simp [Node.beq] at h
    rfl
  | .Program s x, b, h => by
    cases b <;> simp [Node.beq] at h
    obtain ⟨h1, h2⟩ := h
    rw [h1, Node.eq_of_beq x _ h2]
  | .Block ds c, b, h => by
    cases b <;> simp [Node.beq] at h
    obtain ⟨h1, h2⟩ := h
    rw [Node.eq_of_beqAll ds _ h1, Node.eq_of_beq c _ h2]
  | .VarDecl v t, b, h => by
    cases b <;> simp [Node.beq] at h
    obtain ⟨h1, h2⟩ := h
    rw [Node.eq_of_beq v _ h1, Node.eq_of_beq t _ h2]
  | .TypeN t v, b, h => by
    cases b <;> simp [Node.beq] at h
    obtain ⟨h1, h2⟩ := h
    rw [h1, h2]
theorem Node.eq_of_beqAll : ∀ (as bs : List (Node F)), Node.beqAll as bs = true → as = bs
  | [], bs, h => by
    cases bs <;> simp [Node.beqAll] at h
    rfl
  | a :: as, bs, h => by
    cases bs <;> simp [Node.beqAll] at h
    obtain ⟨h1, h2⟩ := h
    rw [Node.eq_of_beq a _ h1, Node.eq_of_beqAll as _ h2]
end

mutual
theorem Node.beq_self : ∀ (a : Node F), Node.beq a a = true
  | .BinOp _ l r => by simp [Node.beq, Node.beq_self l, Node.beq_self r]
  | .UnaryOp _ e => by simp [Node.beq, Node.beq_self e]
  | .Num _ _ => by simp [Node.beq]
  | .Compound cs => by simp [Node.beq, Node.beqAll_self cs]
  | .Assign l _ r => by simp [Node.beq, Node.beq_self l, Node.beq_self r]
  | .Var _ _ => by simp [Node.beq]
  | .NoOp => by simp [Node.beq]
  | .Program _ b => by simp [Node.beq, Node.beq_self b]
  | .Block ds c => by simp [Node.beq, Node.beqAll_self ds, Node.beq_self c]
  | .VarDecl v t => by simp [Node.beq, Node.beq_self v, Node.beq_self t]
  | .TypeN _ _ => by simp [Node.beq]
theorem Node.beqAll_self : ∀ (as : List (Node F)), Node.beqAll as as = true
  | [] => by simp [Node.beqAll]
  | a :: as => by simp [Node.beqAll, Node.beq_self a, Node.beqAll_self as]
end

instance Node.instDecidableEq : DecidableEq (Node F) := fun a b =>
  if h : Node.beq a b = true then isTrue (Node.eq_of_beq a b h)
  else isFalse (fun e => h (e ▸ Node.beq_self a))

end NodeEqLemmas

/-! ## The interpreter -/

section AndThenLemmas
variable {F : Type}

theorem andThen_eq_ok {α β : Type} {r : Scope F × Except Panic α}
    {k : Scope F → α → Scope F × Except Panic β} {G2 : Scope F} {b : β}
    (h : andThen r k = (G2, .ok b)) :
    ∃ G1 a, r = (G1, .ok a) ∧ k G1 a = (G2, .ok b) := by
  obtain ⟨G1, x⟩ := r
  cases x with
  | error e => simp [andThen] at h
  | ok a => exact ⟨G1, a, rfl, h⟩

theorem andThen_ok {α β : Type} (G1 : Scope F) (a : α)
    (k : Scope F → α → Scope F × Except Panic β) :
    andThen (G1, Except.ok a) k = k G1 a := rfl

theorem andThen_error {α β : Type} (G1 : Scope F) (e : Panic)
    (k : Scope F → α → Scope F × Except Panic β) :
    andThen (G1, (Except.error e : Except Panic α)) k = (G1, .error e) := rfl

theorem Scope.set_isSome (G : Scope F) (x : String) (v : F) (k : String) :
    ((G.set x v) k).isSome = true ↔ (k = x ∨ (G k).isSome = true) := by
  unfold Scope.set
  by_cases hk : k = x <;> simp [hk]

end AndThenLemmas

section InterpreterLemmas
variable {F : Type} [Float64 F]

/-- An expression leaves the table as it found it, whatever its outcome. -/
theorem Visit_isExpr_table : ∀ (e : Node F) (G : Scope F), e.isExpr = true → (Visit G e).1 = G
  | .BinOp op l r, G, h => by
    simp only [Node.isExpr, Bool.and_eq_true] at h
    have hl := Visit_isExpr_table l G h.1
    have hr := fun G1 => Visit_isExpr_table r G1 h.2
    rcases hvl : Visit G l with ⟨G1, x⟩
    rw [hvl] at hl
    simp only at hl
    subst hl
    rcases hvr : Visit G1 r with ⟨G2, y⟩
    have hr2 := hr G1
    rw [hvr] at hr2
    simp only at hr2
    subst hr2
    cases x <;> cases y <;> simp only [Visit, andThen, hvl, hvr] <;> split_ifs <;> rfl
  | .UnaryOp op e, G, h => by
    simp only [Node.isExpr] at h
    have he := Visit_isExpr_table e G h
    rcases hve : Visit G e with ⟨G1, x⟩
    rw [hve] at he
    simp only at he
    subst he
    cases x <;> simp only [Visit, andThen, hve] <;> split_ifs <;> rfl
  | .Num _ _, G, _ => by simp [Visit]
  | .Var _ x, G, _ => by
    simp only [Visit]
    cases G x <;> rfl
  | .Compound _, _, h => by simp [Node.isExpr] at h
  | .Assign _ _ _, _, h => by simp [Node.isExpr] at h
  | .NoOp, _, h => by simp [Node.isExpr] at h
  | .Program _ _, _, h => by simp [Node.isExpr] at h
  | .Block _ _, _, h => by simp [Node.isExpr] at h
  | .VarDecl _ _, _, h => by simp [Node.isExpr] at h
  | .TypeN _ _, _, h => by simp [Node.isExpr] at h

mutual
/-- After a walk that returned, the bound names are those bound before and
the targets of the `Assign` nodes of the tree. -/
theorem Visit_keys : ∀ (n : Node F) (G G' : Scope F) (v : F), n.plainDecls = true →
    Visit G n = (G', .ok v) →
    ∀ k, (G' k).isSome = true ↔ ((G k).isSome = true ∨ k ∈ n.assignTargets)
  | .BinOp op l r, G, G', v, hp, h, k => by
    simp only [Node.plainDecls, Bool.and_eq_true] at hp
    have key : ∀ (f : F → F → F),
        (andThen (Visit G l) fun G1 a => andThen (Visit G1 r) fun G2 b =>
          (G2, Except.ok (f a b))) = (G', Except.ok v) →
        ((G' k).isSome = true ↔
          ((G k).isSome = true ∨ k ∈ (Node.BinOp op l r).assignTargets)) := by
      intro f hf
      obtain ⟨G1, a, h1, h2⟩ := andThen_eq_ok hf
      obtain ⟨G2, b, h3, h4⟩ := andThen_eq_ok h2
      simp only [Prod.mk.injEq] at h4
      obtain ⟨rfl, _⟩ := h4
      rw [Visit_keys r G1 G2 b hp.2 h3 k, Visit_keys l G G1 a hp.1 h1 k]
      simp [Node.assignTargets, or_assoc]
    simp only [Visit] at h
    split_ifs at h
    · exact key _ h
    · exact key _ h
    · exact key _ h
    · exact key _ h
    · exact key _ h
    · simp at h
  | .UnaryOp op e, G, G', v, hp, h, k => by
    simp only [Node.plainDecls] at hp
    have key : ∀ (f : F → F),
        (andThen (Visit G e) fun G1 a => (G1, Except.ok (f a))) = (G', Except.ok v) →
        ((G' k).isSome = true ↔
          ((G k).isSome = true ∨ k ∈ (Node.UnaryOp op e).assignTargets)) := by
      intro f hf
      obtain ⟨G1, a, h1, h2⟩ := andThen_eq_ok hf
      simp only [Prod.mk.injEq] at h2
      obtain ⟨rfl, _⟩ := h2
      rw [Visit_keys e G G1 a hp h1 k]
      simp [Node.assignTargets]
    simp only [Visit] at h
    split_ifs at h
    · exact key _ h
    · exact key _ h
    · simp at h
  | .Num _ _, G, G', v, _, h, k => by
    simp only [Visit, Prod.mk.injEq] at h
    obtain ⟨rfl, _⟩ := h
    simp [Node.assignTargets]
  | .Compound cs, G, G', v, hp, h, k => by
    simp only [Node.plainDecls] at hp
    simp only [Visit] at h
    obtain ⟨G1, a, h1, h2⟩ := andThen_eq_ok h
    simp only [Prod.mk.injEq] at h2
    obtain ⟨rfl, _⟩ := h2
    rw [VisitAll_keys cs G G1 hp h1 k]
    simp [Node.assignTargets]
  | .Assign left _ right, G, G', v, hp, h, k => by
    simp only [Node.plainDecls, Bool.and_eq_true] at hp
    cases left with
    | Var t x =>
      simp only [Visit] at h
      obtain ⟨G1, a, h1, h2⟩ := andThen_eq_ok h
      simp only [Prod.mk.injEq] at h2
      obtain ⟨rfl, _⟩ := h2
      rw [Scope.set_isSome, Visit_keys right G G1 a hp.2 h1 k]
      simp only [Node.assignTargets, List.append_nil, List.singleton_append, List.mem_cons]
      tauto
    | BinOp _ _ _ => simp [Visit] at h
    | UnaryOp _ _ => simp [Visit] at h
    | Num _ _ => simp [Visit] at h
    | Compound _ => simp [Visit] at h
    | Assign _ _ _ => simp [Visit] at h
    | NoOp => simp [Visit] at h
    | Program _ _ => simp [Visit] at h
    | Block _ _ => simp [Visit] at h
    | VarDecl _ _ => simp [Visit] at h
    | TypeN _ _ => simp [Visit] at h
  | .Var _ x, G, G', v, _, h, k => by
    simp only [Visit] at h
    cases hx : G x with
    | none => simp [hx] at h
    | some w =>
      simp only [hx, Prod.mk.injEq] at h
      obtain ⟨rfl, _⟩ := h
      simp [Node.assignTargets]
  | .NoOp, G, G', v, _, h, k => by
    simp only [Visit, Prod.mk.injEq] at h
    obtain ⟨rfl, _⟩ := h
    simp [Node.assignTargets]
  | .Program _ b, G, G', v, hp, h, k => by
    simp only [Node.plainDecls] at hp
    simp only [Visit] at h
    rw [Visit_keys b G G' v hp h k]
    simp [Node.assignTargets]
  | .Block ds c, G, G', v, hp, h, k => by
    simp only [Node.plainDecls, Bool.and_eq_true] at hp
    simp only [Visit] at h
    obtain ⟨G1, a, h1, h2⟩ := andThen_eq_ok h
    obtain ⟨G2, b, h3, h4⟩ := andThen_eq_ok h2
    simp only [Prod.mk.injEq] at h4
    obtain ⟨rfl, _⟩ := h4
    rw [Visit_keys c G1 G2 b hp.2 h3 k, VisitAll_keys ds G G1 hp.1 h1 k]
    simp [Node.assignTargets, or_assoc]
  | .VarDecl vn tn, G, G', v, hp, h, k => by
    simp only [Node.plainDecls, List.isEmpty_iff] at hp
    simp only [Visit, Prod.mk.injEq] at h
    obtain ⟨rfl, _⟩ := h
    simp [Node.assignTargets, hp]
  | .TypeN _ _, G, G', v, _, h, k => by
    simp only [Visit, Prod.mk.injEq] at h
    obtain ⟨rfl, _⟩ := h
    simp [Node.assignTargets]
/-- The list form of `Visit_keys`. -/
theorem VisitAll_keys : ∀ (ns : List (Node F)) (G G' : Scope F),
    Node.plainDeclsAll ns = true → VisitAll G ns = (G', .ok ()) →
    ∀ k, (G' k).isSome = true ↔ ((G k).isSome = true ∨ k ∈ Node.assignTargetsAll ns)
  | [], G, G', _, h, k => by
    simp only [VisitAll, Prod.mk.injEq] at h
    obtain ⟨rfl, _⟩ := h
    simp [Node.assignTargetsAll]
  | n :: ns, G, G', hp, h, k => by
    simp only [Node.plainDeclsAll, Bool.and_eq_true] at hp
    simp only [VisitAll] at h
    obtain ⟨G1, a, h1, h2⟩ := andThen_eq_ok h
    rw [VisitAll_keys ns G1 G' hp.2 h2 k, Visit_keys n G G1 a hp.1 h1 k]
    simp [Node.assignTargetsAll, or_assoc]
end

end InterpreterLemmas

/-! ## The parser: running a method on a state -/

section ParserBasics
variable {F σ : Type}

theorem ParserM.bind_apply {α β : Type} (x : ParserM F σ α) (f : α → ParserM F σ β)
    (p : Parser F σ) :
    (x >>= f) p =
      (match x p with
        | .ok (a, p1) => f a p1
        | .error e => .error e) := rfl

theorem ParserM.bind_of_ok {α β : Type} {x : ParserM F σ α} {f : α → ParserM F σ β}
    {p p1 : Parser F σ} {a : α} (h : x p = .ok (a, p1)) : (x >>= f) p = f a p1 := by
  rw [ParserM.bind_apply, h]

theorem ParserM.bind_of_error {α β : Type} {x : ParserM F σ α} {f : α → ParserM F σ β}
    {p : Parser F σ} {e : Fail} (h : x p = .error e) : (x >>= f) p = .error e := by
  rw [ParserM.bind_apply, h]

theorem ParserM.pure_apply {α : Type} (a : α) (p : Parser F σ) :
    (pure a : ParserM F σ α) p = .ok (a, p) := rfl

theorem ParserM.fail_apply {α : Type} (e : Fail) (p : Parser F σ) :
    (ParserM.fail e : ParserM F σ α) p = .error e := rfl

theorem ParserM.ite_apply {α : Type} (c : Prop) [Decidable c] (A B : ParserM F σ α)
    (p : Parser F σ) : (if c then A else B) p = if c then A p else B p := by
  split <;> rfl

theorem Parser.currentToken_apply (p : Parser F σ) :
    Parser.currentToken p = .ok (p.CurrentToken, p) := rfl

theorem Parser.Error_apply {α : Type} (p : Parser F σ) :
    (Parser.Error : ParserM F σ α) p = .error (.panic .invalidSyntax) := rfl

/-- `Eat` at a token of another type panics. -/
theorem Parser.Eat_mismatch (next : σ → Except Fail (Token F × σ)) {T : Int}
    (p : Parser F σ) (h : p.CurrentToken.Type_ ≠ T) :
    Parser.Eat next T p = .error (.panic .invalidSyntax) := by
  simp only [Parser.Eat, ParserM.bind_apply, Parser.currentToken_apply, h, if_false,
    Parser.Error_apply]

/-- The loop of `Term` returns at a lookahead that is not `*`, `DIV` or `/`. -/
theorem Parser.TermLoop_stop (next : σ → Except Fail (Token F × σ)) (n : Nat)
    (node : Node F) (p : Parser F σ)
    (h : ¬ (p.CurrentToken.Type_ = MUL ∨ p.CurrentToken.Type_ = INTEGERDIV
      ∨ p.CurrentToken.Type_ = FLOATDIV)) :
    Parser.TermLoop next (n + 1) node p = .ok (node, p) := by
  simp only [Parser.TermLoop, ParserM.bind_apply, Parser.currentToken_apply, h, if_false,
    ParserM.pure_apply]

/-- The loop of `Expr` returns at a lookahead that is not `+` or `-`. -/
theorem Parser.ExprLoop_stop (next : σ → Except Fail (Token F × σ)) (n : Nat)
    (node : Node F) (p : Parser F σ)
    (h : ¬ (p.CurrentToken.Type_ = PLUS ∨ p.CurrentToken.Type_ = MINUS)) :
    Parser.ExprLoop next (n + 1) node p = .ok (node, p) := by
  simp only [Parser.ExprLoop, ParserM.bind_apply, Parser.currentToken_apply, h, if_false,
    ParserM.pure_apply]

/-- `Term` on a single factor followed by a token that is not `*`, `DIV`, `/`. -/
theorem Parser.Term_single (next : σ → Except Fail (Token F × σ)) (n : Nat)
    (p p1 : Parser F σ) (f : Node F) (hf : Parser.Factor next (n + 1) p = .ok (f, p1))
    (h : ¬ (p1.CurrentToken.Type_ = MUL ∨ p1.CurrentToken.Type_ = INTEGERDIV
      ∨ p1.CurrentToken.Type_ = FLOATDIV)) :
    Parser.Term next (n + 2) p = .ok (f, p1) := by
  simp only [Parser.Term]
  rw [ParserM.bind_of_ok hf, Parser.TermLoop_stop next n f p1 h]

end ParserBasics

section TokenListBasics
variable {F : Type} [Float64 F]

theorem Parser.onTokens_cons (t : Token F) (ts : List (Token F)) :
    Parser.onTokens (t :: ts) = { CurrentToken := t, lexer := ts } := rfl

theorem Parser.onTokens_CurrentToken (t : Token F) (ts : List (Token F)) :
    (Parser.onTokens (t :: ts)).CurrentToken = t := rfl

theorem Parser.advance_tokens (c : Token F) (ts : List (Token F)) :
    Parser.advance tokensNext { CurrentToken := c, lexer := ts } = .ok ((), Parser.onTokens ts) := by
  cases ts <;> rfl

/-- `Eat` at a token of the expected type moves to the next token. -/
theorem Parser.Eat_tokens {t : Token F} {T : Int} (ts : List (Token F)) (h : t.Type_ = T) :
    Parser.Eat tokensNext T (Parser.onTokens (t :: ts)) = .ok ((), Parser.onTokens ts) := by
  simp only [Parser.Eat, ParserM.bind_apply, Parser.currentToken_apply, Parser.onTokens_cons, h,
    if_true, Parser.advance_tokens]

end TokenListBasics

/-! ## Declarations -/

section DeclarationLemmas
variable {F : Type} [Float64 F]

theorem Token.ofType_Type (t : Int) : (Token.ofType t : Token F).Type_ = t := rfl

theorem Token.ident_Type (x : String) : (Token.ident x : Token F).Type_ = IDENT := rfl

theorem Token.ident_Svalue (x : String) : (Token.ident x : Token F).Svalue = x := rfl

/-- The loop over `, id` collects one `Var` per name and stops at the first
token that is not a comma. -/
theorem Parser.VariableDeclarationLoop_commaIdents :
    ∀ (ids : List String) (acc : List (Node F)) (n : Nat) (t : Token F)
      (rest : List (Token F)), ids.length < n → t.Type_ ≠ COMMA →
      Parser.VariableDeclarationLoop tokensNext n acc
          (Parser.onTokens (commaIdents ids ++ t :: rest)) =
        .ok (acc ++ ids.map (fun x => Node.Var (Token.ident x) x), Parser.onTokens (t :: rest))
  | [], acc, n, t, rest, hn, ht => by
    obtain ⟨m, rfl⟩ : ∃ m, n = m + 1 := ⟨n - 1, by simp at hn; omega⟩
    simp [Parser.VariableDeclarationLoop, commaIdents, ParserM.bind_apply,
      Parser.currentToken_apply, Parser.onTokens_cons, ht, ParserM.pure_apply]
  | x :: xs, acc, n, t, rest, hn, ht => by
    obtain ⟨m, rfl⟩ : ∃ m, n = m + 1 := ⟨n - 1, by simp at hn; omega⟩
    have hm : xs.length < m := by simp at hn; omega
    have ih := Parser.VariableDeclarationLoop_commaIdents xs
      (acc ++ [Node.Var (Token.ident x) x]) m t rest hm ht
    simp only [Parser.VariableDeclarationLoop, commaIdents, List.cons_append,
      ParserM.bind_apply, Parser.currentToken_apply]
    simp only [Parser.onTokens_cons, Token.ofType_Type, if_true, ParserM.bind_apply]
    rw [← Parser.onTokens_cons, Parser.Eat_tokens _ (Token.ofType_Type COMMA)]
    simp only [Parser.currentToken_apply, Parser.onTokens_cons]
    rw [← Parser.onTokens_cons, Parser.Eat_tokens _ (Token.ident_Type x)]
    simp only [NewVar, Token.ident_Svalue, ih, List.map, List.append_assoc, List.singleton_append]
    rfl

end DeclarationLemmas

/-! ## Expressions -/

section ExpressionLemmas
variable {F : Type} [Float64 F]

/-- One turn of the loop of `Term` at `*`, `DIV` or `/`. -/
theorem Parser.TermLoop_step (n : Nat) (node : Node F) (t : Token F) (ts : List (Token F))
    (h : t.Type_ = MUL ∨ t.Type_ = INTEGERDIV ∨ t.Type_ = FLOATDIV) :
    Parser.TermLoop tokensNext (n + 1) node (Parser.onTokens (t :: ts)) =
      (Parser.Factor tokensNext n >>= fun right =>
        Parser.TermLoop tokensNext n (NewBinOp node t.Type_ right)) (Parser.onTokens ts) := by
  simp only [Parser.TermLoop]
  rw [ParserM.bind_of_ok (Parser.currentToken_apply _), Parser.onTokens_CurrentToken, if_pos h]
  rcases h with h | h | h
  · rw [if_pos h, ParserM.bind_of_ok (Parser.Eat_tokens ts h)]
  · rw [if_neg (by rw [h]; decide), if_pos h, ParserM.bind_of_ok (Parser.Eat_tokens ts h)]
  · rw [if_neg (by rw [h]; decide), if_neg (by rw [h]; decide), if_pos h,
      ParserM.bind_of_ok (Parser.Eat_tokens ts h)]

/-- One turn of the loop of `Expr` at `+` or `-`. -/
theorem Parser.ExprLoop_step (n : Nat) (node : Node F) (t : Token F) (ts : List (Token F))
    (h : t.Type_ = PLUS ∨ t.Type_ = MINUS) :
    Parser.ExprLoop tokensNext (n + 1) node (Parser.onTokens (t :: ts)) =
      (Parser.Term tokensNext n >>= fun right =>
        Parser.ExprLoop tokensNext n (NewBinOp node t.Type_ right)) (Parser.onTokens ts) := by
  simp only [Parser.ExprLoop]
  rw [ParserM.bind_of_ok (Parser.currentToken_apply _), Parser.onTokens_CurrentToken, if_pos h]
  rcases h with h | h
  · rw [if_pos h, ParserM.bind_of_ok (Parser.Eat_tokens ts h)]
  · rw [if_neg (by rw [h]; decide), if_pos h, ParserM.bind_of_ok (Parser.Eat_tokens ts h)]

theorem endsExpr_not_term {rest : List (Token F)} (h : endsExpr rest) :
    ¬ ((Parser.onTokens rest).CurrentToken.Type_ = MUL
      ∨ (Parser.onTokens rest).CurrentToken.Type_ = INTEGERDIV
      ∨ (Parser.onTokens rest).CurrentToken.Type_ = FLOATDIV) := by
  simp only [endsExpr, isOperator, decide_eq_false_iff_not] at h
  tauto

theorem endsExpr_not_expr {rest : List (Token F)} (h : endsExpr rest) :
    ¬ ((Parser.onTokens rest).CurrentToken.Type_ = PLUS
      ∨ (Parser.onTokens rest).CurrentToken.Type_ = MINUS) := by
  simp only [endsExpr, isOperator, decide_eq_false_iff_not] at h
  tauto

/-- An integer-literal token is a factor. -/
theorem ParsesAsFactor_number (t : Token F) (h : t.Type_ = INTEGERCONST) :
    ParsesAsFactor [t] (Node.Num t t.Value) := by
  refine ⟨1, fun n hn rest => ?_⟩
  obtain ⟨m, rfl⟩ : ∃ m, n = m + 1 := ⟨n - 1, by omega⟩
  have h1 : ¬ t.Type_ = PLUS := by rw [h]; decide
  have h2 : ¬ t.Type_ = MINUS := by rw [h]; decide
  simp only [Parser.Factor, List.singleton_append]
  rw [ParserM.bind_of_ok (Parser.currentToken_apply _), Parser.onTokens_CurrentToken,
    if_neg h1, if_neg h2, if_pos h, ParserM.bind_of_ok (Parser.Eat_tokens rest h)]
  rfl

/-- An identifier token is a factor. -/
theorem ParsesAsFactor_ident (x : String) :
    ParsesAsFactor [(Token.ident x : Token F)] (Node.Var (Token.ident x) x) := by
  refine ⟨1, fun n hn rest => ?_⟩
  obtain ⟨m, rfl⟩ : ∃ m, n = m + 1 := ⟨n - 1, by omega⟩
  have h : (Token.ident x : Token F).Type_ = IDENT := rfl
  simp only [Parser.Factor, List.singleton_append]
  rw [ParserM.bind_of_ok (Parser.currentToken_apply _), Parser.onTokens_CurrentToken,
    if_neg (by rw [h]; decide), if_neg (by rw [h]; decide), if_neg (by rw [h]; decide),
    if_neg (by rw [h]; decide), if_neg (by rw [h]; decide)]
  simp only [Parser.Variable]
  rw [ParserM.bind_of_ok (Parser.currentToken_apply _), Parser.onTokens_CurrentToken,
    ParserM.bind_of_ok (Parser.Eat_tokens rest h)]
  rfl

/-- A sign in front of a factor is a factor. -/
theorem ParsesAsFactor_sign {ts : List (Token F)} {f : Node F} (t : Token F)
    (ht : t.Type_ = PLUS ∨ t.Type_ = MINUS) (h : ParsesAsFactor ts f) :
    ParsesAsFactor (t :: ts) (Node.UnaryOp t.Type_ f) := by
  obtain ⟨N, hN⟩ := h
  refine ⟨N + 1, fun n hn rest => ?_⟩
  obtain ⟨m, rfl⟩ : ∃ m, n = m + 1 := ⟨n - 1, by omega⟩
  simp only [Parser.Factor, List.cons_append]
  rw [ParserM.bind_of_ok (Parser.currentToken_apply _), Parser.onTokens_CurrentToken]
  rcases ht with ht | ht
  · rw [if_pos ht, ParserM.bind_of_ok (Parser.Eat_tokens _ ht),
      ParserM.bind_of_ok (hN m (by omega) rest), ht]
    rfl
  · rw [if_neg (by rw [ht]; decide), if_pos ht, ParserM.bind_of_ok (Parser.Eat_tokens _ ht),
      ParserM.bind_of_ok (hN m (by omega) rest), ht]
    rfl

/-- `Expr` on `f1 op f2` with `op` one of `+` and `-`. -/
theorem Parser.Expr_additive {ts1 ts2 : List (Token F)} {f1 f2 : Node F} (t : Token F)
    (ht : t.Type_ = PLUS ∨ t.Type_ = MINUS) (h1 : ParsesAsFactor ts1 f1)
    (h2 : ParsesAsFactor ts2 f2) :
    ∃ N, ∀ n, N ≤ n → ∀ rest, endsExpr rest →
      Parser.Expr tokensNext n (Parser.onTokens (ts1 ++ (t :: (ts2 ++ rest)))) =
      .ok (Node.BinOp t.Type_ f1 f2, Parser.onTokens rest) := by
  obtain ⟨N1, hN1⟩ := h1
  obtain ⟨N2, hN2⟩ := h2
  refine ⟨N1 + N2 + 4, fun n hn rest hrest => ?_⟩
  obtain ⟨e, rfl⟩ : ∃ e, n = e + 4 := ⟨n - 4, by omega⟩
  have hop : ¬ ((Parser.onTokens (t :: (ts2 ++ rest))).CurrentToken.Type_ = MUL
      ∨ (Parser.onTokens (t :: (ts2 ++ rest))).CurrentToken.Type_ = INTEGERDIV
      ∨ (Parser.onTokens (t :: (ts2 ++ rest))).CurrentToken.Type_ = FLOATDIV) := by
    rw [Parser.onTokens_CurrentToken]
    rcases ht with ht | ht <;> rw [ht] <;> decide
  have t1 := Parser.Term_single tokensNext (e + 1) _ _ f1 (hN1 (e + 2) (by omega) _) hop
  have t2 := Parser.Term_single tokensNext e _ _ f2 (hN2 (e + 1) (by omega) rest)
    (endsExpr_not_term hrest)
  simp only [Parser.Expr]
  rw [ParserM.bind_of_ok t1, Parser.ExprLoop_step (e + 2) f1 t _ ht, ParserM.bind_of_ok t2,
    Parser.ExprLoop_stop tokensNext (e + 1) _ _ (endsExpr_not_expr hrest)]
  rfl

/-- `Expr` on a single factor followed by a token that is no operator. -/
theorem Parser.Expr_single {ts : List (Token F)} {f : Node F} (h : ParsesAsFactor ts f) :
    ∃ N, ∀ n, N ≤ n → ∀ rest, endsExpr rest →
      Parser.Expr tokensNext n (Parser.onTokens (ts ++ rest)) =
      .ok (f, Parser.onTokens rest) := by
  obtain ⟨N, hN⟩ := h
  refine ⟨N + 3, fun n hn rest hrest => ?_⟩
  obtain ⟨e, rfl⟩ : ∃ e, n = e + 3 := ⟨n - 3, by omega⟩
  have t1 := Parser.Term_single tokensNext e _ _ f (hN (e + 1) (by omega) rest)
    (endsExpr_not_term hrest)
  simp only [Parser.Expr]
  rw [ParserM.bind_of_ok t1,
    Parser.ExprLoop_stop tokensNext (e + 1) _ _ (endsExpr_not_expr hrest)]

end ExpressionLemmas

/-! ## Statements -/

section StatementLemmas
variable {F : Type} [Float64 F]

theorem separatesOrStarts_endsExpr {rest : List (Token F)} (h : separatesOrStarts rest) :
    endsExpr rest := by
  unfold endsExpr isOperator
  rcases h with h | h | h <;> rw [h] <;> decide

/-- An assignment of a factor to an identifier is a statement. -/
theorem ParsesAsStatement_assign (x : String) (ta : Token F) (hta : ta.Type_ = ASSIGN)
    {ts : List (Token F)} {f : Node F} (h : ParsesAsFactor ts f) :
    ParsesAsStatement (Token.ident x :: ta :: ts)
      (Node.Assign (Node.Var (Token.ident x) x) ASSIGN f) := by
  obtain ⟨N, hN⟩ := Parser.Expr_single h
  refine ⟨N + 1, fun n hn rest hrest => ?_⟩
  obtain ⟨m, rfl⟩ : ∃ m, n = m + 1 := ⟨n - 1, by omega⟩
  have hid : (Token.ident x : Token F).Type_ = IDENT := rfl
  have hvar : Parser.Variable tokensNext
      (Parser.onTokens ((Token.ident x : Token F) :: ta :: (ts ++ rest))) =
      .ok (Node.Var (Token.ident x) x, Parser.onTokens (ta :: (ts ++ rest))) := by
    simp only [Parser.Variable]
    rw [ParserM.bind_of_ok (Parser.currentToken_apply _), Parser.onTokens_CurrentToken,
      ParserM.bind_of_ok (Parser.Eat_tokens _ hid)]
    rfl
  simp only [Parser.Statement, List.cons_append]
  rw [ParserM.bind_of_ok (Parser.currentToken_apply _), Parser.onTokens_CurrentToken,
    if_neg (by rw [hid]; decide), if_pos hid]
  simp only [Parser.AssignmentStatement]
  rw [ParserM.bind_of_ok hvar, ParserM.bind_of_ok (Parser.currentToken_apply _),
    Parser.onTokens_CurrentToken, ParserM.bind_of_ok (Parser.Eat_tokens _ hta),
    ParserM.bind_of_ok (hN m (by omega) rest (separatesOrStarts_endsExpr hrest)), hta]
  rfl

/-- A non-empty statement starts with an identifier or with `BEGIN`. -/
theorem ParsesAsStatement_head {s : List (Token F)} {node : Node F}
    (h : ParsesAsStatement s node) (hs : s ≠ []) :
    ∃ t ts, s = t :: ts ∧ (t.Type_ = IDENT ∨ t.Type_ = BEGIN) := by
  obtain ⟨N, hN⟩ := h
  cases s with
  | nil => exact absurd rfl hs
  | cons t ts =>
    refine ⟨t, ts, rfl, ?_⟩
    by_contra hno
    have hrun := hN (N + 1) (by omega) [Token.ofType SEMI] (Or.inl rfl)
    simp only [Parser.Statement, List.cons_append, Parser.Empty] at hrun
    rw [ParserM.bind_of_ok (Parser.currentToken_apply _), Parser.onTokens_CurrentToken,
      if_neg (fun hb => hno (Or.inr hb)), if_neg (fun hi => hno (Or.inl hi))] at hrun
    simp only [ParserM.pure_apply, Except.ok.injEq, Prod.mk.injEq] at hrun
    have hlex := congrArg Parser.lexer hrun.2
    simp [Parser.onTokens] at hlex

/-- A statement is also a statement in front of a `;`. -/
theorem ParsesAsStatement.beforeSemi {s : List (Token F)} {node : Node F}
    (h : ParsesAsStatement s node) : ParsesBeforeSemi s node := by
  obtain ⟨N, hN⟩ := h
  exact ⟨N, fun n hn rest => hN n hn _ (Or.inl rfl)⟩

/-- The empty statement in front of a `;`. -/
theorem ParsesBeforeSemi_nil : ParsesBeforeSemi ([] : List (Token F)) Node.NoOp := by
  refine ⟨1, fun n hn rest => ?_⟩
  obtain ⟨m, rfl⟩ : ∃ m, n = m + 1 := ⟨n - 1, by omega⟩
  simp only [Parser.Statement, List.nil_append, Parser.Empty]
  rw [ParserM.bind_of_ok (Parser.currentToken_apply _), Parser.onTokens_CurrentToken,
    if_neg (by rw [Token.ofType_Type]; decide), if_neg (by rw [Token.ofType_Type]; decide)]
  rfl

theorem ParsesAsDeclarations_nil : ParsesAsDeclarations ([] : List (Token F)) [] := by
  refine ⟨0, fun n _ rest => ?_⟩
  simp only [Parser.Declarations, List.nil_append]
  rw [ParserM.bind_of_ok (Parser.currentToken_apply _), Parser.onTokens_CurrentToken,
    if_neg (by rw [Token.ofType_Type]; decide)]
  rfl

/-- `CompoundStatement` panics with the syntax error when the statements
after its `BEGIN` fail to close. -/
theorem Parser.CompoundStatement_fails (n : Nat) (ts : List (Token F))
    (h : FailsToClose ((Parser.Statement tokensNext n >>= fun node =>
      Parser.StatementListLoop tokensNext n ([] ++ [node])) (Parser.onTokens ts))) :
    Parser.CompoundStatement tokensNext (n + 2) (Parser.onTokens (Token.ofType BEGIN :: ts)) =
      .error (.panic .invalidSyntax) := by
  simp only [Parser.CompoundStatement, Parser.StatementList]
  rw [ParserM.bind_of_ok (Parser.Eat_tokens ts (Token.ofType_Type BEGIN))]
  rw [ParserM.bind_apply, ParserM.bind_apply] at *
  rcases hs : Parser.Statement tokensNext n (Parser.onTokens ts) with e | ⟨node, p1⟩
  · rw [hs] at h
    simp only [FailsToClose] at h
    simp only [h]
  · rw [hs] at h
    simp only [List.nil_append] at h
    simp only
    rw [ParserM.bind_apply]
    rcases hl : Parser.StatementListLoop tokensNext n [node] p1 with e | ⟨results, p2⟩
    · rw [hl] at h
      simp only [FailsToClose] at h
      simp only [h]
    · rw [hl] at h
      simp only [FailsToClose] at h
      simp only
      rw [ParserM.bind_of_ok (Parser.currentToken_apply _)]
      by_cases hid : p2.CurrentToken.Type_ = IDENT
      · rw [if_pos hid]
        rfl
      · rw [if_neg hid, ParserM.pure_apply]
        simp only
        have hend : p2.CurrentToken.Type_ ≠ END := by
          rcases h with h | h
          · exact absurd h hid
          · exact h
        rw [ParserM.bind_of_error (Parser.Eat_mismatch tokensNext p2 hend)]

/-- With a missing separator, the statements of the block fail to close,
whatever was collected before them. -/
theorem MissingSeparator.failsToClose {ts : List (Token F)} (h : MissingSeparator ts) :
    ∃ N, ∀ n, N ≤ n → ∀ acc : List (Node F),
      FailsToClose ((Parser.Statement tokensNext n >>= fun node =>
        Parser.StatementListLoop tokensNext n (acc ++ [node])) (Parser.onTokens ts)) := by
  induction h with
  | here s1 s2 post n1 n2 h1 _ h2 hs2 =>
    obtain ⟨N1, hN1⟩ := h1
    obtain ⟨t, ts2, rfl, ht⟩ := ParsesAsStatement_head h2 hs2
    refine ⟨N1 + 1, fun n hn acc => ?_⟩
    obtain ⟨k, rfl⟩ : ∃ k, n = k + 1 := ⟨n - 1, by omega⟩
    have hsep : separatesOrStarts ((t :: ts2) ++ post) := by
      unfold separatesOrStarts
      rw [List.cons_append, Parser.onTokens_CurrentToken]
      exact Or.inr ht
    rw [ParserM.bind_of_ok (hN1 (k + 1) (by omega) _ hsep)]
    have hnosemi : ¬ (Parser.onTokens ((t :: ts2) ++ post)).CurrentToken.Type_ = SEMI := by
      rw [List.cons_append, Parser.onTokens_CurrentToken]
      rcases ht with ht | ht <;> rw [ht] <;> decide
    simp only [Parser.StatementListLoop]
    rw [ParserM.bind_of_ok (Parser.currentToken_apply _), if_neg hnosemi, ParserM.pure_apply]
    simp only [FailsToClose, List.cons_append, Parser.onTokens_CurrentToken]
    rcases ht with ht | ht
    · exact Or.inl ht
    · exact Or.inr (by rw [ht]; decide)
  | later s node ts hs _ ih =>
    obtain ⟨N1, hN1⟩ := hs
    obtain ⟨N2, hN2⟩ := ih
    refine ⟨N1 + N2 + 1, fun n hn acc => ?_⟩
    obtain ⟨k, rfl⟩ : ∃ k, n = k + 1 := ⟨n - 1, by omega⟩
    rw [ParserM.bind_of_ok (hN1 (k + 1) (by omega) ts)]
    simp only [Parser.StatementListLoop]
    rw [ParserM.bind_of_ok (Parser.currentToken_apply _), Parser.onTokens_CurrentToken,
      if_pos (Token.ofType_Type SEMI),
      ParserM.bind_of_ok (Parser.Eat_tokens ts (Token.ofType_Type SEMI))]
    exact hN2 k (by omega) (acc ++ [node])
  | inner ts _ ih =>
    obtain ⟨N, hN⟩ := ih
    refine ⟨N + 3, fun n hn acc => ?_⟩
    obtain ⟨k, rfl⟩ : ∃ k, n = k + 3 := ⟨n - 3, by omega⟩
    have hc := Parser.CompoundStatement_fails k ts (hN k (by omega) [])
    have hst : Parser.Statement tokensNext (k + 3)
        (Parser.onTokens ((Token.ofType BEGIN : Token F) :: ts)) =
        .error (.panic .invalidSyntax) := by
      simp only [Parser.Statement]
      rw [ParserM.bind_of_ok (Parser.currentToken_apply _), Parser.onTokens_CurrentToken,
        if_pos (Token.ofType_Type BEGIN)]
      exact hc
    rw [ParserM.bind_of_error hst]
    rfl

end StatementLemmas

/-! ## More fuel does not change an outcome -/

section FuelLemmas
variable {F σ : Type}

theorem ParserM.Extends_refl {α : Type} (A : ParserM F σ α) : ParserM.Extends A A :=
  fun _ _ => rfl

theorem ParserM.Extends_trans {α : Type} {A B C : ParserM F σ α}
    (h1 : ParserM.Extends A B) (h2 : ParserM.Extends B C) : ParserM.Extends A C := by
  intro p hp
  have hb := h1 p hp
  rw [h2 p (by rw [hb]; exact hp), hb]

theorem ParserM.Extends_of_fail {α : Type} (B : ParserM F σ α) :
    ParserM.Extends (ParserM.fail .outOfFuel) B :=
  fun _ hp => absurd rfl hp

theorem ParserM.Extends_bind {α β : Type} {A B : ParserM F σ α} {f g : α → ParserM F σ β}
    (h : ParserM.Extends A B) (hf : ∀ a, ParserM.Extends (f a) (g a)) :
    ParserM.Extends (A >>= f) (B >>= g) := by
  intro p hp
  rw [ParserM.bind_apply] at hp
  rw [ParserM.bind_apply, ParserM.bind_apply]
  rcases hA : A p with e | ⟨a, p1⟩
  · simp only [hA, ne_eq, Except.error.injEq] at hp
    have hB := h p (by rw [hA]; simpa using hp)
    rw [hB, hA]
  · simp only [hA] at hp
    have hB := h p (by rw [hA]; simp)
    rw [hB, hA]
    exact hf a p1 hp

theorem ParserM.Extends_ite {α : Type} {c : Prop} [Decidable c] {A B A1 B1 : ParserM F σ α}
    (h : c → ParserM.Extends A B) (h1 : ¬ c → ParserM.Extends A1 B1) :
    ParserM.Extends (if c then A else A1) (if c then B else B1) := by
  by_cases hc : c
  · rw [if_pos hc, if_pos hc]
    exact h hc
  · rw [if_neg hc, if_neg hc]
    exact h1 hc

variable (next : σ → Except Fail (Token F × σ))

/-- One more unit of fuel keeps every outcome of the expression methods. -/
theorem Parser.expr_fuel_succ : ∀ n : Nat,
    ParserM.Extends (Parser.Expr next n) (Parser.Expr next (n + 1)) ∧
    (∀ node, ParserM.Extends (Parser.ExprLoop next n node) (Parser.ExprLoop next (n + 1) node)) ∧
    ParserM.Extends (Parser.Term next n) (Parser.Term next (n + 1)) ∧
    (∀ node, ParserM.Extends (Parser.TermLoop next n node) (Parser.TermLoop next (n + 1) node)) ∧
    ParserM.Extends (Parser.Factor next n) (Parser.Factor next (n + 1))
  | 0 => by
    refine ⟨?_, fun _ => ?_, ?_, fun _ => ?_, ?_⟩ <;>
      first
        | (rw [Parser.Expr]; exact ParserM.Extends_of_fail _)
        | (rw [Parser.ExprLoop]; exact ParserM.Extends_of_fail _)
        | (rw [Parser.Term]; exact ParserM.Extends_of_fail _)
        | (rw [Parser.TermLoop]; exact ParserM.Extends_of_fail _)
        | (rw [Parser.Factor]; exact ParserM.Extends_of_fail _)
  | n + 1 => by
    obtain ⟨ihE, ihEL, ihT, ihTL, ihF⟩ := Parser.expr_fuel_succ n
    refine ⟨?_, fun node => ?_, ?_, fun node => ?_, ?_⟩
    · simp only [Parser.Expr]
      repeat' first
        | exact ihE | exact ihT | exact ihF | exact ihEL _ | exact ihTL _
        | exact ParserM.Extends_refl _
        | apply ParserM.Extends_bind
        | apply ParserM.Extends_ite
        | intro _
    · simp only [Parser.ExprLoop]
      repeat' first
        | exact ihE | exact ihT | exact ihF | exact ihEL _ | exact ihTL _
        | exact ParserM.Extends_refl _
        | apply ParserM.Extends_bind
        | apply ParserM.Extends_ite
        | intro _
    · simp only [Parser.Term]
      repeat' first
        | exact ihE | exact ihT | exact ihF | exact ihEL _ | exact ihTL _
        | exact ParserM.Extends_refl _
        | apply ParserM.Extends_bind
        | apply ParserM.Extends_ite
        | intro _
    · simp only [Parser.TermLoop]
      repeat' first
        | exact ihE | exact ihT | exact ihF | exact ihEL _ | exact ihTL _
        | exact ParserM.Extends_refl _
        | apply ParserM.Extends_bind
        | apply ParserM.Extends_ite
        | intro _
    · simp only [Parser.Factor]
      repeat' first
        | exact ihE | exact ihT | exact ihF | exact ihEL _ | exact ihTL _
        | exact ParserM.Extends_refl _
        | apply ParserM.Extends_bind
        | apply ParserM.Extends_ite
        | intro _

theorem Parser.VariableDeclarationLoop_fuel_succ : ∀ (n : Nat) (varnodes : List (Node F)),
    ParserM.Extends (Parser.VariableDeclarationLoop next n varnodes)
      (Parser.VariableDeclarationLoop next (n + 1) varnodes)
  | 0, _ => by
    rw [Parser.VariableDeclarationLoop]
    exact ParserM.Extends_of_fail _
  | n + 1, varnodes => by
    have ih := Parser.VariableDeclarationLoop_fuel_succ n
    simp only [Parser.VariableDeclarationLoop]
    repeat' first
      | exact ih _
      | exact ParserM.Extends_refl _
      | apply ParserM.Extends_bind
      | apply ParserM.Extends_ite
      | intro _

theorem Parser.VariableDeclaration_fuel_succ (n : Nat) :
    ParserM.Extends (Parser.VariableDeclaration (F := F) next n)
      (Parser.VariableDeclaration next (n + 1)) := by
  have ih := Parser.VariableDeclarationLoop_fuel_succ (F := F) next n
  simp only [Parser.VariableDeclaration]
  repeat' first
    | exact ih _
    | exact ParserM.Extends_refl _
    | apply ParserM.Extends_bind
    | apply ParserM.Extends_ite
    | intro _

theorem Parser.DeclarationsLoop_fuel_succ : ∀ (n : Nat) (declnodes : List (Node F)),
    ParserM.Extends (Parser.DeclarationsLoop next n declnodes)
      (Parser.DeclarationsLoop next (n + 1) declnodes)
  | 0, _ => by
    rw [Parser.DeclarationsLoop]
    exact ParserM.Extends_of_fail _
  | n + 1, declnodes => by
    have ih := Parser.DeclarationsLoop_fuel_succ n
    have ihV := Parser.VariableDeclaration_fuel_succ (F := F) next n
    simp only [Parser.DeclarationsLoop]
    repeat' first
      | exact ih _ | exact ihV
      | exact ParserM.Extends_refl _
      | apply ParserM.Extends_bind
      | apply ParserM.Extends_ite
      | intro _

theorem Parser.Declarations_fuel_succ (n : Nat) :
    ParserM.Extends (Parser.Declarations (F := F) next n) (Parser.Declarations next (n + 1)) := by
  have ih := Parser.DeclarationsLoop_fuel_succ (F := F) next n
  simp only [Parser.Declarations]
  repeat' first
    | exact ih _
    | exact ParserM.Extends_refl _
    | apply ParserM.Extends_bind
    | apply ParserM.Extends_ite
    | intro _

theorem Parser.AssignmentStatement_fuel_succ (n : Nat) :
    ParserM.Extends (Parser.AssignmentStatement (F := F) next n)
      (Parser.AssignmentStatement next (n + 1)) := by
  have ih := (Parser.expr_fuel_succ (F := F) next n).1
  simp only [Parser.AssignmentStatement]
  repeat' first
    | exact ih
    | exact ParserM.Extends_refl _
    | apply ParserM.Extends_bind
    | apply ParserM.Extends_ite
    | intro _

/-- One more unit of fuel keeps every outcome of the statement methods. -/
theorem Parser.statement_fuel_succ : ∀ n : Nat,
    ParserM.Extends (Parser.CompoundStatement (F := F) next n)
      (Parser.CompoundStatement next (n + 1)) ∧
    ParserM.Extends (Parser.StatementList (F := F) next n) (Parser.StatementList next (n + 1)) ∧
    (∀ results, ParserM.Extends (Parser.StatementListLoop (F := F) next n results)
      (Parser.StatementListLoop next (n + 1) results)) ∧
    ParserM.Extends (Parser.Statement (F := F) next n) (Parser.Statement next (n + 1))
  | 0 => by
    refine ⟨?_, ?_, fun _ => ?_, ?_⟩ <;>
      first
        | (rw [Parser.CompoundStatement]; exact ParserM.Extends_of_fail _)
        | (rw [Parser.StatementList]; exact ParserM.Extends_of_fail _)
        | (rw [Parser.StatementListLoop]; exact ParserM.Extends_of_fail _)
        | (rw [Parser.Statement]; exact ParserM.Extends_of_fail _)
  | n + 1 => by
    obtain ⟨ihC, ihL, ihLL, ihS⟩ := Parser.statement_fuel_succ n
    have ihA := Parser.AssignmentStatement_fuel_succ (F := F) next n
    refine ⟨?_, ?_, fun results => ?_, ?_⟩
    · simp only [Parser.CompoundStatement]
      repeat' first
        | exact ihC | exact ihL | exact ihS | exact ihA | exact ihLL _
        | exact ParserM.Extends_refl _
        | apply ParserM.Extends_bind
        | apply ParserM.Extends_ite
        | intro _
    · simp only [Parser.StatementList]
      repeat' first
        | exact ihC | exact ihL | exact ihS | exact ihA | exact ihLL _
        | exact ParserM.Extends_refl _
        | apply ParserM.Extends_bind
        | apply ParserM.Extends_ite
        | intro _
    · simp only [Parser.StatementListLoop]
      repeat' first
        | exact ihC | exact ihL | exact ihS | exact ihA | exact ihLL _
        | exact ParserM.Extends_refl _
        | apply ParserM.Extends_bind
        | apply ParserM.Extends_ite
        | intro _
    · simp only [Parser.Statement]
      repeat' first
        | exact ihC | exact ihL | exact ihS | exact ihA | exact ihLL _
        | exact ParserM.Extends_refl _
        | apply ParserM.Extends_bind
        | apply ParserM.Extends_ite
        | intro _

theorem Parser.Block_fuel_succ (n : Nat) :
    ParserM.Extends (Parser.Block (F := F) next n) (Parser.Block next (n + 1)) := by
  have ihD := Parser.Declarations_fuel_succ (F := F) next n
  have ihC := (Parser.statement_fuel_succ (F := F) next n).1
  simp only [Parser.Block]
  repeat' first
    | exact ihD | exact ihC
    | exact ParserM.Extends_refl _
    | apply ParserM.Extends_bind
    | apply ParserM.Extends_ite
    | intro _

theorem Parser.Program_fuel_succ (n : Nat) :
    ParserM.Extends (Parser.Program (F := F) next n) (Parser.Program next (n + 1)) := by
  have ihB := Parser.Block_fuel_succ (F := F) next n
  simp only [Parser.Program]
  repeat' first
    | exact ihB
    | exact ParserM.Extends_refl _
    | apply ParserM.Extends_bind
    | apply ParserM.Extends_ite
    | intro _

theorem Parser.Parse_fuel_succ (n : Nat) :
    ParserM.Extends (Parser.Parse (F := F) next n) (Parser.Parse next (n + 1)) := by
  have ihP := Parser.Program_fuel_succ (F := F) next n
  simp only [Parser.Parse]
  repeat' first
    | exact ihP
    | exact ParserM.Extends_refl _
    | apply ParserM.Extends_bind
    | apply ParserM.Extends_ite
    | intro _

/-- An outcome of `Parse` other than running out of fuel is its outcome with
any larger fuel. -/
theorem Parser.Parse_fuel_mono {n m : Nat} (h : n ≤ m) :
    ParserM.Extends (Parser.Parse (F := F) next n) (Parser.Parse next m) := by
  induction h with
  | refl => exact ParserM.Extends_refl _
  | step _ ih => exact ParserM.Extends_trans ih (Parser.Parse_fuel_succ next _)

end FuelLemmas

/-! ## Appending tokens to the input -/

section LocalBasics
variable {F : Type}

theorem ParserM.bind_eq_ok {σ α β : Type} {x : ParserM F σ α} {f : α → ParserM F σ β}
    {p p2 : Parser F σ} {b : β} (h : (x >>= f) p = .ok (b, p2)) :
    ∃ a p1, x p = .ok (a, p1) ∧ f a p1 = .ok (b, p2) := by
  rw [ParserM.bind_apply] at h
  rcases hx : x p with e | ⟨a, p1⟩
  · simp [hx] at h
  · rw [hx] at h
    exact ⟨a, p1, rfl, h⟩

theorem ParserM.Local_pure {α : Type} (a : α) :
    ParserM.Local (Pure.pure a : ParserM F (List (Token F)) α) := by
  intro p a1 p1 h
  simp only [ParserM.pure_apply, Except.ok.injEq, Prod.mk.injEq] at h
  obtain ⟨rfl, rfl⟩ := h
  exact ⟨⟨[], rfl⟩, fun _ => rfl, fun _ _ => rfl⟩

theorem ParserM.Local_fail {α : Type} (e : Fail) :
    ParserM.Local (ParserM.fail e : ParserM F (List (Token F)) α) := by
  intro p a1 p1 h
  simp [ParserM.fail_apply] at h

theorem ParserM.Local_Error {α : Type} :
    ParserM.Local (Parser.Error : ParserM F (List (Token F)) α) :=
  ParserM.Local_fail _

theorem ParserM.Local_currentToken :
    ParserM.Local (Parser.currentToken : ParserM F (List (Token F)) (Token F)) := by
  intro p a1 p1 h
  simp only [Parser.currentToken_apply, Except.ok.injEq, Prod.mk.injEq] at h
  obtain ⟨rfl, rfl⟩ := h
  exact ⟨⟨[], rfl⟩, fun _ => rfl, fun _ _ => rfl⟩

theorem ParserM.Local_bind {α β : Type} {A : ParserM F (List (Token F)) α}
    {f : α → ParserM F (List (Token F)) β} (hA : ParserM.Local A)
    (hf : ∀ a, ParserM.Local (f a)) : ParserM.Local (A >>= f) := by
  intro p b p2 h
  obtain ⟨a, p1, h1, h2⟩ := ParserM.bind_eq_ok h
  obtain ⟨⟨c1, hc1⟩, hs1, he1⟩ := hA p a p1 h1
  obtain ⟨⟨c2, hc2⟩, hs2, he2⟩ := hf a p1 b p2 h2
  refine ⟨⟨c1 ++ c2, by rw [hc1, hc2, List.append_assoc]⟩, ?_, ?_⟩
  · intro hp
    have hp1 := hs1 hp
    rw [hs2 (by rw [hp1]; exact hp), hp1]
  · intro hp2 e
    have hp1 : p1.CurrentToken.Type_ ≠ EOF := by
      intro hstuck
      rw [hs2 hstuck] at hp2
      exact hp2 hstuck
    rw [ParserM.bind_of_ok (he1 hp1 e)]
    exact he2 hp2 e

theorem ParserM.Local_ite {α : Type} {c : Prop} [Decidable c]
    {A B : ParserM F (List (Token F)) α} (hA : c → ParserM.Local A)
    (hB : ¬ c → ParserM.Local B) : ParserM.Local (if c then A else B) := by
  by_cases hc : c
  · rw [if_pos hc]
    exact hA hc
  · rw [if_neg hc]
    exact hB hc

end LocalBasics

section LocalLemmas
variable {F : Type} [Float64 F]

theorem ParserM.Local_Eat (T : Int) (hT : T ≠ EOF) :
    ParserM.Local (Parser.Eat (F := F) tokensNext T) := by
  intro p a p1 h
  have hcur : p.CurrentToken.Type_ = T := by
    by_contra hne
    rw [Parser.Eat_mismatch tokensNext p hne] at h
    simp at h
  obtain ⟨cur, lexer⟩ := p
  simp only at hcur
  cases lexer with
  | nil =>
    have h0 : Parser.Eat tokensNext T { CurrentToken := cur, lexer := ([] : List (Token F)) } =
        .ok ((), Parser.onTokens []) := by
      simp only [Parser.Eat, ParserM.bind_apply, Parser.currentToken_apply, hcur, if_true,
        Parser.advance_tokens]
    rw [h0] at h
    simp only [Except.ok.injEq, Prod.mk.injEq] at h
    obtain ⟨_, rfl⟩ := h
    refine ⟨⟨[], rfl⟩, fun hp => ?_, fun hp => ?_⟩
    · exact absurd (hcur.symm.trans hp) hT
    · exact absurd rfl hp
  | cons t l =>
    have h0 : ∀ e, Parser.Eat tokensNext T { CurrentToken := cur, lexer := (t :: l) ++ e } =
        .ok ((), Parser.onTokens (t :: (l ++ e))) := by
      intro e
      simp only [Parser.Eat, ParserM.bind_apply, Parser.currentToken_apply, hcur, if_true,
        Parser.advance_tokens, List.cons_append]
    have h1 := h0 []
    simp only [List.append_nil] at h1
    rw [h1] at h
    simp only [Except.ok.injEq, Prod.mk.injEq] at h
    obtain ⟨_, rfl⟩ := h
    refine ⟨⟨[t], rfl⟩, fun hp => ?_, fun _ e => ?_⟩
    · exact absurd (hcur.symm.trans hp) hT
    · exact h0 e

theorem ParserM.Local_Variable : ParserM.Local (Parser.Variable (F := F) tokensNext) := by
  simp only [Parser.Variable]
  repeat' first
    | exact ParserM.Local_pure _
    | exact ParserM.Local_fail _
    | exact ParserM.Local_Error
    | exact ParserM.Local_currentToken
    | exact ParserM.Local_Eat _ (by decide)
    | apply ParserM.Local_bind
    | apply ParserM.Local_ite
    | intro _

theorem ParserM.Local_TypeSpec : ParserM.Local (Parser.TypeSpec (F := F) tokensNext) := by
  simp only [Parser.TypeSpec]
  repeat' first
    | exact ParserM.Local_pure _
    | exact ParserM.Local_fail _
    | exact ParserM.Local_Error
    | exact ParserM.Local_currentToken
    | exact ParserM.Local_Eat _ (by decide)
    | exact ParserM.Local_Variable
    | apply ParserM.Local_bind
    | apply ParserM.Local_ite
    | intro _

/-- The expression methods look no further than their lookahead. -/
theorem Parser.expr_local : ∀ n : Nat,
    ParserM.Local (Parser.Expr (F := F) tokensNext n) ∧
    (∀ node, ParserM.Local (Parser.ExprLoop (F := F) tokensNext n node)) ∧
    ParserM.Local (Parser.Term (F := F) tokensNext n) ∧
    (∀ node, ParserM.Local (Parser.TermLoop (F := F) tokensNext n node)) ∧
    ParserM.Local (Parser.Factor (F := F) tokensNext n)
  | 0 => by
    refine ⟨?_, fun _ => ?_, ?_, fun _ => ?_, ?_⟩ <;>
      first
        | (rw [Parser.Expr]; exact ParserM.Local_fail _)
        | (rw [Parser.ExprLoop]; exact ParserM.Local_fail _)
        | (rw [Parser.Term]; exact ParserM.Local_fail _)
        | (rw [Parser.TermLoop]; exact ParserM.Local_fail _)
        | (rw [Parser.Factor]; exact ParserM.Local_fail _)
  | n + 1 => by
    obtain ⟨ihE, ihEL, ihT, ihTL, ihF⟩ := Parser.expr_local n
    refine ⟨?_, fun node => ?_, ?_, fun node => ?_, ?_⟩
    · simp only [Parser.Expr]
      repeat' first
        | exact ihE | exact ihT | exact ihF | exact ihEL _ | exact ihTL _
        | exact ParserM.Local_pure _
        | exact ParserM.Local_fail _
        | exact ParserM.Local_Error
        | exact ParserM.Local_currentToken
        | exact ParserM.Local_Eat _ (by decide)
        | exact ParserM.Local_Variable
        | apply ParserM.Local_bind
        | apply ParserM.Local_ite
        | intro _
    · simp only [Parser.ExprLoop]
      repeat' first
        | exact ihE | exact ihT | exact ihF | exact ihEL _ | exact ihTL _
        | exact ParserM.Local_pure _
        | exact ParserM.Local_fail _
        | exact ParserM.Local_Error
        | exact ParserM.Local_currentToken
        | exact ParserM.Local_Eat _ (by decide)
        | exact ParserM.Local_Variable
        | apply ParserM.Local_bind
        | apply ParserM.Local_ite
        | intro _
    · simp only [Parser.Term]
      repeat' first
        | exact ihE | exact ihT | exact ihF | exact ihEL _ | exact ihTL _
        | exact ParserM.Local_pure _
        | exact ParserM.Local_fail _
        | exact ParserM.Local_Error
        | exact ParserM.Local_currentToken
        | exact ParserM.Local_Eat _ (by decide)
        | exact ParserM.Local_Variable
        | apply ParserM.Local_bind
        | apply ParserM.Local_ite
        | intro _
    · simp only [Parser.TermLoop]
      repeat' first
        | exact ihE | exact ihT | exact ihF | exact ihEL _ | exact ihTL _
        | exact ParserM.Local_pure _
        | exact ParserM.Local_fail _
        | exact ParserM.Local_Error
        | exact ParserM.Local_currentToken
        | exact ParserM.Local_Eat _ (by decide)
        | exact ParserM.Local_Variable
        | apply ParserM.Local_bind
        | apply ParserM.Local_ite
        | intro _
    · simp only [Parser.Factor]
      repeat' first
        | exact ihE | exact ihT | exact ihF | exact ihEL _ | exact ihTL _
        | exact ParserM.Local_pure _
        | exact ParserM.Local_fail _
        | exact ParserM.Local_Error
        | exact ParserM.Local_currentToken
        | exact ParserM.Local_Eat _ (by decide)
        | exact ParserM.Local_Variable
        | apply ParserM.Local_bind
        | apply ParserM.Local_ite
        | intro _

theorem Parser.VariableDeclarationLoop_local : ∀ (n : Nat) (varnodes : List (Node F)),
    ParserM.Local (Parser.VariableDeclarationLoop tokensNext n varnodes)
  | 0, _ => by
    rw [Parser.VariableDeclarationLoop]
    exact ParserM.Local_fail _
  | n + 1, varnodes => by
    have ih := Parser.VariableDeclarationLoop_local n
    simp only [Parser.VariableDeclarationLoop]
    repeat' first
      | exact ih _
      | exact ParserM.Local_pure _
      | exact ParserM.Local_fail _
      | exact ParserM.Local_Error
      | exact ParserM.Local_currentToken
      | exact ParserM.Local_Eat _ (by decide)
      | exact ParserM.Local_Variable
      | apply ParserM.Local_bind
      | apply ParserM.Local_ite
      | intro _

theorem Parser.VariableDeclaration_local (n : Nat) :
    ParserM.Local (Parser.VariableDeclaration (F := F) tokensNext n) := by
  have ih := Parser.VariableDeclarationLoop_local (F := F) n
  simp only [Parser.VariableDeclaration]
  repeat' first
    | exact ih _ | exact ParserM.Local_TypeSpec
    | exact ParserM.Local_pure _
    | exact ParserM.Local_fail _
    | exact ParserM.Local_Error
    | exact ParserM.Local_currentToken
    | exact ParserM.Local_Eat _ (by decide)
    | exact ParserM.Local_Variable
    | apply ParserM.Local_bind
    | apply ParserM.Local_ite
    | intro _

theorem Parser.DeclarationsLoop_local : ∀ (n : Nat) (declnodes : List (Node F)),
    ParserM.Local (Parser.DeclarationsLoop tokensNext n declnodes)
  | 0, _ => by
    rw [Parser.DeclarationsLoop]
    exact ParserM.Local_fail _
  | n + 1, declnodes => by
    have ih := Parser.DeclarationsLoop_local n
    have ihV := Parser.VariableDeclaration_local (F := F) n
    simp only [Parser.DeclarationsLoop]
    repeat' first
      | exact ih _ | exact ihV
      | exact ParserM.Local_pure _
      | exact ParserM.Local_fail _
      | exact ParserM.Local_Error
      | exact ParserM.Local_currentToken
      | exact ParserM.Local_Eat _ (by decide)
      | exact ParserM.Local_Variable
      | apply ParserM.Local_bind
      | apply ParserM.Local_ite
      | intro _

theorem Parser.Declarations_local (n : Nat) :
    ParserM.Local (Parser.Declarations (F := F) tokensNext n) := by
  have ih := Parser.DeclarationsLoop_local (F := F) n
  simp only [Parser.Declarations]
  repeat' first
    | exact ih _
    | exact ParserM.Local_pure _
    | exact ParserM.Local_fail _
    | exact ParserM.Local_Error
    | exact ParserM.Local_currentToken
    | exact ParserM.Local_Eat _ (by decide)
    | exact ParserM.Local_Variable
    | apply ParserM.Local_bind
    | apply ParserM.Local_ite
    | intro _

theorem Parser.AssignmentStatement_local (n : Nat) :
    ParserM.Local (Parser.AssignmentStatement (F := F) tokensNext n) := by
  have ih := (Parser.expr_local (F := F) n).1
  simp only [Parser.AssignmentStatement]
  repeat' first
    | exact ih
    | exact ParserM.Local_pure _
    | exact ParserM.Local_fail _
    | exact ParserM.Local_Error
    | exact ParserM.Local_currentToken
    | exact ParserM.Local_Eat _ (by decide)
    | exact ParserM.Local_Variable
    | apply ParserM.Local_bind
    | apply ParserM.Local_ite
    | intro _

/-- The statement methods look no further than their lookahead. -/
theorem Parser.statement_local : ∀ n : Nat,
    ParserM.Local (Parser.CompoundStatement (F := F) tokensNext n) ∧
    ParserM.Local (Parser.StatementList (F := F) tokensNext n) ∧
    (∀ results, ParserM.Local (Parser.StatementListLoop (F := F) tokensNext n results)) ∧
    ParserM.Local (Parser.Statement (F := F) tokensNext n)
  | 0 => by
    refine ⟨?_, ?_, fun _ => ?_, ?_⟩ <;>
      first
        | (rw [Parser.CompoundStatement]; exact ParserM.Local_fail _)
        | (rw [Parser.StatementList]; exact ParserM.Local_fail _)
        | (rw [Parser.StatementListLoop]; exact ParserM.Local_fail _)
        | (rw [Parser.Statement]; exact ParserM.Local_fail _)
  | n + 1 => by
    obtain ⟨ihC, ihL, ihLL, ihS⟩ := Parser.statement_local n
    have ihA := Parser.AssignmentStatement_local (F := F) n
    refine ⟨?_, ?_, fun results => ?_, ?_⟩
    · simp only [Parser.CompoundStatement]
      repeat' first
        | exact ihC | exact ihL | exact ihS | exact ihA | exact ihLL _
        | exact ParserM.Local_pure _
        | exact ParserM.Local_fail _
        | exact ParserM.Local_Error
        | exact ParserM.Local_currentToken
        | exact ParserM.Local_Eat _ (by decide)
        | exact ParserM.Local_Variable
        | apply ParserM.Local_bind
        | apply ParserM.Local_ite
        | intro _
    · simp only [Parser.StatementList]
      repeat' first
        | exact ihC | exact ihL | exact ihS | exact ihA | exact ihLL _
        | exact ParserM.Local_pure _
        | exact ParserM.Local_fail _
        | exact ParserM.Local_Error
        | exact ParserM.Local_currentToken
        | exact ParserM.Local_Eat _ (by decide)
        | exact ParserM.Local_Variable
        | apply ParserM.Local_bind
        | apply ParserM.Local_ite
        | intro _
    · simp only [Parser.StatementListLoop]
      repeat' first
        | exact ihC | exact ihL | exact ihS | exact ihA | exact ihLL _
        | exact ParserM.Local_pure _
        | exact ParserM.Local_fail _
        | exact ParserM.Local_Error
        | exact ParserM.Local_currentToken
        | exact ParserM.Local_Eat _ (by decide)
        | exact ParserM.Local_Variable
        | apply ParserM.Local_bind
        | apply ParserM.Local_ite
        | intro _
    · simp only [Parser.Statement, Parser.Empty]
      repeat' first
        | exact ihC | exact ihL | exact ihS | exact ihA | exact ihLL _
        | exact ParserM.Local_pure _
        | exact ParserM.Local_fail _
        | exact ParserM.Local_Error
        | exact ParserM.Local_currentToken
        | exact ParserM.Local_Eat _ (by decide)
        | exact ParserM.Local_Variable
        | apply ParserM.Local_bind
        | apply ParserM.Local_ite
        | intro _

theorem Parser.Block_local (n : Nat) : ParserM.Local (Parser.Block (F := F) tokensNext n) := by
  have ihD := Parser.Declarations_local (F := F) n
  have ihC := (Parser.statement_local (F := F) n).1
  simp only [Parser.Block]
  repeat' first
    | exact ihD | exact ihC
    | exact ParserM.Local_pure _
    | exact ParserM.Local_fail _
    | exact ParserM.Local_Error
    | exact ParserM.Local_currentToken
    | exact ParserM.Local_Eat _ (by decide)
    | exact ParserM.Local_Variable
    | apply ParserM.Local_bind
    | apply ParserM.Local_ite
    | intro _

theorem ParserM.Final_last {α : Type} (T : Int) (hT : T ≠ EOF) (b : α) :
    ParserM.Final (Parser.Eat (F := F) tokensNext T >>= fun _ => Pure.pure b) := by
  intro p a p1 h
  obtain ⟨u, p2, h1, h2⟩ := ParserM.bind_eq_ok h
  simp only [ParserM.pure_apply, Except.ok.injEq, Prod.mk.injEq] at h2
  obtain ⟨rfl, rfl⟩ := h2
  have hcur : p.CurrentToken.Type_ = T := by
    by_contra hne
    rw [Parser.Eat_mismatch tokensNext p hne] at h1
    simp at h1
  refine ⟨by rw [hcur]; exact hT, fun hts hp e => ?_⟩
  obtain ⟨cur, lexer⟩ := p
  simp only at hcur
  cases lexer with
  | nil =>
    have h0 : Parser.Eat tokensNext T (Parser.extend e { CurrentToken := cur, lexer := [] }) =
        .ok ((), Parser.onTokens e) := by
      simp only [Parser.Eat, Parser.extend, ParserM.bind_apply, Parser.currentToken_apply, hcur,
        if_true, Parser.advance_tokens, List.nil_append]
    rw [ParserM.bind_of_ok h0]
    rfl
  | cons t l =>
    have h0 : Parser.Eat tokensNext T { CurrentToken := cur, lexer := t :: l } =
        .ok ((), Parser.onTokens (t :: l)) := by
      simp only [Parser.Eat, ParserM.bind_apply, Parser.currentToken_apply, hcur, if_true,
        Parser.advance_tokens]
    rw [h0] at h1
    simp only [Except.ok.injEq, Prod.mk.injEq, true_and] at h1
    rw [← h1] at hp
    exact absurd hp (hts t (List.mem_cons_self t l))

theorem ParserM.Final_bind {α β : Type} {A : ParserM F (List (Token F)) α}
    {f : α → ParserM F (List (Token F)) β} (hA : ParserM.Local A)
    (hf : ∀ a, ParserM.Final (f a)) : ParserM.Final (A >>= f) := by
  intro p b p2 h
  obtain ⟨a, p1, h1, h2⟩ := ParserM.bind_eq_ok h
  obtain ⟨⟨c1, hc1⟩, hs1, he1⟩ := hA p a p1 h1
  obtain ⟨hne, hext⟩ := hf a p1 b p2 h2
  refine ⟨fun hp => ?_, fun hts hp2 e => ?_⟩
  · rw [hs1 hp] at hne
    exact hne hp
  · rw [ParserM.bind_of_ok (he1 hne e)]
    refine hext (fun t ht => hts t ?_) hp2 e
    rw [hc1]
    exact List.mem_append_right c1 ht

/-- `Program` ends by consuming the final `.`. -/
theorem Parser.Program_final (n : Nat) :
    ParserM.Final (Parser.Program (F := F) tokensNext n) := by
  simp only [Parser.Program]
  refine ParserM.Final_bind (ParserM.Local_Eat _ (by decide)) fun _ => ?_
  refine ParserM.Final_bind ParserM.Local_Variable fun varnode => ?_
  refine ParserM.Final_bind ?_ fun programname => ?_
  · cases varnode <;> first | exact ParserM.Local_pure _ | exact ParserM.Local_fail _
  refine ParserM.Final_bind (ParserM.Local_Eat _ (by decide)) fun _ => ?_
  refine ParserM.Final_bind (Parser.Block_local n) fun blocknode => ?_
  exact ParserM.Final_last _ (by decide) _

theorem parseTokens_eq_ok {n : Nat} {ts : List (Token F)} {tree : Node F}
    (h : parseTokens n ts = .ok tree) :
    ∃ p1, Parser.Parse tokensNext n (NewParser ts) = .ok (tree, p1) := by
  unfold parseTokens at h
  rcases hp : Parser.Parse tokensNext n (NewParser ts) with e | ⟨a, p1⟩
  · simp [hp, Except.map] at h
  · simp only [hp, Except.map, Except.ok.injEq] at h
    exact ⟨p1, by rw [h]⟩

/-- `Parse` on a token sequence: pull the first token, run `Program`, and
require the lookahead to be at end of input. -/
theorem Parser.Parse_tokens (n : Nat) (ts : List (Token F)) :
    Parser.Parse tokensNext n (NewParser ts) =
      (match Parser.Program tokensNext n (Parser.onTokens ts) with
        | .ok (node, p1) =>
          if p1.CurrentToken.Type_ ≠ EOF then .error (.panic .invalidSyntax)
          else .ok (node, p1)
        | .error e => .error e) := by
  simp only [Parser.Parse, NewParser]
  rw [ParserM.bind_of_ok (Parser.advance_tokens _ ts), ParserM.bind_apply]
  rcases Parser.Program tokensNext n (Parser.onTokens ts) with e | ⟨node, p1⟩
  · rfl
  · simp only
    rw [ParserM.bind_of_ok (Parser.currentToken_apply _)]
    split <;> rfl

theorem parseTokens_fuel_mono {n m : Nat} {ts : List (Token F)} {r : Except Fail (Node F)}
    (hnm : n ≤ m) (h : parseTokens n ts = r) (hr : r ≠ .error .outOfFuel) :
    parseTokens m ts = r := by
  unfold parseTokens at h ⊢
  have hne : Parser.Parse tokensNext n (NewParser ts) ≠ .error .outOfFuel := by
    intro he
    rw [he] at h
    exact hr h.symm
  rw [Parser.Parse_fuel_mono tokensNext hnm _ hne]
  exact h

end LocalLemmas

/-! ## Running a source text -/

section RunLemmas
variable {F : Type} [Float64 F]

theorem run_of_parseText {n : Nat} {text : List Char} {tree : Node F}
    (h : parseText n text = .ok tree) : run n text = .ok (Interpret tree) := by
  simp [run, h, bind, Except.bind, pure, Except.pure]

end RunLemmas

/-! ## The table during a walk -/

section TableLemmas
variable {F : Type}

theorem andThen_fst_eq {α β : Type} {r : Scope F × Except Panic α}
    {k : Scope F → α → Scope F × Except Panic β} {G : Scope F} (hr : r.1 = G)
    (hk : ∀ a, (k G a).1 = G) : (andThen r k).1 = G := by
  obtain ⟨G1, x⟩ := r
  simp only at hr
  subst hr
  cases x with
  | error e => rfl
  | ok a => exact hk a

theorem Scope.keysLe_refl (G : Scope F) : Scope.keysLe G G := fun _ h => h

theorem Scope.keysLe_trans {G G1 G2 : Scope F} (h1 : Scope.keysLe G G1)
    (h2 : Scope.keysLe G1 G2) : Scope.keysLe G G2 := fun k h => h2 k (h1 k h)

theorem Scope.keysLe_set (G : Scope F) (x : String) (v : F) : Scope.keysLe G (G.set x v) := by
  intro k h
  rw [Scope.set_isSome]
  exact Or.inr h

theorem andThen_keysLe {α β : Type} {r : Scope F × Except Panic α}
    {k : Scope F → α → Scope F × Except Panic β} {G : Scope F} (hr : Scope.keysLe G r.1)
    (hk : ∀ G1 a, Scope.keysLe G1 (k G1 a).1) : Scope.keysLe G (andThen r k).1 := by
  obtain ⟨G1, x⟩ := r
  cases x with
  | error e => exact hr
  | ok a => exact Scope.keysLe_trans hr (hk G1 a)

end TableLemmas

section WalkTable
variable {F : Type} [Float64 F]

mutual
/-- A tree without `Assign` nodes leaves the table as it found it, whether
the walk returns or panics. -/
theorem Visit_noAssign_table : ∀ (n : Node F) (G : Scope F), n.hasAssign = false →
    (Visit G n).1 = G
  | .BinOp op l r, G, h => by
    simp only [Node.hasAssign, Bool.or_eq_false_iff] at h
    have hl := Visit_noAssign_table l G h.1
    have hr := fun G1 => Visit_noAssign_table r G1 h.2
    simp only [Visit]
    split_ifs <;>
      first
        | rfl
        | exact andThen_fst_eq hl fun a => andThen_fst_eq (hr G) fun b => rfl
  | .UnaryOp op e, G, h => by
    simp only [Node.hasAssign] at h
    have he := Visit_noAssign_table e G h
    simp only [Visit]
    split_ifs <;>
      first
        | rfl
        | exact andThen_fst_eq he fun a => rfl
  | .Num _ _, G, _ => rfl
  | .Compound cs, G, h => by
    simp only [Node.hasAssign] at h
    simp only [Visit]
    exact andThen_fst_eq (VisitAll_noAssign_table cs G h) fun a => rfl
  | .Assign _ _ _, _, h => by simp [Node.hasAssign] at h
  | .Var _ x, G, _ => by
    simp only [Visit]
    cases G x <;> rfl
  | .NoOp, G, _ => rfl
  | .Program _ b, G, h => by
    simp only [Node.hasAssign] at h
    simp only [Visit]
    exact Visit_noAssign_table b G h
  | .Block ds c, G, h => by
    simp only [Node.hasAssign, Bool.or_eq_false_iff] at h
    simp only [Visit]
    exact andThen_fst_eq (VisitAll_noAssign_table ds G h.1) fun a =>
      andThen_fst_eq (Visit_noAssign_table c G h.2) fun b => rfl
  | .VarDecl _ _, G, _ => rfl
  | .TypeN _ _, G, _ => rfl
/-- The list form of `Visit_noAssign_table`. -/
theorem VisitAll_noAssign_table : ∀ (ns : List (Node F)) (G : Scope F),
    Node.hasAssignAny ns = false → (VisitAll G ns).1 = G
  | [], G, _ => rfl
  | n :: ns, G, h => by
    simp only [Node.hasAssignAny, Bool.or_eq_false_iff] at h
    simp only [VisitAll]
    exact andThen_fst_eq (Visit_noAssign_table n G h.1) fun a =>
      VisitAll_noAssign_table ns G h.2
end

mutual
/-- Every name bound before a walk is bound in the table the walk leaves,
whether it returns or panics. -/
theorem Visit_keysLe : ∀ (n : Node F) (G : Scope F), Scope.keysLe G (Visit G n).1
  | .BinOp op l r, G => by
    have key : ∀ f : F → F → F, Scope.keysLe G
        (andThen (Visit G l) fun G1 a => andThen (Visit G1 r) fun G2 b =>
          (G2, Except.ok (f a b))).1 := fun f =>
      andThen_keysLe (Visit_keysLe l G) fun G1 a =>
        andThen_keysLe (Visit_keysLe r G1) fun G2 b => Scope.keysLe_refl G2
    simp only [Visit]
    split_ifs <;> first | exact key _ | exact Scope.keysLe_refl G
  | .UnaryOp op e, G => by
    have key : ∀ f : F → F, Scope.keysLe G
        (andThen (Visit G e) fun G1 a => (G1, Except.ok (f a))).1 := fun f =>
      andThen_keysLe (Visit_keysLe e G) fun G1 a => Scope.keysLe_refl G1
    simp only [Visit]
    split_ifs <;> first | exact key _ | exact Scope.keysLe_refl G
  | .Num _ _, G => Scope.keysLe_refl G
  | .Compound cs, G => by
    simp only [Visit]
    exact andThen_keysLe (VisitAll_keysLe cs G) fun G1 a => Scope.keysLe_refl G1
  | .Assign left _ right, G => by
    cases left with
    | Var t x =>
      simp only [Visit]
      exact andThen_keysLe (Visit_keysLe right G) fun G1 a => Scope.keysLe_set G1 x a
    | BinOp _ _ _ => exact Scope.keysLe_refl G
    | UnaryOp _ _ => exact Scope.keysLe_refl G
    | Num _ _ => exact Scope.keysLe_refl G
    | Compound _ => exact Scope.keysLe_refl G
    | Assign _ _ _ => exact Scope.keysLe_refl G
    | NoOp => exact Scope.keysLe_refl G
    | Program _ _ => exact Scope.keysLe_refl G
    | Block _ _ => exact Scope.keysLe_refl G
    | VarDecl _ _ => exact Scope.keysLe_refl G
    | TypeN _ _ => exact Scope.keysLe_refl G
  | .Var _ x, G => by
    simp only [Visit]
    cases G x <;> exact Scope.keysLe_refl G
  | .NoOp, G => Scope.keysLe_refl G
  | .Program _ b, G => by
    simp only [Visit]
    exact Visit_keysLe b G
  | .Block ds c, G => by
    simp only [Visit]
    exact andThen_keysLe (VisitAll_keysLe ds G) fun G1 a =>
      andThen_keysLe (Visit_keysLe c G1) fun G2 b => Scope.keysLe_refl G2
  | .VarDecl _ _, G => Scope.keysLe_refl G
  | .TypeN _ _, G => Scope.keysLe_refl G
/-- The list form of `Visit_keysLe`. -/
theorem VisitAll_keysLe : ∀ (ns : List (Node F)) (G : Scope F),
    Scope.keysLe G (VisitAll G ns).1
  | [], G => Scope.keysLe_refl G
  | n :: ns, G => by
    simp only [VisitAll]
    exact andThen_keysLe (Visit_keysLe n G) fun G1 a => VisitAll_keysLe ns G1
end

end WalkTable

/-! ## The lexer: outcomes of one call -/

section LexerOutcome
variable {F : Type} [Float64 F]

theorem Except.bind_eq_ok_iff {ε α β : Type} {x : Except ε α} {f : α → Except ε β} {b : β} :
    (x >>= f) = .ok b ↔ ∃ a, x = .ok a ∧ f a = .ok b := by
  cases x with
  | error e => simp [bind, Except.bind]
  | ok a => simp [bind, Except.bind]

/-- At the sentinel `0` the call returns the end-of-input token and leaves
the lexer as it is. -/
theorem Lexer.GetNextToken_nul (n : Nat) (l : Lexer) (h : l.CurrentChar = NUL) :
    Lexer.GetNextToken (F := F) (n + 1) l = .ok (Token.ofType EOF, l) := by
  simp only [Lexer.GetNextToken, h]
  simp +decide
  rfl

theorem Lexer.GetNextToken_space (n : Nat) (l : Lexer) (h : isSpace l.CurrentChar = true) :
    Lexer.GetNextToken (F := F) (n + 1) l =
      l.SkipWhitespace n >>= fun l1 => Lexer.GetNextToken n l1 := by
  have h0 : (l.CurrentChar != NUL) = true := by
    simp only [bne_iff_ne, ne_eq]
    intro hc
    rw [hc] at h
    exact absurd h (by decide)
  simp only [Lexer.GetNextToken, h0, h, if_true]

theorem Lexer.GetNextToken_alpha (n : Nat) (l : Lexer) (h : isAlpha l.CurrentChar = true) :
    Lexer.GetNextToken (F := F) (n + 1) l = Lexer.ID n l := by
  have h0 : (l.CurrentChar != NUL) = true := by
    simp only [bne_iff_ne, ne_eq]
    intro hc
    rw [hc] at h
    exact absurd h (by decide)
  have h1 : isSpace l.CurrentChar = false := by
    simp only [isAlpha, isSpace] at h ⊢
    by_contra hs
    simp only [Bool.not_eq_false, Bool.or_eq_true, decide_eq_true_eq] at hs
    rcases hs with ((hs | hs) | hs) | hs <;> rw [hs] at h <;> exact absurd h (by decide)
  simp only [Lexer.GetNextToken, h0, h1, h, if_true]
  simp

theorem Lexer.GetNextToken_digit (n : Nat) (l : Lexer) (h : isDigit l.CurrentChar = true) :
    Lexer.GetNextToken (F := F) (n + 1) l = Lexer.Number n l := by
  have hc : '0' ≤ l.CurrentChar ∧ l.CurrentChar ≤ '9' := by
    simpa [isDigit] using h
  have hv : 48 ≤ l.CurrentChar.val.toNat ∧ l.CurrentChar.val.toNat ≤ 57 := hc
  have h0 : (l.CurrentChar != NUL) = true := by
    simp only [bne_iff_ne, ne_eq]
    intro hc
    rw [hc] at h
    exact absurd h (by decide)
  have h1 : isSpace l.CurrentChar = false := by
    simp only [isSpace]
    by_contra hs
    simp only [Bool.not_eq_false, Bool.or_eq_true, decide_eq_true_eq] at hs
    rcases hs with ((hs | hs) | hs) | hs <;> rw [hs] at h <;> exact absurd h (by decide)
  have h2 : isAlpha l.CurrentChar = false := by
    have ha : ¬ ('a' ≤ l.CurrentChar) := fun (hle : 97 ≤ l.CurrentChar.val.toNat) => by omega
    have hA : ¬ ('A' ≤ l.CurrentChar) := fun (hle : 65 ≤ l.CurrentChar.val.toNat) => by omega
    simp [isAlpha, ha, hA]
  simp only [Lexer.GetNextToken, h0, h1, h2, h, if_true]
  simp

theorem Lexer.GetNextToken_colon (n : Nat) (l : Lexer) (h : l.CurrentChar = ':') :
    Lexer.GetNextToken (F := F) (n + 1) l =
      l.Peek >>= fun c =>
        if c = '=' then
          l.Advance >>= fun l1 => l1.Advance >>= fun l2 => pure (Token.ofType ASSIGN, l2)
        else l.Advance >>= fun l1 => pure (Token.ofType COLON, l1) := by
  simp only [Lexer.GetNextToken, h]
  simp +decide only [NUL, if_true, if_false, bind_assoc, pure_bind]
  cases l.Peek with
  | error e => rfl
  | ok c =>
    by_cases hc : c = '=' <;> simp [hc, bind, Except.bind]

theorem Lexer.GetNextToken_comment (n : Nat) (l : Lexer) (h : l.CurrentChar = '{') :
    Lexer.GetNextToken (F := F) (n + 1) l =
      l.Advance >>= fun l1 => Lexer.SkipComment n l1 >>= fun l2 =>
        Lexer.GetNextToken n l2 := by
  simp only [Lexer.GetNextToken, h]
  simp +decide [NUL]

theorem Lexer.symbol_eq_some {c : Char} {T : Int} (h : Lexer.symbol c = some T) :
    (c = ';' ∧ T = SEMI) ∨ (c = ':' ∧ T = COLON) ∨ (c = ',' ∧ T = COMMA) ∨
    (c = '+' ∧ T = PLUS) ∨ (c = '-' ∧ T = MINUS) ∨ (c = '*' ∧ T = MUL) ∨
    (c = '/' ∧ T = FLOATDIV) ∨ (c = '(' ∧ T = LPAREN) ∨ (c = ')' ∧ T = RPAREN) ∨
    (c = '.' ∧ T = DOT) := by
  unfold Lexer.symbol at h
  by_cases h1 : c = ';'
  · rw [if_pos h1] at h
    exact Or.inl ⟨h1, (Option.some.inj h).symm⟩
  rw [if_neg h1] at h
  by_cases h2 : c = ':'
  · rw [if_pos h2] at h
    exact Or.inr (Or.inl ⟨h2, (Option.some.inj h).symm⟩)
  rw [if_neg h2] at h
  by_cases h3 : c = ','
  · rw [if_pos h3] at h
    exact Or.inr (Or.inr (Or.inl ⟨h3, (Option.some.inj h).symm⟩))
  rw [if_neg h3] at h
  by_cases h4 : c = '+'
  · rw [if_pos h4] at h
    exact Or.inr (Or.inr (Or.inr (Or.inl ⟨h4, (Option.some.inj h).symm⟩)))
  rw [if_neg h4] at h
  by_cases h5 : c = '-'
  · rw [if_pos h5] at h
    exact Or.inr (Or.inr (Or.inr (Or.inr (Or.inl ⟨h5, (Option.some.inj h).symm⟩))))
  rw [if_neg h5] at h
  by_cases h6 : c = '*'
  · rw [if_pos h6] at h
    exact Or.inr (Or.inr (Or.inr (Or.inr (Or.inr (Or.inl ⟨h6, (Option.some.inj h).symm⟩)))))
  rw [if_neg h6] at h
  by_cases h7 : c = '/'
  · rw [if_pos h7] at h
    exact Or.inr (Or.inr (Or.inr (Or.inr (Or.inr (Or.inr (Or.inl ⟨h7, (Option.some.inj h).symm⟩))))))
  rw [if_neg h7] at h
  by_cases h8 : c = '('
  · rw [if_pos h8] at h
    exact Or.inr (Or.inr (Or.inr (Or.inr (Or.inr (Or.inr (Or.inr (Or.inl ⟨h8, (Option.some.inj h).symm⟩)))))))
  rw [if_neg h8] at h
  by_cases h9 : c = ')'
  · rw [if_pos h9] at h
    exact Or.inr (Or.inr (Or.inr (Or.inr (Or.inr (Or.inr (Or.inr (Or.inr (Or.inl ⟨h9, (Option.some.inj h).symm⟩))))))))
  rw [if_neg h9] at h
  by_cases h10 : c = '.'
  · rw [if_pos h10] at h
    exact Or.inr (Or.inr (Or.inr (Or.inr (Or.inr (Or.inr (Or.inr (Or.inr (Or.inr (⟨h10, (Option.some.inj h).symm⟩)))))))))
  rw [if_neg h10] at h
  exact absurd h (by simp)

theorem Lexer.symbol_eq_none {c : Char} (h : Lexer.symbol c = none) :
    c ≠ ';' ∧ c ≠ ':' ∧ c ≠ ',' ∧ c ≠ '+' ∧ c ≠ '-' ∧ c ≠ '*' ∧ c ≠ '/' ∧ c ≠ '(' ∧
    c ≠ ')' ∧ c ≠ '.' := by
  unfold Lexer.symbol at h
  by_cases h1 : c = ';'
  · rw [if_pos h1] at h
    exact absurd h (by simp)
  rw [if_neg h1] at h
  by_cases h2 : c = ':'
  · rw [if_pos h2] at h
    exact absurd h (by simp)
  rw [if_neg h2] at h
  by_cases h3 : c = ','
  · rw [if_pos h3] at h
    exact absurd h (by simp)
  rw [if_neg h3] at h
  by_cases h4 : c = '+'
  · rw [if_pos h4] at h
    exact absurd h (by simp)
  rw [if_neg h4] at h
  by_cases h5 : c = '-'
  · rw [if_pos h5] at h
    exact absurd h (by simp)
  rw [if_neg h5] at h
  by_cases h6 : c = '*'
  · rw [if_pos h6] at h
    exact absurd h (by simp)
  rw [if_neg h6] at h
  by_cases h7 : c = '/'
  · rw [if_pos h7] at h
    exact absurd h (by simp)
  rw [if_neg h7] at h
  by_cases h8 : c = '('
  · rw [if_pos h8] at h
    exact absurd h (by simp)
  rw [if_neg h8] at h
  by_cases h9 : c = ')'
  · rw [if_pos h9] at h
    exact absurd h (by simp)
  rw [if_neg h9] at h
  by_cases h10 : c = '.'
  · rw [if_pos h10] at h
    exact absurd h (by simp)
  rw [if_neg h10] at h
  exact ⟨h1, h2, h3, h4, h5, h6, h7, h8, h9, h10⟩

/-- At one of the single-character tokens other than `:` the call consumes
that character and returns its token. -/
theorem Lexer.GetNextToken_symbol (n : Nat) (l : Lexer) (T : Int)
    (h : Lexer.symbol l.CurrentChar = some T) (hc : l.CurrentChar ≠ ':') :
    Lexer.GetNextToken (F := F) (n + 1) l =
      l.Advance >>= fun l1 => pure (Token.ofType T, l1) := by
  rcases Lexer.symbol_eq_some h with h1 | h1 | h1 | h1 | h1 | h1 | h1 | h1 | h1 | h1 <;>
    obtain ⟨h2, rfl⟩ := h1
  · simp only [Lexer.GetNextToken, h2]
    simp +decide [NUL]
  · exact absurd h2 hc
  · simp only [Lexer.GetNextToken, h2]
    simp +decide [NUL]
  · simp only [Lexer.GetNextToken, h2]
    simp +decide [NUL]
  · simp only [Lexer.GetNextToken, h2]
    simp +decide [NUL]
  · simp only [Lexer.GetNextToken, h2]
    simp +decide [NUL]
  · simp only [Lexer.GetNextToken, h2]
    simp +decide [NUL]
  · simp only [Lexer.GetNextToken, h2]
    simp +decide [NUL]
  · simp only [Lexer.GetNextToken, h2]
    simp +decide [NUL]
  · simp only [Lexer.GetNextToken, h2]
    simp +decide [NUL]

/-- At any other character the call panics with the lexing error. -/
theorem Lexer.GetNextToken_other (n : Nat) (l : Lexer) (h0 : l.CurrentChar ≠ NUL)
    (h1 : isSpace l.CurrentChar = false) (h2 : isAlpha l.CurrentChar = false)
    (h3 : isDigit l.CurrentChar = false) (h4 : l.CurrentChar ≠ '{')
    (h5 : Lexer.symbol l.CurrentChar = none) :
    Lexer.GetNextToken (F := F) (n + 1) l = .error (.panic .errorLexingInput) := by
  obtain ⟨g1, g2, g3, g4, g5, g6, g7, g8, g9, g10⟩ := Lexer.symbol_eq_none h5
  have hn : (l.CurrentChar != NUL) = true := by simpa using h0
  simp only [Lexer.GetNextToken, hn, h1, h2, h3, h4, g1, g2, g3, g4, g5, g6, g7, g8, g9, g10,
    if_true, if_false]
  simp [Lexer.Error, bind, Except.bind, pure, Except.pure]

theorem Lexer.ID_Type (n : Nat) (l : Lexer) (tok : Token F) (l1 : Lexer)
    (h : Lexer.ID n l = .ok (tok, l1)) : tok.Type_ ≠ EOF := by
  simp only [Lexer.ID, Except.bind_eq_ok_iff] at h
  obtain ⟨⟨buffer, l2⟩, _, h2⟩ := h
  simp only [ReservedWords] at h2
  split_ifs at h2 <;>
    (simp only [pure, Except.pure, Except.ok.injEq, Prod.mk.injEq] at h2
     rw [← h2.1]
     simp [Token.ofType, Token.ident, EOF, PROGRAM, VAR, INTEGERDIV, INTEGER, REAL, BEGIN,
       END, IDENT])

theorem Lexer.Number_Type (n : Nat) (l : Lexer) (tok : Token F) (l1 : Lexer)
    (h : Lexer.Number n l = .ok (tok, l1)) : tok.Type_ ≠ EOF := by
  simp only [Lexer.Number, Except.bind_eq_ok_iff] at h
  obtain ⟨⟨buffer, l2⟩, _, h2⟩ := h
  split_ifs at h2
  · simp only [Except.bind_eq_ok_iff] at h2
    obtain ⟨l3, _, ⟨buffer2, l4⟩, _, h3⟩ := h2
    simp only [pure, Except.pure, Except.ok.injEq, Prod.mk.injEq] at h3
    rw [← h3.1]
    simp [EOF, REALCONST]
  · simp only [pure, Except.pure, Except.ok.injEq, Prod.mk.injEq] at h2
    rw [← h2.1]
    simp [EOF, INTEGERCONST]

/-- A call that returns a token of type `EOF` returns the end-of-input token
and leaves the lexer at the sentinel `0`. -/
theorem Lexer.GetNextToken_EOF : ∀ (n : Nat) (l : Lexer) (tok : Token F) (l1 : Lexer),
    Lexer.GetNextToken n l = .ok (tok, l1) → tok.Type_ = EOF →
    tok = Token.ofType EOF ∧ l1.CurrentChar = NUL
  | 0, l, tok, l1, h, _ => by simp [Lexer.GetNextToken] at h
  | n + 1, l, tok, l1, h, ht => by
    by_cases h0 : l.CurrentChar = NUL
    · rw [Lexer.GetNextToken_nul n l h0] at h
      simp only [Except.ok.injEq, Prod.mk.injEq] at h
      obtain ⟨rfl, rfl⟩ := h
      exact ⟨rfl, h0⟩
    by_cases h1 : isSpace l.CurrentChar = true
    · rw [Lexer.GetNextToken_space n l h1, Except.bind_eq_ok_iff] at h
      obtain ⟨l2, _, h4⟩ := h
      exact Lexer.GetNextToken_EOF n l2 tok l1 h4 ht
    by_cases h2 : isAlpha l.CurrentChar = true
    · rw [Lexer.GetNextToken_alpha n l h2] at h
      exact absurd ht (Lexer.ID_Type n l tok l1 h)
    by_cases h3 : isDigit l.CurrentChar = true
    · rw [Lexer.GetNextToken_digit n l h3] at h
      exact absurd ht (Lexer.Number_Type n l tok l1 h)
    by_cases h4 : l.CurrentChar = '{'
    · rw [Lexer.GetNextToken_comment n l h4] at h
      simp only [Except.bind_eq_ok_iff] at h
      obtain ⟨l2, _, l3, _, h6⟩ := h
      exact Lexer.GetNextToken_EOF n l3 tok l1 h6 ht
    by_cases h5 : l.CurrentChar = ':'
    · rw [Lexer.GetNextToken_colon n l h5, Except.bind_eq_ok_iff] at h
      obtain ⟨c, _, h6⟩ := h
      exfalso
      split_ifs at h6
      · simp only [Except.bind_eq_ok_iff, pure, Except.pure, Except.ok.injEq,
          Prod.mk.injEq] at h6
        obtain ⟨l2, _, l3, _, h7, _⟩ := h6
        rw [← h7] at ht
        exact absurd ht (by simp [Token.ofType, EOF, ASSIGN])
      · simp only [Except.bind_eq_ok_iff, pure, Except.pure, Except.ok.injEq,
          Prod.mk.injEq] at h6
        obtain ⟨l2, _, h7, _⟩ := h6
        rw [← h7] at ht
        exact absurd ht (by simp [Token.ofType, EOF, COLON])
    cases hs : Lexer.symbol l.CurrentChar with
    | none =>
      rw [Lexer.GetNextToken_other n l h0 (by simpa using h1) (by simpa using h2)
        (by simpa using h3) h4 hs] at h
      simp at h
    | some T =>
      rw [Lexer.GetNextToken_symbol n l T hs h5] at h
      simp only [Except.bind_eq_ok_iff, pure, Except.pure, Except.ok.injEq,
        Prod.mk.injEq] at h
      obtain ⟨l2, _, h7, _⟩ := h
      rw [← h7] at ht
      exfalso
      rcases Lexer.symbol_eq_some hs with g | g | g | g | g | g | g | g | g | g <;>
        (rw [g.2] at ht
         exact absurd ht (by simp [Token.ofType, EOF, SEMI, COLON, COMMA, PLUS, MINUS, MUL,
           FLOATDIV, LPAREN, RPAREN, DOT]))

end LexerOutcome

/-! ## A comment that is never closed -/

section OpenComment

theorem wrapInt64_of_range {i : Int} (h0 : -(2 ^ 63) ≤ i) (h1 : i < 2 ^ 63) :
    wrapInt64 i = i := by
  unfold wrapInt64
  omega

theorem wrapInt64_max : wrapInt64 (2 ^ 63) = -(2 ^ 63) := by
  decide

/-- `Advance` keeps the lexer before a text without `}`, and never lands on
a `}`. -/
theorem Lexer.Advance_noCloseAhead (l l1 : Lexer) (h : l.NoCloseAhead)
    (ha : l.Advance = .ok l1) : l1.NoCloseAhead ∧ l1.CurrentChar ≠ '}' := by
  obtain ⟨h0, h1, h2⟩ := h
  unfold Lexer.Advance at ha
  by_cases hmax : l.Pos + 1 < 2 ^ 63
  · rw [wrapInt64_of_range (by omega) hmax] at ha
    simp only at ha
    split_ifs at ha with hend
    · simp only [Except.ok.injEq] at ha
      subst ha
      refine ⟨⟨by simp only; omega, by simp only; omega, fun i hi => h2 i ?_⟩, ?_⟩
      · simp only at hi
        omega
      · show NUL ≠ '}'
        decide
    · simp only [Except.bind_eq_ok_iff] at ha
      obtain ⟨c, hc, hl⟩ := ha
      simp only [pure, Except.pure, Except.ok.injEq] at hl
      subst hl
      refine ⟨⟨by simp only; omega, by simp only; omega, fun i hi => h2 i ?_⟩, ?_⟩
      · simp only at hi
        omega
      · simp only
        unfold byteAt at hc
        split_ifs at hc with hneg
        rw [List.get?_eq_getElem?] at hc
        cases hg : l.Text[(l.Pos + 1).toNat]? with
        | none => simp [hg] at hc
        | some c1 =>
          simp only [hg, Except.ok.injEq] at hc
          subst hc
          intro hcl
          apply h2 (l.Pos + 1).toNat (by omega)
          rw [List.get?_eq_getElem?, hg, hcl]
  · have hp : l.Pos + 1 = 2 ^ 63 := by omega
    rw [hp, wrapInt64_max] at ha
    simp only at ha
    have hlen : ¬ (-(2 ^ 63 : Int) > (l.Text.length : Int) - 1) := by omega
    rw [if_neg hlen] at ha
    simp [byteAt, bind, Except.bind] at ha

/-- The loop of `SkipComment` does not return when no `}` is ahead. -/
theorem Lexer.SkipCommentLoop_never_returns : ∀ (n : Nat) (l l1 : Lexer),
    l.NoCloseAhead → l.CurrentChar ≠ '}' → Lexer.SkipCommentLoop n l ≠ .ok l1
  | 0, _, _, _, _ => by simp [Lexer.SkipCommentLoop]
  | n + 1, l, l1, h, hc => by
    intro hr
    have hb : (l.CurrentChar != '}') = true := by simpa using hc
    simp only [Lexer.SkipCommentLoop, hb, if_true, Except.bind_eq_ok_iff] at hr
    obtain ⟨l2, ha, hr2⟩ := hr
    obtain ⟨h2, hc2⟩ := Lexer.Advance_noCloseAhead l l2 h ha
    exact Lexer.SkipCommentLoop_never_returns n l2 l1 h2 hc2 hr2

end OpenComment

/-! ## The lexer on its unread input -/

section LexerAt

theorem Lexer.At_CurrentChar_cons {l : Lexer} {pre : List Char} {c : Char} {rest : List Char}
    (h : l.At pre (c :: rest)) : l.CurrentChar = c := h.2.2.1

theorem Lexer.At_CurrentChar_nil {l : Lexer} {pre : List Char} (h : l.At pre []) :
    l.CurrentChar = NUL := h.2.2.1

/-- `NewLexer` on a non-empty Go string gives the lexer that has read nothing. -/
theorem NewLexer_at (c : Char) (cs : List Char) (h : (c :: cs).length < 2 ^ 63) :
    ∃ l, NewLexer (c :: cs) = .ok l ∧ l.At [] (c :: cs) :=
  ⟨_, rfl, rfl, rfl, rfl, h⟩

/-- `Advance` moves the first unread byte to the read part. -/
theorem Lexer.Advance_at {l : Lexer} {pre : List Char} {c : Char} {rest : List Char}
    (h : l.At pre (c :: rest)) : ∃ l1, l.Advance = .ok l1 ∧ l1.At (pre ++ [c]) rest := by
  obtain ⟨hT, hP, _, hlen⟩ := h
  have hlen1 : (pre.length : Int) + 1 + rest.length < 2 ^ 63 := by
    simp only [List.length_append, List.length_cons] at hlen
    have : ((pre.length + (rest.length + 1) : Nat) : Int) < 2 ^ 63 := by exact_mod_cast hlen
    push_cast at this
    omega
  have hw : wrapInt64 (l.Pos + 1) = (pre.length : Int) + 1 := by
    rw [hP]
    exact wrapInt64_of_range (by omega) (by omega)
  have hTlen : (l.Text.length : Int) = pre.length + 1 + rest.length := by
    rw [hT]
    simp only [List.length_append, List.length_cons]
    push_cast
    omega
  unfold Lexer.Advance
  rw [hw, hTlen]
  simp only
  cases rest with
  | nil =>
    rw [if_pos (by simp)]
    refine ⟨_, rfl, ?_, ?_, rfl, ?_⟩
    · simp [hT]
    · simp
    · simpa using hlen
  | cons c1 rest1 =>
    have hnot : ¬ ((pre.length : Int) + 1 > (pre.length : Int) + 1 +
        ((c1 :: rest1).length : Int) - 1) := by
      simp only [List.length_cons]
      push_cast
      omega
    rw [if_neg hnot]
    have hb : byteAt l.Text ((pre.length : Int) + 1) = .ok c1 := by
      unfold byteAt
      rw [if_neg (by omega)]
      have hnat : ((pre.length : Int) + 1).toNat = pre.length + 1 := by omega
      rw [hnat, hT, List.get?_eq_getElem?]
      have : (pre ++ c :: c1 :: rest1)[pre.length + 1]? = some c1 := by
        rw [List.getElem?_append_right (by omega)]
        simp
      rw [this]
    rw [hb]
    refine ⟨_, rfl, ?_, ?_, rfl, ?_⟩
    · simp [hT]
    · simp
    · simpa using hlen

/-- `Peek` returns the byte after the first unread one, or `0` at the end. -/
theorem Lexer.Peek_at {l : Lexer} {pre : List Char} {c : Char} {rest : List Char}
    (h : l.At pre (c :: rest)) : l.Peek = .ok (rest.headD NUL) := by
  obtain ⟨l1, h1, h2⟩ := Lexer.Advance_at h
  unfold Lexer.Advance at h1
  unfold Lexer.Peek
  simp only at h1 ⊢
  split_ifs at h1 ⊢ with hc
  · simp only [Except.ok.injEq] at h1
    rw [← h2.2.2.1, ← h1]
  · simp only [Except.bind_eq_ok_iff, pure, Except.pure, Except.ok.injEq] at h1
    obtain ⟨c1, hb, hl⟩ := h1
    rw [hb, ← h2.2.2.1, ← hl]

end LexerAt

/-! ## The loops of the lexer on the unread input -/

section LexerLoops
variable {F : Type} [Float64 F]

theorem isSpace_NUL : isSpace NUL = false := by decide

theorem isAlphaNumeric_NUL : isAlphaNumeric NUL = false := by decide

theorem isDigit_NUL : isDigit NUL = false := by decide

theorem isAlpha_NUL : isAlpha NUL = false := by decide

theorem ne_NUL_of_true {f : Char → Bool} (hf : f NUL = false) {c : Char} (hc : f c = true) :
    c ≠ NUL := by
  intro h
  rw [h, hf] at hc
  exact Bool.false_ne_true hc

/-- `SkipWhitespace` reads the blanks at the front of the unread input. -/
theorem Lexer.SkipWhitespace_at : ∀ (rest pre : List Char) (l : Lexer) (n : Nat),
    l.At pre rest → (rest.takeWhile isSpace).length < n →
    ∃ l1, l.SkipWhitespace n = .ok l1 ∧
      l1.At (pre ++ rest.takeWhile isSpace) (rest.dropWhile isSpace)
  | [], pre, l, 0, _, hn => absurd hn (Nat.not_lt_zero _)
  | [], pre, l, n + 1, hat, _ => by
    refine ⟨l, ?_, by simpa using hat⟩
    unfold Lexer.SkipWhitespace
    rw [Lexer.At_CurrentChar_nil hat, isSpace_NUL]
    rfl
  | c :: r, pre, l, 0, _, hn => absurd hn (Nat.not_lt_zero _)
  | c :: r, pre, l, n + 1, hat, hn => by
    unfold Lexer.SkipWhitespace
    rw [Lexer.At_CurrentChar_cons hat]
    by_cases hc : isSpace c = true
    · obtain ⟨l1, h1, hat1⟩ := Lexer.Advance_at hat
      rw [List.takeWhile_cons_of_pos hc] at hn ⊢
      rw [List.dropWhile_cons_of_pos hc]
      obtain ⟨l2, h2, hat2⟩ := Lexer.SkipWhitespace_at r (pre ++ [c]) l1 n hat1
        (by simpa using hn)
      refine ⟨l2, ?_, by simpa using hat2⟩
      have hne : (c != NUL) = true := by simpa using ne_NUL_of_true isSpace_NUL hc
      rw [hc, hne, h1]
      exact h2
    · rw [List.takeWhile_cons_of_neg hc, List.dropWhile_cons_of_neg hc]
      refine ⟨l, ?_, by simpa using hat⟩
      rw [Bool.not_eq_true] at hc
      rw [hc]
      rfl

/-- The loop of `ID` appends the letters and digits at the front of the unread
input to its buffer. -/
theorem Lexer.IDLoop_at : ∀ (rest pre buf : List Char) (l : Lexer) (n : Nat),
    l.At pre rest → (rest.takeWhile isAlphaNumeric).length < n →
    ∃ l1, Lexer.IDLoop n buf l = .ok (buf ++ rest.takeWhile isAlphaNumeric, l1) ∧
      l1.At (pre ++ rest.takeWhile isAlphaNumeric) (rest.dropWhile isAlphaNumeric)
  | [], pre, buf, l, 0, _, hn => absurd hn (Nat.not_lt_zero _)
  | [], pre, buf, l, n + 1, hat, _ => by
    refine ⟨l, ?_, by simpa using hat⟩
    unfold Lexer.IDLoop
    rw [Lexer.At_CurrentChar_nil hat, isAlphaNumeric_NUL]
    simp
  | c :: r, pre, buf, l, 0, _, hn => absurd hn (Nat.not_lt_zero _)
  | c :: r, pre, buf, l, n + 1, hat, hn => by
    unfold Lexer.IDLoop
    rw [Lexer.At_CurrentChar_cons hat]
    by_cases hc : isAlphaNumeric c = true
    · obtain ⟨l1, h1, hat1⟩ := Lexer.Advance_at hat
      rw [List.takeWhile_cons_of_pos hc] at hn ⊢
      rw [List.dropWhile_cons_of_pos hc]
      obtain ⟨l2, h2, hat2⟩ := Lexer.IDLoop_at r (pre ++ [c]) (buf ++ [c]) l1 n hat1
        (by simpa using hn)
      refine ⟨l2, ?_, by simpa using hat2⟩
      have hne : (c != NUL) = true := by simpa using ne_NUL_of_true isAlphaNumeric_NUL hc
      rw [hc, hne, h1]
      simpa using h2
    · rw [List.takeWhile_cons_of_neg hc, List.dropWhile_cons_of_neg hc]
      refine ⟨l, ?_, by simpa using hat⟩
      rw [Bool.not_eq_true] at hc
      rw [hc]
      simp

/-- A digit loop of `Number` appends the digits at the front of the unread
input to its buffer. -/
theorem Lexer.DigitLoop_at : ∀ (rest pre buf : List Char) (l : Lexer) (n : Nat),
    l.At pre rest → (rest.takeWhile isDigit).length < n →
    ∃ l1, Lexer.DigitLoop n buf l = .ok (buf ++ rest.takeWhile isDigit, l1) ∧
      l1.At (pre ++ rest.takeWhile isDigit) (rest.dropWhile isDigit)
  | [], pre, buf, l, 0, _, hn => absurd hn (Nat.not_lt_zero _)
  | [], pre, buf, l, n + 1, hat, _ => by
    refine ⟨l, ?_, by simpa using hat⟩
    unfold Lexer.DigitLoop
    rw [Lexer.At_CurrentChar_nil hat, isDigit_NUL]
    simp
  | c :: r, pre, buf, l, 0, _, hn => absurd hn (Nat.not_lt_zero _)
  | c :: r, pre, buf, l, n + 1, hat, hn => by
    unfold Lexer.DigitLoop
    rw [Lexer.At_CurrentChar_cons hat]
    by_cases hc : isDigit c = true
    · obtain ⟨l1, h1, hat1⟩ := Lexer.Advance_at hat
      rw [List.takeWhile_cons_of_pos hc] at hn ⊢
      rw [List.dropWhile_cons_of_pos hc]
      obtain ⟨l2, h2, hat2⟩ := Lexer.DigitLoop_at r (pre ++ [c]) (buf ++ [c]) l1 n hat1
        (by simpa using hn)
      refine ⟨l2, ?_, by simpa using hat2⟩
      rw [if_pos hc, h1]
      simpa using h2
    · rw [List.takeWhile_cons_of_neg hc, List.dropWhile_cons_of_neg hc]
      refine ⟨l, ?_, by simpa using hat⟩
      rw [if_neg hc]
      simp

/-- The loop of `SkipComment` reads up to the first `}` of the unread input. -/
theorem Lexer.SkipCommentLoop_at : ∀ (c pre s : List Char) (l : Lexer) (n : Nat),
    l.At pre (c ++ '}' :: s) → '}' ∉ c → c.length < n →
    ∃ l1, Lexer.SkipCommentLoop n l = .ok l1 ∧ l1.At (pre ++ c) ('}' :: s)
  | [], pre, s, l, 0, _, _, hn => absurd hn (Nat.not_lt_zero _)
  | [], pre, s, l, n + 1, hat, _, _ => by
    refine ⟨l, ?_, by simpa using hat⟩
    unfold Lexer.SkipCommentLoop
    have hat0 : l.At pre ('}' :: s) := by simpa using hat
    rw [Lexer.At_CurrentChar_cons hat0]
    rfl
  | x :: c, pre, s, l, 0, _, _, hn => absurd hn (Nat.not_lt_zero _)
  | x :: c, pre, s, l, n + 1, hat, hc, hn => by
    have hat0 : l.At pre (x :: (c ++ '}' :: s)) := by simpa using hat
    obtain ⟨l1, h1, hat1⟩ := Lexer.Advance_at hat0
    obtain ⟨l2, h2, hat2⟩ := Lexer.SkipCommentLoop_at c (pre ++ [x]) s l1 n hat1
      (fun h => hc (List.mem_cons_of_mem _ h)) (by simpa using hn)
    refine ⟨l2, ?_, by simpa using hat2⟩
    have hx : x ≠ '}' := fun h => hc (by simp [h])
    unfold Lexer.SkipCommentLoop
    rw [Lexer.At_CurrentChar_cons hat0]
    have hne : (x != '}') = true := by simpa using hx
    rw [if_pos hne, h1]
    exact h2

/-- The token that `ID` builds from the word it has read. -/
theorem Lexer.ID_at (rest pre : List Char) (l : Lexer) (n : Nat)
    (hat : l.At pre rest) (hn : (rest.takeWhile isAlphaNumeric).length < n) :
    ∃ l1, Lexer.ID n l =
        .ok (((ReservedWords (String.mk (rest.takeWhile isAlphaNumeric))).getD
          (Token.ident (String.mk (rest.takeWhile isAlphaNumeric))) : Token F), l1) ∧
      l1.At (pre ++ rest.takeWhile isAlphaNumeric) (rest.dropWhile isAlphaNumeric) := by
  obtain ⟨l1, h1, hat1⟩ := Lexer.IDLoop_at rest pre [] l n hat hn
  refine ⟨l1, ?_, hat1⟩
  unfold Lexer.ID
  rw [h1]
  simp only [List.nil_append]
  cases hr : (ReservedWords (String.mk (rest.takeWhile isAlphaNumeric)) : Option (Token F)) with
  | none =>
    simp only [bind, Except.bind, hr]
    rfl
  | some tok =>
    simp only [bind, Except.bind, hr]
    rfl

end LexerLoops

/-! ## More fuel does not change an outcome of the lexer -/

section LexerFuel
variable {F : Type} [Float64 F]

theorem MoreFuel_refl {α : Type} (x : Except Fail α) : MoreFuel x x := fun _ => rfl

theorem MoreFuel_of_fail {α : Type} (y : Except Fail α) : MoreFuel (.error .outOfFuel) y :=
  fun h => absurd rfl h

theorem MoreFuel_trans {α : Type} {x y z : Except Fail α} (h1 : MoreFuel x y)
    (h2 : MoreFuel y z) : MoreFuel x z := by
  intro hx
  have hy := h1 hx
  rw [← hy]
  exact h2 (by rw [hy]; exact hx)

theorem MoreFuel_bind {α β : Type} {x y : Except Fail α} {f g : α → Except Fail β}
    (hx : MoreFuel x y) (hf : ∀ a, MoreFuel (f a) (g a)) : MoreFuel (x >>= f) (y >>= g) := by
  intro h
  cases x with
  | error e =>
    have he : e ≠ .outOfFuel := fun he => h (by rw [he]; rfl)
    rw [hx (by simpa using he)]
    rfl
  | ok a =>
    rw [hx (by simp)]
    exact hf a h

theorem MoreFuel_ite {α : Type} (c : Prop) [Decidable c] {x y x1 y1 : Except Fail α}
    (h : MoreFuel x y) (h1 : MoreFuel x1 y1) :
    MoreFuel (if c then x else x1) (if c then y else y1) := by
  by_cases hc : c
  · rw [if_pos hc, if_pos hc]
    exact h
  · rw [if_neg hc, if_neg hc]
    exact h1

theorem Lexer.SkipWhitespace_fuel_succ : ∀ (n : Nat) (l : Lexer),
    MoreFuel (l.SkipWhitespace n) (l.SkipWhitespace (n + 1))
  | 0, l => MoreFuel_of_fail _
  | n + 1, l => by
    rw [Lexer.SkipWhitespace, Lexer.SkipWhitespace]
    exact MoreFuel_ite _ (MoreFuel_bind (MoreFuel_refl _)
      (fun l1 => Lexer.SkipWhitespace_fuel_succ n l1)) (MoreFuel_refl _)

theorem Lexer.SkipCommentLoop_fuel_succ : ∀ (n : Nat) (l : Lexer),
    MoreFuel (Lexer.SkipCommentLoop n l) (Lexer.SkipCommentLoop (n + 1) l)
  | 0, l => MoreFuel_of_fail _
  | n + 1, l => by
    rw [Lexer.SkipCommentLoop, Lexer.SkipCommentLoop]
    exact MoreFuel_ite _ (MoreFuel_bind (MoreFuel_refl _)
      (fun l1 => Lexer.SkipCommentLoop_fuel_succ n l1)) (MoreFuel_refl _)

theorem Lexer.SkipComment_fuel_succ (n : Nat) (l : Lexer) :
    MoreFuel (l.SkipComment n) (l.SkipComment (n + 1)) :=
  MoreFuel_bind (Lexer.SkipCommentLoop_fuel_succ n l) (fun _ => MoreFuel_refl _)

theorem Lexer.IDLoop_fuel_succ : ∀ (n : Nat) (buf : List Char) (l : Lexer),
    MoreFuel (Lexer.IDLoop n buf l) (Lexer.IDLoop (n + 1) buf l)
  | 0, buf, l => MoreFuel_of_fail _
  | n + 1, buf, l => by
    rw [Lexer.IDLoop, Lexer.IDLoop]
    exact MoreFuel_ite _ (MoreFuel_bind (MoreFuel_refl _)
      (fun l1 => Lexer.IDLoop_fuel_succ n _ l1)) (MoreFuel_refl _)

theorem Lexer.ID_fuel_succ (n : Nat) (l : Lexer) :
    MoreFuel (Lexer.ID n l : Except Fail (Token F × Lexer)) (Lexer.ID (n + 1) l) :=
  MoreFuel_bind (Lexer.IDLoop_fuel_succ n [] l) (fun _ => MoreFuel_refl _)

theorem Lexer.DigitLoop_fuel_succ : ∀ (n : Nat) (buf : List Char) (l : Lexer),
    MoreFuel (Lexer.DigitLoop n buf l) (Lexer.DigitLoop (n + 1) buf l)
  | 0, buf, l => MoreFuel_of_fail _
  | n + 1, buf, l => by
    rw [Lexer.DigitLoop, Lexer.DigitLoop]
    exact MoreFuel_ite _ (MoreFuel_bind (MoreFuel_refl _)
      (fun l1 => Lexer.DigitLoop_fuel_succ n _ l1)) (MoreFuel_refl _)

theorem Lexer.Number_fuel_succ (n : Nat) (l : Lexer) :
    MoreFuel (Lexer.Number n l : Except Fail (Token F × Lexer)) (Lexer.Number (n + 1) l) := by
  refine MoreFuel_bind (Lexer.DigitLoop_fuel_succ n [] l) (fun x => ?_)
  obtain ⟨buffer, l1⟩ := x
  exact MoreFuel_ite _ (MoreFuel_bind (MoreFuel_refl _) (fun l2 =>
    MoreFuel_bind (Lexer.DigitLoop_fuel_succ n _ l2) (fun _ => MoreFuel_refl _)))
    (MoreFuel_refl _)

theorem Lexer.GetNextToken_fuel_succ : ∀ (n : Nat) (l : Lexer),
    MoreFuel (Lexer.GetNextToken n l : Except Fail (Token F × Lexer))
      (Lexer.GetNextToken (n + 1) l)
  | 0, l => MoreFuel_of_fail _
  | n + 1, l => by
    have ih : ∀ l1 : Lexer, MoreFuel (Lexer.GetNextToken n l1 : Except Fail (Token F × Lexer))
        (Lexer.GetNextToken (n + 1) l1) := fun l1 => Lexer.GetNextToken_fuel_succ n l1
    rw [Lexer.GetNextToken, Lexer.GetNextToken]
    refine MoreFuel_ite _ (MoreFuel_ite _ (MoreFuel_bind (Lexer.SkipWhitespace_fuel_succ n l) ih)
      (MoreFuel_ite _ (Lexer.ID_fuel_succ n l) (MoreFuel_ite _ (Lexer.Number_fuel_succ n l)
        (MoreFuel_bind (MoreFuel_refl _) (fun assign => MoreFuel_ite _ (MoreFuel_refl _)
          (MoreFuel_ite _ (MoreFuel_bind (MoreFuel_refl _) (fun l1 =>
            MoreFuel_bind (Lexer.SkipComment_fuel_succ n l1) ih)) (MoreFuel_refl _)))))))
      (MoreFuel_refl _)

theorem Lexer.GetNextToken_fuel_mono {n m : Nat} (h : n ≤ m) (l : Lexer) :
    MoreFuel (Lexer.GetNextToken n l : Except Fail (Token F × Lexer))
      (Lexer.GetNextToken m l) := by
  induction h with
  | refl => exact MoreFuel_refl _
  | step _ ih => exact MoreFuel_trans ih (Lexer.GetNextToken_fuel_succ _ l)

end LexerFuel

/-! ## Words -/

section Words
variable {F : Type} [Float64 F]

theorem MoreFuel_mono {α : Type} {f : Nat → Except Fail α}
    (hf : ∀ n, MoreFuel (f n) (f (n + 1))) {n m : Nat} (h : n ≤ m) : MoreFuel (f n) (f m) := by
  induction h with
  | refl => exact MoreFuel_refl _
  | step _ ih => exact MoreFuel_trans ih (hf _)

theorem isAlphaNumeric_of_isAlpha {c : Char} (h : isAlpha c = true) :
    isAlphaNumeric c = true := by
  unfold isAlpha at h
  unfold isAlphaNumeric
  split_ifs at h ⊢ <;> rfl

/-- The byte after a maximal run is not in the run, also at the end of input. -/
theorem headD_dropWhile (f : Char → Bool) (hf : f NUL = false) :
    ∀ xs : List Char, f ((xs.dropWhile f).headD NUL) = false
  | [] => hf
  | x :: xs => by
    by_cases hx : f x = true
    · rw [List.dropWhile_cons_of_pos hx]
      exact headD_dropWhile f hf xs
    · rw [List.dropWhile_cons_of_neg hx]
      simpa using hx

theorem ReservedWords_of_not_mem (s : String) (h : s ∉ keywords) :
    (ReservedWords s : Option (Token F)) = none := by
  simp only [keywords, List.mem_cons, List.mem_singleton, List.mem_nil_iff, or_false,
    not_or] at h
  obtain ⟨h1, h2, h3, h4, h5, h6, h7⟩ := h
  unfold ReservedWords
  rw [if_neg h1, if_neg h2, if_neg h3, if_neg h4, if_neg h5, if_neg h6, if_neg h7]

end Words

/-! ## Trees the interpreter can walk -/

section WalkFailureBasics
variable {F : Type}

theorem FailsOnRead_ok {α : Type} (names : List String) (G : Scope F) (a : α) :
    FailsOnRead names (G, (Except.ok a : Except Panic α)) := by
  intro e h
  simp at h

theorem andThen_failsOnRead {α β : Type} {r : Scope F × Except Panic α}
    {k : Scope F → α → Scope F × Except Panic β} {R1 R2 R : List String}
    (h1 : FailsOnRead R1 r) (h2 : ∀ G1 a, FailsOnRead R2 (k G1 a))
    (s1 : R1 ⊆ R) (s2 : R2 ⊆ R) : FailsOnRead R (andThen r k) := by
  obtain ⟨G1, x⟩ := r
  cases x with
  | error e =>
    intro e1 he
    rw [andThen_error] at he
    simp only [Except.error.injEq] at he
    subst he
    obtain ⟨h, x, hx, hn⟩ := h1 e rfl
    exact ⟨h, x, s1 hx, hn⟩
  | ok a =>
    intro e1 he
    rw [andThen_ok] at he ⊢
    obtain ⟨h, x, hx, hn⟩ := h2 G1 a e1 he
    exact ⟨h, x, s2 hx, hn⟩

end WalkFailureBasics

section WalkFailure
variable {F : Type} [Float64 F]

mutual
/-- On a well-tagged tree the walk panics only at a `Var` whose name the
table does not bind. -/
theorem Visit_wellTagged : ∀ (n : Node F) (G : Scope F), n.wellTagged = true →
    FailsOnRead n.reads (Visit G n)
  | .BinOp op l r, G, h => by
    simp only [Node.wellTagged, Bool.and_eq_true] at h
    obtain ⟨⟨hop, hl⟩, hr⟩ := h
    have key : ∀ f : F → F → F, FailsOnRead (l.reads ++ r.reads)
        (andThen (Visit G l) fun G1 a => andThen (Visit G1 r) fun G2 b =>
          (G2, Except.ok (f a b))) := fun f =>
      andThen_failsOnRead (Visit_wellTagged l G hl) (fun G1 a =>
        andThen_failsOnRead (Visit_wellTagged r G1 hr) (fun G2 b => FailsOnRead_ok [] G2 _)
          (List.Subset.refl _) (List.nil_subset _))
        (List.subset_append_left _ _) (List.subset_append_right _ _)
    simp only [Visit, Node.reads]
    split_ifs with h1 h2 h3 h4 h5
    · exact key _
    · exact key _
    · exact key _
    · exact key _
    · exact key _
    · simp [isOperator, h1, h2, h3, h4, h5] at hop
  | .UnaryOp op e, G, h => by
    simp only [Node.wellTagged, Bool.and_eq_true, decide_eq_true_eq] at h
    obtain ⟨hop, he⟩ := h
    have key : ∀ f : F → F, FailsOnRead e.reads
        (andThen (Visit G e) fun G1 a => (G1, Except.ok (f a))) := fun f =>
      andThen_failsOnRead (Visit_wellTagged e G he) (fun G1 a => FailsOnRead_ok [] G1 _)
        (List.Subset.refl _) (List.nil_subset _)
    simp only [Visit, Node.reads]
    split_ifs with h1 h2
    · exact key _
    · exact key _
    · rcases hop with hop | hop
      · exact absurd hop h1
      · exact absurd hop h2
  | .Num _ _, G, _ => FailsOnRead_ok _ G _
  | .Compound cs, G, h => by
    simp only [Node.wellTagged] at h
    simp only [Visit, Node.reads]
    exact andThen_failsOnRead (VisitAll_wellTagged cs G h) (fun G1 a => FailsOnRead_ok [] G1 _)
      (List.Subset.refl _) (List.nil_subset _)
  | .Assign left _ right, G, h => by
    simp only [Node.wellTagged, Bool.and_eq_true] at h
    obtain ⟨⟨hv, _⟩, hr⟩ := h
    cases left with
    | Var t x =>
      simp only [Visit, Node.reads]
      exact andThen_failsOnRead (Visit_wellTagged right G hr)
        (fun G1 a => FailsOnRead_ok [] _ _) (List.Subset.refl _) (List.nil_subset _)
    | BinOp _ _ _ => simp [Node.isVar] at hv
    | UnaryOp _ _ => simp [Node.isVar] at hv
    | Num _ _ => simp [Node.isVar] at hv
    | Compound _ => simp [Node.isVar] at hv
    | Assign _ _ _ => simp [Node.isVar] at hv
    | NoOp => simp [Node.isVar] at hv
    | Program _ _ => simp [Node.isVar] at hv
    | Block _ _ => simp [Node.isVar] at hv
    | VarDecl _ _ => simp [Node.isVar] at hv
    | TypeN _ _ => simp [Node.isVar] at hv
  | .Var _ x, G, _ => by
    intro e he
    simp only [Visit] at he ⊢
    cases hx : G x with
    | none =>
      rw [hx] at he
      simp only [Except.error.injEq] at he
      exact ⟨he.symm, x, by simp [Node.reads], hx⟩
    | some v =>
      rw [hx] at he
      simp at he
  | .NoOp, G, _ => FailsOnRead_ok _ G _
  | .Program _ b, G, h => by
    simp only [Node.wellTagged] at h
    simp only [Visit, Node.reads]
    exact Visit_wellTagged b G h
  | .Block ds c, G, h => by
    simp only [Node.wellTagged, Bool.and_eq_true] at h
    simp only [Visit, Node.reads]
    exact andThen_failsOnRead (VisitAll_wellTagged ds G h.1) (fun G1 a =>
      andThen_failsOnRead (Visit_wellTagged c G1 h.2) (fun G2 b => FailsOnRead_ok [] G2 _)
        (List.Subset.refl _) (List.nil_subset _))
      (List.subset_append_left _ _) (List.subset_append_right _ _)
  | .VarDecl _ _, G, _ => FailsOnRead_ok _ G _
  | .TypeN _ _, G, _ => FailsOnRead_ok _ G _
/-- The list form of `Visit_wellTagged`. -/
theorem VisitAll_wellTagged : ∀ (ns : List (Node F)) (G : Scope F),
    Node.wellTaggedAll ns = true → FailsOnRead (Node.readsAll ns) (VisitAll G ns)
  | [], G, _ => FailsOnRead_ok _ G _
  | n :: ns, G, h => by
    simp only [Node.wellTaggedAll, Bool.and_eq_true] at h
    simp only [VisitAll, Node.readsAll]
    exact andThen_failsOnRead (Visit_wellTagged n G h.1)
      (fun G1 a => VisitAll_wellTagged ns G1 h.2)
      (List.subset_append_left _ _) (List.subset_append_right _ _)
end

end WalkFailure

/-! ## What the parser builds -/

section YieldsBasics
variable {F σ : Type}

theorem ParserM.Yields_pure {α : Type} {P : α → Prop} {a : α} (h : P a) :
    ParserM.Yields P (pure a : ParserM F σ α) := by
  intro p b p1 hb
  have : (pure a : ParserM F σ α) p = .ok (a, p) := rfl
  rw [this] at hb
  simp only [Except.ok.injEq, Prod.mk.injEq] at hb
  rw [← hb.1]
  exact h

theorem ParserM.Yields_fail {α : Type} (P : α → Prop) (e : Fail) :
    ParserM.Yields P (ParserM.fail e : ParserM F σ α) := by
  intro p b p1 hb
  simp [ParserM.fail] at hb

theorem ParserM.Yields_true {α : Type} (A : ParserM F σ α) :
    ParserM.Yields (fun _ => True) A := fun _ _ _ _ => trivial

theorem ParserM.Yields_bind {α β : Type} {Q : α → Prop} {P : β → Prop} {A : ParserM F σ α}
    {f : α → ParserM F σ β} (hA : ParserM.Yields Q A)
    (hf : ∀ a, Q a → ParserM.Yields P (f a)) : ParserM.Yields P (A >>= f) := by
  intro p b p1 hb
  obtain ⟨a, p2, h1, h2⟩ := ParserM.bind_eq_ok hb
  exact hf a (hA p a p2 h1) p2 b p1 h2

theorem ParserM.Yields_ite {α : Type} {P : α → Prop} (c : Prop) [Decidable c]
    {A B : ParserM F σ α} (hA : c → ParserM.Yields P A) (hB : ¬ c → ParserM.Yields P B) :
    ParserM.Yields P (if c then A else B) := by
  by_cases hc : c
  · rw [if_pos hc]
    exact hA hc
  · rw [if_neg hc]
    exact hB hc

end YieldsBasics

section YieldsShapes
variable {F : Type}

theorem isOperator_of_additive {t : Int} (h : t = PLUS ∨ t = MINUS) : isOperator t = true := by
  rcases h with h | h <;> rw [h] <;> rfl

theorem isOperator_of_multiplicative {t : Int} (h : t = MUL ∨ t = INTEGERDIV ∨ t = FLOATDIV) :
    isOperator t = true := by
  rcases h with h | h | h <;> rw [h] <;> rfl

theorem Node.wellTagged_binOp {op : Int} {l r : Node F} (hop : isOperator op = true)
    (hl : l.wellTagged = true) (hr : r.wellTagged = true) :
    (NewBinOp l op r).wellTagged = true := by
  simp [NewBinOp, Node.wellTagged, hop, hl, hr]

theorem Node.wellTagged_unaryOp {op : Int} {e : Node F} (hop : op = PLUS ∨ op = MINUS)
    (he : e.wellTagged = true) : (NewUnaryOp op e).wellTagged = true := by
  simp [NewUnaryOp, Node.wellTagged, hop, he]

end YieldsShapes

section YieldsVariable
variable {F σ : Type} (next : σ → Except Fail (Token F × σ))

theorem Parser.Variable_yields :
    ParserM.Yields (fun n : Node F => n.isVar = true ∧ n.wellTagged = true)
      (Parser.Variable next) :=
  ParserM.Yields_bind (ParserM.Yields_true _) fun _ _ =>
    ParserM.Yields_bind (ParserM.Yields_true _) fun _ _ => ParserM.Yields_pure ⟨rfl, rfl⟩

theorem Parser.Variable_wellTagged :
    ParserM.Yields (fun n : Node F => n.wellTagged = true) (Parser.Variable next) :=
  fun p a p1 h => (Parser.Variable_yields next p a p1 h).2

end YieldsVariable

section YieldsMethods
variable {F σ : Type} (next : σ → Except Fail (Token F × σ))

/-- The expression methods build well-tagged trees. -/
theorem Parser.expr_wellTagged : ∀ n : Nat,
    ParserM.Yields (fun a : Node F => a.wellTagged = true) (Parser.Expr next n) ∧
    (∀ node : Node F, node.wellTagged = true →
      ParserM.Yields (fun a : Node F => a.wellTagged = true) (Parser.ExprLoop next n node)) ∧
    ParserM.Yields (fun a : Node F => a.wellTagged = true) (Parser.Term next n) ∧
    (∀ node : Node F, node.wellTagged = true →
      ParserM.Yields (fun a : Node F => a.wellTagged = true) (Parser.TermLoop next n node)) ∧
    ParserM.Yields (fun a : Node F => a.wellTagged = true) (Parser.Factor next n)
  | 0 => ⟨ParserM.Yields_fail _ _, fun _ _ => ParserM.Yields_fail _ _, ParserM.Yields_fail _ _,
      fun _ _ => ParserM.Yields_fail _ _, ParserM.Yields_fail _ _⟩
  | n + 1 => by
    obtain ⟨hE, hEL, hT, hTL, hF⟩ := Parser.expr_wellTagged n
    refine ⟨?_, ?_, ?_, ?_, ?_⟩
    · rw [Parser.Expr]
      exact ParserM.Yields_bind hT hEL
    · intro node hnode
      rw [Parser.ExprLoop]
      refine ParserM.Yields_bind (ParserM.Yields_true _) fun cur _ =>
        ParserM.Yields_ite _ (fun hc => ?_) (fun _ => ParserM.Yields_pure hnode)
      have hjp : ParserM.Yields (fun a : Node F => a.wellTagged = true)
          (Parser.Term next n >>= fun right =>
            Parser.ExprLoop next n (NewBinOp node cur.Type_ right)) :=
        ParserM.Yields_bind hT fun right hright =>
          hEL _ (Node.wellTagged_binOp (isOperator_of_additive hc) hnode hright)
      exact ParserM.Yields_ite _
        (fun _ => ParserM.Yields_bind (ParserM.Yields_true _) fun _ _ => hjp)
        fun _ => ParserM.Yields_ite _
        (fun _ => ParserM.Yields_bind (ParserM.Yields_true _) fun _ _ => hjp)
        fun _ => ParserM.Yields_bind (ParserM.Yields_true _) fun _ _ => hjp
    · rw [Parser.Term]
      exact ParserM.Yields_bind hF hTL
    · intro node hnode
      rw [Parser.TermLoop]
      refine ParserM.Yields_bind (ParserM.Yields_true _) fun cur _ =>
        ParserM.Yields_ite _ (fun hc => ?_) (fun _ => ParserM.Yields_pure hnode)
      have hjp : ParserM.Yields (fun a : Node F => a.wellTagged = true)
          (Parser.Factor next n >>= fun right =>
            Parser.TermLoop next n (NewBinOp node cur.Type_ right)) :=
        ParserM.Yields_bind hF fun right hright =>
          hTL _ (Node.wellTagged_binOp (isOperator_of_multiplicative hc) hnode hright)
      exact ParserM.Yields_ite _
        (fun _ => ParserM.Yields_bind (ParserM.Yields_true _) fun _ _ => hjp)
        fun _ => ParserM.Yields_ite _
        (fun _ => ParserM.Yields_bind (ParserM.Yields_true _) fun _ _ => hjp)
        fun _ => ParserM.Yields_ite _
        (fun _ => ParserM.Yields_bind (ParserM.Yields_true _) fun _ _ => hjp)
        fun _ => ParserM.Yields_bind (ParserM.Yields_true _) fun _ _ => hjp
    · rw [Parser.Factor]
      exact ParserM.Yields_bind (ParserM.Yields_true _) fun token _ =>
        ParserM.Yields_ite _
          (fun _ => ParserM.Yields_bind (ParserM.Yields_true _) fun _ _ =>
            ParserM.Yields_bind hF fun e he =>
              ParserM.Yields_pure (Node.wellTagged_unaryOp (Or.inl rfl) he))
          fun _ => ParserM.Yields_ite _
          (fun _ => ParserM.Yields_bind (ParserM.Yields_true _) fun _ _ =>
            ParserM.Yields_bind hF fun e he =>
              ParserM.Yields_pure (Node.wellTagged_unaryOp (Or.inr rfl) he))
          fun _ => ParserM.Yields_ite _
          (fun _ => ParserM.Yields_bind (ParserM.Yields_true _) fun _ _ =>
            ParserM.Yields_pure rfl)
          fun _ => ParserM.Yields_ite _
          (fun _ => ParserM.Yields_bind (ParserM.Yields_true _) fun _ _ =>
            ParserM.Yields_pure rfl)
          fun _ => ParserM.Yields_ite _
          (fun _ => ParserM.Yields_bind (ParserM.Yields_true _) fun _ _ =>
            ParserM.Yields_bind hE fun node hnode =>
              ParserM.Yields_bind (ParserM.Yields_true _) fun _ _ => ParserM.Yields_pure hnode)
          fun _ => Parser.Variable_wellTagged next

theorem Node.wellTaggedAll_append {F : Type} : ∀ (xs ys : List (Node F)),
    Node.wellTaggedAll xs = true → Node.wellTaggedAll ys = true →
    Node.wellTaggedAll (xs ++ ys) = true
  | [], ys, _, h => h
  | x :: xs, ys, hx, hy => by
    simp only [Node.wellTaggedAll, Bool.and_eq_true, List.cons_append] at hx ⊢
    exact ⟨hx.1, Node.wellTaggedAll_append xs ys hx.2 hy⟩

theorem Node.wellTaggedAll_singleton {F : Type} {x : Node F} (h : x.wellTagged = true) :
    Node.wellTaggedAll [x] = true := by
  simp [Node.wellTaggedAll, h]

theorem Node.wellTaggedAll_varDecls {F : Type} (t : Node F) (ht : t.wellTagged = true) :
    ∀ vs : List (Node F), Node.wellTaggedAll vs = true →
      Node.wellTaggedAll (vs.map fun v => NewVarDecl v t) = true
  | [], _ => rfl
  | v :: vs, h => by
    simp only [Node.wellTaggedAll, Bool.and_eq_true, List.map_cons, NewVarDecl,
      Node.wellTagged] at h ⊢
    exact ⟨⟨h.1, ht⟩, Node.wellTaggedAll_varDecls t ht vs h.2⟩

theorem Parser.TypeSpec_wellTagged :
    ParserM.Yields (fun a : Node F => a.wellTagged = true) (Parser.TypeSpec next) :=
  ParserM.Yields_bind (ParserM.Yields_true _) fun _ _ =>
    ParserM.Yields_ite _
      (fun _ => ParserM.Yields_bind (ParserM.Yields_true _) fun _ _ => ParserM.Yields_pure rfl)
      (fun _ => ParserM.Yields_bind (ParserM.Yields_true _) fun _ _ => ParserM.Yields_pure rfl)

theorem Parser.VariableDeclarationLoop_wellTagged : ∀ (n : Nat) (vs : List (Node F)),
    Node.wellTaggedAll vs = true →
    ParserM.Yields (fun a : List (Node F) => Node.wellTaggedAll a = true)
      (Parser.VariableDeclarationLoop next n vs)
  | 0, _, _ => ParserM.Yields_fail _ _
  | n + 1, vs, h => by
    rw [Parser.VariableDeclarationLoop]
    exact ParserM.Yields_bind (ParserM.Yields_true _) fun _ _ =>
      ParserM.Yields_ite _
        (fun _ => ParserM.Yields_bind (ParserM.Yields_true _) fun _ _ =>
          ParserM.Yields_bind (ParserM.Yields_true _) fun _ _ =>
            ParserM.Yields_bind (ParserM.Yields_true _) fun _ _ =>
              Parser.VariableDeclarationLoop_wellTagged n _
                (Node.wellTaggedAll_append _ _ h (Node.wellTaggedAll_singleton rfl)))
        (fun _ => ParserM.Yields_pure h)

theorem Parser.VariableDeclaration_wellTagged (n : Nat) :
    ParserM.Yields (fun a : List (Node F) => Node.wellTaggedAll a = true)
      (Parser.VariableDeclaration next n) :=
  ParserM.Yields_bind (ParserM.Yields_true _) fun _ _ =>
    ParserM.Yields_bind (ParserM.Yields_true _) fun _ _ =>
      ParserM.Yields_bind (Parser.VariableDeclarationLoop_wellTagged next n _
          (Node.wellTaggedAll_singleton rfl)) fun vs hvs =>
        ParserM.Yields_bind (ParserM.Yields_true _) fun _ _ =>
          ParserM.Yields_bind (Parser.TypeSpec_wellTagged next) fun t ht =>
            ParserM.Yields_pure (Node.wellTaggedAll_varDecls t ht vs hvs)

theorem Parser.DeclarationsLoop_wellTagged : ∀ (n : Nat) (ds : List (Node F)),
    Node.wellTaggedAll ds = true →
    ParserM.Yields (fun a : List (Node F) => Node.wellTaggedAll a = true)
      (Parser.DeclarationsLoop next n ds)
  | 0, _, _ => ParserM.Yields_fail _ _
  | n + 1, ds, h => by
    rw [Parser.DeclarationsLoop]
    exact ParserM.Yields_bind (ParserM.Yields_true _) fun _ _ =>
      ParserM.Yields_ite _
        (fun _ => ParserM.Yields_bind (Parser.VariableDeclaration_wellTagged next n)
          fun vd hvd => ParserM.Yields_bind (ParserM.Yields_true _) fun _ _ =>
            Parser.DeclarationsLoop_wellTagged n _ (Node.wellTaggedAll_append _ _ h hvd))
        (fun _ => ParserM.Yields_pure h)

theorem Parser.Declarations_wellTagged (n : Nat) :
    ParserM.Yields (fun a : List (Node F) => Node.wellTaggedAll a = true)
      (Parser.Declarations next n) :=
  ParserM.Yields_bind (ParserM.Yields_true _) fun _ _ =>
    ParserM.Yields_ite _
      (fun _ => ParserM.Yields_bind (ParserM.Yields_true _) fun _ _ =>
        Parser.DeclarationsLoop_wellTagged next n [] rfl)
      (fun _ => ParserM.Yields_pure rfl)

theorem Parser.AssignmentStatement_wellTagged (n : Nat) :
    ParserM.Yields (fun a : Node F => a.wellTagged = true)
      (Parser.AssignmentStatement next n) :=
  ParserM.Yields_bind (Parser.Variable_yields next) fun left hleft =>
    ParserM.Yields_bind (ParserM.Yields_true _) fun _ _ =>
      ParserM.Yields_bind (ParserM.Yields_true _) fun _ _ =>
        ParserM.Yields_bind (Parser.expr_wellTagged next n).1 fun right hright =>
          ParserM.Yields_pure (by
            simp [NewAssign, Node.wellTagged, hleft.1, hleft.2, hright])

/-- The statement methods build well-tagged trees. -/
theorem Parser.statement_wellTagged : ∀ n : Nat,
    ParserM.Yields (fun a : Node F => a.wellTagged = true) (Parser.CompoundStatement next n) ∧
    ParserM.Yields (fun a : List (Node F) => Node.wellTaggedAll a = true)
      (Parser.StatementList next n) ∧
    (∀ rs : List (Node F), Node.wellTaggedAll rs = true →
      ParserM.Yields (fun a : List (Node F) => Node.wellTaggedAll a = true)
        (Parser.StatementListLoop next n rs)) ∧
    ParserM.Yields (fun a : Node F => a.wellTagged = true) (Parser.Statement next n)
  | 0 => ⟨ParserM.Yields_fail _ _, ParserM.Yields_fail _ _, fun _ _ => ParserM.Yields_fail _ _,
      ParserM.Yields_fail _ _⟩
  | n + 1 => by
    obtain ⟨hC, hL, hLL, hS⟩ := Parser.statement_wellTagged n
    refine ⟨?_, ?_, ?_, ?_⟩
    · rw [Parser.CompoundStatement]
      exact ParserM.Yields_bind (ParserM.Yields_true _) fun _ _ =>
        ParserM.Yields_bind hL fun nodes hnodes =>
          ParserM.Yields_bind (ParserM.Yields_true _) fun _ _ =>
            ParserM.Yields_pure (by simpa [NewCompound, Node.wellTagged] using hnodes)
    · rw [Parser.StatementList]
      exact ParserM.Yields_bind hS fun node hnode =>
        ParserM.Yields_bind (hLL _ (Node.wellTaggedAll_singleton hnode)) fun rs hrs =>
          ParserM.Yields_bind (ParserM.Yields_true _) fun _ _ =>
            ParserM.Yields_ite _ (fun _ => ParserM.Yields_fail _ _)
              (fun _ => ParserM.Yields_pure hrs)
    · intro rs hrs
      rw [Parser.StatementListLoop]
      exact ParserM.Yields_bind (ParserM.Yields_true _) fun _ _ =>
        ParserM.Yields_ite _
          (fun _ => ParserM.Yields_bind (ParserM.Yields_true _) fun _ _ =>
            ParserM.Yields_bind hS fun node hnode =>
              hLL _ (Node.wellTaggedAll_append _ _ hrs (Node.wellTaggedAll_singleton hnode)))
          (fun _ => ParserM.Yields_pure hrs)
    · rw [Parser.Statement]
      exact ParserM.Yields_bind (ParserM.Yields_true _) fun _ _ =>
        ParserM.Yields_ite _ (fun _ => hC)
          fun _ => ParserM.Yields_ite _ (fun _ => Parser.AssignmentStatement_wellTagged next n)
            (fun _ => ParserM.Yields_pure rfl)

theorem Parser.Block_wellTagged (n : Nat) :
    ParserM.Yields (fun a : Node F => a.wellTagged = true) (Parser.Block next n) :=
  ParserM.Yields_bind (Parser.Declarations_wellTagged next n) fun ds hds =>
    ParserM.Yields_bind (Parser.statement_wellTagged next n).1 fun c hc =>
      ParserM.Yields_pure (by simp [NewBlock, Node.wellTagged, hds, hc])

theorem Parser.Program_wellTagged (n : Nat) :
    ParserM.Yields (fun a : Node F => a.wellTagged = true) (Parser.Program next n) :=
  ParserM.Yields_bind (ParserM.Yields_true _) fun _ _ =>
    ParserM.Yields_bind (ParserM.Yields_true _) fun _ _ =>
      ParserM.Yields_bind (ParserM.Yields_true _) fun _ _ =>
        ParserM.Yields_bind (ParserM.Yields_true _) fun _ _ =>
          ParserM.Yields_bind (Parser.Block_wellTagged next n) fun b hb =>
            ParserM.Yields_bind (ParserM.Yields_true _) fun _ _ =>
              ParserM.Yields_pure (by simpa [NewProgram, Node.wellTagged] using hb)

/-- Every tree that `Parse` returns is well tagged. -/
theorem Parser.Parse_wellTagged (n : Nat) :
    ParserM.Yields (fun a : Node F => a.wellTagged = true) (Parser.Parse next n) :=
  ParserM.Yields_bind (ParserM.Yields_true _) fun _ _ =>
    ParserM.Yields_bind (Parser.Program_wellTagged next n) fun _ hnode =>
      ParserM.Yields_bind (ParserM.Yields_true _) fun _ _ =>
        ParserM.Yields_ite _ (fun _ => ParserM.Yields_fail _ _)
          (fun _ => ParserM.Yields_pure hnode)

end YieldsMethods

/-! ## One call of the lexer, as a function of the unread input -/

section LexSpecBasics
variable {F : Type} [Float64 F]

theorem length_takeWhile_add_dropWhile (f : Char → Bool) (xs : List Char) :
    (xs.takeWhile f).length + (xs.dropWhile f).length = xs.length := by
  rw [← List.length_append, List.takeWhile_append_dropWhile]

theorem cons_tail_of_headD {xs : List Char} {c : Char} (h : xs.headD NUL = c) (hc : c ≠ NUL) :
    xs = c :: xs.tail := by
  cases xs with
  | nil => exact absurd h.symm hc
  | cons x r =>
    simp only [List.headD_cons] at h
    rw [h]
    rfl

theorem lexSpec_space (c : Char) (r : List Char) (h : isSpace c = true) :
    (lexSpec (c :: r) : LexOutcome F) = lexSpec r := by
  rw [lexSpec, if_neg (ne_NUL_of_true isSpace_NUL h), if_pos h]

/-- Blanks in front of the unread input do not change the outcome. -/
theorem lexSpec_dropWhile_space : ∀ xs : List Char,
    (lexSpec (xs.dropWhile isSpace) : LexOutcome F) = lexSpec xs
  | [] => rfl
  | c :: r => by
    by_cases h : isSpace c = true
    · rw [List.dropWhile_cons_of_pos h, lexSpec_space c r h]
      exact lexSpec_dropWhile_space r
    · rw [List.dropWhile_cons_of_neg h]

/-- Inside a comment, the outcome is that of the input after the first `}`. -/
theorem skipSpec_append : ∀ (c s : List Char), '}' ∉ c →
    (skipSpec (c ++ '}' :: s) : LexOutcome F) = lexSpec s
  | [], s, _ => by
    rw [List.nil_append, skipSpec, if_pos rfl]
  | x :: c, s, h => by
    have hx : x ≠ '}' := fun hx => h (by simp [hx])
    rw [List.cons_append, skipSpec, if_neg hx]
    exact skipSpec_append c s (fun hc => h (List.mem_cons_of_mem _ hc))

/-- A comment that is never closed. -/
theorem skipSpec_hang : ∀ r : List Char, '}' ∉ r → (skipSpec r : LexOutcome F) = .hang
  | [], _ => rfl
  | x :: r, h => by
    have hx : x ≠ '}' := fun hx => h (by simp [hx])
    rw [skipSpec, if_neg hx]
    exact skipSpec_hang r (fun hc => h (List.mem_cons_of_mem _ hc))

/-- `Number` on the unread input. -/
theorem Lexer.Number_at (rest pre : List Char) (l : Lexer) (n : Nat) (hat : l.At pre rest)
    (hn : rest.length < n) :
    ∃ (tok : Token F) (rest1 : List Char) (l1 : Lexer) (w : List Char),
      numberSpec rest = .token tok rest1 ∧ Lexer.Number n l = .ok (tok, l1) ∧
      l1.At (pre ++ w) rest1 ∧ rest = w ++ rest1 := by
  have hlen := length_takeWhile_add_dropWhile isDigit rest
  obtain ⟨l1, h1, hat1⟩ := Lexer.DigitLoop_at rest pre [] l n hat (by omega)
  rw [List.nil_append] at h1
  by_cases hdot : (rest.dropWhile isDigit).headD NUL = '.'
  · have hcons := cons_tail_of_headD hdot (by decide)
    have hat1c : l1.At (pre ++ rest.takeWhile isDigit) ('.' :: (rest.dropWhile isDigit).tail) := by
      rw [← hcons]
      exact hat1
    obtain ⟨l2, h2, hat2⟩ := Lexer.Advance_at hat1c
    have hlen2 := length_takeWhile_add_dropWhile isDigit (rest.dropWhile isDigit).tail
    have hlen3 : (rest.dropWhile isDigit).length = (rest.dropWhile isDigit).tail.length + 1 := by
      rw [hcons]
      simp
    obtain ⟨l3, h3, hat3⟩ := Lexer.DigitLoop_at (rest.dropWhile isDigit).tail
      (pre ++ rest.takeWhile isDigit ++ ['.']) (rest.takeWhile isDigit ++ ['.']) l2 n hat2
      (by omega)
    refine ⟨Token.mk REALCONST (Float64.ParseFloat (String.mk (rest.takeWhile isDigit ++ ['.'] ++
          (rest.dropWhile isDigit).tail.takeWhile isDigit))) "",
      (rest.dropWhile isDigit).tail.dropWhile isDigit, l3,
      rest.takeWhile isDigit ++ ['.'] ++
      (rest.dropWhile isDigit).tail.takeWhile isDigit, ?_, ?_, ?_, ?_⟩
    · unfold numberSpec
      rw [if_pos hdot]
    · unfold Lexer.Number
      rw [h1]
      have hc : l1.CurrentChar = '.' := by rw [hat1.2.2.1, hdot]
      simp only [bind, Except.bind, hc, if_true, h2, h3]
      rfl
    · simpa [List.append_assoc] using hat3
    · rw [List.append_assoc, List.append_assoc, List.takeWhile_append_dropWhile,
        List.singleton_append, ← hcons, List.takeWhile_append_dropWhile]
  · refine ⟨Token.mk INTEGERCONST (Float64.ParseFloat (String.mk (rest.takeWhile isDigit))) "",
      rest.dropWhile isDigit, l1, rest.takeWhile isDigit, ?_, ?_, hat1, ?_⟩
    · unfold numberSpec
      rw [if_neg hdot]
    · unfold Lexer.Number
      rw [h1]
      have hc : ¬ l1.CurrentChar = '.' := by rw [hat1.2.2.1]; exact hdot
      simp only [bind, Except.bind, hc, if_false]
      rfl
    · rw [List.takeWhile_append_dropWhile]

end LexSpecBasics

/-! ## A comment that is never closed: how the call fails -/

section OpenComment
variable {F : Type} [Float64 F]

theorem byteAt_error {s : List Char} {i : Int} {e : Fail} (h : byteAt s i = .error e) :
    e = .panic .indexOutOfRange := by
  unfold byteAt at h
  split_ifs at h
  · simp only [Except.error.injEq] at h
    exact h.symm
  · split at h
    · simp at h
    · simp only [Except.error.injEq] at h
      exact h.symm

theorem Lexer.Advance_error {l : Lexer} {e : Fail} (h : l.Advance = .error e) :
    e = .panic .indexOutOfRange := by
  unfold Lexer.Advance at h
  simp only at h
  split_ifs at h
  cases hb : byteAt l.Text (wrapInt64 (l.Pos + 1)) with
  | error e1 =>
    rw [hb] at h
    simp only [bind, Except.bind, Except.error.injEq] at h
    rw [← h]
    exact byteAt_error hb
  | ok c =>
    rw [hb] at h
    simp [bind, Except.bind, pure, Except.pure] at h

/-- The loop of `SkipComment` stops only by leaving the range of `int`, or
for lack of fuel. -/
theorem Lexer.SkipCommentLoop_error : ∀ (n : Nat) (l : Lexer) (e : Fail),
    Lexer.SkipCommentLoop n l = .error e → e = .outOfFuel ∨ e = .panic .indexOutOfRange
  | 0, l, e, h => by
    simp only [Lexer.SkipCommentLoop, Except.error.injEq] at h
    exact Or.inl h.symm
  | n + 1, l, e, h => by
    rw [Lexer.SkipCommentLoop] at h
    split_ifs at h
    cases ha : l.Advance with
    | error e1 =>
      rw [ha] at h
      simp only [bind, Except.bind, Except.error.injEq] at h
      rw [← h]
      exact Or.inr (Lexer.Advance_error ha)
    | ok l1 =>
      rw [ha] at h
      exact Lexer.SkipCommentLoop_error n l1 e h

theorem Lexer.At_noCloseAhead {l : Lexer} {pre : List Char} {c : Char} {r : List Char}
    (hat : l.At pre (c :: r)) (hr : '}' ∉ r) : l.NoCloseAhead := by
  obtain ⟨hT, hP, _, hlen⟩ := hat
  refine ⟨by rw [hP]; exact Int.natCast_nonneg _, ?_, ?_⟩
  · rw [hP]
    have : (pre.length : Int) ≤ ((pre ++ c :: r).length : Int) := by
      simp only [List.length_append, List.length_cons]
      push_cast
      omega
    have h2 : (((pre ++ c :: r).length : Nat) : Int) < 2 ^ 63 := by exact_mod_cast hlen
    omega
  · intro i hi hget
    rw [hP] at hi
    have hi2 : pre.length + 1 ≤ i := by omega
    rw [hT, List.get?_eq_getElem?, List.getElem?_append_right (by omega)] at hget
    obtain ⟨j, hj⟩ : ∃ j, i - pre.length = j + 1 := ⟨i - pre.length - 1, by omega⟩
    rw [hj, List.getElem?_cons_succ] at hget
    exact hr (List.getElem?_mem hget)

/-- At a `{` that no `}` follows, the call neither returns nor panics with
the lexing error. -/
theorem Lexer.GetNextToken_hang {l : Lexer} {pre r : List Char} (hat : l.At pre ('{' :: r))
    (hr : '}' ∉ r) : ∀ n, ∃ e, Lexer.GetNextToken (F := F) n l = .error e ∧
      (e = .outOfFuel ∨ e = .panic .indexOutOfRange)
  | 0 => ⟨.outOfFuel, rfl, Or.inl rfl⟩
  | n + 1 => by
    rw [Lexer.GetNextToken_comment n l (Lexer.At_CurrentChar_cons hat)]
    obtain ⟨l1, h1, _⟩ := Lexer.Advance_at hat
    obtain ⟨hno, hc⟩ := Lexer.Advance_noCloseAhead l l1 (Lexer.At_noCloseAhead hat hr) h1
    rw [h1]
    cases hloop : Lexer.SkipCommentLoop n l1 with
    | ok l2 => exact absurd hloop (Lexer.SkipCommentLoop_never_returns n l1 l2 hno hc)
    | error e =>
      refine ⟨e, ?_, Lexer.SkipCommentLoop_error n l1 e hloop⟩
      simp only [bind, Except.bind, Lexer.SkipComment, hloop]

end OpenComment

/-! ## One call of the lexer follows the unread input -/

section LexerFollows
variable {F : Type} [Float64 F]

/-- A call that first reads `u` and then behaves as the call `n` on `l1`. -/
theorem Lexer.Follows_skip {l l1 : Lexer} {m n : Nat} {pre u rest1 : List Char}
    {o : LexOutcome F}
    (hG : Lexer.GetNextToken (F := F) m l = Lexer.GetNextToken n l1)
    (h : l1.Follows n (pre ++ u) rest1 o) : l.Follows m pre (u ++ rest1) o := by
  cases o with
  | token tok rest2 =>
    obtain ⟨l2, w, hg, hat, hr⟩ := h
    exact ⟨l2, u ++ w, by rw [hG, hg], by simpa [List.append_assoc] using hat,
      by rw [hr, List.append_assoc]⟩
  | lexError =>
    show Lexer.GetNextToken m l = _
    rw [hG]
    exact h
  | hang =>
    obtain ⟨e, he, hcls⟩ := h
    exact ⟨e, by rw [hG, he], hcls⟩

/-- With fuel for the unread input, a call of `GetNextToken` has the outcome
that `lexSpec` computes from the unread input. -/
theorem Lexer.GetNextToken_at : ∀ (n : Nat) (rest pre : List Char) (l : Lexer),
    l.At pre rest → rest.length + 2 ≤ n → l.Follows n pre rest (lexSpec rest : LexOutcome F)
  | 0, _, _, _, _, hn => absurd hn (by omega)
  | n + 1, [], pre, l, hat, _ => by
    rw [lexSpec]
    exact ⟨l, [], Lexer.GetNextToken_nul n l (Lexer.At_CurrentChar_nil hat),
      by simpa using hat, rfl⟩
  | n + 1, c :: r, pre, l, hat, hn => by
    have hc := Lexer.At_CurrentChar_cons hat
    simp only [List.length_cons] at hn
    by_cases h0 : c = NUL
    · rw [lexSpec, if_pos h0]
      exact ⟨l, [], Lexer.GetNextToken_nul n l (hc.trans h0), by simpa using hat, rfl⟩
    by_cases hs : isSpace c = true
    · have hlen := length_takeWhile_add_dropWhile isSpace (c :: r)
      have htw : (c :: r).takeWhile isSpace = c :: r.takeWhile isSpace :=
        List.takeWhile_cons_of_pos hs
      have hlen1 : ((c :: r).takeWhile isSpace).length = (r.takeWhile isSpace).length + 1 := by
        rw [htw]
        rfl
      simp only [List.length_cons] at hlen
      obtain ⟨l1, h1, hat1⟩ := Lexer.SkipWhitespace_at (c :: r) pre l n hat (by omega)
      have hG : Lexer.GetNextToken (F := F) (n + 1) l = Lexer.GetNextToken n l1 := by
        rw [Lexer.GetNextToken_space n l (by rw [hc]; exact hs), h1]
        rfl
      have ih : l1.Follows n (pre ++ (c :: r).takeWhile isSpace) ((c :: r).dropWhile isSpace)
          (lexSpec ((c :: r).dropWhile isSpace) : LexOutcome F) :=
        Lexer.GetNextToken_at n ((c :: r).dropWhile isSpace)
          (pre ++ (c :: r).takeWhile isSpace) l1 hat1 (by omega)
      have := Lexer.Follows_skip hG ih
      rw [List.takeWhile_append_dropWhile, lexSpec_dropWhile_space] at this
      exact this
    by_cases ha : isAlpha c = true
    · rw [lexSpec, if_neg h0, if_neg hs, if_pos ha]
      have hlen := length_takeWhile_add_dropWhile isAlphaNumeric (c :: r)
      simp only [List.length_cons] at hlen
      obtain ⟨l1, h1, hat1⟩ := Lexer.ID_at (F := F) (c :: r) pre l n hat (by omega)
      exact ⟨l1, (c :: r).takeWhile isAlphaNumeric,
        by rw [Lexer.GetNextToken_alpha n l (by rw [hc]; exact ha), h1]; rfl, hat1,
        (List.takeWhile_append_dropWhile _ _).symm⟩
    by_cases hd : isDigit c = true
    · rw [lexSpec, if_neg h0, if_neg hs, if_neg ha, if_pos hd]
      obtain ⟨tok, rest1, l1, w, hspec, h1, hat1, hw⟩ :=
        Lexer.Number_at (F := F) (c :: r) pre l n hat (by simp only [List.length_cons]; omega)
      rw [hspec]
      exact ⟨l1, w, by rw [Lexer.GetNextToken_digit n l (by rw [hc]; exact hd), h1], hat1, hw⟩
    by_cases hcol : c = ':'
    · rw [lexSpec, if_neg h0, if_neg hs, if_neg ha, if_neg hd, if_pos hcol]
      rw [hcol] at hat
      obtain ⟨l1, h1, hat1⟩ := Lexer.Advance_at hat
      have hG := Lexer.GetNextToken_colon (F := F) n l (hc.trans hcol)
      rw [Lexer.Peek_at hat] at hG
      by_cases heq : r.headD NUL = '='
      · rw [if_pos heq]
        have hr := cons_tail_of_headD heq (by decide)
        rw [hr] at hat1
        obtain ⟨l2, h2, hat2⟩ := Lexer.Advance_at hat1
        refine ⟨l2, [':', '='], ?_, by simpa [List.append_assoc] using hat2, ?_⟩
        · rw [hG]
          simp only [bind, Except.bind, heq, if_true, h1, h2]
          rfl
        · rw [hcol]
          simp only [List.cons_append, List.nil_append]
          rw [← hr]
      · rw [if_neg heq]
        refine ⟨l1, [':'], ?_, hat1, by rw [hcol]; rfl⟩
        rw [hG]
        simp only [bind, Except.bind, heq, if_false, h1]
        rfl
    by_cases hb : c = '{'
    · rw [lexSpec, if_neg h0, if_neg hs, if_neg ha, if_neg hd, if_neg hcol, if_pos hb]
      rw [hb] at hat ⊢
      by_cases hclose : '}' ∈ r
      · obtain ⟨cm, s, hr, hcm⟩ := List.eq_append_cons_of_mem hclose
        subst hr
        obtain ⟨l1, h1, hat1⟩ := Lexer.Advance_at hat
        simp only [List.length_append, List.length_cons] at hn
        obtain ⟨l2, h2, hat2⟩ := Lexer.SkipCommentLoop_at cm (pre ++ ['{']) s l1 n hat1 hcm
          (by omega)
        obtain ⟨l3, h3, hat3⟩ := Lexer.Advance_at hat2
        have hG : Lexer.GetNextToken (F := F) (n + 1) l = Lexer.GetNextToken n l3 := by
          rw [Lexer.GetNextToken_comment n l (hc.trans hb), h1]
          simp only [bind, Except.bind, Lexer.SkipComment, h2, h3]
        have hat4 : l3.At (pre ++ ('{' :: cm ++ ['}'])) s := by
          simpa [List.append_assoc] using hat3
        have ih : l3.Follows n (pre ++ ('{' :: cm ++ ['}'])) s (lexSpec s : LexOutcome F) :=
          Lexer.GetNextToken_at n s (pre ++ ('{' :: cm ++ ['}'])) l3 hat4 (by omega)
        have := Lexer.Follows_skip hG ih
        rw [skipSpec_append cm s hcm]
        simpa [List.append_assoc] using this
      · rw [skipSpec_hang r hclose]
        exact Lexer.GetNextToken_hang hat hclose (n + 1)
    · rw [lexSpec, if_neg h0, if_neg hs, if_neg ha, if_neg hd, if_neg hcol, if_neg hb]
      have hs1 : isSpace c = false := by simpa using hs
      have ha1 : isAlpha c = false := by simpa using ha
      have hd1 : isDigit c = false := by simpa using hd
      cases hsym : Lexer.symbol c with
      | none =>
        exact Lexer.GetNextToken_other n l (by rw [hc]; exact h0) (by rw [hc]; exact hs1)
          (by rw [hc]; exact ha1) (by rw [hc]; exact hd1) (by rw [hc]; exact hb)
          (by rw [hc]; exact hsym)
      | some T =>
        obtain ⟨l1, h1, hat1⟩ := Lexer.Advance_at hat
        refine ⟨l1, [c], ?_, hat1, rfl⟩
        rw [Lexer.GetNextToken_symbol n l T (by rw [hc]; exact hsym) (by rw [hc]; exact hcol),
          h1]
        rfl

end LexerFollows

/-! ## Two texts that differ in a comment -/

section OutcomeRel
variable {F : Type}

theorem LexOutcome.Related_refl {R : List Char → List Char → Prop} (hR : ∀ r, R r r) :
    ∀ o : LexOutcome F, LexOutcome.Related R o o
  | .token _ r => ⟨rfl, hR r⟩
  | .lexError => trivial
  | .hang => trivial

theorem LexOutcome.Related_flip {R : List Char → List Char → Prop} :
    ∀ o1 o2 : LexOutcome F, LexOutcome.Related R o1 o2 →
      LexOutcome.Related (fun a b => R b a) o2 o1
  | .token _ _, .token _ _, h => ⟨h.1.symm, h.2⟩
  | .lexError, .lexError, _ => trivial
  | .hang, .hang, _ => trivial
  | .token _ _, .lexError, h => h.elim
  | .token _ _, .hang, h => h.elim
  | .lexError, .token _ _, h => h.elim
  | .lexError, .hang, h => h.elim
  | .hang, .token _ _, h => h.elim
  | .hang, .lexError, h => h.elim

end OutcomeRel

section CommentSim
variable {F : Type} [Float64 F]

theorem takeWhile_append_stop (f : Char → Bool) (x : Char) (t : List Char) (hx : f x = false) :
    ∀ q : List Char, (q ++ x :: t).takeWhile f = q.takeWhile f
  | [] => by
    rw [List.nil_append, List.takeWhile_cons_of_neg (by simp [hx])]
    rfl
  | a :: q => by
    by_cases ha : f a = true
    · rw [List.cons_append, List.takeWhile_cons_of_pos ha, List.takeWhile_cons_of_pos ha,
        takeWhile_append_stop f x t hx q]
    · rw [List.cons_append, List.takeWhile_cons_of_neg ha, List.takeWhile_cons_of_neg ha]

theorem dropWhile_append_stop (f : Char → Bool) (x : Char) (t : List Char) (hx : f x = false) :
    ∀ q : List Char, (q ++ x :: t).dropWhile f = q.dropWhile f ++ x :: t
  | [] => by
    rw [List.nil_append, List.dropWhile_cons_of_neg (by simp [hx])]
    rfl
  | a :: q => by
    by_cases ha : f a = true
    · rw [List.cons_append, List.dropWhile_cons_of_pos ha, List.dropWhile_cons_of_pos ha,
        dropWhile_append_stop f x t hx q]
    · rw [List.cons_append, List.dropWhile_cons_of_neg ha, List.dropWhile_cons_of_neg ha]
      rfl

theorem not_mem_dropWhile {a : Char} (f : Char → Bool) {q : List Char} (h : a ∉ q) :
    a ∉ q.dropWhile f :=
  fun hm => h ((List.dropWhile_sublist f).subset hm)

/-- A number in front of a byte that is neither a digit nor `.` is read
without looking further. -/
theorem numberSpec_append_stop (q : List Char) (x : Char) (t : List Char)
    (hx : isDigit x = false) (hdot : x ≠ '.') :
    ∃ (tok : Token F) (r : List Char), numberSpec (q ++ x :: t) = .token tok (r ++ x :: t) ∧
      numberSpec q = .token tok r ∧ ∀ a, a ∉ q → a ∉ r := by
  unfold numberSpec
  rw [takeWhile_append_stop isDigit x t hx, dropWhile_append_stop isDigit x t hx]
  cases hdq : q.dropWhile isDigit with
  | nil =>
    have h1 : ¬ ([] ++ x :: t).headD NUL = '.' := by simpa using hdot
    have h2 : ¬ ([] : List Char).headD NUL = '.' := by decide
    rw [if_neg h1, if_neg h2]
    exact ⟨_, _, rfl, rfl, fun a _ => by simp⟩
  | cons d dq =>
    have hsub : ∀ a, a ∉ q → a ∉ d :: dq := fun a ha => by
      rw [← hdq]
      exact not_mem_dropWhile isDigit ha
    by_cases hd : d = '.'
    · have h1 : ((d :: dq) ++ x :: t).headD NUL = '.' := by simpa using hd
      have h2 : (d :: dq).headD NUL = '.' := by simpa using hd
      rw [if_pos h1, if_pos h2]
      simp only [List.cons_append, List.tail_cons]
      rw [takeWhile_append_stop isDigit x t hx, dropWhile_append_stop isDigit x t hx]
      exact ⟨_, _, rfl, rfl, fun a ha =>
        not_mem_dropWhile isDigit (fun hm => hsub a ha (List.mem_cons_of_mem _ hm))⟩
    · have h1 : ¬ ((d :: dq) ++ x :: t).headD NUL = '.' := by simpa using hd
      have h2 : ¬ (d :: dq).headD NUL = '.' := by simpa using hd
      rw [if_neg h1, if_neg h2]
      exact ⟨_, _, rfl, rfl, hsub⟩

theorem LexSim_flip {R : List Char → List Char → Prop} (h : LexSim F R) :
    LexSim F (fun a b => R b a) :=
  fun r1 r2 hr => LexOutcome.Related_flip _ _ (h r2 r1 hr)

/-- In front of the comment and behind it, a call of the lexer on the text
with the comment and on the text with the blank returns the same token, and
leaves the two texts again at the same point. -/
theorem lexSpec_comment (c s : List Char) (hc : '}' ∉ c) : ∀ q : List Char, '{' ∉ q →
    LexOutcome.Related (CommentRel c s) (lexSpec (q ++ '{' :: (c ++ '}' :: s)) : LexOutcome F)
      (lexSpec (q ++ ' ' :: s))
  | [], _ => by
    have h1 : (lexSpec ('{' :: (c ++ '}' :: s)) : LexOutcome F) = lexSpec s := by
      rw [lexSpec, if_neg (by decide), if_neg (by decide), if_neg (by decide),
        if_neg (by decide), if_neg (by decide), if_pos rfl]
      exact skipSpec_append c s hc
    have h2 : (lexSpec (' ' :: s) : LexOutcome F) = lexSpec s :=
      lexSpec_space ' ' s (by decide)
    rw [List.nil_append, List.nil_append, h1, h2]
    exact LexOutcome.Related_refl (fun _ => Or.inl rfl) _
  | ch :: q, hq => by
    have hq1 : '{' ∉ q := fun h => hq (List.mem_cons_of_mem _ h)
    have hb : ch ≠ '{' := fun h => hq (by simp [h])
    have e1 : (ch :: q) ++ '{' :: (c ++ '}' :: s) = ch :: (q ++ '{' :: (c ++ '}' :: s)) := rfl
    have e2 : (ch :: q) ++ ' ' :: s = ch :: (q ++ ' ' :: s) := rfl
    rw [e1, e2]
    by_cases h0 : ch = NUL
    · rw [lexSpec, lexSpec, if_pos h0, if_pos h0]
      exact ⟨rfl, Or.inr ⟨ch :: q, hq, rfl, rfl⟩⟩
    by_cases hs : isSpace ch = true
    · rw [lexSpec_space ch _ hs, lexSpec_space ch _ hs]
      exact lexSpec_comment c s hc q hq1
    by_cases ha : isAlpha ch = true
    · rw [lexSpec, lexSpec, if_neg h0, if_neg hs, if_pos ha, if_neg h0, if_neg hs, if_pos ha]
      rw [← e1, ← e2,
        takeWhile_append_stop isAlphaNumeric '{' _ (by decide),
        takeWhile_append_stop isAlphaNumeric ' ' _ (by decide),
        dropWhile_append_stop isAlphaNumeric '{' _ (by decide),
        dropWhile_append_stop isAlphaNumeric ' ' _ (by decide)]
      exact ⟨rfl, Or.inr ⟨_, not_mem_dropWhile isAlphaNumeric hq, rfl, rfl⟩⟩
    by_cases hd : isDigit ch = true
    · rw [lexSpec, lexSpec, if_neg h0, if_neg hs, if_neg ha, if_pos hd, if_neg h0, if_neg hs,
        if_neg ha, if_pos hd]
      rw [← e1, ← e2]
      obtain ⟨tok1, r1, h1, hn1, hr1⟩ := numberSpec_append_stop (F := F) (ch :: q) '{'
        (c ++ '}' :: s) (by decide) (by decide)
      obtain ⟨tok2, r2, h2, hn2, _⟩ := numberSpec_append_stop (F := F) (ch :: q) ' ' s
        (by decide) (by decide)
      rw [hn1] at hn2
      simp only [LexOutcome.token.injEq] at hn2
      rw [h1, h2, ← hn2.1, ← hn2.2]
      exact ⟨rfl, Or.inr ⟨r1, hr1 _ hq, rfl, rfl⟩⟩
    by_cases hcol : ch = ':'
    · rw [lexSpec, lexSpec, if_neg h0, if_neg hs, if_neg ha, if_neg hd, if_pos hcol, if_neg h0,
        if_neg hs, if_neg ha, if_neg hd, if_pos hcol]
      cases q with
      | nil =>
        rw [List.nil_append, List.nil_append, List.headD_cons, List.headD_cons,
          if_neg (by decide), if_neg (by decide)]
        exact ⟨rfl, Or.inr ⟨[], by simp, rfl, rfl⟩⟩
      | cons d q2 =>
        rw [List.cons_append, List.cons_append, List.headD_cons, List.headD_cons]
        by_cases hd2 : d = '='
        · rw [if_pos hd2, if_pos hd2, List.tail_cons, List.tail_cons]
          exact ⟨rfl, Or.inr ⟨q2, fun h => hq1 (List.mem_cons_of_mem _ h), rfl, rfl⟩⟩
        · rw [if_neg hd2, if_neg hd2]
          exact ⟨rfl, Or.inr ⟨d :: q2, hq1, rfl, rfl⟩⟩
    · rw [lexSpec, lexSpec, if_neg h0, if_neg hs, if_neg ha, if_neg hd, if_neg hcol, if_neg hb,
        if_neg h0, if_neg hs, if_neg ha, if_neg hd, if_neg hcol, if_neg hb]
      cases Lexer.symbol ch with
      | none => trivial
      | some T => exact ⟨rfl, Or.inr ⟨q, hq1, rfl, rfl⟩⟩

/-- The lexer cannot tell the text with the comment from the text with the
blank. -/
theorem LexSim_comment (c s : List Char) (hc : '}' ∉ c) : LexSim F (CommentRel c s) := by
  intro r1 r2 h
  rcases h with h | ⟨q, hq, h1, h2⟩
  · rw [h]
    exact LexOutcome.Related_refl (fun _ => Or.inl rfl) _
  · rw [h1, h2]
    exact lexSpec_comment c s hc q hq

end CommentSim

/-! ## Two token sources that hand out the same tokens -/

theorem Settled_error_iff {α : Type} (e : Fail) :
    Settled (.error e : Except Fail α) ↔ e ≠ .outOfFuel ∧ e ≠ .panic .indexOutOfRange := by
  simp [Settled]

section LexerSources
variable {F : Type} [Float64 F]

/-- Lexers on related inputs hand out the same tokens, when the second has
fuel for its text. -/
theorem SourceSim_lexer {R : List Char → List Char → Prop} (hR : LexSim F R) (n m B : Nat)
    (hm : B + 2 ≤ m) :
    SourceSim (LexRel R B) (fun l => Lexer.GetNextToken (F := F) n l)
      (fun l => Lexer.GetNextToken m l) := by
  intro l1 l2 ⟨pre1, r1, pre2, r2, hat1, hat2, hrel, hB⟩
  have hlen2 : r2.length ≤ B := by
    rw [List.length_append] at hB
    omega
  have f1 := Lexer.GetNextToken_at (F := F) (max n (r1.length + 2)) r1 pre1 l1 hat1
    (Nat.le_max_right _ _)
  have f2 := Lexer.GetNextToken_at (F := F) m r2 pre2 l2 hat2 (by omega)
  have hsim := hR r1 r2 hrel
  have hmono := Lexer.GetNextToken_fuel_mono (F := F) (Nat.le_max_left n (r1.length + 2)) l1
  generalize (lexSpec r1 : LexOutcome F) = o1 at f1 hsim
  generalize (lexSpec r2 : LexOutcome F) = o2 at f2 hsim
  constructor
  · intro t l3 h
    replace h : Lexer.GetNextToken n l1 = .ok (t, l3) := h
    have hN := hmono (by rw [h]; simp)
    rw [h] at hN
    cases o1 with
    | token t1 rest1 =>
      obtain ⟨l5, w, hg, hat5, _⟩ := f1
      rw [hN] at hg
      simp only [Except.ok.injEq, Prod.mk.injEq] at hg
      cases o2 with
      | token t2 rest2 =>
        obtain ⟨l4, w2, hg2, hat4, hw2⟩ := f2
        refine ⟨l4, ?_, pre1 ++ w, rest1, pre2 ++ w2, rest2, ?_, hat4, hsim.2, ?_⟩
        · show Lexer.GetNextToken m l2 = _
          rw [hg2, ← hsim.1, hg.1]
        · rw [hg.2]
          exact hat5
        · rw [List.append_assoc, ← hw2]
          exact hB
      | lexError => exact hsim.elim
      | hang => exact hsim.elim
    | lexError =>
      have hf : Lexer.GetNextToken (F := F) (max n (r1.length + 2)) l1 = _ := f1
      rw [hN] at hf
      simp at hf
    | hang =>
      obtain ⟨e, he, _⟩ := f1
      rw [hN] at he
      simp at he
  · intro e h hset
    replace h : Lexer.GetNextToken n l1 = .error e := h
    rw [Settled_error_iff] at hset
    have hN := hmono (by rw [h]; simpa using hset.1)
    rw [h] at hN
    cases o1 with
    | token t1 rest1 =>
      obtain ⟨l5, w, hg, _, _⟩ := f1
      rw [hN] at hg
      simp at hg
    | lexError =>
      have hf : Lexer.GetNextToken (F := F) (max n (r1.length + 2)) l1 = _ := f1
      rw [hN] at hf
      simp only [Except.error.injEq] at hf
      cases o2 with
      | token t2 rest2 => exact hsim.elim
      | lexError =>
        show Lexer.GetNextToken m l2 = _
        rw [hf]
        exact f2
      | hang => exact hsim.elim
    | hang =>
      obtain ⟨e1, he, hcls⟩ := f1
      rw [hN] at he
      simp only [Except.error.injEq] at he
      rw [← he] at hcls
      rcases hcls with hcls | hcls
      · exact absurd hcls hset.1
      · exact absurd hcls hset.2

/-- A lexer with more fuel hands out the same tokens. -/
theorem SourceSim_fuel {n m : Nat} (h : n ≤ m) :
    SourceSim (fun l1 l2 : Lexer => l1 = l2) (fun l => Lexer.GetNextToken (F := F) n l)
      (fun l => Lexer.GetNextToken m l) := by
  intro l1 l2 hl
  subst hl
  have hmono := Lexer.GetNextToken_fuel_mono (F := F) h l1
  constructor
  · intro t l3 hg
    replace hg : Lexer.GetNextToken n l1 = .ok (t, l3) := hg
    refine ⟨l3, ?_, rfl⟩
    show Lexer.GetNextToken m l1 = _
    rw [hmono (by rw [hg]; simp), hg]
  · intro e hg hset
    replace hg : Lexer.GetNextToken n l1 = .error e := hg
    rw [Settled_error_iff] at hset
    show Lexer.GetNextToken m l1 = _
    rw [hmono (by rw [hg]; simpa using hset.1), hg]

end LexerSources

section TokensFrom
variable {F σ1 σ2 : Type}

/-- Sources that hand out the same tokens give the same first `k` tokens. -/
theorem tokensFrom_sim {R : σ1 → σ2 → Prop} {next1 : σ1 → Except Fail (Token F × σ1)}
    {next2 : σ2 → Except Fail (Token F × σ2)} (h : SourceSim R next1 next2) :
    ∀ (k : Nat) (l1 : σ1) (l2 : σ2), R l1 l2 → Settled (tokensFrom next1 k l1) →
      tokensFrom next2 k l2 = tokensFrom next1 k l1
  | 0, _, _, _, _ => rfl
  | k + 1, l1, l2, hl, hset => by
    obtain ⟨hok, herr⟩ := h l1 l2 hl
    cases h1 : next1 l1 with
    | error e =>
      have e1 : tokensFrom next1 (k + 1) l1 = .error e := by simp only [tokensFrom, h1]
      rw [e1] at hset ⊢
      have h2 := herr e h1 ((Settled_error_iff e).2 ((Settled_error_iff e).1 hset))
      simp only [tokensFrom, h2]
    | ok x =>
      obtain ⟨tok, l3⟩ := x
      obtain ⟨l4, h2, hl34⟩ := hok tok l3 h1
      by_cases hT : tok.Type_ = EOF
      · simp only [tokensFrom, h1, h2, hT, if_true]
      · have hset2 : Settled (tokensFrom next1 k l3) := by
          cases h3 : tokensFrom next1 k l3 with
          | error e =>
            simp only [tokensFrom, h1, hT, if_false, h3] at hset
            exact (Settled_error_iff e).2 ((Settled_error_iff e).1 hset)
          | ok toks => exact ⟨by simp, by simp⟩
        have ih := tokensFrom_sim h k l3 l4 hl34 hset2
        simp only [tokensFrom, h1, h2, hT, if_false, ih]

end TokensFrom

/-! ## The parser on two sources that hand out the same tokens -/

section SimBasics
variable {F σ1 σ2 : Type} {R : σ1 → σ2 → Prop}

theorem ParserM.Sim_pure {α : Type} (a : α) :
    ParserM.Sim R (pure a : ParserM F σ1 α) (pure a : ParserM F σ2 α) := by
  intro p1 p2 hc hl
  constructor
  · intro b p3 h
    rw [ParserM.pure_apply] at h
    simp only [Except.ok.injEq, Prod.mk.injEq] at h
    refine ⟨p2, ?_, ?_, ?_⟩
    · rw [ParserM.pure_apply, h.1]
    · rw [← h.2]
      exact hc
    · rw [← h.2]
      exact hl
  · intro e h
    rw [ParserM.pure_apply] at h
    simp at h

theorem ParserM.Sim_fail {α : Type} (e : Fail) :
    ParserM.Sim R (ParserM.fail e : ParserM F σ1 α) (ParserM.fail e : ParserM F σ2 α) := by
  intro p1 p2 _ _
  constructor
  · intro b p3 h
    simp [ParserM.fail] at h
  · intro e1 h _
    simp only [ParserM.fail, Except.error.injEq] at h ⊢
    exact h

theorem ParserM.Sim_Error {α : Type} :
    ParserM.Sim R (Parser.Error : ParserM F σ1 α) (Parser.Error : ParserM F σ2 α) :=
  ParserM.Sim_fail _

theorem ParserM.Sim_currentToken :
    ParserM.Sim R (Parser.currentToken : ParserM F σ1 (Token F))
      (Parser.currentToken : ParserM F σ2 (Token F)) := by
  intro p1 p2 hc hl
  constructor
  · intro b p3 h
    simp only [Parser.currentToken, Except.ok.injEq, Prod.mk.injEq] at h
    refine ⟨p2, ?_, ?_, ?_⟩
    · simp only [Parser.currentToken, ← h.1, hc]
    · rw [← h.2]
      exact hc
    · rw [← h.2]
      exact hl
  · intro e h
    simp [Parser.currentToken] at h

theorem ParserM.Sim_bind {α β : Type} {A1 : ParserM F σ1 α} {A2 : ParserM F σ2 α}
    {f1 : α → ParserM F σ1 β} {f2 : α → ParserM F σ2 β} (hA : ParserM.Sim R A1 A2)
    (hf : ∀ a, ParserM.Sim R (f1 a) (f2 a)) : ParserM.Sim R (A1 >>= f1) (A2 >>= f2) := by
  intro p1 p2 hc hl
  obtain ⟨hok, herr⟩ := hA p1 p2 hc hl
  rw [ParserM.bind_apply, ParserM.bind_apply]
  rcases h1 : A1 p1 with e | ⟨a, p3⟩
  · constructor
    · intro b p5 h
      simp at h
    · intro e1 h hset
      simp only [Except.error.injEq] at h
      subst h
      rw [herr e h1 hset]
  · obtain ⟨p4, h2, hc34, hl34⟩ := hok a p3 h1
    rw [h2]
    exact hf a p3 p4 hc34 hl34

theorem ParserM.Sim_ite {α : Type} {c : Prop} [Decidable c] {A1 B1 : ParserM F σ1 α}
    {A2 B2 : ParserM F σ2 α} (hA : ParserM.Sim R A1 A2) (hB : ParserM.Sim R B1 B2) :
    ParserM.Sim R (if c then A1 else B1) (if c then A2 else B2) := by
  by_cases hc : c
  · rw [if_pos hc, if_pos hc]
    exact hA
  · rw [if_neg hc, if_neg hc]
    exact hB

variable {next1 : σ1 → Except Fail (Token F × σ1)} {next2 : σ2 → Except Fail (Token F × σ2)}

theorem ParserM.Sim_advance (h : SourceSim R next1 next2) :
    ParserM.Sim R (Parser.advance next1) (Parser.advance next2) := by
  intro p1 p2 _ hl
  obtain ⟨hok, herr⟩ := h p1.lexer p2.lexer hl
  constructor
  · intro a p3 h1
    unfold Parser.advance at h1 ⊢
    rcases hn : next1 p1.lexer with e | ⟨t, l3⟩
    · rw [hn] at h1
      simp at h1
    · rw [hn] at h1
      simp only [Except.ok.injEq, Prod.mk.injEq] at h1
      obtain ⟨l4, h2, hl34⟩ := hok t l3 hn
      rw [h2]
      refine ⟨{ CurrentToken := t, lexer := l4 }, rfl, ?_, ?_⟩
      · rw [← h1.2]
      · rw [← h1.2]
        exact hl34
  · intro e h1 hset
    unfold Parser.advance at h1 ⊢
    rcases hn : next1 p1.lexer with e1 | ⟨t, l3⟩
    · rw [hn] at h1
      simp only [Except.error.injEq] at h1
      subst h1
      rw [herr e1 hn hset]
    · rw [hn] at h1
      simp at h1

theorem ParserM.Sim_Eat (h : SourceSim R next1 next2) (T : Int) :
    ParserM.Sim R (Parser.Eat next1 T) (Parser.Eat next2 T) :=
  ParserM.Sim_bind ParserM.Sim_currentToken fun _ =>
    ParserM.Sim_ite (ParserM.Sim_advance h) ParserM.Sim_Error

theorem ParserM.Sim_Variable (h : SourceSim R next1 next2) :
    ParserM.Sim R (Parser.Variable next1) (Parser.Variable next2) :=
  ParserM.Sim_bind ParserM.Sim_currentToken fun _ =>
    ParserM.Sim_bind (ParserM.Sim_Eat h IDENT) fun _ => ParserM.Sim_pure _

theorem ParserM.Sim_TypeSpec (h : SourceSim R next1 next2) :
    ParserM.Sim R (Parser.TypeSpec next1) (Parser.TypeSpec next2) :=
  ParserM.Sim_bind ParserM.Sim_currentToken fun _ =>
    ParserM.Sim_ite
      (ParserM.Sim_bind (ParserM.Sim_Eat h INTEGER) fun _ => ParserM.Sim_pure _)
      (ParserM.Sim_bind (ParserM.Sim_Eat h REAL) fun _ => ParserM.Sim_pure _)

end SimBasics

section SimMethods
variable {F σ1 σ2 : Type} {R : σ1 → σ2 → Prop}
  {next1 : σ1 → Except Fail (Token F × σ1)} {next2 : σ2 → Except Fail (Token F × σ2)}

/-- The expression methods on two sources that hand out the same tokens. -/
theorem Parser.expr_sim (h : SourceSim R next1 next2) : ∀ n : Nat,
    ParserM.Sim R (Parser.Expr next1 n) (Parser.Expr next2 n) ∧
    (∀ node, ParserM.Sim R (Parser.ExprLoop next1 n node) (Parser.ExprLoop next2 n node)) ∧
    ParserM.Sim R (Parser.Term next1 n) (Parser.Term next2 n) ∧
    (∀ node, ParserM.Sim R (Parser.TermLoop next1 n node) (Parser.TermLoop next2 n node)) ∧
    ParserM.Sim R (Parser.Factor next1 n) (Parser.Factor next2 n)
  | 0 => by
    refine ⟨?_, fun _ => ?_, ?_, fun _ => ?_, ?_⟩ <;>
      first
        | (rw [Parser.Expr, Parser.Expr]; exact ParserM.Sim_fail _)
        | (rw [Parser.ExprLoop, Parser.ExprLoop]; exact ParserM.Sim_fail _)
        | (rw [Parser.Term, Parser.Term]; exact ParserM.Sim_fail _)
        | (rw [Parser.TermLoop, Parser.TermLoop]; exact ParserM.Sim_fail _)
        | (rw [Parser.Factor, Parser.Factor]; exact ParserM.Sim_fail _)
  | n + 1 => by
    obtain ⟨ihE, ihEL, ihT, ihTL, ihF⟩ := Parser.expr_sim h n
    refine ⟨?_, fun node => ?_, ?_, fun node => ?_, ?_⟩
    · simp only [Parser.Expr]
      repeat' first
        | exact ihE | exact ihT | exact ihF | exact ihEL _ | exact ihTL _
        | exact ParserM.Sim_pure _
        | exact ParserM.Sim_fail _
        | exact ParserM.Sim_Error
        | exact ParserM.Sim_currentToken
        | exact ParserM.Sim_Eat h _
        | exact ParserM.Sim_Variable h
        | exact ParserM.Sim_TypeSpec h
        | exact ParserM.Sim_advance h
        | apply ParserM.Sim_bind
        | apply ParserM.Sim_ite
        | intro _
    · simp only [Parser.ExprLoop]
      repeat' first
        | exact ihE | exact ihT | exact ihF | exact ihEL _ | exact ihTL _
        | exact ParserM.Sim_pure _
        | exact ParserM.Sim_fail _
        | exact ParserM.Sim_Error
        | exact ParserM.Sim_currentToken
        | exact ParserM.Sim_Eat h _
        | exact ParserM.Sim_Variable h
        | exact ParserM.Sim_TypeSpec h
        | exact ParserM.Sim_advance h
        | apply ParserM.Sim_bind
        | apply ParserM.Sim_ite
        | intro _
    · simp only [Parser.Term]
      repeat' first
        | exact ihE | exact ihT | exact ihF | exact ihEL _ | exact ihTL _
        | exact ParserM.Sim_pure _
        | exact ParserM.Sim_fail _
        | exact ParserM.Sim_Error
        | exact ParserM.Sim_currentToken
        | exact ParserM.Sim_Eat h _
        | exact ParserM.Sim_Variable h
        | exact ParserM.Sim_TypeSpec h
        | exact ParserM.Sim_advance h
        | apply ParserM.Sim_bind
        | apply ParserM.Sim_ite
        | intro _
    · simp only [Parser.TermLoop]
      repeat' first
        | exact ihE | exact ihT | exact ihF | exact ihEL _ | exact ihTL _
        | exact ParserM.Sim_pure _
        | exact ParserM.Sim_fail _
        | exact ParserM.Sim_Error
        | exact ParserM.Sim_currentToken
        | exact ParserM.Sim_Eat h _
        | exact ParserM.Sim_Variable h
        | exact ParserM.Sim_TypeSpec h
        | exact ParserM.Sim_advance h
        | apply ParserM.Sim_bind
        | apply ParserM.Sim_ite
        | intro _
    · simp only [Parser.Factor]
      repeat' first
        | exact ihE | exact ihT | exact ihF | exact ihEL _ | exact ihTL _
        | exact ParserM.Sim_pure _
        | exact ParserM.Sim_fail _
        | exact ParserM.Sim_Error
        | exact ParserM.Sim_currentToken
        | exact ParserM.Sim_Eat h _
        | exact ParserM.Sim_Variable h
        | exact ParserM.Sim_TypeSpec h
        | exact ParserM.Sim_advance h
        | apply ParserM.Sim_bind
        | apply ParserM.Sim_ite
        | intro _

theorem Parser.VariableDeclarationLoop_sim (h : SourceSim R next1 next2) : ∀ (n : Nat) (varnodes : List (Node F)),
    ParserM.Sim R (Parser.VariableDeclarationLoop next1 n varnodes)
      (Parser.VariableDeclarationLoop next2 n varnodes)
  | 0, _ => by
    rw [Parser.VariableDeclarationLoop, Parser.VariableDeclarationLoop]
    exact ParserM.Sim_fail _
  | n + 1, varnodes => by
    have ih := Parser.VariableDeclarationLoop_sim h n
    simp only [Parser.VariableDeclarationLoop]
    repeat' first
      | exact ih _
      | exact ParserM.Sim_pure _
      | exact ParserM.Sim_fail _
      | exact ParserM.Sim_Error
      | exact ParserM.Sim_currentToken
      | exact ParserM.Sim_Eat h _
      | exact ParserM.Sim_Variable h
      | exact ParserM.Sim_TypeSpec h
      | exact ParserM.Sim_advance h
      | apply ParserM.Sim_bind
      | apply ParserM.Sim_ite
      | intro _

theorem Parser.VariableDeclaration_sim (h : SourceSim R next1 next2) (n : Nat) :
    ParserM.Sim R (Parser.VariableDeclaration next1 n) (Parser.VariableDeclaration next2 n) := by
  have ih := Parser.VariableDeclarationLoop_sim h n
  simp only [Parser.VariableDeclaration]
  repeat' first
    | exact ih _
    | exact ParserM.Sim_pure _
    | exact ParserM.Sim_fail _
    | exact ParserM.Sim_Error
    | exact ParserM.Sim_currentToken
    | exact ParserM.Sim_Eat h _
    | exact ParserM.Sim_Variable h
    | exact ParserM.Sim_TypeSpec h
    | exact ParserM.Sim_advance h
    | apply ParserM.Sim_bind
    | apply ParserM.Sim_ite
    | intro _

theorem Parser.DeclarationsLoop_sim (h : SourceSim R next1 next2) : ∀ (n : Nat) (declnodes : List (Node F)),
    ParserM.Sim R (Parser.DeclarationsLoop next1 n declnodes)
      (Parser.DeclarationsLoop next2 n declnodes)
  | 0, _ => by
    rw [Parser.DeclarationsLoop, Parser.DeclarationsLoop]
    exact ParserM.Sim_fail _
  | n + 1, declnodes => by
    have ih := Parser.DeclarationsLoop_sim h n
    have ihV := Parser.VariableDeclaration_sim h n
    simp only [Parser.DeclarationsLoop]
    repeat' first
      | exact ih _ | exact ihV
      | exact ParserM.Sim_pure _
      | exact ParserM.Sim_fail _
      | exact ParserM.Sim_Error
      | exact ParserM.Sim_currentToken
      | exact ParserM.Sim_Eat h _
      | exact ParserM.Sim_Variable h
      | exact ParserM.Sim_TypeSpec h
      | exact ParserM.Sim_advance h
      | apply ParserM.Sim_bind
      | apply ParserM.Sim_ite
      | intro _

theorem Parser.Declarations_sim (h : SourceSim R next1 next2) (n : Nat) :
    ParserM.Sim R (Parser.Declarations next1 n) (Parser.Declarations next2 n) := by
  have ih := Parser.DeclarationsLoop_sim h n
  simp only [Parser.Declarations]
  repeat' first
    | exact ih _
    | exact ParserM.Sim_pure _
    | exact ParserM.Sim_fail _
    | exact ParserM.Sim_Error
    | exact ParserM.Sim_currentToken
    | exact ParserM.Sim_Eat h _
    | exact ParserM.Sim_Variable h
    | exact ParserM.Sim_TypeSpec h
    | exact ParserM.Sim_advance h
    | apply ParserM.Sim_bind
    | apply ParserM.Sim_ite
    | intro _

theorem Parser.AssignmentStatement_sim (h : SourceSim R next1 next2) (n : Nat) :
    ParserM.Sim R (Parser.AssignmentStatement next1 n) (Parser.AssignmentStatement next2 n) := by
  have ih := (Parser.expr_sim h n).1
  simp only [Parser.AssignmentStatement]
  repeat' first
    | exact ih
    | exact ParserM.Sim_pure _
    | exact ParserM.Sim_fail _
    | exact ParserM.Sim_Error
    | exact ParserM.Sim_currentToken
    | exact ParserM.Sim_Eat h _
    | exact ParserM.Sim_Variable h
    | exact ParserM.Sim_TypeSpec h
    | exact ParserM.Sim_advance h
    | apply ParserM.Sim_bind
    | apply ParserM.Sim_ite
    | intro _

/-- The statement methods on two sources that hand out the same tokens. -/
theorem Parser.statement_sim (h : SourceSim R next1 next2) : ∀ n : Nat,
    ParserM.Sim R (Parser.CompoundStatement next1 n) (Parser.CompoundStatement next2 n) ∧
    ParserM.Sim R (Parser.StatementList next1 n) (Parser.StatementList next2 n) ∧
    (∀ results, ParserM.Sim R (Parser.StatementListLoop next1 n results)
      (Parser.StatementListLoop next2 n results)) ∧
    ParserM.Sim R (Parser.Statement next1 n) (Parser.Statement next2 n)
  | 0 => by
    refine ⟨?_, ?_, fun _ => ?_, ?_⟩ <;>
      first
        | (rw [Parser.CompoundStatement, Parser.CompoundStatement]; exact ParserM.Sim_fail _)
        | (rw [Parser.StatementList, Parser.StatementList]; exact ParserM.Sim_fail _)
        | (rw [Parser.StatementListLoop, Parser.StatementListLoop]; exact ParserM.Sim_fail _)
        | (rw [Parser.Statement, Parser.Statement]; exact ParserM.Sim_fail _)
  | n + 1 => by
    obtain ⟨ihC, ihL, ihLL, ihS⟩ := Parser.statement_sim h n
    have ihA := Parser.AssignmentStatement_sim h n
    refine ⟨?_, ?_, fun results => ?_, ?_⟩
    · simp only [Parser.CompoundStatement, Parser.Empty]
      repeat' first
        | exact ihC | exact ihL | exact ihS | exact ihA | exact ihLL _
        | exact ParserM.Sim_pure _
        | exact ParserM.Sim_fail _
        | exact ParserM.Sim_Error
        | exact ParserM.Sim_currentToken
        | exact ParserM.Sim_Eat h _
        | exact ParserM.Sim_Variable h
        | exact ParserM.Sim_TypeSpec h
        | exact ParserM.Sim_advance h
        | apply ParserM.Sim_bind
        | apply ParserM.Sim_ite
        | intro _
    · simp only [Parser.StatementList, Parser.Empty]
      repeat' first
        | exact ihC | exact ihL | exact ihS | exact ihA | exact ihLL _
        | exact ParserM.Sim_pure _
        | exact ParserM.Sim_fail _
        | exact ParserM.Sim_Error
        | exact ParserM.Sim_currentToken
        | exact ParserM.Sim_Eat h _
        | exact ParserM.Sim_Variable h
        | exact ParserM.Sim_TypeSpec h
        | exact ParserM.Sim_advance h
        | apply ParserM.Sim_bind
        | apply ParserM.Sim_ite
        | intro _
    · simp only [Parser.StatementListLoop, Parser.Empty]
      repeat' first
        | exact ihC | exact ihL | exact ihS | exact ihA | exact ihLL _
        | exact ParserM.Sim_pure _
        | exact ParserM.Sim_fail _
        | exact ParserM.Sim_Error
        | exact ParserM.Sim_currentToken
        | exact ParserM.Sim_Eat h _
        | exact ParserM.Sim_Variable h
        | exact ParserM.Sim_TypeSpec h
        | exact ParserM.Sim_advance h
        | apply ParserM.Sim_bind
        | apply ParserM.Sim_ite
        | intro _
    · simp only [Parser.Statement, Parser.Empty]
      repeat' first
        | exact ihC | exact ihL | exact ihS | exact ihA | exact ihLL _
        | exact ParserM.Sim_pure _
        | exact ParserM.Sim_fail _
        | exact ParserM.Sim_Error
        | exact ParserM.Sim_currentToken
        | exact ParserM.Sim_Eat h _
        | exact ParserM.Sim_Variable h
        | exact ParserM.Sim_TypeSpec h
        | exact ParserM.Sim_advance h
        | apply ParserM.Sim_bind
        | apply ParserM.Sim_ite
        | intro _

theorem Parser.Block_sim (h : SourceSim R next1 next2) (n : Nat) :
    ParserM.Sim R (Parser.Block next1 n) (Parser.Block next2 n) := by
  have ihD := Parser.Declarations_sim h n
  have ihC := (Parser.statement_sim h n).1
  simp only [Parser.Block]
  repeat' first
    | exact ihD | exact ihC
    | exact ParserM.Sim_pure _
    | exact ParserM.Sim_fail _
    | exact ParserM.Sim_Error
    | exact ParserM.Sim_currentToken
    | exact ParserM.Sim_Eat h _
    | exact ParserM.Sim_Variable h
    | exact ParserM.Sim_TypeSpec h
    | exact ParserM.Sim_advance h
    | apply ParserM.Sim_bind
    | apply ParserM.Sim_ite
    | intro _

theorem Parser.Program_sim (h : SourceSim R next1 next2) (n : Nat) :
    ParserM.Sim R (Parser.Program next1 n) (Parser.Program next2 n) := by
  have ihB := Parser.Block_sim h n
  simp only [Parser.Program]
  refine ParserM.Sim_bind (ParserM.Sim_Eat h _) fun _ =>
    ParserM.Sim_bind (ParserM.Sim_Variable h) fun varnode => ParserM.Sim_bind ?_ fun _ => ?_
  · cases varnode <;> first | exact ParserM.Sim_pure _ | exact ParserM.Sim_fail _
  · repeat' first
      | exact ihB
      | exact ParserM.Sim_pure _
      | exact ParserM.Sim_fail _
      | exact ParserM.Sim_Error
      | exact ParserM.Sim_currentToken
      | exact ParserM.Sim_Eat h _
      | exact ParserM.Sim_Variable h
      | exact ParserM.Sim_TypeSpec h
      | exact ParserM.Sim_advance h
      | apply ParserM.Sim_bind
      | apply ParserM.Sim_ite
      | intro _

/-- `Parse` on two sources that hand out the same tokens returns the same
tree, or panics in the same way. -/
theorem Parser.Parse_sim (h : SourceSim R next1 next2) (n : Nat) :
    ParserM.Sim R (Parser.Parse next1 n) (Parser.Parse next2 n) := by
  have ihP := Parser.Program_sim h n
  simp only [Parser.Parse]
  repeat' first
    | exact ihP
    | exact ParserM.Sim_pure _
    | exact ParserM.Sim_fail _
    | exact ParserM.Sim_Error
    | exact ParserM.Sim_currentToken
    | exact ParserM.Sim_Eat h _
    | exact ParserM.Sim_Variable h
    | exact ParserM.Sim_TypeSpec h
    | exact ParserM.Sim_advance h
    | apply ParserM.Sim_bind
    | apply ParserM.Sim_ite
    | intro _

end SimMethods

/-! ## Two texts with related unread inputs -/

section TextTransfer
variable {F : Type} [Float64 F]

theorem Settled_map {α β : Type} (f : α → β) (x : Except Fail α) :
    Settled (x.map f) ↔ Settled x := by
  cases x with
  | error e => exact Iff.trans (Settled_error_iff e) (Settled_error_iff e).symm
  | ok a => exact ⟨fun _ => ⟨by simp, by simp⟩, fun _ => ⟨by simp [Except.map], by simp [Except.map]⟩⟩

/-- Lexers on related inputs return the same first `k` tokens. -/
theorem firstTokens_transfer {R : List Char → List Char → Prop} (hR : LexSim F R) {B : Nat}
    {l1 l2 : Lexer} (hrel : LexRel R B l1 l2) (n k m : Nat)
    (hset : Settled (Lexer.firstTokens (F := F) n k l1)) (hm : B + 2 ≤ m) :
    Lexer.firstTokens (F := F) m k l2 = Lexer.firstTokens n k l1 :=
  tokensFrom_sim (SourceSim_lexer hR n m B hm) k l1 l2 hrel hset

/-- The parser on lexers with related inputs returns the same tree, or panics
in the same way. -/
theorem Parse_transfer {R : List Char → List Char → Prop} (hR : LexSim F R) {B : Nat}
    {l1 l2 : Lexer} (hrel : LexRel R B l1 l2) (n m : Nat)
    (hset : Settled
      ((Parser.Parse (F := F) (fun l => Lexer.GetNextToken n l) n (NewParser l1)).map Prod.fst))
    (hn : n ≤ m) (hm : B + 2 ≤ m) :
    (Parser.Parse (F := F) (fun l => Lexer.GetNextToken m l) m (NewParser l2)).map Prod.fst =
      (Parser.Parse (fun l => Lexer.GetNextToken n l) n (NewParser l1)).map Prod.fst := by
  have hs1 := Parser.Parse_sim (F := F) (SourceSim_lexer hR n (B + 2) B (Nat.le_refl _)) n
    (NewParser l1) (NewParser l2) rfl hrel
  have hs2 := Parser.Parse_sim (F := F) (SourceSim_fuel (F := F) hm) m
    (NewParser l2) (NewParser l2) rfl rfl
  have hmono := Parser.Parse_fuel_mono (F := F) (fun l => Lexer.GetNextToken (B + 2) l) hn
    (NewParser l2)
  rw [Settled_map] at hset
  cases h1 : Parser.Parse (F := F) (fun l => Lexer.GetNextToken n l) n (NewParser l1) with
  | error e =>
    rw [h1] at hset
    have hset1 : Settled (.error e : Except Fail Unit) :=
      (Settled_error_iff e).2 ((Settled_error_iff e).1 hset)
    have h2 := hs1.2 e h1 hset1
    have h3 := hmono (by rw [h2]; simpa using ((Settled_error_iff e).1 hset).1)
    rw [h2] at h3
    rw [hs2.2 e h3 hset1]
  | ok x =>
    obtain ⟨tree, p3⟩ := x
    obtain ⟨p4, h2, _, _⟩ := hs1.1 tree p3 h1
    have h3 := hmono (by rw [h2]; simp)
    rw [h2] at h3
    obtain ⟨p5, h4, _, _⟩ := hs2.1 tree p4 h3
    rw [h4]
    rfl

theorem parseText_transfer {R : List Char → List Char → Prop} (hR : LexSim F R) {B : Nat}
    {T1 T2 : List Char} {l1 l2 : Lexer} (hN1 : NewLexer T1 = .ok l1) (hN2 : NewLexer T2 = .ok l2)
    (hrel : LexRel R B l1 l2) (n m : Nat) (hset : Settled (parseText (F := F) n T1))
    (hn : n ≤ m) (hm : B + 2 ≤ m) : parseText (F := F) m T2 = parseText n T1 := by
  have e1 : parseText (F := F) n T1 =
      (Parser.Parse (fun l => Lexer.GetNextToken n l) n (NewParser l1)).map Prod.fst := by
    simp only [parseText, hN1]
    rfl
  have e2 : parseText (F := F) m T2 =
      (Parser.Parse (fun l => Lexer.GetNextToken m l) m (NewParser l2)).map Prod.fst := by
    simp only [parseText, hN2]
    rfl
  rw [e1] at hset
  rw [e1, e2]
  exact Parse_transfer hR hrel n m hset hn hm

theorem Settled_run (n : Nat) (T : List Char) :
    Settled (run (F := F) n T) ↔ Settled (parseText (F := F) n T) := by
  unfold run
  cases parseText (F := F) n T with
  | error e => exact Iff.trans (Settled_error_iff e) (Settled_error_iff e).symm
  | ok a => exact ⟨fun _ => ⟨by simp, by simp⟩, fun _ => ⟨by simp [bind, Except.bind, pure, Except.pure],
      by simp [bind, Except.bind, pure, Except.pure]⟩⟩

theorem run_congr {n m : Nat} {T1 T2 : List Char}
    (h : parseText (F := F) m T2 = parseText n T1) : run (F := F) m T2 = run n T1 := by
  unfold run
  rw [h]

end TextTransfer

theorem NewLexer_at_start (T : List Char) (hT : T ≠ []) (hlen : T.length < 2 ^ 63) :
    ∃ l, NewLexer T = .ok l ∧ l.At [] T := by
  cases T with
  | nil => exact absurd rfl hT
  | cons c cs => exact NewLexer_at c cs hlen

/-! ## Operators of equal precedence -/

section EqualPrecedence
variable {F : Type} [Float64 F]

theorem additive_not_multiplicative {t : Token F} (ts : List (Token F))
    (ht : t.Type_ = PLUS ∨ t.Type_ = MINUS) :
    ¬ ((Parser.onTokens (t :: ts)).CurrentToken.Type_ = MUL
      ∨ (Parser.onTokens (t :: ts)).CurrentToken.Type_ = INTEGERDIV
      ∨ (Parser.onTokens (t :: ts)).CurrentToken.Type_ = FLOATDIV) := by
  rw [Parser.onTokens_CurrentToken]
  rcases ht with ht | ht <;> rw [ht] <;> decide

/-- `Expr` on `f1 o1 f2 o2 f3` with `o1`, `o2` among `+`, `-`. -/
theorem Parser.Expr_additive_left {ts1 ts2 ts3 : List (Token F)} {f1 f2 f3 : Node F}
    (t1 t2 : Token F) (ht1 : t1.Type_ = PLUS ∨ t1.Type_ = MINUS)
    (ht2 : t2.Type_ = PLUS ∨ t2.Type_ = MINUS) (h1 : ParsesAsFactor ts1 f1)
    (h2 : ParsesAsFactor ts2 f2) (h3 : ParsesAsFactor ts3 f3) :
    ∃ N, ∀ n, N ≤ n → ∀ rest, endsExpr rest →
      Parser.Expr tokensNext n
        (Parser.onTokens (ts1 ++ (t1 :: (ts2 ++ (t2 :: (ts3 ++ rest)))))) =
      .ok (Node.BinOp t2.Type_ (Node.BinOp t1.Type_ f1 f2) f3, Parser.onTokens rest) := by
  obtain ⟨N1, hN1⟩ := h1
  obtain ⟨N2, hN2⟩ := h2
  obtain ⟨N3, hN3⟩ := h3
  refine ⟨N1 + N2 + N3 + 5, fun n hn rest hrest => ?_⟩
  obtain ⟨e, rfl⟩ : ∃ e, n = e + 5 := ⟨n - 5, by omega⟩
  have u1 := Parser.Term_single tokensNext (e + 2) _ _ f1 (hN1 (e + 3) (by omega) _)
    (additive_not_multiplicative (ts2 ++ (t2 :: (ts3 ++ rest))) ht1)
  have u2 := Parser.Term_single tokensNext (e + 1) _ _ f2 (hN2 (e + 2) (by omega) _)
    (additive_not_multiplicative (ts3 ++ rest) ht2)
  have u3 := Parser.Term_single tokensNext e _ _ f3 (hN3 (e + 1) (by omega) rest)
    (endsExpr_not_term hrest)
  simp only [Parser.Expr]
  rw [ParserM.bind_of_ok u1, Parser.ExprLoop_step (e + 3) f1 t1 _ ht1, ParserM.bind_of_ok u2,
    Parser.ExprLoop_step (e + 2) _ t2 _ ht2, ParserM.bind_of_ok u3,
    Parser.ExprLoop_stop tokensNext (e + 1) _ _ (endsExpr_not_expr hrest)]
  rfl

/-- `Expr` on `f1 o1 f2 o2 f3` with `o1`, `o2` among `*`, `DIV`, `/`. -/
theorem Parser.Expr_multiplicative_left {ts1 ts2 ts3 : List (Token F)} {f1 f2 f3 : Node F}
    (t1 t2 : Token F) (ht1 : t1.Type_ = MUL ∨ t1.Type_ = INTEGERDIV ∨ t1.Type_ = FLOATDIV)
    (ht2 : t2.Type_ = MUL ∨ t2.Type_ = INTEGERDIV ∨ t2.Type_ = FLOATDIV)
    (h1 : ParsesAsFactor ts1 f1) (h2 : ParsesAsFactor ts2 f2) (h3 : ParsesAsFactor ts3 f3) :
    ∃ N, ∀ n, N ≤ n → ∀ rest, endsExpr rest →
      Parser.Expr tokensNext n
        (Parser.onTokens (ts1 ++ (t1 :: (ts2 ++ (t2 :: (ts3 ++ rest)))))) =
      .ok (Node.BinOp t2.Type_ (Node.BinOp t1.Type_ f1 f2) f3, Parser.onTokens rest) := by
  obtain ⟨N1, hN1⟩ := h1
  obtain ⟨N2, hN2⟩ := h2
  obtain ⟨N3, hN3⟩ := h3
  refine ⟨N1 + N2 + N3 + 5, fun n hn rest hrest => ?_⟩
  obtain ⟨e, rfl⟩ : ∃ e, n = e + 5 := ⟨n - 5, by omega⟩
  have u : Parser.Term tokensNext (e + 4)
      (Parser.onTokens (ts1 ++ (t1 :: (ts2 ++ (t2 :: (ts3 ++ rest)))))) =
      .ok (Node.BinOp t2.Type_ (Node.BinOp t1.Type_ f1 f2) f3, Parser.onTokens rest) := by
    simp only [Parser.Term]
    rw [ParserM.bind_of_ok (hN1 (e + 3) (by omega) _),
      Parser.TermLoop_step (e + 2) f1 t1 _ ht1, ParserM.bind_of_ok (hN2 (e + 2) (by omega) _),
      Parser.TermLoop_step (e + 1) _ t2 _ ht2,
      ParserM.bind_of_ok (hN3 (e + 1) (by omega) rest),
      Parser.TermLoop_stop tokensNext e _ _ (endsExpr_not_term hrest)]
    rfl
  simp only [Parser.Expr]
  rw [ParserM.bind_of_ok u,
    Parser.ExprLoop_stop tokensNext (e + 3) _ _ (endsExpr_not_expr hrest)]

end EqualPrecedence

/-! ## Printing an expression with all its parentheses -/

section RenderLemmas
variable {F : Type} [Float64 F]

/-- A token of a real literal is a factor. -/
theorem ParsesAsFactor_real (t : Token F) (h : t.Type_ = REALCONST) :
    ParsesAsFactor [t] (Node.Num t t.Value) := by
  refine ⟨1, fun n hn rest => ?_⟩
  obtain ⟨m, rfl⟩ : ∃ m, n = m + 1 := ⟨n - 1, by omega⟩
  simp only [Parser.Factor, List.singleton_append]
  rw [ParserM.bind_of_ok (Parser.currentToken_apply _), Parser.onTokens_CurrentToken,
    if_neg (by rw [h]; decide), if_neg (by rw [h]; decide), if_neg (by rw [h]; decide),
    if_pos h, ParserM.bind_of_ok (Parser.Eat_tokens rest h)]
  rfl

/-- A token of type `IDENT` is a factor. -/
theorem ParsesAsFactor_var (t : Token F) (h : t.Type_ = IDENT) :
    ParsesAsFactor [t] (Node.Var t t.Svalue) := by
  refine ⟨1, fun n hn rest => ?_⟩
  obtain ⟨m, rfl⟩ : ∃ m, n = m + 1 := ⟨n - 1, by omega⟩
  simp only [Parser.Factor, List.singleton_append]
  rw [ParserM.bind_of_ok (Parser.currentToken_apply _), Parser.onTokens_CurrentToken,
    if_neg (by rw [h]; decide), if_neg (by rw [h]; decide), if_neg (by rw [h]; decide),
    if_neg (by rw [h]; decide), if_neg (by rw [h]; decide)]
  simp only [Parser.Variable]
  rw [ParserM.bind_of_ok (Parser.currentToken_apply _), Parser.onTokens_CurrentToken,
    ParserM.bind_of_ok (Parser.Eat_tokens rest h)]
  rfl

/-- `Expr` on `f1 op f2` with `op` one of `*`, `DIV` and `/`. -/
theorem Parser.Expr_multiplicative {ts1 ts2 : List (Token F)} {f1 f2 : Node F} (t : Token F)
    (ht : t.Type_ = MUL ∨ t.Type_ = INTEGERDIV ∨ t.Type_ = FLOATDIV)
    (h1 : ParsesAsFactor ts1 f1) (h2 : ParsesAsFactor ts2 f2) :
    ∃ N, ∀ n, N ≤ n → ∀ rest, endsExpr rest →
      Parser.Expr tokensNext n (Parser.onTokens (ts1 ++ (t :: (ts2 ++ rest)))) =
      .ok (Node.BinOp t.Type_ f1 f2, Parser.onTokens rest) := by
  obtain ⟨N1, hN1⟩ := h1
  obtain ⟨N2, hN2⟩ := h2
  refine ⟨N1 + N2 + 4, fun n hn rest hrest => ?_⟩
  obtain ⟨e, rfl⟩ : ∃ e, n = e + 4 := ⟨n - 4, by omega⟩
  have u : Parser.Term tokensNext (e + 3) (Parser.onTokens (ts1 ++ (t :: (ts2 ++ rest)))) =
      .ok (Node.BinOp t.Type_ f1 f2, Parser.onTokens rest) := by
    simp only [Parser.Term]
    rw [ParserM.bind_of_ok (hN1 (e + 2) (by omega) _),
      Parser.TermLoop_step (e + 1) f1 t _ ht, ParserM.bind_of_ok (hN2 (e + 1) (by omega) rest),
      Parser.TermLoop_stop tokensNext e _ _ (endsExpr_not_term hrest)]
    rfl
  simp only [Parser.Expr]
  rw [ParserM.bind_of_ok u,
    Parser.ExprLoop_stop tokensNext (e + 2) _ _ (endsExpr_not_expr hrest)]

theorem endsExpr_RPAREN (rest : List (Token F)) :
    endsExpr ((Token.ofType RPAREN : Token F) :: rest) := by
  unfold endsExpr
  rw [Parser.onTokens_CurrentToken]
  rfl

/-- An expression between parentheses is a factor. -/
theorem ParsesAsFactor_paren {ts : List (Token F)} {e : Node F}
    (h : ∃ N, ∀ n, N ≤ n → ∀ rest, endsExpr rest →
      Parser.Expr tokensNext n (Parser.onTokens (ts ++ rest)) = .ok (e, Parser.onTokens rest)) :
    ParsesAsFactor (Token.ofType LPAREN :: (ts ++ [Token.ofType RPAREN])) e := by
  obtain ⟨N, hN⟩ := h
  refine ⟨N + 1, fun n hn rest => ?_⟩
  obtain ⟨m, rfl⟩ : ∃ m, n = m + 1 := ⟨n - 1, by omega⟩
  have hE := hN m (by omega) ((Token.ofType RPAREN : Token F) :: rest) (endsExpr_RPAREN rest)
  have hl : (Token.ofType LPAREN : Token F).Type_ = LPAREN := rfl
  have hlist : (Token.ofType LPAREN :: (ts ++ [Token.ofType RPAREN])) ++ rest =
      (Token.ofType LPAREN : Token F) :: (ts ++ (Token.ofType RPAREN :: rest)) := by
    simp [List.append_assoc]
  rw [hlist]
  simp only [Parser.Factor]
  rw [ParserM.bind_of_ok (Parser.currentToken_apply _), Parser.onTokens_CurrentToken,
    if_neg (by rw [hl]; decide), if_neg (by rw [hl]; decide), if_neg (by rw [hl]; decide),
    if_neg (by rw [hl]; decide), if_pos hl, ParserM.bind_of_ok (Parser.Eat_tokens _ hl),
    ParserM.bind_of_ok hE,
    ParserM.bind_of_ok (Parser.Eat_tokens rest (Token.ofType_Type RPAREN))]
  rfl

/-- `Factor` reads the printed form of an expression tree back as the tree. -/
theorem render_parsesAsFactor : ∀ e : Node F, e.isOperatorTree = true → e.LeavesFromTokens →
    ParsesAsFactor (render e) e
  | .Num tok v, _, hl => by
    obtain ⟨ht, hv⟩ := hl
    rw [hv]
    rcases ht with ht | ht
    · exact ParsesAsFactor_number tok ht
    · exact ParsesAsFactor_real tok ht
  | .Var tok x, _, hl => by
    obtain ⟨ht, hx⟩ := hl
    rw [hx]
    exact ParsesAsFactor_var tok ht
  | .UnaryOp op x, ht, hl => by
    simp only [Node.isOperatorTree, Bool.and_eq_true, decide_eq_true_eq] at ht
    have ih := render_parsesAsFactor x ht.2 hl
    exact ParsesAsFactor_sign (Token.ofType op) ht.1 ih
  | .BinOp op l r, ht, hl => by
    simp only [Node.isOperatorTree, Bool.and_eq_true] at ht
    obtain ⟨⟨hop, hl1⟩, hr1⟩ := ht
    have ihl := render_parsesAsFactor l hl1 hl.1
    have ihr := render_parsesAsFactor r hr1 hl.2
    simp only [isOperator, decide_eq_true_eq] at hop
    have hE : ∃ N, ∀ n, N ≤ n → ∀ rest, endsExpr rest →
        Parser.Expr tokensNext n
          (Parser.onTokens ((render l ++ Token.ofType op :: render r) ++ rest)) =
        .ok (Node.BinOp op l r, Parser.onTokens rest) := by
      have hadd := fun ht => Parser.Expr_additive (Token.ofType op : Token F) ht ihl ihr
      have hmul := fun ht => Parser.Expr_multiplicative (Token.ofType op : Token F) ht ihl ihr
      have happ : ∀ rest : List (Token F),
          (render l ++ Token.ofType op :: render r) ++ rest =
          render l ++ (Token.ofType op :: (render r ++ rest)) := fun rest => by
        simp [List.append_assoc]
      rcases hop with h | h | h | h | h
      · obtain ⟨N, hN⟩ := hadd (Or.inl h)
        exact ⟨N, fun n hn rest hrest => by rw [happ]; exact hN n hn rest hrest⟩
      · obtain ⟨N, hN⟩ := hadd (Or.inr h)
        exact ⟨N, fun n hn rest hrest => by rw [happ]; exact hN n hn rest hrest⟩
      · obtain ⟨N, hN⟩ := hmul (Or.inl h)
        exact ⟨N, fun n hn rest hrest => by rw [happ]; exact hN n hn rest hrest⟩
      · obtain ⟨N, hN⟩ := hmul (Or.inr (Or.inl h))
        exact ⟨N, fun n hn rest hrest => by rw [happ]; exact hN n hn rest hrest⟩
      · obtain ⟨N, hN⟩ := hmul (Or.inr (Or.inr h))
        exact ⟨N, fun n hn rest hrest => by rw [happ]; exact hN n hn rest hrest⟩
    have := ParsesAsFactor_paren hE
    simpa [render, List.append_assoc] using this
  | .Compound _, ht, _ => by simp [Node.isOperatorTree] at ht
  | .Assign _ _ _, ht, _ => by simp [Node.isOperatorTree] at ht
  | .NoOp, ht, _ => by simp [Node.isOperatorTree] at ht
  | .Program _ _, ht, _ => by simp [Node.isOperatorTree] at ht
  | .Block _ _, ht, _ => by simp [Node.isOperatorTree] at ht
  | .VarDecl _ _, ht, _ => by simp [Node.isOperatorTree] at ht
  | .TypeN _ _, ht, _ => by simp [Node.isOperatorTree] at ht

theorem Parser.Expr_fuel_mono {n m : Nat} (h : n ≤ m) :
    ParserM.Extends (Parser.Expr (F := F) tokensNext n) (Parser.Expr tokensNext m) := by
  induction h with
  | refl => exact ParserM.Extends_refl _
  | step _ ih => exact ParserM.Extends_trans ih (Parser.expr_fuel_succ tokensNext _).1

/-- What `Expr` returns on the printed form of a tree, it returns for every
fuel that gives a result. -/
theorem Parser.Expr_render_unique {e a : Node F} (ht : e.isOperatorTree = true)
    (hl : e.LeavesFromTokens) {rest : List (Token F)} (hrest : endsExpr rest) {n : Nat}
    {p1 : Parser F (List (Token F))}
    (h : Parser.Expr tokensNext n (Parser.onTokens (render e ++ rest)) = .ok (a, p1)) :
    a = e ∧ p1 = Parser.onTokens rest := by
  obtain ⟨N, hN⟩ := Parser.Expr_single (render_parsesAsFactor e ht hl)
  have h1 := hN (max n N) (Nat.le_max_right _ _) rest hrest
  have h2 := Parser.Expr_fuel_mono (F := F) (Nat.le_max_left n N)
    (Parser.onTokens (render e ++ rest)) (by rw [h]; simp)
  rw [h1, h] at h2
  simp only [Except.ok.injEq, Prod.mk.injEq] at h2
  exact ⟨h2.1.symm, h2.2.symm⟩

end RenderLemmas

/-! ## The expression trees that the parser builds -/

section ExprShape
variable {F σ : Type} (next : σ → Except Fail (Token F × σ))

theorem Parser.Variable_shape :
    ParserM.Yields (fun a : Node F => a.isOperatorTree = true ∧ a.LeavesFromTokens)
      (Parser.Variable next) := by
  intro p a p1 h
  unfold Parser.Variable at h
  obtain ⟨cur, p2, h1, h2⟩ := ParserM.bind_eq_ok h
  simp only [Parser.currentToken, Except.ok.injEq, Prod.mk.injEq] at h1
  obtain ⟨u, p3, h3, h4⟩ := ParserM.bind_eq_ok h2
  rw [ParserM.pure_apply] at h4
  simp only [Except.ok.injEq, Prod.mk.injEq] at h4
  have hT : p2.CurrentToken.Type_ = IDENT := by
    by_contra hne
    rw [Parser.Eat_mismatch next p2 hne] at h3
    simp at h3
  rw [← h4.1, ← h1.1]
  rw [← h1.2] at hT
  exact ⟨rfl, hT, rfl⟩

theorem Node.shape_binOp {op : Int} {l r : Node F} (hop : isOperator op = true)
    (hl : l.isOperatorTree = true ∧ l.LeavesFromTokens)
    (hr : r.isOperatorTree = true ∧ r.LeavesFromTokens) :
    (NewBinOp l op r).isOperatorTree = true ∧ (NewBinOp l op r).LeavesFromTokens :=
  ⟨by simp [NewBinOp, Node.isOperatorTree, hop, hl.1, hr.1], hl.2, hr.2⟩

theorem Node.shape_unaryOp {op : Int} {e : Node F} (hop : op = PLUS ∨ op = MINUS)
    (he : e.isOperatorTree = true ∧ e.LeavesFromTokens) :
    (NewUnaryOp op e).isOperatorTree = true ∧ (NewUnaryOp op e).LeavesFromTokens :=
  ⟨by simp [NewUnaryOp, Node.isOperatorTree, hop, he.1], he.2⟩

/-- The expression methods build operator trees whose leaves are made from
their tokens. -/
theorem Parser.expr_shape : ∀ n : Nat,
    ParserM.Yields (fun a : Node F => a.isOperatorTree = true ∧ a.LeavesFromTokens)
      (Parser.Expr next n) ∧
    (∀ node : Node F, node.isOperatorTree = true ∧ node.LeavesFromTokens →
      ParserM.Yields (fun a : Node F => a.isOperatorTree = true ∧ a.LeavesFromTokens)
        (Parser.ExprLoop next n node)) ∧
    ParserM.Yields (fun a : Node F => a.isOperatorTree = true ∧ a.LeavesFromTokens)
      (Parser.Term next n) ∧
    (∀ node : Node F, node.isOperatorTree = true ∧ node.LeavesFromTokens →
      ParserM.Yields (fun a : Node F => a.isOperatorTree = true ∧ a.LeavesFromTokens)
        (Parser.TermLoop next n node)) ∧
    ParserM.Yields (fun a : Node F => a.isOperatorTree = true ∧ a.LeavesFromTokens)
      (Parser.Factor next n)
  | 0 => ⟨ParserM.Yields_fail _ _, fun _ _ => ParserM.Yields_fail _ _, ParserM.Yields_fail _ _,
      fun _ _ => ParserM.Yields_fail _ _, ParserM.Yields_fail _ _⟩
  | n + 1 => by
    obtain ⟨hE, hEL, hT, hTL, hF⟩ := Parser.expr_shape n
    refine ⟨?_, ?_, ?_, ?_, ?_⟩
    · rw [Parser.Expr]
      exact ParserM.Yields_bind hT hEL
    · intro node hnode
      rw [Parser.ExprLoop]
      refine ParserM.Yields_bind (ParserM.Yields_true _) fun cur _ =>
        ParserM.Yields_ite _ (fun hc => ?_) (fun _ => ParserM.Yields_pure hnode)
      have hjp : ParserM.Yields
          (fun a : Node F => a.isOperatorTree = true ∧ a.LeavesFromTokens)
          (Parser.Term next n >>= fun right =>
            Parser.ExprLoop next n (NewBinOp node cur.Type_ right)) :=
        ParserM.Yields_bind hT fun right hright =>
          hEL _ (Node.shape_binOp (isOperator_of_additive hc) hnode hright)
      exact ParserM.Yields_ite _
        (fun _ => ParserM.Yields_bind (ParserM.Yields_true _) fun _ _ => hjp)
        fun _ => ParserM.Yields_ite _
        (fun _ => ParserM.Yields_bind (ParserM.Yields_true _) fun _ _ => hjp)
        fun _ => ParserM.Yields_bind (ParserM.Yields_true _) fun _ _ => hjp
    · rw [Parser.Term]
      exact ParserM.Yields_bind hF hTL
    · intro node hnode
      rw [Parser.TermLoop]
      refine ParserM.Yields_bind (ParserM.Yields_true _) fun cur _ =>
        ParserM.Yields_ite _ (fun hc => ?_) (fun _ => ParserM.Yields_pure hnode)
      have hjp : ParserM.Yields
          (fun a : Node F => a.isOperatorTree = true ∧ a.LeavesFromTokens)
          (Parser.Factor next n >>= fun right =>
            Parser.TermLoop next n (NewBinOp node cur.Type_ right)) :=
        ParserM.Yields_bind hF fun right hright =>
          hTL _ (Node.shape_binOp (isOperator_of_multiplicative hc) hnode hright)
      exact ParserM.Yields_ite _
        (fun _ => ParserM.Yields_bind (ParserM.Yields_true _) fun _ _ => hjp)
        fun _ => ParserM.Yields_ite _
        (fun _ => ParserM.Yields_bind (ParserM.Yields_true _) fun _ _ => hjp)
        fun _ => ParserM.Yields_ite _
        (fun _ => ParserM.Yields_bind (ParserM.Yields_true _) fun _ _ => hjp)
        fun _ => ParserM.Yields_bind (ParserM.Yields_true _) fun _ _ => hjp
    · rw [Parser.Factor]
      exact ParserM.Yields_bind (ParserM.Yields_true _) fun token _ =>
        ParserM.Yields_ite _
          (fun _ => ParserM.Yields_bind (ParserM.Yields_true _) fun _ _ =>
            ParserM.Yields_bind hF fun e he =>
              ParserM.Yields_pure (Node.shape_unaryOp (Or.inl rfl) he))
          fun _ => ParserM.Yields_ite _
          (fun _ => ParserM.Yields_bind (ParserM.Yields_true _) fun _ _ =>
            ParserM.Yields_bind hF fun e he =>
              ParserM.Yields_pure (Node.shape_unaryOp (Or.inr rfl) he))
          fun _ => ParserM.Yields_ite _
          (fun hc => ParserM.Yields_bind (ParserM.Yields_true _) fun _ _ =>
            ParserM.Yields_pure ⟨rfl, Or.inl hc, rfl⟩)
          fun _ => ParserM.Yields_ite _
          (fun hc => ParserM.Yields_bind (ParserM.Yields_true _) fun _ _ =>
            ParserM.Yields_pure ⟨rfl, Or.inr hc, rfl⟩)
          fun _ => ParserM.Yields_ite _
          (fun _ => ParserM.Yields_bind (ParserM.Yields_true _) fun _ _ =>
            ParserM.Yields_bind hE fun node hnode =>
              ParserM.Yields_bind (ParserM.Yields_true _) fun _ _ => ParserM.Yields_pure hnode)
          fun _ => Parser.Variable_shape next

end ExprShape

/-! ## The parser methods have fuel enough -/

section RunsBasics
variable {F σ : Type} {Inv : σ → Prop} {μ : σ → Nat}

theorem Settled_ok {α : Type} (a : α) : Settled (.ok a : Except Fail α) :=
  ⟨by simp, by simp⟩

theorem Parser.size_pos (p : Parser F σ) : 1 ≤ Parser.size μ p := by
  unfold Parser.size
  omega

theorem Token.cost_le_one (t : Token F) : t.cost ≤ 1 := by
  unfold Token.cost
  split_ifs <;> omega

theorem ParserM.Runs_zero {α : Type} (A : ParserM F σ α) (j : Nat) :
    ParserM.Runs Inv μ A 0 j := by
  intro p _ hs
  have := Parser.size_pos (μ := μ) p
  omega

theorem ParserM.Runs_mono {α : Type} {A : ParserM F σ α} {k j i : Nat}
    (h : ParserM.Runs Inv μ A k j) (hji : j ≤ i) : ParserM.Runs Inv μ A k i := by
  intro p hI hs
  obtain ⟨h1, h2⟩ := h p hI hs
  exact ⟨h1, fun a p1 ha => ⟨(h2 a p1 ha).1, Nat.le_trans (h2 a p1 ha).2 hji⟩⟩

theorem ParserM.Runs_pure {α : Type} (a : α) {k j : Nat} (h : k ≤ j) :
    ParserM.Runs Inv μ (pure a : ParserM F σ α) k j := by
  intro p hI hs
  rw [ParserM.pure_apply]
  refine ⟨Settled_ok _, fun b p1 hb => ?_⟩
  simp only [Except.ok.injEq, Prod.mk.injEq] at hb
  rw [← hb.2]
  exact ⟨hI, Nat.le_trans hs h⟩

theorem ParserM.Runs_fail {α : Type} (e : Fail) (he : Settled (.error e : Except Fail Unit))
    (k j : Nat) : ParserM.Runs Inv μ (ParserM.fail e : ParserM F σ α) k j := by
  intro p _ _
  refine ⟨(Settled_error_iff e).2 ((Settled_error_iff e).1 he), fun b p1 hb => ?_⟩
  simp [ParserM.fail] at hb

theorem ParserM.Runs_Error {α : Type} (k j : Nat) :
    ParserM.Runs Inv μ (Parser.Error : ParserM F σ α) k j :=
  ParserM.Runs_fail _ ((Settled_error_iff _).2 ⟨by simp, by simp⟩) k j

theorem ParserM.Runs_currentToken (k : Nat) :
    ParserM.Runs Inv μ (Parser.currentToken : ParserM F σ (Token F)) k k := by
  intro p hI hs
  refine ⟨Settled_ok _, fun b p1 hb => ?_⟩
  simp only [Parser.currentToken, Except.ok.injEq, Prod.mk.injEq] at hb
  rw [← hb.2]
  exact ⟨hI, hs⟩

theorem ParserM.Runs_bind {α β : Type} {A : ParserM F σ α} {f : α → ParserM F σ β}
    {k j i : Nat} (hA : ParserM.Runs Inv μ A k j) (hf : ∀ a, ParserM.Runs Inv μ (f a) j i) :
    ParserM.Runs Inv μ (A >>= f) k i := by
  intro p hI hs
  obtain ⟨h1, h2⟩ := hA p hI hs
  rw [ParserM.bind_apply]
  rcases hp : A p with e | ⟨a, p1⟩
  · rw [hp] at h1
    exact ⟨(Settled_error_iff e).2 ((Settled_error_iff e).1 h1), fun b p2 hb => by simp at hb⟩
  · obtain ⟨hI1, hs1⟩ := h2 a p1 hp
    exact hf a p1 hI1 hs1

theorem ParserM.Runs_ite {α : Type} {c : Prop} [Decidable c] {A B : ParserM F σ α} {k j : Nat}
    (hA : c → ParserM.Runs Inv μ A k j) (hB : ¬ c → ParserM.Runs Inv μ B k j) :
    ParserM.Runs Inv μ (if c then A else B) k j := by
  by_cases hc : c
  · rw [if_pos hc]
    exact hA hc
  · rw [if_neg hc]
    exact hB hc

variable {next : σ → Except Fail (Token F × σ)}

theorem ParserM.Runs_advance (H : SourceRuns Inv μ next) (k : Nat) :
    ParserM.Runs Inv μ (Parser.advance next) k k := by
  intro p hI hs
  obtain ⟨h1, h2⟩ := H p.lexer hI
  unfold Parser.advance
  rcases hn : next p.lexer with e | ⟨t, l1⟩
  · rw [hn] at h1
    exact ⟨(Settled_error_iff e).2 ((Settled_error_iff e).1 h1), fun b p2 hb => by simp at hb⟩
  · refine ⟨Settled_ok _, fun b p2 hb => ?_⟩
    simp only [Except.ok.injEq, Prod.mk.injEq] at hb
    obtain ⟨hI1, hm⟩ := h2 t l1 hn
    rw [← hb.2]
    refine ⟨hI1, ?_⟩
    unfold Parser.size at hs ⊢
    simp only
    omega

/-- A successful `Eat` of a token other than the end-of-input token leaves
strictly less to read. -/
theorem ParserM.Runs_Eat (H : SourceRuns Inv μ next) (T : Int) (hT : T ≠ EOF) (k : Nat) :
    ParserM.Runs Inv μ (Parser.Eat next T) k (k - 1) := by
  intro p hI hs
  unfold Parser.Eat
  rw [ParserM.bind_of_ok (Parser.currentToken_apply p)]
  by_cases hc : p.CurrentToken.Type_ = T
  · rw [if_pos hc]
    have hcost : p.CurrentToken.cost = 1 := by
      unfold Token.cost
      rw [if_neg (by rw [hc]; exact hT)]
    obtain ⟨h1, h2⟩ := H p.lexer hI
    unfold Parser.advance
    rcases hn : next p.lexer with e | ⟨t, l1⟩
    · rw [hn] at h1
      exact ⟨(Settled_error_iff e).2 ((Settled_error_iff e).1 h1),
        fun b p2 hb => by simp at hb⟩
    · refine ⟨Settled_ok _, fun b p2 hb => ?_⟩
      simp only [Except.ok.injEq, Prod.mk.injEq] at hb
      obtain ⟨hI1, hm⟩ := h2 t l1 hn
      rw [← hb.2]
      refine ⟨hI1, ?_⟩
      unfold Parser.size at hs ⊢
      simp only
      omega
  · rw [if_neg hc]
    exact ParserM.Runs_Error k (k - 1) p hI hs

end RunsBasics

section RunsMethods
variable {F σ : Type} {Inv : σ → Prop} {μ : σ → Nat}
  {next : σ → Except Fail (Token F × σ)}

theorem ParserM.Runs_Variable (H : SourceRuns Inv μ next) (k : Nat) :
    ParserM.Runs Inv μ (Parser.Variable next) k (k - 1) := by
  simp only [Parser.Variable]
  repeat' first
    | with_reducible exact ParserM.Runs_pure _ (Nat.le_refl _)
    | with_reducible exact ParserM.Runs_pure _ (by omega)
    | with_reducible exact ParserM.Runs_Error _ _
    | with_reducible exact ParserM.Runs_fail _ ((Settled_error_iff _).2 ⟨by simp, by simp⟩) _ _
    | with_reducible exact ParserM.Runs_currentToken _
    | with_reducible exact ParserM.Runs_Eat H _ (by decide) _
    | with_reducible exact ParserM.Runs_advance H _
    | (exfalso; tauto)
    | apply ParserM.Runs_bind
    | apply ParserM.Runs_ite
    | intro _

theorem ParserM.Runs_TypeSpec (H : SourceRuns Inv μ next) (k : Nat) :
    ParserM.Runs Inv μ (Parser.TypeSpec next) k (k - 1) := by
  simp only [Parser.TypeSpec]
  repeat' first
    | with_reducible exact ParserM.Runs_pure _ (Nat.le_refl _)
    | with_reducible exact ParserM.Runs_pure _ (by omega)
    | with_reducible exact ParserM.Runs_Error _ _
    | with_reducible exact ParserM.Runs_fail _ ((Settled_error_iff _).2 ⟨by simp, by simp⟩) _ _
    | with_reducible exact ParserM.Runs_currentToken _
    | with_reducible exact ParserM.Runs_Eat H _ (by decide) _
    | with_reducible exact ParserM.Runs_advance H _
    | (exfalso; tauto)
    | apply ParserM.Runs_bind
    | apply ParserM.Runs_ite
    | intro _

/-- The expression methods have fuel enough when the fuel is three times the
size of what is left to read, plus their rank. -/
theorem Parser.expr_runs (H : SourceRuns Inv μ next) : ∀ n k : Nat,
    (3 * k + 3 ≤ n → ParserM.Runs Inv μ (Parser.Expr next n) k k) ∧
    (∀ node, 3 * k + 1 ≤ n → ParserM.Runs Inv μ (Parser.ExprLoop next n node) k k) ∧
    (3 * k + 2 ≤ n → ParserM.Runs Inv μ (Parser.Term next n) k k) ∧
    (∀ node, 3 * k + 1 ≤ n → ParserM.Runs Inv μ (Parser.TermLoop next n node) k k) ∧
    (3 * k + 1 ≤ n → ParserM.Runs Inv μ (Parser.Factor next n) k k)
  | 0, k => ⟨fun h => absurd h (by omega), fun _ h => absurd h (by omega),
      fun h => absurd h (by omega), fun _ h => absurd h (by omega),
      fun h => absurd h (by omega)⟩
  | n + 1, k => by
    have ihE : ∀ j, 3 * j + 3 ≤ n → ParserM.Runs Inv μ (Parser.Expr next n) j j :=
      fun j => (Parser.expr_runs H n j).1
    have ihEL : ∀ node j, 3 * j + 1 ≤ n →
        ParserM.Runs Inv μ (Parser.ExprLoop next n node) j j :=
      fun node j => (Parser.expr_runs H n j).2.1 node
    have ihT : ∀ j, 3 * j + 2 ≤ n → ParserM.Runs Inv μ (Parser.Term next n) j j :=
      fun j => (Parser.expr_runs H n j).2.2.1
    have ihTL : ∀ node j, 3 * j + 1 ≤ n →
        ParserM.Runs Inv μ (Parser.TermLoop next n node) j j :=
      fun node j => (Parser.expr_runs H n j).2.2.2.1 node
    have ihF : ∀ j, 3 * j + 1 ≤ n → ParserM.Runs Inv μ (Parser.Factor next n) j j :=
      fun j => (Parser.expr_runs H n j).2.2.2.2
    rcases k with _ | k
    · exact ⟨fun _ => ParserM.Runs_zero _ _, fun _ _ => ParserM.Runs_zero _ _,
        fun _ => ParserM.Runs_zero _ _, fun _ _ => ParserM.Runs_zero _ _,
        fun _ => ParserM.Runs_zero _ _⟩
    refine ⟨fun hb => ?_, fun node hb => ?_, fun hb => ?_, fun node hb => ?_, fun hb => ?_⟩
    · simp only [Parser.Expr]
      repeat' first
        | with_reducible exact ParserM.Runs_pure _ (Nat.le_refl _)
        | with_reducible exact ParserM.Runs_pure _ (by omega)
        | with_reducible exact ParserM.Runs_Error _ _
        | with_reducible exact ParserM.Runs_fail _ ((Settled_error_iff _).2 ⟨by simp, by simp⟩) _ _
        | with_reducible exact ParserM.Runs_currentToken _
        | with_reducible exact ParserM.Runs_Eat H _ (by decide) _
        | with_reducible exact ParserM.Runs_Variable H _
        | with_reducible exact ParserM.Runs_TypeSpec H _
        | with_reducible exact ParserM.Runs_advance H _
        | with_reducible exact ihE _ (by omega)
        | with_reducible exact ihT _ (by omega)
        | with_reducible exact ihF _ (by omega)
        | with_reducible exact ihEL _ _ (by omega)
        | with_reducible exact ihTL _ _ (by omega)
        | (exfalso; tauto)
        | apply ParserM.Runs_bind
        | apply ParserM.Runs_ite
        | intro _
    · simp only [Parser.ExprLoop]
      repeat' first
        | with_reducible exact ParserM.Runs_pure _ (Nat.le_refl _)
        | with_reducible exact ParserM.Runs_pure _ (by omega)
        | with_reducible exact ParserM.Runs_Error _ _
        | with_reducible exact ParserM.Runs_fail _ ((Settled_error_iff _).2 ⟨by simp, by simp⟩) _ _
        | with_reducible exact ParserM.Runs_currentToken _
        | with_reducible exact ParserM.Runs_Eat H _ (by decide) _
        | with_reducible exact ParserM.Runs_Variable H _
        | with_reducible exact ParserM.Runs_TypeSpec H _
        | with_reducible exact ParserM.Runs_advance H _
        | with_reducible exact ihE _ (by omega)
        | with_reducible exact ihT _ (by omega)
        | with_reducible exact ihF _ (by omega)
        | with_reducible exact ihEL _ _ (by omega)
        | with_reducible exact ParserM.Runs_mono (ihEL _ _ (by omega)) (by omega)
        | with_reducible exact ihTL _ _ (by omega)
        | (exfalso; tauto)
        | apply ParserM.Runs_bind
        | apply ParserM.Runs_ite
        | intro _
    · simp only [Parser.Term]
      repeat' first
        | with_reducible exact ParserM.Runs_pure _ (Nat.le_refl _)
        | with_reducible exact ParserM.Runs_pure _ (by omega)
        | with_reducible exact ParserM.Runs_Error _ _
        | with_reducible exact ParserM.Runs_fail _ ((Settled_error_iff _).2 ⟨by simp, by simp⟩) _ _
        | with_reducible exact ParserM.Runs_currentToken _
        | with_reducible exact ParserM.Runs_Eat H _ (by decide) _
        | with_reducible exact ParserM.Runs_Variable H _
        | with_reducible exact ParserM.Runs_TypeSpec H _
        | with_reducible exact ParserM.Runs_advance H _
        | with_reducible exact ihE _ (by omega)
        | with_reducible exact ihT _ (by omega)
        | with_reducible exact ihF _ (by omega)
        | with_reducible exact ihEL _ _ (by omega)
        | with_reducible exact ihTL _ _ (by omega)
        | (exfalso; tauto)
        | apply ParserM.Runs_bind
        | apply ParserM.Runs_ite
        | intro _
    · simp only [Parser.TermLoop]
      repeat' first
        | with_reducible exact ParserM.Runs_pure _ (Nat.le_refl _)
        | with_reducible exact ParserM.Runs_pure _ (by omega)
        | with_reducible exact ParserM.Runs_Error _ _
        | with_reducible exact ParserM.Runs_fail _ ((Settled_error_iff _).2 ⟨by simp, by simp⟩) _ _
        | with_reducible exact ParserM.Runs_currentToken _
        | with_reducible exact ParserM.Runs_Eat H _ (by decide) _
        | with_reducible exact ParserM.Runs_Variable H _
        | with_reducible exact ParserM.Runs_TypeSpec H _
        | with_reducible exact ParserM.Runs_advance H _
        | with_reducible exact ihE _ (by omega)
        | with_reducible exact ihT _ (by omega)
        | with_reducible exact ihF _ (by omega)
        | with_reducible exact ihEL _ _ (by omega)
        | with_reducible exact ihTL _ _ (by omega)
        | with_reducible exact ParserM.Runs_mono (ihTL _ _ (by omega)) (by omega)
        | (exfalso; tauto)
        | apply ParserM.Runs_bind
        | apply ParserM.Runs_ite
        | intro _
    · simp only [Parser.Factor]
      repeat' first
        | with_reducible exact ParserM.Runs_pure _ (Nat.le_refl _)
        | with_reducible exact ParserM.Runs_pure _ (by omega)
        | with_reducible exact ParserM.Runs_Error _ _
        | with_reducible exact ParserM.Runs_fail _ ((Settled_error_iff _).2 ⟨by simp, by simp⟩) _ _
        | with_reducible exact ParserM.Runs_currentToken _
        | with_reducible exact ParserM.Runs_Eat H _ (by decide) _
        | with_reducible exact ParserM.Runs_Variable H _
        | with_reducible exact ParserM.Runs_TypeSpec H _
        | with_reducible exact ParserM.Runs_advance H _
        | with_reducible exact ihE _ (by omega)
        | with_reducible exact ihT _ (by omega)
        | with_reducible exact ihF _ (by omega)
        | with_reducible exact ihEL _ _ (by omega)
        | with_reducible exact ihTL _ _ (by omega)
        | (exfalso; tauto)
        | apply ParserM.Runs_bind
        | apply ParserM.Runs_ite
        | intro _

theorem Parser.VariableDeclarationLoop_runs (H : SourceRuns Inv μ next) :
    ∀ (n k : Nat) (varnodes : List (Node F)), 3 * k + 1 ≤ n →
      ParserM.Runs Inv μ (Parser.VariableDeclarationLoop next n varnodes) k k
  | 0, k, _, h => absurd h (by omega)
  | n + 1, k, varnodes, hb => by
    have ih : ∀ vs j, 3 * j + 1 ≤ n →
        ParserM.Runs Inv μ (Parser.VariableDeclarationLoop next n vs) j j :=
      fun vs j => Parser.VariableDeclarationLoop_runs H n j vs
    rcases k with _ | k
    · exact ParserM.Runs_zero _ _
    simp only [Parser.VariableDeclarationLoop]
    repeat' first
      | with_reducible exact ParserM.Runs_pure _ (Nat.le_refl _)
      | with_reducible exact ParserM.Runs_pure _ (by omega)
      | with_reducible exact ParserM.Runs_Error _ _
      | with_reducible exact ParserM.Runs_fail _ ((Settled_error_iff _).2 ⟨by simp, by simp⟩) _ _
      | with_reducible exact ParserM.Runs_currentToken _
      | with_reducible exact ParserM.Runs_Eat H _ (by decide) _
      | with_reducible exact ParserM.Runs_Variable H _
      | with_reducible exact ParserM.Runs_TypeSpec H _
      | with_reducible exact ParserM.Runs_advance H _
      | with_reducible exact ih _ _ (by omega)
      | with_reducible exact ParserM.Runs_mono (ih _ _ (by omega)) (by omega)
      | (exfalso; tauto)
      | apply ParserM.Runs_bind
      | apply ParserM.Runs_ite
      | intro _

theorem Parser.VariableDeclaration_runs (H : SourceRuns Inv μ next) (n k : Nat)
    (hb : 3 * k + 1 ≤ n) :
    ParserM.Runs Inv μ (Parser.VariableDeclaration next n) k (k - 1) := by
  have ih : ∀ vs j, 3 * j + 1 ≤ n →
      ParserM.Runs Inv μ (Parser.VariableDeclarationLoop next n vs) j j :=
    fun vs j => Parser.VariableDeclarationLoop_runs H n j vs
  simp only [Parser.VariableDeclaration]
  repeat' first
    | with_reducible exact ParserM.Runs_pure _ (Nat.le_refl _)
    | with_reducible exact ParserM.Runs_pure _ (by omega)
    | with_reducible exact ParserM.Runs_Error _ _
    | with_reducible exact ParserM.Runs_fail _ ((Settled_error_iff _).2 ⟨by simp, by simp⟩) _ _
    | with_reducible exact ParserM.Runs_currentToken _
    | with_reducible exact ParserM.Runs_Eat H _ (by decide) _
    | with_reducible exact ParserM.Runs_Variable H _
    | with_reducible exact ParserM.Runs_TypeSpec H _
    | with_reducible exact ParserM.Runs_advance H _
    | with_reducible exact ih _ _ (by omega)
    | (exfalso; tauto)
    | apply ParserM.Runs_bind
    | apply ParserM.Runs_ite
    | intro _

theorem Parser.DeclarationsLoop_runs (H : SourceRuns Inv μ next) :
    ∀ (n k : Nat) (declnodes : List (Node F)), 3 * k + 2 ≤ n →
      ParserM.Runs Inv μ (Parser.DeclarationsLoop next n declnodes) k k
  | 0, k, _, h => absurd h (by omega)
  | n + 1, k, declnodes, hb => by
    have ih : ∀ ds j, 3 * j + 2 ≤ n →
        ParserM.Runs Inv μ (Parser.DeclarationsLoop next n ds) j j :=
      fun ds j => Parser.DeclarationsLoop_runs H n j ds
    have ihV : ∀ j, 3 * j + 1 ≤ n →
        ParserM.Runs Inv μ (Parser.VariableDeclaration next n) j (j - 1) :=
      fun j => Parser.VariableDeclaration_runs H n j
    rcases k with _ | k
    · exact ParserM.Runs_zero _ _
    simp only [Parser.DeclarationsLoop]
    repeat' first
      | with_reducible exact ParserM.Runs_pure _ (Nat.le_refl _)
      | with_reducible exact ParserM.Runs_pure _ (by omega)
      | with_reducible exact ParserM.Runs_Error _ _
      | with_reducible exact ParserM.Runs_fail _ ((Settled_error_iff _).2 ⟨by simp, by simp⟩) _ _
      | with_reducible exact ParserM.Runs_currentToken _
      | with_reducible exact ParserM.Runs_Eat H _ (by decide) _
      | with_reducible exact ParserM.Runs_Variable H _
      | with_reducible exact ParserM.Runs_TypeSpec H _
      | with_reducible exact ParserM.Runs_advance H _
      | with_reducible exact ih _ _ (by omega)
      | with_reducible exact ParserM.Runs_mono (ih _ _ (by omega)) (by omega)
      | with_reducible exact ihV _ (by omega)
      | (exfalso; tauto)
      | apply ParserM.Runs_bind
      | apply ParserM.Runs_ite
      | intro _

theorem Parser.Declarations_runs (H : SourceRuns Inv μ next) (n k : Nat)
    (hb : 3 * k + 2 ≤ n) : ParserM.Runs Inv μ (Parser.Declarations next n) k k := by
  have ih : ∀ ds j, 3 * j + 2 ≤ n →
      ParserM.Runs Inv μ (Parser.DeclarationsLoop next n ds) j j :=
    fun ds j => Parser.DeclarationsLoop_runs H n j ds
  simp only [Parser.Declarations]
  repeat' first
    | with_reducible exact ParserM.Runs_pure _ (Nat.le_refl _)
    | with_reducible exact ParserM.Runs_pure _ (by omega)
    | with_reducible exact ParserM.Runs_Error _ _
    | with_reducible exact ParserM.Runs_fail _ ((Settled_error_iff _).2 ⟨by simp, by simp⟩) _ _
    | with_reducible exact ParserM.Runs_currentToken _
    | with_reducible exact ParserM.Runs_Eat H _ (by decide) _
    | with_reducible exact ParserM.Runs_Variable H _
    | with_reducible exact ParserM.Runs_TypeSpec H _
    | with_reducible exact ParserM.Runs_advance H _
    | with_reducible exact ih _ _ (by omega)
    | with_reducible exact ParserM.Runs_mono (ih _ _ (by omega)) (by omega)
    | (exfalso; tauto)
    | apply ParserM.Runs_bind
    | apply ParserM.Runs_ite
    | intro _

theorem Parser.AssignmentStatement_runs (H : SourceRuns Inv μ next) (n k : Nat)
    (hb : 3 * k + 1 ≤ n) :
    ParserM.Runs Inv μ (Parser.AssignmentStatement next n) k k := by
  have ih : ∀ j, 3 * j + 3 ≤ n → ParserM.Runs Inv μ (Parser.Expr next n) j j :=
    fun j => (Parser.expr_runs H n j).1
  rcases k with _ | k
  · exact ParserM.Runs_zero _ _
  simp only [Parser.AssignmentStatement]
  repeat' first
    | with_reducible exact ParserM.Runs_pure _ (Nat.le_refl _)
    | with_reducible exact ParserM.Runs_pure _ (by omega)
    | with_reducible exact ParserM.Runs_Error _ _
    | with_reducible exact ParserM.Runs_fail _ ((Settled_error_iff _).2 ⟨by simp, by simp⟩) _ _
    | with_reducible exact ParserM.Runs_currentToken _
    | with_reducible exact ParserM.Runs_Eat H _ (by decide) _
    | with_reducible exact ParserM.Runs_Variable H _
    | with_reducible exact ParserM.Runs_TypeSpec H _
    | with_reducible exact ParserM.Runs_advance H _
    | with_reducible exact ih _ (by omega)
    | (exfalso; tauto)
    | apply ParserM.Runs_bind
    | apply ParserM.Runs_ite
    | intro _

/-- The statement methods have fuel enough when the fuel is three times the
size of what is left to read, plus their rank. -/
theorem Parser.statement_runs (H : SourceRuns Inv μ next) : ∀ n k : Nat,
    (3 * k + 1 ≤ n → ParserM.Runs Inv μ (Parser.CompoundStatement next n) k k) ∧
    (3 * k + 3 ≤ n → ParserM.Runs Inv μ (Parser.StatementList next n) k k) ∧
    (∀ results, 3 * k + 1 ≤ n →
      ParserM.Runs Inv μ (Parser.StatementListLoop next n results) k k) ∧
    (3 * k + 2 ≤ n → ParserM.Runs Inv μ (Parser.Statement next n) k k)
  | 0, k => ⟨fun h => absurd h (by omega), fun h => absurd h (by omega),
      fun _ h => absurd h (by omega), fun h => absurd h (by omega)⟩
  | n + 1, k => by
    have ihC : ∀ j, 3 * j + 1 ≤ n →
        ParserM.Runs Inv μ (Parser.CompoundStatement next n) j j :=
      fun j => (Parser.statement_runs H n j).1
    have ihL : ∀ j, 3 * j + 3 ≤ n → ParserM.Runs Inv μ (Parser.StatementList next n) j j :=
      fun j => (Parser.statement_runs H n j).2.1
    have ihLL : ∀ rs j, 3 * j + 1 ≤ n →
        ParserM.Runs Inv μ (Parser.StatementListLoop next n rs) j j :=
      fun rs j => (Parser.statement_runs H n j).2.2.1 rs
    have ihS : ∀ j, 3 * j + 2 ≤ n → ParserM.Runs Inv μ (Parser.Statement next n) j j :=
      fun j => (Parser.statement_runs H n j).2.2.2
    have ihA : ∀ j, 3 * j + 1 ≤ n →
        ParserM.Runs Inv μ (Parser.AssignmentStatement next n) j j :=
      fun j => Parser.AssignmentStatement_runs H n j
    rcases k with _ | k
    · exact ⟨fun _ => ParserM.Runs_zero _ _, fun _ => ParserM.Runs_zero _ _,
        fun _ _ => ParserM.Runs_zero _ _, fun _ => ParserM.Runs_zero _ _⟩
    refine ⟨fun hb => ?_, fun hb => ?_, fun results hb => ?_, fun hb => ?_⟩
    · simp only [Parser.CompoundStatement, Parser.Empty]
      repeat' first
        | with_reducible exact ParserM.Runs_pure _ (Nat.le_refl _)
        | with_reducible exact ParserM.Runs_pure _ (by omega)
        | with_reducible exact ParserM.Runs_Error _ _
        | with_reducible exact ParserM.Runs_fail _ ((Settled_error_iff _).2 ⟨by simp, by simp⟩) _ _
        | with_reducible exact ParserM.Runs_currentToken _
        | with_reducible exact ParserM.Runs_Eat H _ (by decide) _
        | with_reducible exact ParserM.Runs_Variable H _
        | with_reducible exact ParserM.Runs_TypeSpec H _
        | with_reducible exact ParserM.Runs_advance H _
        | with_reducible exact ihC _ (by omega)
        | with_reducible exact ihL _ (by omega)
        | with_reducible exact ihS _ (by omega)
        | with_reducible exact ihA _ (by omega)
        | with_reducible exact ihLL _ _ (by omega)
        | (exfalso; tauto)
        | apply ParserM.Runs_bind
        | apply ParserM.Runs_ite
        | intro _
    · simp only [Parser.StatementList, Parser.Empty]
      repeat' first
        | with_reducible exact ParserM.Runs_pure _ (Nat.le_refl _)
        | with_reducible exact ParserM.Runs_pure _ (by omega)
        | with_reducible exact ParserM.Runs_Error _ _
        | with_reducible exact ParserM.Runs_fail _ ((Settled_error_iff _).2 ⟨by simp, by simp⟩) _ _
        | with_reducible exact ParserM.Runs_currentToken _
        | with_reducible exact ParserM.Runs_Eat H _ (by decide) _
        | with_reducible exact ParserM.Runs_Variable H _
        | with_reducible exact ParserM.Runs_TypeSpec H _
        | with_reducible exact ParserM.Runs_advance H _
        | with_reducible exact ihC _ (by omega)
        | with_reducible exact ihL _ (by omega)
        | with_reducible exact ihS _ (by omega)
        | with_reducible exact ihA _ (by omega)
        | with_reducible exact ihLL _ _ (by omega)
        | (exfalso; tauto)
        | apply ParserM.Runs_bind
        | apply ParserM.Runs_ite
        | intro _
    · simp only [Parser.StatementListLoop, Parser.Empty]
      repeat' first
        | with_reducible exact ParserM.Runs_pure _ (Nat.le_refl _)
        | with_reducible exact ParserM.Runs_pure _ (by omega)
        | with_reducible exact ParserM.Runs_Error _ _
        | with_reducible exact ParserM.Runs_fail _ ((Settled_error_iff _).2 ⟨by simp, by simp⟩) _ _
        | with_reducible exact ParserM.Runs_currentToken _
        | with_reducible exact ParserM.Runs_Eat H _ (by decide) _
        | with_reducible exact ParserM.Runs_Variable H _
        | with_reducible exact ParserM.Runs_TypeSpec H _
        | with_reducible exact ParserM.Runs_advance H _
        | with_reducible exact ihC _ (by omega)
        | with_reducible exact ihL _ (by omega)
        | with_reducible exact ihS _ (by omega)
        | with_reducible exact ihA _ (by omega)
        | with_reducible exact ihLL _ _ (by omega)
        | with_reducible exact ParserM.Runs_mono (ihLL _ _ (by omega)) (by omega)
        | (exfalso; tauto)
        | apply ParserM.Runs_bind
        | apply ParserM.Runs_ite
        | intro _
    · simp only [Parser.Statement, Parser.Empty]
      repeat' first
        | with_reducible exact ParserM.Runs_pure _ (Nat.le_refl _)
        | with_reducible exact ParserM.Runs_pure _ (by omega)
        | with_reducible exact ParserM.Runs_Error _ _
        | with_reducible exact ParserM.Runs_fail _ ((Settled_error_iff _).2 ⟨by simp, by simp⟩) _ _
        | with_reducible exact ParserM.Runs_currentToken _
        | with_reducible exact ParserM.Runs_Eat H _ (by decide) _
        | with_reducible exact ParserM.Runs_Variable H _
        | with_reducible exact ParserM.Runs_TypeSpec H _
        | with_reducible exact ParserM.Runs_advance H _
        | with_reducible exact ihC _ (by omega)
        | with_reducible exact ihL _ (by omega)
        | with_reducible exact ihS _ (by omega)
        | with_reducible exact ihA _ (by omega)
        | with_reducible exact ihLL _ _ (by omega)
        | (exfalso; tauto)
        | apply ParserM.Runs_bind
        | apply ParserM.Runs_ite
        | intro _

theorem Parser.Block_runs (H : SourceRuns Inv μ next) (n k : Nat) (hb : 3 * k + 2 ≤ n) :
    ParserM.Runs Inv μ (Parser.Block next n) k k := by
  have ihD : ∀ j, 3 * j + 2 ≤ n → ParserM.Runs Inv μ (Parser.Declarations next n) j j :=
    fun j => Parser.Declarations_runs H n j
  have ihC : ∀ j, 3 * j + 1 ≤ n →
      ParserM.Runs Inv μ (Parser.CompoundStatement next n) j j :=
    fun j => (Parser.statement_runs H n j).1
  simp only [Parser.Block]
  repeat' first
    | with_reducible exact ParserM.Runs_pure _ (Nat.le_refl _)
    | with_reducible exact ParserM.Runs_pure _ (by omega)
    | with_reducible exact ParserM.Runs_Error _ _
    | with_reducible exact ParserM.Runs_fail _ ((Settled_error_iff _).2 ⟨by simp, by simp⟩) _ _
    | with_reducible exact ParserM.Runs_currentToken _
    | with_reducible exact ParserM.Runs_Eat H _ (by decide) _
    | with_reducible exact ParserM.Runs_Variable H _
    | with_reducible exact ParserM.Runs_TypeSpec H _
    | with_reducible exact ParserM.Runs_advance H _
    | with_reducible exact ihD _ (by omega)
    | with_reducible exact ihC _ (by omega)
    | (exfalso; tauto)
    | apply ParserM.Runs_bind
    | apply ParserM.Runs_ite
    | intro _

theorem Parser.Program_runs (H : SourceRuns Inv μ next) (n k : Nat) (hb : 3 * k + 2 ≤ n) :
    ParserM.Runs Inv μ (Parser.Program next n) k k := by
  have ihB : ∀ j, 3 * j + 2 ≤ n → ParserM.Runs Inv μ (Parser.Block next n) j j :=
    fun j => Parser.Block_runs H n j
  simp only [Parser.Program]
  refine ParserM.Runs_bind (ParserM.Runs_Eat H _ (by decide) _) fun _ =>
    ParserM.Runs_bind (ParserM.Runs_Variable H _) fun varnode =>
      ParserM.Runs_bind (j := k - 1 - 1) ?_ fun _ => ?_
  · cases varnode <;>
      first
        | exact ParserM.Runs_pure _ (Nat.le_refl _)
        | exact ParserM.Runs_fail _ ((Settled_error_iff _).2 ⟨by simp, by simp⟩) _ _
  · repeat' first
      | with_reducible exact ParserM.Runs_pure _ (Nat.le_refl _)
      | with_reducible exact ParserM.Runs_pure _ (by omega)
      | with_reducible exact ParserM.Runs_Error _ _
      | with_reducible exact ParserM.Runs_fail _ ((Settled_error_iff _).2 ⟨by simp, by simp⟩) _ _
      | with_reducible exact ParserM.Runs_currentToken _
      | with_reducible exact ParserM.Runs_Eat H _ (by decide) _
      | with_reducible exact ParserM.Runs_Variable H _
      | with_reducible exact ParserM.Runs_TypeSpec H _
      | with_reducible exact ParserM.Runs_advance H _
      | with_reducible exact ihB _ (by omega)
      | (exfalso; tauto)
      | apply ParserM.Runs_bind
      | apply ParserM.Runs_ite
      | intro _

/-- `Parse` has fuel enough when the fuel is three times the size of what is
left to read, plus two. -/
theorem Parser.Parse_runs (H : SourceRuns Inv μ next) (n k : Nat) (hb : 3 * k + 2 ≤ n) :
    ParserM.Runs Inv μ (Parser.Parse next n) k k := by
  have ihP : ∀ j, 3 * j + 2 ≤ n → ParserM.Runs Inv μ (Parser.Program next n) j j :=
    fun j => Parser.Program_runs H n j
  simp only [Parser.Parse]
  repeat' first
    | with_reducible exact ParserM.Runs_pure _ (Nat.le_refl _)
    | with_reducible exact ParserM.Runs_pure _ (by omega)
    | with_reducible exact ParserM.Runs_Error _ _
    | with_reducible exact ParserM.Runs_fail _ ((Settled_error_iff _).2 ⟨by simp, by simp⟩) _ _
    | with_reducible exact ParserM.Runs_currentToken _
    | with_reducible exact ParserM.Runs_Eat H _ (by decide) _
    | with_reducible exact ParserM.Runs_Variable H _
    | with_reducible exact ParserM.Runs_TypeSpec H _
    | with_reducible exact ParserM.Runs_advance H _
    | with_reducible exact ihP _ (by omega)
    | (exfalso; tauto)
    | apply ParserM.Runs_bind
    | apply ParserM.Runs_ite
    | intro _

end RunsMethods

/-! ## The lexer on texts in which every comment is closed -/

section ClosedComments

theorem commentsClosed_cons {c : Char} {r : List Char} (hc : c ≠ '{') :
    commentsClosed (c :: r) = commentsClosed r := by
  rw [commentsClosed, if_neg hc]

theorem commentsClosed_dropWhile (p : Char → Bool) (hp : p '{' = false) :
    ∀ s : List Char, commentsClosed s = true → commentsClosed (s.dropWhile p) = true
  | [], h => h
  | c :: r, h => by
    by_cases hc : p c = true
    · rw [List.dropWhile_cons_of_pos hc]
      have hne : c ≠ '{' := fun e => by
        rw [e, hp] at hc
        exact Bool.false_ne_true hc
      rw [commentsClosed_cons hne] at h
      exact commentsClosed_dropWhile p hp r h
    · rw [List.dropWhile_cons_of_neg hc]
      exact h

theorem commentsClosed_tail : ∀ s : List Char, commentsClosed s = true → s.headD NUL ≠ '{' →
    commentsClosed s.tail = true
  | [], h, _ => h
  | c :: r, h, hh => by
    rw [List.headD_cons] at hh
    rw [commentsClosed_cons hh] at h
    exact h

theorem length_dropWhile_le (p : Char → Bool) (s : List Char) :
    (s.dropWhile p).length ≤ s.length :=
  (List.dropWhile_suffix p).length_le

theorem LexOutcome.Fits_mono {F : Type} {k j : Nat} (h : k ≤ j) :
    ∀ {o : LexOutcome F}, o.Fits k → o.Fits j
  | .token _ _, hf => ⟨hf.1, Nat.le_trans hf.2 h⟩
  | .lexError, _ => trivial
  | .hang, hf => hf.elim

variable {F : Type} [Float64 F]

theorem Token.cost_EOF : (Token.ofType EOF : Token F).cost = 0 := by
  unfold Token.cost
  rw [if_pos (Token.ofType_Type EOF)]

theorem numberSpec_fits (c : Char) (r : List Char) (hd : isDigit c = true)
    (h : commentsClosed (c :: r) = true) :
    (numberSpec (c :: r) : LexOutcome F).Fits (r.length + 1) := by
  have hdrop : (c :: r).dropWhile isDigit = r.dropWhile isDigit :=
    List.dropWhile_cons_of_pos hd
  have h1 : commentsClosed ((c :: r).dropWhile isDigit) = true :=
    commentsClosed_dropWhile isDigit (by decide) _ h
  have hl1 : ((c :: r).dropWhile isDigit).length ≤ r.length := by
    rw [hdrop]
    exact length_dropWhile_le _ _
  unfold numberSpec
  by_cases hdot : ((c :: r).dropWhile isDigit).headD NUL = '.'
  · rw [if_pos hdot]
    have h2 : commentsClosed ((c :: r).dropWhile isDigit).tail = true :=
      commentsClosed_tail _ h1 (by rw [hdot]; decide)
    refine ⟨commentsClosed_dropWhile isDigit (by decide) _ h2, ?_⟩
    have hl2 := length_dropWhile_le isDigit ((c :: r).dropWhile isDigit).tail
    have hl3 : ((c :: r).dropWhile isDigit).tail.length ≤ ((c :: r).dropWhile isDigit).length := by
      rw [List.length_tail]
      omega
    exact Nat.le_trans (Nat.add_le_add (Token.cost_le_one _) hl2) (by omega)
  · rw [if_neg hdot]
    refine ⟨h1, ?_⟩
    exact Nat.le_trans (Nat.add_le_add (Token.cost_le_one _) hl1) (by omega)

mutual
/-- On an input in which every comment is closed, `GetNextToken` returns a
token or panics with the lexing error; every comment of the input left is
closed, and that input is shorter unless the token is the end-of-input token. -/
theorem lexSpec_fits : ∀ rest : List Char, commentsClosed rest = true →
    (lexSpec rest : LexOutcome F).Fits rest.length
  | [], _ => by
    rw [lexSpec]
    exact ⟨rfl, by rw [Token.cost_EOF]; exact Nat.le_refl _⟩
  | c :: r, h => by
    rw [List.length_cons]
    by_cases h0 : c = NUL
    · rw [lexSpec, if_pos h0]
      refine ⟨h, ?_⟩
      rw [List.length_cons]
      rw [Token.cost_EOF]
      omega
    by_cases hs : isSpace c = true
    · rw [lexSpec_space c r hs]
      have hne : c ≠ '{' := fun e => by
        rw [e] at hs
        exact absurd hs (by decide)
      rw [commentsClosed_cons hne] at h
      exact LexOutcome.Fits_mono (Nat.le_succ _) (lexSpec_fits r h)
    by_cases ha : isAlpha c = true
    · rw [lexSpec, if_neg h0, if_neg hs, if_pos ha]
      refine ⟨commentsClosed_dropWhile isAlphaNumeric (by decide) _ h, ?_⟩
      rw [List.dropWhile_cons_of_pos (isAlphaNumeric_of_isAlpha ha)]
      have hl := length_dropWhile_le isAlphaNumeric r
      have hc := Token.cost_le_one (wordToken ((c :: r).takeWhile isAlphaNumeric) : Token F)
      omega
    by_cases hd : isDigit c = true
    · rw [lexSpec, if_neg h0, if_neg hs, if_neg ha, if_pos hd]
      exact numberSpec_fits c r hd h
    by_cases hcol : c = ':'
    · rw [lexSpec, if_neg h0, if_neg hs, if_neg ha, if_neg hd, if_pos hcol]
      have hne : c ≠ '{' := by
        rw [hcol]
        decide
      rw [commentsClosed_cons hne] at h
      by_cases he : r.headD NUL = '='
      · rw [if_pos he]
        refine ⟨commentsClosed_tail r h (by rw [he]; decide), ?_⟩
        have hc := Token.cost_le_one (Token.ofType ASSIGN : Token F)
        rw [List.length_tail]
        omega
      · rw [if_neg he]
        refine ⟨h, ?_⟩
        have hc := Token.cost_le_one (Token.ofType COLON : Token F)
        omega
    by_cases hb : c = '{'
    · rw [lexSpec, if_neg h0, if_neg hs, if_neg ha, if_neg hd, if_neg hcol, if_pos hb]
      rw [commentsClosed, if_pos hb] at h
      exact LexOutcome.Fits_mono (Nat.le_succ _) (skipSpec_fits r h)
    · rw [lexSpec, if_neg h0, if_neg hs, if_neg ha, if_neg hd, if_neg hcol, if_neg hb]
      rw [commentsClosed_cons hb] at h
      cases Lexer.symbol c with
      | none => trivial
      | some T =>
        refine ⟨h, ?_⟩
        have hc := Token.cost_le_one (Token.ofType T : Token F)
        omega
/-- Inside a comment that is closed. -/
theorem skipSpec_fits : ∀ r : List Char, insideClosed r = true →
    (skipSpec r : LexOutcome F).Fits r.length
  | [], h => by
    rw [insideClosed] at h
    exact absurd h (by decide)
  | c :: r, h => by
    rw [List.length_cons]
    by_cases hc : c = '}'
    · rw [skipSpec, if_pos hc]
      rw [insideClosed, if_pos hc] at h
      exact LexOutcome.Fits_mono (Nat.le_succ _) (lexSpec_fits r h)
    · rw [skipSpec, if_neg hc]
      rw [insideClosed, if_neg hc] at h
      exact LexOutcome.Fits_mono (Nat.le_succ _) (skipSpec_fits r h)
end

theorem Lexer.unread_at {l : Lexer} {pre rest : List Char} (hat : l.At pre rest) :
    l.unread = rest.length := by
  unfold Lexer.unread
  rw [hat.1, hat.2.1, List.length_append, Int.toNat_ofNat]
  omega

/-- The lexer, from a state whose unread input has every comment closed and
is shorter than the fuel by two, hands out a token or panics with the lexing
error, and is then in such a state again, with less to read unless the token
is the end-of-input token. -/
theorem SourceRuns_lexer (n : Nat) :
    SourceRuns (Lexer.Ready n) Lexer.unread (fun l => Lexer.GetNextToken (F := F) n l) := by
  intro l ⟨pre, rest, hat, hcl, hn⟩
  have f := Lexer.GetNextToken_at (F := F) n rest pre l hat hn
  have hf := lexSpec_fits (F := F) rest hcl
  generalize (lexSpec rest : LexOutcome F) = o at f hf
  cases o with
  | token tok r =>
    obtain ⟨l1, w, hg, hat1, hw⟩ := f
    constructor
    · show Settled (Lexer.GetNextToken n l)
      rw [hg]
      exact Settled_ok _
    · intro t l2 h
      replace h : Lexer.GetNextToken n l = .ok (t, l2) := h
      rw [hg] at h
      simp only [Except.ok.injEq, Prod.mk.injEq] at h
      obtain ⟨ht, hl⟩ := h
      subst ht
      subst hl
      have h2 := hf.2
      refine ⟨⟨pre ++ w, r, hat1, hf.1, by omega⟩, ?_⟩
      rw [Lexer.unread_at hat1, Lexer.unread_at hat]
      exact h2
  | lexError =>
    have hg : Lexer.GetNextToken (F := F) n l = .error (.panic .errorLexingInput) := f
    constructor
    · show Settled (Lexer.GetNextToken (F := F) n l)
      rw [hg]
      exact (Settled_error_iff _).2 ⟨by simp, by simp⟩
    · intro t l2 h
      replace h : Lexer.GetNextToken n l = .ok (t, l2) := h
      rw [hg] at h
      simp at h
  | hang => exact hf.elim

/-- A token sequence as a source. -/
theorem SourceRuns_tokens :
    SourceRuns (fun _ => True) List.length (tokensNext : List (Token F) → _) := by
  intro ts _
  cases ts with
  | nil =>
    refine ⟨Settled_ok _, fun t l1 h => ⟨trivial, ?_⟩⟩
    simp only [tokensNext, Except.ok.injEq, Prod.mk.injEq] at h
    rw [← h.1, ← h.2, Token.cost_EOF]
    exact Nat.le_refl _
  | cons t0 ts0 =>
    refine ⟨Settled_ok _, fun t l1 h => ⟨trivial, ?_⟩⟩
    simp only [tokensNext, Except.ok.injEq, Prod.mk.injEq] at h
    rw [← h.1, ← h.2, List.length_cons]
    have := Token.cost_le_one t0
    omega

end ClosedComments

/-! ## Parsing terminates -/

section Termination
variable {F : Type} [Float64 F]

theorem ok_or_panic {α : Type} {r : Except Fail α} (h : r ≠ .error .outOfFuel) :
    (∃ a, r = .ok a) ∨ ∃ pn, r = .error (.panic pn) := by
  cases r with
  | ok a => exact Or.inl ⟨a, rfl⟩
  | error e =>
    cases e with
    | panic pn => exact Or.inr ⟨pn, rfl⟩
    | outOfFuel => exact absurd rfl h

/-- With fuel three times the length of the text plus eight, `Parse` on a
lexer at the start of a text in which every comment is closed returns or
panics. -/
theorem Parser.Parse_lexer_settled {l : Lexer} {text : List Char} (hat : l.At [] text)
    (hclosed : commentsClosed text = true) (n : Nat) (hn : 3 * text.length + 8 ≤ n) :
    Settled (Parser.Parse (F := F) (fun l => Lexer.GetNextToken n l) n (NewParser l)) := by
  have hr := Parser.Parse_runs (SourceRuns_lexer (F := F) n) n (text.length + 2) (by omega)
  refine (hr (NewParser l) ⟨[], text, hat, hclosed, by omega⟩ ?_).1
  unfold Parser.size
  have hu : (NewParser l : Parser F Lexer).lexer.unread = text.length := Lexer.unread_at hat
  have hc := Token.cost_le_one (NewParser l : Parser F Lexer).CurrentToken
  omega

theorem parseText_settled {text : List Char} (hne : text ≠ [])
    (hclosed : commentsClosed text = true) (hlen : text.length < 2 ^ 63) (n : Nat)
    (hn : 3 * text.length + 8 ≤ n) : Settled (parseText (F := F) n text) := by
  obtain ⟨l, hN, hat⟩ := NewLexer_at_start text hne hlen
  have e1 : parseText (F := F) n text =
      (Parser.Parse (fun l => Lexer.GetNextToken n l) n (NewParser l)).map Prod.fst := by
    simp only [parseText, hN]
    rfl
  rw [e1, Settled_map]
  exact Parser.Parse_lexer_settled hat hclosed n hn

theorem parseText_nil (n : Nat) :
    parseText (F := F) n [] = .error (.panic .indexOutOfRange) := rfl

/-- More fuel does not change a settled result of `parseText`. -/
theorem parseText_fuel_mono {text : List Char} (hne : text ≠ []) (hlen : text.length < 2 ^ 63)
    {n m : Nat} (hset : Settled (parseText (F := F) n text)) (hnm : n ≤ m)
    (hm : text.length + 2 ≤ m) : parseText (F := F) m text = parseText n text := by
  obtain ⟨l, hN, hat⟩ := NewLexer_at_start text hne hlen
  have hsim : LexSim F Eq := by
    intro r1 r2 h
    rw [h]
    exact LexOutcome.Related_refl (fun _ => rfl) _
  exact parseText_transfer hsim hN hN ⟨[], text, [], text, hat, hat, rfl, Nat.le_refl _⟩ n m
    hset hnm hm

theorem parseTokens_settled (ts : List (Token F)) (n : Nat) (hn : 3 * ts.length + 8 ≤ n) :
    Settled (parseTokens n ts) := by
  have hr := Parser.Parse_runs (SourceRuns_tokens (F := F)) n (ts.length + 2) (by omega)
  unfold parseTokens
  rw [Settled_map]
  refine (hr (NewParser ts) trivial ?_).1
  unfold Parser.size
  have hu : (NewParser ts : Parser F (List (Token F))).lexer.length = ts.length := rfl
  have hc := Token.cost_le_one (NewParser ts : Parser F (List (Token F))).CurrentToken
  omega

end Termination

/-! # The claims -/

section Claims

/-- C1: on a fresh interpreter, when `Interpret` returns, the keys of
`GLOBALSCOPE` are exactly the target names of the `Assign` nodes of the tree:
a name that is only declared or only read is not a key, and every assigned
name is one.  (Trees in which an `Assign` hides beneath a `VarDecl`, which the
walker does not enter and the parser never builds, are left out.) -/
theorem Interpret_keys_eq_assignTargets {F : Type} [Float64 F] (n : Node F)
    (G : Scope F) (v : F) (hp : n.plainDecls = true) (h : Interpret n = (G, .ok v)) :
    ∀ k, (G k).isSome = true ↔ k ∈ n.assignTargets := by
  intro k
  rw [Visit_keys n Scope.empty G v hp h k]
  simp [Scope.empty]

theorem Interpret_keys_eq_assignTargets_witness :
    keysTree.plainDecls = true ∧ Interpret keysTree = (keysTable, .ok 0) ∧
    ((keysTable "a").isSome = true ↔ "a" ∈ keysTree.assignTargets) ∧
    ((keysTable "b").isSome = true ↔ "b" ∈ keysTree.assignTargets) :=
  ⟨by decide, rfl,
    Interpret_keys_eq_assignTargets keysTree keysTable 0 (by decide) rfl "a",
    Interpret_keys_eq_assignTargets keysTree keysTable 0 (by decide) rfl "b"⟩

/-- C3: `VisitVar` panics exactly when the name is absent from the table, and
otherwise returns the bound value; the table is unchanged either way.  In
particular a block that reads a variable that is declared (whatever the
declarations are) but was never assigned panics, from the empty table, and
returns no default value. -/
theorem VisitVar_absent_iff_fails {F : Type} [Float64 F] (G : Scope F) (tok : Token F)
    (name : String) :
    ((∃ e, (Visit G (.Var tok name)).2 = .error e) ↔ G name = none) ∧
    (Visit G (.Var tok name)).2 =
      (match G name with
        | some v => .ok v
        | none => .error .unknownNode) ∧
    (Visit G (.Var tok name)).1 = G ∧
    (∀ (ds : List (Node F × Node F)) (pn x : String) (tx : Token F) (op : Int),
      Interpret (.Program pn (.Block (ds.map fun d => .VarDecl d.1 d.2)
        (.Compound [.Assign (.Var tx x) op (.Var tok name)]))) =
      (Scope.empty, .error .unknownNode)) ∧
    run 60 readUnassignedText = .ok ((Scope.empty : Scope ℚ), .error .unknownNode) := by
  refine ⟨?_, ?_, ?_, ?_, ?_⟩
  · simp only [Visit]
    cases G name <;> simp
  · simp only [Visit]
    cases G name <;> rfl
  · simp only [Visit]
    cases G name <;> rfl
  · intro ds pn x tx op
    have hds : ∀ (l : List (Node F × Node F)) (G0 : Scope F),
        VisitAll G0 (l.map fun d => Node.VarDecl d.1 d.2) = (G0, .ok ()) := by
      intro l
      induction l with
      | nil => intro G0; rfl
      | cons d l ih => intro G0; simp only [List.map, VisitAll, Visit, andThen, ih]
    simp only [Interpret, Visit, VisitAll, andThen, hds, Scope.empty]
  · have hparse : parseText (F := ℚ) 60 readUnassignedText = .ok readUnassignedTree := by
      decide!
    rw [run_of_parseText hparse]
    rfl

/-- C4: when the expression `e` evaluates to `v` in the table `G`, the
assignment `x := e` returns and leaves the table that binds `x` to `v`
(replacing any earlier binding) and agrees with `G` on every other name. -/
theorem VisitAssign_sets_target {F : Type} [Float64 F] (G : Scope F) (tok : Token F)
    (x : String) (op : Int) (e : Node F) (v : F) (he : e.isExpr = true)
    (hv : (Visit G e).2 = .ok v) :
    ∃ G', Visit G (.Assign (.Var tok x) op e) = (G', .ok Float64.zero) ∧
      G' x = some v ∧ ∀ y, y ≠ x → G' y = G y := by
  have ht := Visit_isExpr_table e G he
  have hve : Visit G e = (G, .ok v) := Prod.ext ht hv
  refine ⟨G.set x v, ?_, ?_, ?_⟩
  · simp only [Visit, hve, andThen]
  · simp [Scope.set]
  · intro y hy
    simp [Scope.set, hy]

theorem VisitAssign_sets_target_witness :
    ∃ G', Visit keysTable (.Assign (varNode "a") ASSIGN (.BinOp PLUS (varNode "c") (intNode 4)))
        = (G', .ok 0) ∧
      G' "a" = some (2 + 1 + 4) ∧ ∀ y, y ≠ "a" → G' y = keysTable y :=
  VisitAssign_sets_target keysTable (Token.ident "a") "a" ASSIGN
    (.BinOp PLUS (varNode "c") (intNode 4)) (2 + 1 + 4) (by decide) rfl

/-- C5: `DIV` and `/` are evaluated alike: for every table and all operands,
`BinOp(INTEGERDIV, l, r)` and `BinOp(FLOATDIV, l, r)` have the same outcome
(same value or same panic, same table), and the value is the `float64`
quotient of the operands, not a truncation of it.  In exact arithmetic
`x := 10 DIV 4` and `x := 10 / 4` both bind `x` to `5/2`. -/
theorem VisitBinOp_div_uniform :
    (∀ (F : Type) [Float64 F] (G : Scope F) (l r : Node F),
      Visit G (.BinOp INTEGERDIV l r) = Visit G (.BinOp FLOATDIV l r) ∧
      Visit G (.BinOp INTEGERDIV l r) =
        andThen (Visit G l) fun G1 a => andThen (Visit G1 r) fun G2 b =>
          (G2, .ok (Float64.quo a b))) ∧
    run 60 integerDivText = .ok ((Scope.empty : Scope ℚ).set "x" (5 / 2), .ok 0) ∧
    run 60 floatDivText = .ok ((Scope.empty : Scope ℚ).set "x" (5 / 2), .ok 0) := by
  refine ⟨?_, ?_, ?_⟩
  · intro F _ G l r
    constructor <;> simp [Visit, INTEGERDIV, FLOATDIV, PLUS, MINUS, MUL]
  · have hparse : parseText (F := ℚ) 60 integerDivText = .ok (divTree INTEGERDIV) := by
      decide!
    rw [run_of_parseText hparse]
    have h : (10 : ℚ) / 4 = 5 / 2 := by norm_num
    simp only [Interpret, divTree, Visit, VisitAll, andThen, varNode, intNode, Float64.quo,
      Float64.zero, h, INTEGERDIV, PLUS, MINUS, MUL]
    simp
  · have hparse : parseText (F := ℚ) 60 floatDivText = .ok (divTree FLOATDIV) := by
      decide!
    rw [run_of_parseText hparse]
    have h : (10 : ℚ) / 4 = 5 / 2 := by norm_num
    simp only [Interpret, divTree, Visit, VisitAll, andThen, varNode, intNode, Float64.quo,
      Float64.zero, h, INTEGERDIV, FLOATDIV, PLUS, MINUS, MUL]
    simp

/-- C9: on the tokens of `id1, ..., idN : T` with `T` one of `INTEGER` and
`REAL`, `VariableDeclaration` returns one `VarDecl` node per identifier, in
source order, the i-th holding `Var(idi)` and the type node of `T`, and stops
at the token after `T`; so it returns exactly `N` nodes.  The text
`VAR a, b, c : INTEGER;` gives three `VarDecl` nodes, for `a`, `b`, `c`. -/
theorem VariableDeclaration_fans_out {F : Type} [Float64 F] (id1 : String)
    (ids : List String) (T : Int) (rest : List (Token F)) (n : Nat)
    (hT : T = INTEGER ∨ T = REAL) (hn : ids.length < n) :
    Parser.VariableDeclaration tokensNext n
        (Parser.onTokens (declarationTokens id1 ids T ++ rest)) =
      .ok ((id1 :: ids).map (varDeclNode T), Parser.onTokens rest) ∧
    ((id1 :: ids).map (varDeclNode (F := F) T)).length = ids.length + 1 ∧
    parseText 60 threeVarsText = .ok threeVarsTree := by
  refine ⟨?_, by simp, by decide!⟩
  have hloop := Parser.VariableDeclarationLoop_commaIdents ids
    [Node.Var (Token.ident id1) id1] n (Token.ofType COLON : Token F)
    (Token.ofType T :: rest) hn (by rw [Token.ofType_Type]; decide)
  have hcolon : Parser.Eat tokensNext COLON
      (Parser.onTokens ((Token.ofType COLON : Token F) :: Token.ofType T :: rest)) =
      .ok ((), Parser.onTokens (Token.ofType T :: rest)) :=
    Parser.Eat_tokens _ (Token.ofType_Type COLON)
  have htype : Parser.TypeSpec tokensNext (Parser.onTokens ((Token.ofType T : Token F) :: rest)) =
      .ok (Node.TypeN (Token.ofType T) Float64.zero, Parser.onTokens rest) := by
    rcases hT with rfl | rfl
    · simp only [Parser.TypeSpec, ParserM.bind_apply, Parser.currentToken_apply,
        Parser.onTokens_cons, Token.ofType_Type, if_true]
      rw [← Parser.onTokens_cons, Parser.Eat_tokens _ (Token.ofType_Type INTEGER)]
      rfl
    · have h : ¬ (REAL = INTEGER) := by decide
      simp only [Parser.TypeSpec, ParserM.bind_apply, Parser.currentToken_apply,
        Parser.onTokens_cons, Token.ofType_Type, h, if_false]
      rw [← Parser.onTokens_cons, Parser.Eat_tokens _ (Token.ofType_Type REAL)]
      rfl
  simp only [Parser.VariableDeclaration, declarationTokens, List.cons_append,
    List.append_assoc, List.singleton_append, ParserM.bind_apply, Parser.currentToken_apply]
  rw [Parser.Eat_tokens _ (Token.ident_Type id1)]
  simp only [NewVar, Parser.onTokens_CurrentToken, Token.ident_Svalue, List.nil_append]
  rw [hloop]
  simp only [hcolon, htype, ParserM.pure_apply, List.singleton_append, List.map_cons,
    NewVarDecl, List.map_map]
  rfl

theorem VariableDeclaration_fans_out_witness :
    Parser.VariableDeclaration tokensNext 3
        (Parser.onTokens (declarationTokens "a" ["b", "c"] INTEGER ++
          [(Token.ofType SEMI : Token ℚ)])) =
      .ok (["a", "b", "c"].map (varDeclNode INTEGER), Parser.onTokens [Token.ofType SEMI]) ∧
    (["a", "b", "c"].map (varDeclNode (F := ℚ) INTEGER)).length = 2 + 1 ∧
    parseText 60 threeVarsText = .ok threeVarsTree :=
  VariableDeclaration_fans_out "a" ["b", "c"] INTEGER [Token.ofType SEMI] 3
    (Or.inl rfl) (by decide)

/-- C10, as the code behaves: the loop of `Declarations` runs zero or more
times, so `VAR` directly followed by `BEGIN` is accepted by `Parse`, which
returns a tree with an empty declaration list.  The rule
`VAR (variable_declaration SEMI)+` in the comments of `Declarations` and of
`main.go` asks for at least one declaration. -/
theorem Parse_accepts_VAR_without_declaration :
    parseText 60 emptyVarText
      = .ok (.Program "p" (.Block [] (.Compound [.NoOp])) : Node ℚ) ∧
    parseTokens 4 emptyVarTokens
      = .ok (.Program "p" (.Block [] (.Compound [.NoOp])) : Node ℚ) := by
  constructor <;> decide!

/-- C2: `*` binds tighter than `+`.  For all factors `f1`, `f2`, `f3` (token
sequences that `Factor` reads as these trees), `Expr` on the tokens of
`f1 + f2 * f3`, followed by anything that is not a binary operator, returns
`BinOp(PLUS, f1, BinOp(MUL, f2, f3))` and stops at what follows.  Parsing and
interpreting `PROGRAM p; BEGIN x := 2 + 3 * 4 END.` leaves the table
`{x = 14}` (in exact arithmetic, which is also the binary64 result). -/
theorem Expr_mul_binds_tighter {F : Type} [Float64 F] (ts1 ts2 ts3 : List (Token F))
    (f1 f2 f3 : Node F) (h1 : ParsesAsFactor ts1 f1) (h2 : ParsesAsFactor ts2 f2)
    (h3 : ParsesAsFactor ts3 f3) :
    (∃ N, ∀ n, N ≤ n → ∀ rest, endsExpr rest →
      Parser.Expr tokensNext n (Parser.onTokens
        (ts1 ++ (Token.ofType PLUS :: (ts2 ++ (Token.ofType MUL :: (ts3 ++ rest)))))) =
      .ok (Node.BinOp PLUS f1 (Node.BinOp MUL f2 f3), Parser.onTokens rest)) ∧
    parseText 60 precedenceText = .ok precedenceTree ∧
    run 60 precedenceText = .ok ((Scope.empty : Scope ℚ).set "x" 14, .ok 0) := by
  refine ⟨?_, by decide!, ?_⟩
  · obtain ⟨N1, hN1⟩ := h1
    obtain ⟨N2, hN2⟩ := h2
    obtain ⟨N3, hN3⟩ := h3
    refine ⟨N1 + N2 + N3 + 5, fun n hn rest hrest => ?_⟩
    obtain ⟨e, rfl⟩ : ∃ e, n = e + 5 := ⟨n - 5, by omega⟩
    have hplus : ¬ ((Parser.onTokens ((Token.ofType PLUS : Token F) ::
          (ts2 ++ (Token.ofType MUL :: (ts3 ++ rest))))).CurrentToken.Type_ = MUL
        ∨ (Parser.onTokens ((Token.ofType PLUS : Token F) ::
          (ts2 ++ (Token.ofType MUL :: (ts3 ++ rest))))).CurrentToken.Type_ = INTEGERDIV
        ∨ (Parser.onTokens ((Token.ofType PLUS : Token F) ::
          (ts2 ++ (Token.ofType MUL :: (ts3 ++ rest))))).CurrentToken.Type_ = FLOATDIV) := by
      simp only [Parser.onTokens_CurrentToken, Token.ofType_Type]
      decide
    have t1 := Parser.Term_single tokensNext (e + 2) _ _ f1
      (hN1 (e + 3) (by omega) _) hplus
    have t3 :
        (Parser.Factor tokensNext (e + 1) >>= fun right =>
          Parser.TermLoop tokensNext (e + 1) (NewBinOp f2 MUL right))
          (Parser.onTokens (ts3 ++ rest)) =
        .ok (Node.BinOp MUL f2 f3, Parser.onTokens rest) := by
      rw [ParserM.bind_of_ok (hN3 (e + 1) (by omega) rest),
        Parser.TermLoop_stop tokensNext e _ _ (endsExpr_not_term hrest)]
      rfl
    have t2 : Parser.Term tokensNext (e + 3)
        (Parser.onTokens (ts2 ++ (Token.ofType MUL :: (ts3 ++ rest)))) =
        .ok (Node.BinOp MUL f2 f3, Parser.onTokens rest) := by
      simp only [Parser.Term]
      rw [ParserM.bind_of_ok (hN2 (e + 2) (by omega) _),
        Parser.TermLoop_step (e + 1) f2 (Token.ofType MUL) _ (Or.inl rfl)]
      exact t3
    simp only [Parser.Expr]
    rw [ParserM.bind_of_ok t1,
      Parser.ExprLoop_step (e + 3) f1 (Token.ofType PLUS) _ (Or.inl rfl),
      ParserM.bind_of_ok t2,
      Parser.ExprLoop_stop tokensNext (e + 2) _ _ (endsExpr_not_expr hrest)]
    rfl
  · have hparse : parseText (F := ℚ) 60 precedenceText = .ok precedenceTree := by
      decide!
    rw [run_of_parseText hparse]
    simp only [Interpret, precedenceTree, Visit, VisitAll, andThen, varNode, intNode,
      Float64.add, Float64.mul, Float64.zero, PLUS, MINUS, MUL]
    norm_num

theorem Expr_mul_binds_tighter_witness :
    (∃ N, ∀ n, N ≤ n → ∀ rest, endsExpr rest →
      Parser.Expr tokensNext n (Parser.onTokens
        ([intToken 2] ++ (Token.ofType PLUS :: ([intToken 3] ++
          (Token.ofType MUL :: ([intToken 4] ++ rest)))))) =
      .ok (Node.BinOp PLUS (intNode 2) (Node.BinOp MUL (intNode 3) (intNode 4)),
        Parser.onTokens rest)) ∧
    parseText 60 precedenceText = .ok precedenceTree ∧
    run 60 precedenceText = .ok ((Scope.empty : Scope ℚ).set "x" 14, .ok 0) :=
  Expr_mul_binds_tighter [intToken 2] [intToken 3] [intToken 4]
    (intNode 2) (intNode 3) (intNode 4)
    (ParsesAsFactor_number (intToken 2) rfl) (ParsesAsFactor_number (intToken 3) rfl)
    (ParsesAsFactor_number (intToken 4) rfl)

/-- C6: a unary sign binds tighter than a binary operator.  For all
identifiers `a` and `b`, `Expr` on the tokens of `a - - b`, followed by
anything that is not a binary operator, returns
`BinOp(MINUS, Var a, UnaryOp(MINUS, Var b))`.  In every table that binds `a`
and `b`, the assignment `c := a - - b` binds `c` to `a - (-b)`; with `a = 2`
and `b = 12` that is `14` (in exact arithmetic, which is also the binary64
result), also when the whole program is run from its text. -/
theorem Expr_unary_binds_tighter {F : Type} [Float64 F] (a b : String) :
    (∃ N, ∀ n, N ≤ n → ∀ rest, endsExpr rest →
      Parser.Expr tokensNext n (Parser.onTokens
        ((Token.ident a : Token F) :: Token.ofType MINUS :: Token.ofType MINUS ::
          Token.ident b :: rest)) =
      .ok (Node.BinOp MINUS (Node.Var (Token.ident a) a)
        (Node.UnaryOp MINUS (Node.Var (Token.ident b) b)), Parser.onTokens rest)) ∧
    (∀ (G : Scope F) (c : String) (tc : Token F) (op : Int) (va vb : F),
      G a = some va → G b = some vb →
      Visit G (.Assign (.Var tc c) op (Node.BinOp MINUS (Node.Var (Token.ident a) a)
        (Node.UnaryOp MINUS (Node.Var (Token.ident b) b)))) =
      (G.set c (Float64.sub va (Float64.neg vb)), .ok Float64.zero)) ∧
    (∀ G : Scope ℚ, G "a" = some 2 → G "b" = some 12 →
      Visit G (.Assign (varNode "c") ASSIGN unaryExprTree) = (G.set "c" 14, .ok 0)) ∧
    parseText 60 unaryText = .ok unaryTree ∧
    run 60 unaryText =
      .ok ((((Scope.empty : Scope ℚ).set "a" 2).set "b" 12).set "c" 14, .ok 0) := by
  refine ⟨?_, ?_, ?_, by decide!, ?_⟩
  · exact Parser.Expr_additive (Token.ofType MINUS) (Or.inr rfl) (ParsesAsFactor_ident a)
      (ParsesAsFactor_sign (Token.ofType MINUS) (Or.inr rfl) (ParsesAsFactor_ident b))
  · intro G c tc op va vb ha hb
    simp [Visit, andThen, ha, hb, MINUS, PLUS]
  · intro G ha hb
    simp only [unaryExprTree, varNode, Visit, andThen, ha, hb, Float64.sub, Float64.neg,
      Float64.zero, MINUS, PLUS]
    norm_num
  · have hparse : parseText (F := ℚ) 60 unaryText = .ok unaryTree := by
      decide!
    rw [run_of_parseText hparse]
    have ha : (((Scope.empty : Scope ℚ).set "a" 2).set "b" 12) "a" = some 2 := rfl
    have hb : (((Scope.empty : Scope ℚ).set "a" 2).set "b" 12) "b" = some 12 := rfl
    simp only [Interpret, unaryTree, unaryExprTree, Visit, VisitAll, andThen, varNode, intNode,
      Float64.sub, Float64.neg, Float64.zero, PLUS, MINUS, MUL, ha, hb]
    norm_num

theorem Expr_unary_binds_tighter_witness :
    Visit (((Scope.empty : Scope ℚ).set "a" 2).set "b" 12)
      (.Assign (varNode "c") ASSIGN unaryExprTree) =
      ((((Scope.empty : Scope ℚ).set "a" 2).set "b" 12).set "c" 14, .ok 0) :=
  (Expr_unary_binds_tighter (F := ℚ) "a" "b").2.2.1
    (((Scope.empty : Scope ℚ).set "a" 2).set "b" 12) rfl rfl

/-- C8: when `Parse` accepts a token sequence (none of whose tokens is an
end-of-input token), the same sequence with further tokens after it, the
first of them not an end-of-input token, is rejected with the syntax panic,
with the same or any larger fuel, and no fuel makes `Parse` return a tree for
it.  `Parse` returns a tree only with the lookahead at end of input. -/
theorem Parse_rejects_trailing_tokens {F : Type} [Float64 F] (ts : List (Token F))
    (x : Token F) (xs : List (Token F)) (n : Nat) (tree : Node F)
    (hts : ∀ t ∈ ts, t.Type_ ≠ EOF) (hx : x.Type_ ≠ EOF)
    (h : parseTokens n ts = .ok tree) :
    (∀ m, n ≤ m → parseTokens m (ts ++ x :: xs) = .error (.panic .invalidSyntax)) ∧
    (∀ m tree1, parseTokens m (ts ++ x :: xs) ≠ .ok tree1) ∧
    (∀ (m : Nat) (us : List (Token F)) (tree1 : Node F) (p1 : Parser F (List (Token F))),
      Parser.Parse tokensNext m (NewParser us) = .ok (tree1, p1) →
      p1.CurrentToken.Type_ = EOF) := by
  have first : ∀ m, n ≤ m → parseTokens m (ts ++ x :: xs) = .error (.panic .invalidSyntax) := by
    intro m hm
    have hm1 := parseTokens_fuel_mono hm h (by simp)
    obtain ⟨pf, hpf⟩ := parseTokens_eq_ok hm1
    rw [Parser.Parse_tokens] at hpf
    rcases hprog : Parser.Program tokensNext m (Parser.onTokens ts) with e | ⟨node, p1⟩
    · simp [hprog] at hpf
    · rw [hprog] at hpf
      simp only at hpf
      by_cases hp1 : p1.CurrentToken.Type_ = EOF
      · obtain ⟨hne, hext⟩ := Parser.Program_final m _ _ _ hprog
        cases ts with
        | nil => exact absurd rfl hne
        | cons t0 ts1 =>
          have hext1 := hext (fun t ht => hts t (List.mem_cons_of_mem t0 ht)) hp1 (x :: xs)
          have hstate : Parser.extend (x :: xs) (Parser.onTokens (t0 :: ts1)) =
              Parser.onTokens ((t0 :: ts1) ++ x :: xs) := rfl
          rw [hstate] at hext1
          unfold parseTokens
          rw [Parser.Parse_tokens, hext1]
          simp only [Parser.onTokens_CurrentToken, ne_eq, hx, not_false_eq_true, if_true]
          rfl
      · simp [hp1] at hpf
  refine ⟨first, ?_, ?_⟩
  · intro m tree1 hm
    have h1 := parseTokens_fuel_mono (Nat.le_max_left m n) hm (by simp)
    rw [first (max m n) (Nat.le_max_right m n)] at h1
    simp at h1
  · intro m us tree1 p1 hp
    rw [Parser.Parse_tokens] at hp
    rcases hprog : Parser.Program tokensNext m (Parser.onTokens us) with e | ⟨node, p2⟩
    · simp [hprog] at hp
    · rw [hprog] at hp
      simp only at hp
      by_cases hp2 : p2.CurrentToken.Type_ = EOF
      · simp only [hp2, ne_eq, not_true_eq_false, if_false, Except.ok.injEq,
          Prod.mk.injEq] at hp
        rw [← hp.2]
        exact hp2
      · simp [hp2] at hp

theorem Parse_rejects_trailing_tokens_witness :
    (∀ m, 4 ≤ m → parseTokens m (smallProgramTokens ++ Token.ofType DOT :: [Token.ident "x"])
      = .error (.panic .invalidSyntax)) ∧
    (∀ m tree1, parseTokens m (smallProgramTokens ++ Token.ofType DOT :: [Token.ident "x"])
      ≠ .ok tree1) ∧
    (∀ (m : Nat) (us : List (Token ℚ)) (tree1 : Node ℚ) (p1 : Parser ℚ (List (Token ℚ))),
      Parser.Parse tokensNext m (NewParser us) = .ok (tree1, p1) →
      p1.CurrentToken.Type_ = EOF) :=
  Parse_rejects_trailing_tokens smallProgramTokens (Token.ofType DOT) [Token.ident "x"] 4
    (.Program "p" (.Block [] (.Compound [.NoOp]))) (by decide) (by decide) (by decide!)

/-- C7: a program whose block contains, in its statement list or in a
compound statement nested in it, a non-empty statement directly followed by a
non-empty statement with no `;` between them is rejected by `Parse` with the
syntax panic (for all fuel from some point on), and no fuel makes `Parse`
return a tree for it.  Three texts (assignment then assignment, assignment
then compound statement, compound statement then assignment) are rejected
when they are lexed and parsed. -/
theorem Parse_rejects_missing_separator {F : Type} [Float64 F] (name : String)
    (ds : List (Token F)) (dnodes : List (Node F)) (body : List (Token F))
    (hd : ParsesAsDeclarations ds dnodes) (hb : MissingSeparator body) :
    (∃ N, ∀ n, N ≤ n →
      parseTokens n (programTokens name ds body) = .error (.panic .invalidSyntax)) ∧
    (∀ n tree, parseTokens n (programTokens name ds body) ≠ .ok tree) ∧
    parseText (F := ℚ) 60 missingSemiText = .error (.panic .invalidSyntax) ∧
    parseText (F := ℚ) 60 missingSemiCompoundText = .error (.panic .invalidSyntax) ∧
    parseText (F := ℚ) 60 missingSemiAfterCompoundText = .error (.panic .invalidSyntax) := by
  have first : ∃ N, ∀ n, N ≤ n →
      parseTokens n (programTokens name ds body) = .error (.panic .invalidSyntax) := by
    obtain ⟨Nd, hNd⟩ := hd
    obtain ⟨Nb, hNb⟩ := hb.failsToClose
    refine ⟨Nd + Nb + 2, fun n hn => ?_⟩
    obtain ⟨k, rfl⟩ : ∃ k, n = k + 2 := ⟨n - 2, by omega⟩
    have hid : (Token.ident name : Token F).Type_ = IDENT := rfl
    have hvar : Parser.Variable tokensNext
        (Parser.onTokens ((Token.ident name : Token F) :: Token.ofType SEMI ::
          (ds ++ (Token.ofType BEGIN :: body)))) =
        .ok (Node.Var (Token.ident name) name,
          Parser.onTokens (Token.ofType SEMI :: (ds ++ (Token.ofType BEGIN :: body)))) := by
      simp only [Parser.Variable]
      rw [ParserM.bind_of_ok (Parser.currentToken_apply _), Parser.onTokens_CurrentToken,
        ParserM.bind_of_ok (Parser.Eat_tokens _ hid)]
      rfl
    have hblock : Parser.Block tokensNext (k + 2)
        (Parser.onTokens (ds ++ (Token.ofType BEGIN :: body))) =
        .error (.panic .invalidSyntax) := by
      simp only [Parser.Block]
      rw [ParserM.bind_of_ok (hNd (k + 2) (by omega) body),
        ParserM.bind_of_error (Parser.CompoundStatement_fails k body (hNb k (by omega) []))]
    have hprog : Parser.Program tokensNext (k + 2)
        (Parser.onTokens (programTokens name ds body)) = .error (.panic .invalidSyntax) := by
      simp only [Parser.Program, programTokens]
      rw [ParserM.bind_of_ok (Parser.Eat_tokens _ (Token.ofType_Type PROGRAM)),
        ParserM.bind_of_ok hvar]
      simp only
      rw [ParserM.bind_of_ok (ParserM.pure_apply _ _),
        ParserM.bind_of_ok (Parser.Eat_tokens _ (Token.ofType_Type SEMI)),
        ParserM.bind_of_error hblock]
    unfold parseTokens
    rw [Parser.Parse_tokens, hprog]
    rfl
  refine ⟨first, ?_, by decide!, by decide!, by decide!⟩
  intro n tree hn
  obtain ⟨N, hN⟩ := first
  have h1 := parseTokens_fuel_mono (Nat.le_max_left n N) hn (by simp)
  rw [hN (max n N) (Nat.le_max_right n N)] at h1
  simp at h1

theorem Parse_rejects_missing_separator_witness :
    (∃ N, ∀ n, N ≤ n →
      parseTokens n (programTokens "p" [] missingSemiBody) = .error (.panic .invalidSyntax)) ∧
    (∀ n tree, parseTokens n (programTokens "p" [] missingSemiBody) ≠ .ok tree) ∧
    parseText (F := ℚ) 60 missingSemiText = .error (.panic .invalidSyntax) ∧
    parseText (F := ℚ) 60 missingSemiCompoundText = .error (.panic .invalidSyntax) ∧
    parseText (F := ℚ) 60 missingSemiAfterCompoundText = .error (.panic .invalidSyntax) :=
  Parse_rejects_missing_separator "p" [] [] missingSemiBody ParsesAsDeclarations_nil
    (MissingSeparator.later [] Node.NoOp _ ParsesBeforeSemi_nil
      (MissingSeparator.inner _
        (MissingSeparator.here (assignTokens "x" 1) (assignTokens "y" 2)
          [Token.ofType END, Token.ofType END, Token.ofType DOT] _ _
          (ParsesAsStatement_assign "x" (Token.ofType ASSIGN) rfl
            (ParsesAsFactor_number (intToken 1) rfl))
          (by decide)
          (ParsesAsStatement_assign "y" (Token.ofType ASSIGN) rfl
            (ParsesAsFactor_number (intToken 2) rfl))
          (by decide))))

/-- C15: end of input is absorbing.  From every lexer state, when a call of
`GetNextToken` returns a token of type `EOF`, that token is the end-of-input
token, and every later call (with fuel to take a step) returns the
end-of-input token again and leaves the lexer, `Pos` and `CurrentChar`
included, as it was. -/
theorem GetNextToken_EOF_absorbing {F : Type} [Float64 F] (n : Nat) (l : Lexer)
    (tok : Token F) (l1 : Lexer) (h : Lexer.GetNextToken n l = .ok (tok, l1))
    (ht : tok.Type_ = EOF) :
    tok = Token.ofType EOF ∧
    ∀ m, Lexer.GetNextToken (F := F) (m + 1) l1 = .ok (Token.ofType EOF, l1) := by
  obtain ⟨h1, h2⟩ := Lexer.GetNextToken_EOF n l tok l1 h ht
  exact ⟨h1, fun m => Lexer.GetNextToken_nul m l1 h2⟩

theorem GetNextToken_EOF_absorbing_witness :
    (Token.ofType EOF : Token ℚ) = Token.ofType EOF ∧
    ∀ m, Lexer.GetNextToken (F := ℚ) (m + 1) spaceLexerAtEnd =
      .ok (Token.ofType EOF, spaceLexerAtEnd) :=
  GetNextToken_EOF_absorbing 3 spaceLexer (Token.ofType EOF) spaceLexerAtEnd (by decide!) rfl

/-- C14, at the byte `0`: the byte `0` is none of the listed characters, yet
`GetNextToken` at it returns the end-of-input token and no lexing panic; this
is so for the text made of that byte alone and for a text in which unread
bytes follow it. -/
theorem GetNextToken_at_zero_byte_returns_EOF :
    isSpace NUL = false ∧ isAlpha NUL = false ∧ isDigit NUL = false ∧
    NUL ∉ ['{', ';', ':', ',', '+', '-', '*', '/', '(', ')', '.'] ∧
    NewLexer [NUL] = .ok nulLexer ∧
    Lexer.GetNextToken (F := ℚ) 1 nulLexer = .ok (Token.ofType EOF, nulLexer) ∧
    Lexer.GetNextToken (F := ℚ) 1 nulInsideLexer = .ok (Token.ofType EOF, nulInsideLexer) := by
  refine ⟨by decide, by decide, by decide, by decide, by decide!, by decide!, by decide!⟩

/-- C14, amended: for every byte `c` other than `0` that is not a space, tab,
newline, carriage return, letter, digit, `{`, or one of `;` `:` `,` `+` `-`
`*` `/` `(` `)` `.`, `GetNextToken` on a lexer whose current byte is `c`
panics with the lexing error, and returns a token for no fuel.  At the byte
`0`, the end-of-input sentinel, it returns the end-of-input token. -/
theorem GetNextToken_rejects_other_bytes {F : Type} [Float64 F] (l : Lexer)
    (h0 : l.CurrentChar ≠ NUL) (h1 : isSpace l.CurrentChar = false)
    (h2 : isAlpha l.CurrentChar = false) (h3 : isDigit l.CurrentChar = false)
    (h4 : l.CurrentChar ∉ ['{', ';', ':', ',', '+', '-', '*', '/', '(', ')', '.']) :
    (∀ n, Lexer.GetNextToken (F := F) (n + 1) l = .error (.panic .errorLexingInput)) ∧
    (∀ n (tok : Token F) l1, Lexer.GetNextToken n l ≠ .ok (tok, l1)) ∧
    (∀ n (l0 : Lexer), l0.CurrentChar = NUL →
      Lexer.GetNextToken (F := F) (n + 1) l0 = .ok (Token.ofType EOF, l0)) := by
  have hb : l.CurrentChar ≠ '{' := fun hc => h4 (by rw [hc]; simp)
  have hs : Lexer.symbol l.CurrentChar = none := by
    cases hsym : Lexer.symbol l.CurrentChar with
    | none => rfl
    | some T =>
      exfalso
      apply h4
      rcases Lexer.symbol_eq_some hsym with g | g | g | g | g | g | g | g | g | g <;>
        (rw [g.1]; simp)
  have first : ∀ n, Lexer.GetNextToken (F := F) (n + 1) l = .error (.panic .errorLexingInput) :=
    fun n => Lexer.GetNextToken_other n l h0 h1 h2 h3 hb hs
  refine ⟨first, ?_, fun n l0 hl0 => Lexer.GetNextToken_nul n l0 hl0⟩
  intro n tok l1 hn
  cases n with
  | zero => simp [Lexer.GetNextToken] at hn
  | succ m =>
    rw [first m] at hn
    simp at hn

theorem GetNextToken_rejects_other_bytes_witness :
    (∀ n, Lexer.GetNextToken (F := ℚ) (n + 1) dollarLexer
      = .error (.panic .errorLexingInput)) ∧
    (∀ n (tok : Token ℚ) l1, Lexer.GetNextToken n dollarLexer ≠ .ok (tok, l1)) ∧
    (∀ n (l0 : Lexer), l0.CurrentChar = NUL →
      Lexer.GetNextToken (F := ℚ) (n + 1) l0 = .ok (Token.ofType EOF, l0)) :=
  GetNextToken_rejects_other_bytes dollarLexer (by decide) (by decide) (by decide)
    (by decide) (by decide)

/-- C16, as the code behaves: `NewLexer` reads `l.Text[0]` without a bound
check, so on the empty string it panics with an index out of range and makes
no lexer; on every non-empty string it returns the lexer at position `0`. -/
theorem NewLexer_empty_input_panics :
    NewLexer [] = .error (.panic .indexOutOfRange) ∧
    ∀ (c : Char) (cs : List Char),
      NewLexer (c :: cs) = .ok { Text := c :: cs, Pos := 0, CurrentChar := c } := by
  exact ⟨rfl, fun _ _ => rfl⟩

/-- C18, where it fails: reading an unbound variable and meeting an operator
tag outside the grammar panic with the same value, `"unknown node"`. -/
theorem undefined_variable_and_unknown_operator_same_panic :
    (Visit (Scope.empty : Scope ℚ) (varNode "x")).2 = .error .unknownNode ∧
    (Visit (Scope.empty : Scope ℚ) (.BinOp 0 (intNode 1) (intNode 2))).2
      = .error .unknownNode ∧
    ¬ ((Visit (Scope.empty : Scope ℚ) (varNode "x")).2 ≠
      (Visit (Scope.empty : Scope ℚ) (.BinOp 0 (intNode 1) (intNode 2))).2) := by
  refine ⟨rfl, rfl, fun h => h rfl⟩

/-- C18, amended: a lex error, a syntax error and an interpreter error are
three pairwise different panic values (`"error lexing input"`,
`"invalid syntax"`, `"unknown node"`); reading an unbound variable and an
operator tag outside the grammar (in `VisitBinOp` or in `VisitUnaryOp`) both
go through `Interpreter.Error` and panic with the same value
`"unknown node"`. -/
theorem failure_kinds_three_panic_values {F : Type} [Float64 F] (G : Scope F) :
    (∀ α : Type, (Lexer.Error : Except Fail α) = .error (.panic .errorLexingInput)) ∧
    (∀ (σ α : Type) (p : Parser F σ),
      (Parser.Error : ParserM F σ α) p = .error (.panic .invalidSyntax)) ∧
    (∀ (tok : Token F) (x : String), G x = none →
      Visit G (.Var tok x) = (G, .error .unknownNode)) ∧
    (∀ (op : Int) (l r : Node F), isOperator op = false →
      Visit G (.BinOp op l r) = (G, .error .unknownNode)) ∧
    (∀ (op : Int) (e : Node F), op ≠ PLUS → op ≠ MINUS →
      Visit G (.UnaryOp op e) = (G, .error .unknownNode)) ∧
    Panic.errorLexingInput ≠ Panic.invalidSyntax ∧
    Panic.errorLexingInput ≠ Panic.unknownNode ∧
    Panic.invalidSyntax ≠ Panic.unknownNode ∧
    Panic.errorLexingInput.message = some "error lexing input" ∧
    Panic.invalidSyntax.message = some "invalid syntax" ∧
    Panic.unknownNode.message = some "unknown node" := by
  refine ⟨fun _ => rfl, fun _ _ _ => rfl, ?_, ?_, ?_, by decide, by decide, by decide,
    rfl, rfl, rfl⟩
  · intro tok x hx
    simp only [Visit, hx]
  · intro op l r hop
    simp only [isOperator, decide_eq_false_iff_not, not_or] at hop
    obtain ⟨h1, h2, h3, h4, h5⟩ := hop
    simp only [Visit, h1, h2, h3, h4, h5, if_false]
  · intro op e h1 h2
    simp only [Visit, h1, h2, if_false]

theorem failure_kinds_three_panic_values_witness :
    Visit (Scope.empty : Scope ℚ) (.Var (Token.ident "x") "x")
      = (Scope.empty, .error .unknownNode) ∧
    Visit (Scope.empty : Scope ℚ) (.BinOp 0 (intNode 1) (intNode 2))
      = (Scope.empty, .error .unknownNode) ∧
    Visit (Scope.empty : Scope ℚ) (.UnaryOp MUL (intNode 1))
      = (Scope.empty, .error .unknownNode) :=
  ⟨(failure_kinds_three_panic_values (Scope.empty : Scope ℚ)).2.2.1 (Token.ident "x") "x" rfl,
    (failure_kinds_three_panic_values (Scope.empty : Scope ℚ)).2.2.2.1 0 (intNode 1)
      (intNode 2) (by decide),
    (failure_kinds_three_panic_values (Scope.empty : Scope ℚ)).2.2.2.2.1 MUL (intNode 1)
      (by decide) (by decide)⟩

/-- C19: only `Assign` changes the table.  A tree that contains no `Assign`
node leaves the table as it found it, whether the walk returns or panics.
In particular every `VarDecl` (whatever its children), every `TypeN`, `NoOp`,
every expression built from `BinOp`, `UnaryOp`, `Num` and `Var`, and every
list of declarations do. -/
theorem Visit_without_Assign_keeps_table {F : Type} [Float64 F] (n : Node F) (G : Scope F)
    (h : n.hasAssign = false) :
    (Visit G n).1 = G ∧
    (∀ v t : Node F, Visit G (.VarDecl v t) = (G, .ok Float64.zero)) ∧
    (∀ (tok : Token F) (v : F), Visit G (.TypeN tok v) = (G, .ok Float64.zero)) ∧
    Visit G (.NoOp : Node F) = (G, .ok Float64.zero) ∧
    (∀ e : Node F, e.isExpr = true → (Visit G e).1 = G) ∧
    (∀ ds : List (Node F), Node.hasAssignAny ds = false → (VisitAll G ds).1 = G) ∧
    (∀ ds : List (Node F × Node F),
      VisitAll G (ds.map fun d => Node.VarDecl d.1 d.2) = (G, .ok ())) := by
  refine ⟨Visit_noAssign_table n G h, fun _ _ => rfl, fun _ _ => rfl, rfl,
    fun e he => Visit_isExpr_table e G he, fun ds hds => VisitAll_noAssign_table ds G hds, ?_⟩
  intro ds
  induction ds with
  | nil => rfl
  | cons d ds ih => simp only [List.map, VisitAll, Visit, andThen, ih]

theorem Visit_without_Assign_keeps_table_witness :
    readOnlyTree.hasAssign = false ∧
    (Visit keysTable readOnlyTree).2 = .error .unknownNode ∧
    (Visit keysTable readOnlyTree).1 = keysTable :=
  ⟨by decide, rfl, (Visit_without_Assign_keeps_table readOnlyTree keysTable (by decide)).1⟩

/-- C20: the table is never pruned.  For every tree `n` (and every list of
trees, so also at every point between two children of a node), every table
`G` and every name bound in `G`, the name is still bound in the table left by
the walk of `n` from `G`, whether the walk returns or stops on a panic. -/
theorem Visit_never_prunes {F : Type} [Float64 F] (n : Node F) (G : Scope F) (k : String)
    (h : (G k).isSome = true) :
    ((Visit G n).1 k).isSome = true ∧
    ∀ ns : List (Node F), ((VisitAll G ns).1 k).isSome = true :=
  ⟨Visit_keysLe n G k h, fun ns => VisitAll_keysLe ns G k h⟩

theorem Visit_never_prunes_witness :
    (Visit keysTable failingTree).2 = .error .unknownNode ∧
    (keysTable "a").isSome = true ∧
    ((Visit keysTable failingTree).1 "a").isSome = true ∧
    ∀ ns : List (Node ℚ), ((VisitAll keysTable ns).1 "a").isSome = true :=
  ⟨rfl, rfl, Visit_never_prunes failingTree keysTable "a" rfl⟩

/-- C12, as the code behaves: at a `{` that no `}` follows, `GetNextToken`
returns no token, whatever the fuel: the loop of `SkipComment` tests only for
`}` and runs past the end of the input.  On the text `{ab` the call runs out
of fuel. -/
theorem GetNextToken_unterminated_comment_never_returns {F : Type} [Float64 F] (l : Lexer)
    (hc : l.CurrentChar = '{') (h : l.NoCloseAhead) :
    (∀ n (tok : Token F) l1, Lexer.GetNextToken n l ≠ .ok (tok, l1)) ∧
    NewLexer openCommentText = .ok openCommentLexer ∧
    Lexer.GetNextToken (F := ℚ) 1000 openCommentLexer = .error .outOfFuel := by
  refine ⟨?_, rfl, by decide!⟩
  intro n tok l1 hn
  cases n with
  | zero => simp [Lexer.GetNextToken] at hn
  | succ m =>
    rw [Lexer.GetNextToken_comment m l hc] at hn
    simp only [Except.bind_eq_ok_iff] at hn
    obtain ⟨l2, ha, l3, hs, _⟩ := hn
    obtain ⟨h2, hc2⟩ := Lexer.Advance_noCloseAhead l l2 h ha
    simp only [Lexer.SkipComment, Except.bind_eq_ok_iff] at hs
    obtain ⟨l4, hloop, _⟩ := hs
    exact Lexer.SkipCommentLoop_never_returns m l2 l4 h2 hc2 hloop

theorem GetNextToken_unterminated_comment_never_returns_witness :
    (∀ n (tok : Token ℚ) l1, Lexer.GetNextToken n openCommentLexer ≠ .ok (tok, l1)) ∧
    NewLexer openCommentText = .ok openCommentLexer ∧
    Lexer.GetNextToken (F := ℚ) 1000 openCommentLexer = .error .outOfFuel :=
  GetNextToken_unterminated_comment_never_returns openCommentLexer rfl
    ⟨by decide, by decide, fun i hi => by
      rcases i with _ | _ | _ | i
      · simp [openCommentLexer] at hi
      · decide
      · decide
      · simp [openCommentLexer, openCommentText]⟩

/-- C13: from a lexer positioned at a letter, `ID` reads the maximal run `w`
of letters and digits, stops at the first byte that is neither, and returns
the keyword token of `w` when `w` is one of the seven reserved words and the
`IDENT` token with `Svalue` `w` otherwise; it returns this for every fuel
larger than the length of `w` and nothing else for any fuel.  The words
`begin` and `BEGINx` are not reserved, so they are read as `IDENT` tokens. -/
theorem ID_keyword_or_IDENT {F : Type} [Float64 F] (l : Lexer) (pre rest : List Char) (c : Char)
    (hat : l.At pre (c :: rest)) (hc : isAlpha c = true) :
    ∃ (w : List Char) (tok : Token F) (l1 : Lexer),
      w = (c :: rest).takeWhile isAlphaNumeric ∧ w.head? = some c ∧
      (∀ x ∈ w, isAlphaNumeric x = true) ∧
      l1.At (pre ++ w) ((c :: rest).dropWhile isAlphaNumeric) ∧
      isAlphaNumeric l1.CurrentChar = false ∧
      (∀ n, w.length < n → Lexer.ID n l = .ok (tok, l1)) ∧
      (∀ n r, Lexer.ID n l = .ok r → r = (tok, l1)) ∧
      (String.mk w = "PROGRAM" → tok = Token.ofType PROGRAM) ∧
      (String.mk w = "VAR" → tok = Token.ofType VAR) ∧
      (String.mk w = "DIV" → tok = Token.ofType INTEGERDIV) ∧
      (String.mk w = "INTEGER" → tok = Token.ofType INTEGER) ∧
      (String.mk w = "REAL" → tok = Token.ofType REAL) ∧
      (String.mk w = "BEGIN" → tok = Token.ofType BEGIN) ∧
      (String.mk w = "END" → tok = Token.ofType END) ∧
      (String.mk w ∉ keywords →
        tok = Token.ident (String.mk w) ∧ tok.Type_ = IDENT ∧ tok.Svalue = String.mk w) ∧
      "begin" ∉ keywords ∧ "BEGINx" ∉ keywords ∧
      (NewLexer "begin".toList >>= Lexer.ID (F := ℚ) 6).map Prod.fst =
        .ok (Token.ident "begin") ∧
      (NewLexer "BEGINx".toList >>= Lexer.ID (F := ℚ) 7).map Prod.fst =
        .ok (Token.ident "BEGINx") ∧
      (NewLexer "BEGIN".toList >>= Lexer.ID (F := ℚ) 6).map Prod.fst =
        .ok (Token.ofType BEGIN) := by
  have hres : ∀ n, ((c :: rest).takeWhile isAlphaNumeric).length < n → ∃ l1,
      Lexer.ID n l = .ok (((ReservedWords (String.mk ((c :: rest).takeWhile isAlphaNumeric))).getD
        (Token.ident (String.mk ((c :: rest).takeWhile isAlphaNumeric))) : Token F), l1) ∧
      l1.At (pre ++ (c :: rest).takeWhile isAlphaNumeric)
        ((c :: rest).dropWhile isAlphaNumeric) :=
    fun n hn => Lexer.ID_at (c :: rest) pre l n hat hn
  obtain ⟨l1, h1, hat1⟩ := hres _ (Nat.lt_succ_self _)
  have hall : ∀ n, ((c :: rest).takeWhile isAlphaNumeric).length < n →
      Lexer.ID n l = .ok (((ReservedWords (String.mk ((c :: rest).takeWhile
        isAlphaNumeric))).getD (Token.ident (String.mk ((c :: rest).takeWhile
        isAlphaNumeric))) : Token F), l1) := by
    intro n hn
    have hm := MoreFuel_mono (fun k => Lexer.ID_fuel_succ (F := F) k l) (Nat.succ_le_of_lt hn)
    rw [hm (by rw [h1]; simp), h1]
  refine ⟨_, _, l1, rfl, ?_, fun x hx => (List.mem_takeWhile_imp hx), hat1, ?_, hall, ?_,
    ?_, ?_, ?_, ?_, ?_, ?_, ?_, ?_, by decide, by decide, by decide!, by decide!, by decide!⟩
  · rw [List.takeWhile_cons_of_pos (isAlphaNumeric_of_isAlpha hc)]
    rfl
  · rw [hat1.2.2.1]
    exact headD_dropWhile isAlphaNumeric isAlphaNumeric_NUL _
  · intro n r hr
    have hm := MoreFuel_mono (fun k => Lexer.ID_fuel_succ (F := F) k l)
      (Nat.le_max_left n (((c :: rest).takeWhile isAlphaNumeric).length + 1))
    have h2 := hall (max n (((c :: rest).takeWhile isAlphaNumeric).length + 1))
      (Nat.lt_of_lt_of_le (Nat.lt_succ_self _) (Nat.le_max_right _ _))
    rw [hm (by rw [hr]; simp), hr] at h2
    exact Except.ok.inj h2
  · intro h
    rw [h]
    rfl
  · intro h
    rw [h]
    rfl
  · intro h
    rw [h]
    rfl
  · intro h
    rw [h]
    rfl
  · intro h
    rw [h]
    rfl
  · intro h
    rw [h]
    rfl
  · intro h
    rw [h]
    rfl
  · intro h
    rw [ReservedWords_of_not_mem _ h]
    exact ⟨rfl, rfl, rfl⟩

theorem ID_keyword_or_IDENT_witness :
    wordLexer.At [] ('B' :: "EGINx := 1".toList) ∧ isAlpha 'B' = true ∧
    ∃ (w : List Char) (tok : Token ℚ) (l1 : Lexer),
      w = ('B' :: "EGINx := 1".toList).takeWhile isAlphaNumeric ∧ w.head? = some 'B' ∧
      (∀ x ∈ w, isAlphaNumeric x = true) ∧
      l1.At ([] ++ w) (('B' :: "EGINx := 1".toList).dropWhile isAlphaNumeric) ∧
      isAlphaNumeric l1.CurrentChar = false ∧
      (∀ n, w.length < n → Lexer.ID n wordLexer = .ok (tok, l1)) ∧
      (∀ n r, Lexer.ID n wordLexer = .ok r → r = (tok, l1)) ∧
      (String.mk w = "PROGRAM" → tok = Token.ofType PROGRAM) ∧
      (String.mk w = "VAR" → tok = Token.ofType VAR) ∧
      (String.mk w = "DIV" → tok = Token.ofType INTEGERDIV) ∧
      (String.mk w = "INTEGER" → tok = Token.ofType INTEGER) ∧
      (String.mk w = "REAL" → tok = Token.ofType REAL) ∧
      (String.mk w = "BEGIN" → tok = Token.ofType BEGIN) ∧
      (String.mk w = "END" → tok = Token.ofType END) ∧
      (String.mk w ∉ keywords →
        tok = Token.ident (String.mk w) ∧ tok.Type_ = IDENT ∧ tok.Svalue = String.mk w) ∧
      "begin" ∉ keywords ∧ "BEGINx" ∉ keywords ∧
      (NewLexer "begin".toList >>= Lexer.ID (F := ℚ) 6).map Prod.fst =
        .ok (Token.ident "begin") ∧
      (NewLexer "BEGINx".toList >>= Lexer.ID (F := ℚ) 7).map Prod.fst =
        .ok (Token.ident "BEGINx") ∧
      (NewLexer "BEGIN".toList >>= Lexer.ID (F := ℚ) 6).map Prod.fst =
        .ok (Token.ofType BEGIN) :=
  ⟨⟨rfl, rfl, rfl, by decide⟩, by decide,
    ID_keyword_or_IDENT wordLexer [] "EGINx := 1".toList 'B' ⟨rfl, rfl, rfl, by decide⟩
      (by decide)⟩

/-- C17: a tree returned by a successful `Parse`, from any token source, is
well tagged: each `BinOp` carries one of the five binary operators, each
`UnaryOp` carries `PLUS` or `MINUS`, and the target of each `Assign` is a
`Var`.  Each of the eleven node tags is a key of `VisitMap`.  So `Visit` on
such a tree, from any table, never panics on a type assertion, and when it
panics it does so with `unknown node` on a table that does not bind one of
the names the tree reads. -/
theorem Parse_tree_fails_only_on_unbound_read {F σ : Type} [Float64 F]
    (next : σ → Except Fail (Token F × σ)) (n : Nat) (p p1 : Parser F σ) (tree : Node F)
    (h : Parser.Parse next n p = .ok (tree, p1)) :
    tree.wellTagged = true ∧
    (∀ m : Node F, m.Type_ ∈ VisitMapKeys) ∧
    (∀ G : Scope F, (Visit G tree).2 ≠ .error .typeAssertion) ∧
    (∀ (G : Scope F) (e : Panic), (Visit G tree).2 = .error e →
      e = .unknownNode ∧ ∃ x ∈ tree.reads, (Visit G tree).1 x = none) ∧
    (∀ G : Scope F, (∀ x ∈ tree.reads, (G x).isSome = true) →
      ∃ v, (Visit G tree).2 = .ok v) := by
  have hw : tree.wellTagged = true := Parser.Parse_wellTagged next n p tree p1 h
  refine ⟨hw, ?_, ?_, fun G => Visit_wellTagged tree G hw, ?_⟩
  · intro m
    cases m <;> simp [Node.Type_, VisitMapKeys]
  · intro G hG
    have := (Visit_wellTagged tree G hw _ hG).1
    simp at this
  · intro G hG
    cases hv : (Visit G tree).2 with
    | ok v => exact ⟨v, rfl⟩
    | error e =>
      obtain ⟨_, x, hx, hn⟩ := Visit_wellTagged tree G hw e hv
      have hsome := Visit_keysLe tree G x (hG x hx)
      rw [hn] at hsome
      simp at hsome

theorem Parse_tree_fails_only_on_unbound_read_witness :
    Parser.Parse tokensNext 8 (NewParser readTokens) =
      .ok (readTree, { CurrentToken := Token.ofType EOF, lexer := [] }) ∧
    readTree.wellTagged = true ∧
    (∀ m : Node ℚ, m.Type_ ∈ VisitMapKeys) ∧
    (∀ G : Scope ℚ, (Visit G readTree).2 ≠ .error .typeAssertion) ∧
    (∀ (G : Scope ℚ) (e : Panic), (Visit G readTree).2 = .error e →
      e = .unknownNode ∧ ∃ x ∈ readTree.reads, (Visit G readTree).1 x = none) ∧
    (∀ G : Scope ℚ, (∀ x ∈ readTree.reads, (G x).isSome = true) →
      ∃ v, (Visit G readTree).2 = .ok v) :=
  ⟨by decide!, Parse_tree_fails_only_on_unbound_read tokensNext 8 (NewParser readTokens)
    { CurrentToken := Token.ofType EOF, lexer := [] } readTree (by decide!)⟩

/-- C11: comments have no effect.  Let the text be `p`, an opening brace, `c`,
a closing brace and `s`, with no opening brace in `p` and no closing brace in
`c` (a Go string, shorter than `2 ^ 63`), and let the other text be `p`, one
blank and `s`.  `NewLexer` succeeds on both.  Every
settled result (a value or a panic of the program, not the end of the model's
fuel in a comment that is never closed) of the first `k` calls of
`GetNextToken` on one text is the result of the first `k` calls on the other
text, for all fuel from the length of that text on: the token sequences are
equal, whatever `c` contains.  Likewise every settled result of parsing one
text (the tree or the panic) is the result of parsing the other, and so is
every settled result of running it (the final table and the outcome of the
walk).  On the example text the tree and the table are computed. -/
theorem comment_has_no_effect {F : Type} [Float64 F] (p c s : List Char) (hp : '{' ∉ p)
    (hc : '}' ∉ c) (hlen : (p ++ '{' :: (c ++ '}' :: s)).length < 2 ^ 63) :
    (∃ l1 l2 : Lexer,
      NewLexer (p ++ '{' :: (c ++ '}' :: s)) = .ok l1 ∧ NewLexer (p ++ ' ' :: s) = .ok l2 ∧
      (∀ n k m, Settled (Lexer.firstTokens (F := F) n k l1) →
        (p ++ ' ' :: s).length + 2 ≤ m →
        Lexer.firstTokens (F := F) m k l2 = Lexer.firstTokens n k l1) ∧
      (∀ n k m, Settled (Lexer.firstTokens (F := F) n k l2) →
        (p ++ '{' :: (c ++ '}' :: s)).length + 2 ≤ m →
        Lexer.firstTokens (F := F) m k l1 = Lexer.firstTokens n k l2)) ∧
    (∀ n m, Settled (parseText (F := F) n (p ++ '{' :: (c ++ '}' :: s))) → n ≤ m →
      (p ++ ' ' :: s).length + 2 ≤ m →
      parseText (F := F) m (p ++ ' ' :: s) = parseText n (p ++ '{' :: (c ++ '}' :: s))) ∧
    (∀ n m, Settled (parseText (F := F) n (p ++ ' ' :: s)) → n ≤ m →
      (p ++ '{' :: (c ++ '}' :: s)).length + 2 ≤ m →
      parseText (F := F) m (p ++ '{' :: (c ++ '}' :: s)) = parseText n (p ++ ' ' :: s)) ∧
    (∀ n m, Settled (run (F := F) n (p ++ '{' :: (c ++ '}' :: s))) → n ≤ m →
      (p ++ ' ' :: s).length + 2 ≤ m →
      run (F := F) m (p ++ ' ' :: s) = run n (p ++ '{' :: (c ++ '}' :: s))) ∧
    (∀ n m, Settled (run (F := F) n (p ++ ' ' :: s)) → n ≤ m →
      (p ++ '{' :: (c ++ '}' :: s)).length + 2 ≤ m →
      run (F := F) m (p ++ '{' :: (c ++ '}' :: s)) = run n (p ++ ' ' :: s)) ∧
    parseText (F := ℚ) 60 commentText = .ok commentTree ∧
    parseText (F := ℚ) 60 blankText = .ok commentTree ∧
    ((Interpret commentTree).1 "x", (Interpret commentTree).1 "y") = (some 1, some 2) := by
  have hlen2 : (p ++ ' ' :: s).length < 2 ^ 63 := by
    simp only [List.length_append, List.length_cons] at hlen ⊢
    omega
  obtain ⟨l1, hN1, hat1⟩ := NewLexer_at_start (p ++ '{' :: (c ++ '}' :: s)) (by simp) hlen
  obtain ⟨l2, hN2, hat2⟩ := NewLexer_at_start (p ++ ' ' :: s) (by simp) hlen2
  have hR : LexSim F (CommentRel c s) := LexSim_comment c s hc
  have hR2 : LexSim F (fun a b => CommentRel c s b a) := LexSim_flip hR
  have hrel : LexRel (CommentRel c s) (p ++ ' ' :: s).length l1 l2 :=
    ⟨[], _, [], _, hat1, hat2, Or.inr ⟨p, hp, rfl, rfl⟩, Nat.le_refl _⟩
  have hrel2 : LexRel (fun a b => CommentRel c s b a) (p ++ '{' :: (c ++ '}' :: s)).length
      l2 l1 :=
    ⟨[], _, [], _, hat2, hat1, Or.inr ⟨p, hp, rfl, rfl⟩, Nat.le_refl _⟩
  have hp1 : ∀ n m, Settled (parseText (F := F) n (p ++ '{' :: (c ++ '}' :: s))) → n ≤ m →
      (p ++ ' ' :: s).length + 2 ≤ m →
      parseText (F := F) m (p ++ ' ' :: s) = parseText n (p ++ '{' :: (c ++ '}' :: s)) :=
    fun n m hset hn hm => parseText_transfer hR hN1 hN2 hrel n m hset hn hm
  have hp2 : ∀ n m, Settled (parseText (F := F) n (p ++ ' ' :: s)) → n ≤ m →
      (p ++ '{' :: (c ++ '}' :: s)).length + 2 ≤ m →
      parseText (F := F) m (p ++ '{' :: (c ++ '}' :: s)) = parseText n (p ++ ' ' :: s) :=
    fun n m hset hn hm => parseText_transfer hR2 hN2 hN1 hrel2 n m hset hn hm
  refine ⟨⟨l1, l2, hN1, hN2, ?_, ?_⟩, hp1, hp2, ?_, ?_, by decide!, by decide!, ?_⟩
  · exact fun n k m hset hm => firstTokens_transfer hR hrel n k m hset hm
  · exact fun n k m hset hm => firstTokens_transfer hR2 hrel2 n k m hset hm
  · exact fun n m hset hn hm => run_congr (hp1 n m ((Settled_run n _).1 hset) hn hm)
  · exact fun n m hset hn hm => run_congr (hp2 n m ((Settled_run n _).1 hset) hn hm)
  · simp only [Interpret, commentTree, Visit, VisitAll, andThen, varNode, intNode, Scope.set,
      Scope.empty]
    norm_num [PLUS, ASSIGN, Float64.add]
    exact ⟨by simp [Scope.set], by simp [Scope.set]⟩

theorem comment_has_no_effect_witness :
    '{' ∉ commentPrefix ∧ '}' ∉ commentContent ∧ commentText.length < 2 ^ 63 ∧
    Settled (parseText (F := ℚ) 60 commentText) ∧
    parseText (F := ℚ) 100 blankText = parseText 60 commentText ∧
    run (F := ℚ) 100 blankText = run 60 commentText :=
  have hparse : parseText (F := ℚ) 60 commentText = .ok commentTree := by decide!
  have hset : Settled (parseText (F := ℚ) 60 commentText) := by
    rw [hparse]
    exact ⟨by simp, by simp⟩
  ⟨by decide, by decide, by decide, hset,
    (comment_has_no_effect (F := ℚ) commentPrefix commentContent commentSuffix (by decide)
      (by decide) (by decide)).2.1 60 100 hset (by decide) (by decide),
    (comment_has_no_effect (F := ℚ) commentPrefix commentContent commentSuffix (by decide)
      (by decide) (by decide)).2.2.2.1 60 100 ((Settled_run 60 commentText).2 hset) (by decide)
      (by decide)⟩

/-- C22: binary operators of equal precedence associate to the left.  For all
factors `f1`, `f2`, `f3` (token sequences that `Factor` reads as these trees)
and operator tokens `o1`, `o2`, both among `+`, `-` or both among `*`, `DIV`,
`/`, `Expr` on the tokens of `f1 o1 f2 o2 f3`, followed by anything that is
not a binary operator, returns `BinOp(o2, BinOp(o1, f1, f2), f3)` and stops at
what follows.  Parsing and interpreting
`PROGRAM p; BEGIN x := 10 - 4 - 3 END.` leaves the table `{x = 3}` (in exact
arithmetic, which is also the binary64 result); the other grouping,
`10 - (4 - 3)`, evaluates to `9`. -/
theorem Expr_equal_precedence_associates_left {F : Type} [Float64 F]
    (ts1 ts2 ts3 : List (Token F)) (f1 f2 f3 : Node F) (o1 o2 : Token F)
    (h1 : ParsesAsFactor ts1 f1) (h2 : ParsesAsFactor ts2 f2) (h3 : ParsesAsFactor ts3 f3)
    (ho : ((o1.Type_ = PLUS ∨ o1.Type_ = MINUS) ∧ (o2.Type_ = PLUS ∨ o2.Type_ = MINUS)) ∨
      ((o1.Type_ = MUL ∨ o1.Type_ = INTEGERDIV ∨ o1.Type_ = FLOATDIV) ∧
        (o2.Type_ = MUL ∨ o2.Type_ = INTEGERDIV ∨ o2.Type_ = FLOATDIV))) :
    (∃ N, ∀ n, N ≤ n → ∀ rest, endsExpr rest →
      Parser.Expr tokensNext n
        (Parser.onTokens (ts1 ++ (o1 :: (ts2 ++ (o2 :: (ts3 ++ rest)))))) =
      .ok (Node.BinOp o2.Type_ (Node.BinOp o1.Type_ f1 f2) f3, Parser.onTokens rest)) ∧
    parseText 60 leftAssocText = .ok leftAssocTree ∧
    run 60 leftAssocText = .ok ((Scope.empty : Scope ℚ).set "x" 3, .ok 0) ∧
    Visit (Scope.empty : Scope ℚ)
      (.BinOp MINUS (intNode 10) (.BinOp MINUS (intNode 4) (intNode 3))) =
      (Scope.empty, .ok 9) := by
  refine ⟨?_, by decide!, ?_, ?_⟩
  · rcases ho with ⟨ha1, ha2⟩ | ⟨hm1, hm2⟩
    · exact Parser.Expr_additive_left o1 o2 ha1 ha2 h1 h2 h3
    · exact Parser.Expr_multiplicative_left o1 o2 hm1 hm2 h1 h2 h3
  · have hparse : parseText (F := ℚ) 60 leftAssocText = .ok leftAssocTree := by
      decide!
    rw [run_of_parseText hparse]
    simp only [Interpret, leftAssocTree, Visit, VisitAll, andThen, varNode, intNode,
      Float64.sub, Float64.zero, PLUS, MINUS, MUL]
    norm_num
  · simp only [Visit, andThen, intNode, Float64.sub, PLUS, MINUS, MUL]
    norm_num

theorem Expr_equal_precedence_associates_left_witness :
    (∃ N, ∀ n, N ≤ n → ∀ rest, endsExpr rest →
      Parser.Expr tokensNext n
        (Parser.onTokens ([intToken 10] ++ (Token.ofType MINUS :: ([intToken 4] ++
          (Token.ofType MINUS :: ([intToken 3] ++ rest)))))) =
      .ok (Node.BinOp (Token.ofType MINUS : Token ℚ).Type_
        (Node.BinOp (Token.ofType MINUS : Token ℚ).Type_ (intNode 10) (intNode 4)) (intNode 3),
        Parser.onTokens rest)) ∧
    parseText 60 leftAssocText = .ok leftAssocTree ∧
    run 60 leftAssocText = .ok ((Scope.empty : Scope ℚ).set "x" 3, .ok 0) ∧
    Visit (Scope.empty : Scope ℚ)
      (.BinOp MINUS (intNode 10) (.BinOp MINUS (intNode 4) (intNode 3))) =
      (Scope.empty, .ok 9) :=
  Expr_equal_precedence_associates_left [intToken 10] [intToken 4] [intToken 3]
    (intNode 10) (intNode 4) (intNode 3) (Token.ofType MINUS) (Token.ofType MINUS)
    (ParsesAsFactor_number (intToken 10) rfl) (ParsesAsFactor_number (intToken 4) rfl)
    (ParsesAsFactor_number (intToken 3) rfl) (Or.inl ⟨Or.inr rfl, Or.inr rfl⟩)

/-- C23, where it fails: the tree `NewVar(tok, "b")` with `tok` the `IDENT`
token of the name `a` is built from `Var`, and its printed form is the token
`tok`; `Expr` on it returns `Var(tok, "a")`, the node that `Variable` makes
from the token, and returns the tree itself for no fuel. -/
theorem Expr_on_render_of_stale_leaf :
    staleVar.isOperatorTree = true ∧ render staleVar = [Token.ident "a"] ∧
    Parser.Expr tokensNext 3 (Parser.onTokens (render staleVar ++ [])) =
      .ok (varNode "a", Parser.onTokens []) ∧
    varNode "a" ≠ staleVar ∧
    ∀ n, Parser.Expr tokensNext n (Parser.onTokens (render staleVar ++ [])) ≠
      .ok (staleVar, Parser.onTokens []) := by
  have hne : varNode "a" ≠ staleVar := by
    simp [varNode, staleVar, NewVar]
  refine ⟨rfl, rfl, by decide!, hne, fun n h => ?_⟩
  obtain ⟨N, hN⟩ := Parser.Expr_single (ParsesAsFactor_ident (F := ℚ) "a")
  have h1 := hN (max n N) (Nat.le_max_right _ _) [] rfl
  have h2 := Parser.Expr_fuel_mono (F := ℚ) (Nat.le_max_left n N)
    (Parser.onTokens (render staleVar ++ [])) (by rw [h]; simp)
  rw [h] at h2
  have h3 : Parser.Expr tokensNext (max n N) (Parser.onTokens (render staleVar ++ [])) =
      .ok (varNode "a", Parser.onTokens []) := h1
  rw [h3] at h2
  simp only [Except.ok.injEq, Prod.mk.injEq] at h2
  exact hne h2.1

/-- C23, amended: parsing undoes fully parenthesised printing of the trees
whose leaves are made from their tokens.  For every expression tree `e` built
from `Num`, `Var`, `UnaryOp` with `PLUS` or `MINUS`, and `BinOp` with one of
the five binary operators, in which every `Num` holds a number token and the
`Value` of that token and every `Var` holds an `IDENT` token and the `Svalue`
of that token: `Expr` on `render e` followed by anything that is not a binary
operator returns exactly `e` and stops with what follows as the lookahead, for
all fuel from some point on, and returns nothing else for any fuel; `Factor`
does so whatever follows.  These are the trees that the parser builds: every
tree returned by `Expr`, from any token source, is one of them. -/
theorem Expr_reads_back_render {F : Type} [Float64 F] (e : Node F)
    (ht : e.isOperatorTree = true) (hl : e.LeavesFromTokens) :
    (∃ N, ∀ n, N ≤ n → ∀ rest, endsExpr rest →
      Parser.Expr tokensNext n (Parser.onTokens (render e ++ rest)) =
        .ok (e, Parser.onTokens rest)) ∧
    (∀ n rest a p1, endsExpr rest →
      Parser.Expr tokensNext n (Parser.onTokens (render e ++ rest)) = .ok (a, p1) →
      a = e ∧ p1 = Parser.onTokens rest) ∧
    ParsesAsFactor (render e) e ∧
    (∀ (σ : Type) (next : σ → Except Fail (Token F × σ)) (n : Nat) (p p1 : Parser F σ)
      (a : Node F), Parser.Expr next n p = .ok (a, p1) →
      a.isOperatorTree = true ∧ a.LeavesFromTokens) :=
  ⟨Parser.Expr_single (render_parsesAsFactor e ht hl),
    fun _ _ _ _ hrest h => Parser.Expr_render_unique ht hl hrest h,
    render_parsesAsFactor e ht hl,
    fun _ next n p p1 a h => (Parser.expr_shape next n).1 p a p1 h⟩

theorem Expr_reads_back_render_witness :
    (∃ N, ∀ n, N ≤ n → ∀ rest, endsExpr rest →
      Parser.Expr tokensNext n (Parser.onTokens (render renderedTree ++ rest)) =
        .ok (renderedTree, Parser.onTokens rest)) ∧
    (∀ n rest a p1, endsExpr rest →
      Parser.Expr tokensNext n (Parser.onTokens (render renderedTree ++ rest)) = .ok (a, p1) →
      a = renderedTree ∧ p1 = Parser.onTokens rest) ∧
    ParsesAsFactor (render renderedTree) renderedTree ∧
    (∀ (σ : Type) (next : σ → Except Fail (Token ℚ × σ)) (n : Nat) (p p1 : Parser ℚ σ)
      (a : Node ℚ), Parser.Expr next n p = .ok (a, p1) →
      a.isOperatorTree = true ∧ a.LeavesFromTokens) :=
  Expr_reads_back_render renderedTree (by decide)
    ⟨⟨⟨Or.inl rfl, rfl⟩, ⟨rfl, rfl⟩⟩, ⟨⟨Or.inl rfl, rfl⟩, ⟨rfl, rfl⟩⟩,
      ⟨Or.inl rfl, rfl⟩, ⟨Or.inl rfl, rfl⟩⟩

/-- C21: parsing and evaluation terminate.  Let every comment of `text` be
closed (`text` a Go string, shorter than `2 ^ 63`).  With fuel `n` of at least
three times the length of the text plus eight, the parser run of `main` on
`text` returns a tree or panics: it does not run out of fuel, and more fuel
gives the same result; so does the whole run (parse, then interpret).  The
fuel counts the depth of the calls of the parser methods; the bound is linear
in the input because a method calls itself again only after a token was
consumed, and calls a method of lower rank otherwise.  The same holds for the
parser on a token sequence, with the number of tokens for the length.
`Interpret` is a total function on trees, defined by recursion on the tree
with no fuel: for every tree it returns a table with a value or a panic. -/
theorem Parse_and_Interpret_terminate {F : Type} [Float64 F] (text : List Char)
    (hclosed : commentsClosed text = true) (hlen : text.length < 2 ^ 63) :
    (∀ n, 3 * text.length + 8 ≤ n →
      ((∃ tree, parseText (F := F) n text = .ok tree) ∨
        ∃ pn, parseText (F := F) n text = .error (.panic pn)) ∧
      (∀ m, n ≤ m → parseText (F := F) m text = parseText n text) ∧
      ((∃ G r, run (F := F) n text = .ok (G, r)) ∨
        ∃ pn, run (F := F) n text = .error (.panic pn))) ∧
    (∀ (ts : List (Token F)) (n : Nat), 3 * ts.length + 8 ≤ n →
      ((∃ tree, parseTokens n ts = .ok tree) ∨ ∃ pn, parseTokens n ts = .error (.panic pn)) ∧
      ∀ m, n ≤ m → parseTokens m ts = parseTokens n ts) ∧
    (∀ tree : Node F, ∃ G r, Interpret tree = (G, r) ∧
      ((∃ v, r = .ok v) ∨ ∃ pn, r = .error pn)) := by
  refine ⟨fun n hn => ?_, fun ts n hn => ?_, fun tree => ?_⟩
  · by_cases hne : text = []
    · subst hne
      refine ⟨Or.inr ⟨_, parseText_nil n⟩, fun m _ => ?_, Or.inr ⟨.indexOutOfRange, ?_⟩⟩
      · rw [parseText_nil, parseText_nil]
      · unfold run
        rw [parseText_nil]
        rfl
    · have hset := parseText_settled (F := F) hne hclosed hlen n hn
      have hp := ok_or_panic hset.1
      refine ⟨hp, fun m hm => parseText_fuel_mono hne hlen hset hm (by omega), ?_⟩
      rcases hp with ⟨tree, ht⟩ | ⟨pn, ht⟩
      · exact Or.inl ⟨(Interpret tree).1, (Interpret tree).2, by unfold run; rw [ht]; rfl⟩
      · exact Or.inr ⟨pn, by unfold run; rw [ht]; rfl⟩
  · have hset := parseTokens_settled ts n hn
    exact ⟨ok_or_panic hset.1, fun m hm => parseTokens_fuel_mono hm rfl hset.1⟩
  · refine ⟨(Interpret tree).1, (Interpret tree).2, rfl, ?_⟩
    cases (Interpret tree).2 with
    | ok v => exact Or.inl ⟨v, rfl⟩
    | error pn => exact Or.inr ⟨pn, rfl⟩

theorem Parse_and_Interpret_terminate_witness :
    commentsClosed commentText = true ∧ commentText.length < 2 ^ 63 ∧
    ((∃ tree, parseText (F := ℚ) 176 commentText = .ok tree) ∨
      ∃ pn, parseText (F := ℚ) 176 commentText = .error (.panic pn)) ∧
    parseText (F := ℚ) 1000 commentText = parseText 176 commentText :=
  ⟨by decide, by decide,
    ((Parse_and_Interpret_terminate (F := ℚ) commentText (by decide) (by decide)).1 176
      (by decide)).1,
    ((Parse_and_Interpret_terminate (F := ℚ) commentText (by decide) (by decide)).1 176
      (by decide)).2.1 1000 (by decide)⟩

end Claims

end Spi
